import Mathlib

/-!
# A segregated free list allocator (`mm.c`)

A shallow embedding of the allocator of `src/mm.c` and a verification of its
contract.  The heap is a byte memory `Nat → Nat`; a word is eight little-endian
bytes; pointers are natural numbers and `0` is `NULL`.  Loops that follow pointers
through memory take a fuel argument (the current break), and `none` means that the
fuel ran out, or that a bulk copy or fill left the backing store of the heap.

The first part holds the definitions: the code, the observations of a heap, the
reachable states, the invariant, and the auxiliary definitions of the proofs.
The second part holds the lemmas, and at the end the theorems for the claims.
-/

set_option linter.all false

namespace MM

/-!
# Segregated free-list allocator (`mm.c`): shallow embedding

Addresses and `size_t` values are natural numbers.  The heap is a byte memory
`Nat → Nat`; a word is eight little-endian bytes.  `size_t` arithmetic that can
wrap is reduced modulo `2 ^ 64`.  `NULL` is address `0`.

Loops that follow links stored in memory take fuel (`State.brk`, the heap end,
which bounds the number of blocks); running out of fuel is `none`.  A call of
`memcpy` or `memset` on a range outside the backing store of the heap has no result
either, and the function that makes it returns `none`.
-/

/-! ## Constants of `mm.c` -/

abbrev ALIGNMENT : Nat := 16

abbrev WORDSIZE : Nat := 8

/-- The macro `#define DOUBLESIZE WORDSIZE*2`; every use in `mm.c` expands to 16. -/
abbrev DOUBLESIZE : Nat := WORDSIZE * 2

abbrev INITIALCHUNK : Nat := 2 ^ 6

abbrev SEGLIST_SIZE : Nat := 20

/-- The C expression `~0xf` converted to `size_t`. -/
abbrev MASK_SIZE : Nat := 0xFFFFFFFFFFFFFFF0

/-- The C expression `~0x2` converted to `size_t`. -/
abbrev MASK_NOTAG : Nat := 0xFFFFFFFFFFFFFFFD

/-- Number of values of `size_t`. -/
abbrev SIZE_MOD : Nat := 2 ^ 64

/-! ## State -/

/-- Byte memory. -/
abbrev Mem := Nat → Nat

/-- Global state: the byte memory, the globals `seg_freelist` and `heap_ptr`,
and the state of the growth primitive (`lo` the heap start, `brk` the current
heap end, `cap` the address the heap cannot grow beyond). -/
structure State where
  mem : Mem
  seg_freelist : Nat → Nat
  heap_ptr : Nat
  lo : Nat
  brk : Nat
  cap : Nat

/-- Modelled from the spec: the growth primitive `mem_sbrk` of `memlib`
(`grow(n)`: extend the heap by `n` bytes and return the address of the start of
the new region, or a failure sentinel if the backing store cannot grow).
`none` is the failure sentinel. -/
def mem_sbrk (s : State) (incr : Nat) : Option (Nat × State) :=
  if s.brk + incr ≤ s.cap then some (s.brk, { s with brk := s.brk + incr }) else none

/-- The memory after `n` bytes were copied from `src` to `dst`. -/
def copy_bytes (m : Mem) (dst src n : Nat) : Mem :=
  fun a => if dst ≤ a ∧ a < dst + n then m (src + (a - dst)) else m a

/-- The memory after `n` bytes from `dst` on were set to the byte `c`. -/
def fill_bytes (m : Mem) (dst c n : Nat) : Mem :=
  fun a => if dst ≤ a ∧ a < dst + n then c % 256 else m a

/-- Modelled from the spec: the bulk copy utility `memcpy(dst, src, n)`.  The call
has a result when the range written and the range read both lie inside the backing
store of the heap, the addresses from `lo` up to `cap`.  A range that leaves the
backing store (one of `2 ^ 64 - 16` bytes, say) is outside the memory of the
program, where the real call faults; then there is no result, `none`. -/
def memcpy (s : State) (dst src n : Nat) : Option Mem :=
  if s.lo ≤ dst ∧ dst + n ≤ s.cap ∧ s.lo ≤ src ∧ src + n ≤ s.cap then
    some (copy_bytes s.mem dst src n)
  else none

/-- Modelled from the spec: the bulk fill utility `memset(dst, c, n)`.  The call has
a result when the range written lies inside the backing store of the heap, the
addresses from `lo` up to `cap`; otherwise the real call faults and there is no
result, `none`. -/
def memset (s : State) (dst c n : Nat) : Option Mem :=
  if s.lo ≤ dst ∧ dst + n ≤ s.cap then some (fill_bytes s.mem dst c n) else none

/-- A client store of one byte. -/
def write_byte (m : Mem) (a v : Nat) : Mem :=
  fun x => if x = a then v % 256 else m x

/-! ## Word access -/

/-- Source function `read_word`: `*(size_t *)p`. -/
def read_word (m : Mem) (p : Nat) : Nat :=
  m p % 256 + (m (p + 1) % 256) * 256 ^ 1 + (m (p + 2) % 256) * 256 ^ 2
    + (m (p + 3) % 256) * 256 ^ 3 + (m (p + 4) % 256) * 256 ^ 4
    + (m (p + 5) % 256) * 256 ^ 5 + (m (p + 6) % 256) * 256 ^ 6
    + (m (p + 7) % 256) * 256 ^ 7

/-- The store `*(size_t *)p = val`. -/
def store_word (m : Mem) (p val : Nat) : Mem :=
  fun a => if p ≤ a ∧ a < p + 8 then (val / 256 ^ (a - p)) % 256 else m a

/-- Source function `read_tag`. -/
def read_tag (m : Mem) (p : Nat) : Nat := read_word m p &&& 0x2

/-- Source function `write_word`: keeps the tag bit of the word it overwrites. -/
def write_word (m : Mem) (p val : Nat) : Mem := store_word m p (val ||| read_tag m p)

/-- Source function `write_no_tag`. -/
def write_no_tag (m : Mem) (p val : Nat) : Mem := store_word m p val

/-- Source function `set_word`. -/
def set_word (size alloc : Nat) : Nat := size ||| alloc

/-- Source function `set_pointer`. -/
def set_pointer (m : Mem) (p ptr : Nat) : Mem := store_word m p ptr

/-- Source function `fetch_size`. -/
def fetch_size (m : Mem) (p : Nat) : Nat := read_word m p &&& MASK_SIZE

/-- Source function `fetch_alloc`. -/
def fetch_alloc (m : Mem) (p : Nat) : Nat := read_word m p &&& 0x1

/-- Source function `del_realloc_tag`. -/
def del_realloc_tag (m : Mem) (p : Nat) : Mem := store_word m p (read_word m p &&& MASK_NOTAG)

/-- Source function `header_ptr`. -/
def header_ptr (ptr : Nat) : Nat := ptr - WORDSIZE

/-- Source function `footer_ptr`. -/
def footer_ptr (m : Mem) (ptr : Nat) : Nat := ptr + fetch_size m (header_ptr ptr) - DOUBLESIZE

/-- Source function `next_blockptr`. -/
def next_blockptr (m : Mem) (ptr : Nat) : Nat := ptr + fetch_size m (ptr - WORDSIZE)

/-- Source function `prev_blockptr`. -/
def prev_blockptr (m : Mem) (ptr : Nat) : Nat := ptr - fetch_size m (ptr - DOUBLESIZE)

/-- Source function `get_pred_ptr`. -/
def get_pred_ptr (ptr : Nat) : Nat := ptr

/-- Source function `get_succ_ptr`. -/
def get_succ_ptr (ptr : Nat) : Nat := ptr + WORDSIZE

/-- Source function `get_pred`. -/
def get_pred (m : Mem) (ptr : Nat) : Nat := read_word m ptr

/-- Source function `get_succ`. -/
def get_succ (m : Mem) (ptr : Nat) : Nat := read_word m (ptr + WORDSIZE)

/-- Source function `align`. -/
def align (x : Nat) : Nat := (ALIGNMENT * (((x + ALIGNMENT - 1) % SIZE_MOD) / ALIGNMENT)) % SIZE_MOD

/-! ## Helper functions -/

/-- The loop `while ((lst < SEGLIST_SIZE - 1) && (size > 1)) { size >>= 1; lst++; }`
of `node_insert` and `node_del`; it returns the final `(lst, size)`.  The first
argument counts the iterations left: at most `SEGLIST_SIZE - 1` can happen. -/
def seg_loop : Nat → Nat → Nat → Nat × Nat
  | 0, lst, size => (lst, size)
  | n + 1, lst, size =>
    if lst < SEGLIST_SIZE - 1 ∧ size > 1 then seg_loop n (lst + 1) (size >>> 1) else (lst, size)

/-- The search loop of `node_insert`:
`while ((find_ptr != NULL) && (size > fetch_size(header_ptr(find_ptr))))`;
it returns the final `(find_ptr, insert_ptr)`. -/
def insert_scan : Nat → Mem → Nat → Nat → Nat → Option (Nat × Nat)
  | 0, _, _, _, _ => none
  | fuel + 1, m, size, find_ptr, insert_ptr =>
    if find_ptr ≠ 0 ∧ size > fetch_size m (header_ptr find_ptr) then
      insert_scan fuel m size (get_pred m find_ptr) find_ptr
    else some (find_ptr, insert_ptr)

/-- Source function `node_insert` (`mm.c`, lines 223-273). -/
def node_insert (s : State) (ptr size : Nat) : Option State :=
  let r := seg_loop (SEGLIST_SIZE - 1) 0 size
  let lst := r.1
  let size := r.2
  match insert_scan s.brk s.mem size (s.seg_freelist lst) 0 with
  | none => none
  | some (find_ptr, insert_ptr) =>
    if find_ptr ≠ 0 then
      if insert_ptr ≠ 0 then
        let m := set_pointer s.mem (get_pred_ptr ptr) find_ptr
        let m := set_pointer m (get_succ_ptr ptr) insert_ptr
        let m := set_pointer m (get_pred_ptr insert_ptr) ptr
        let m := set_pointer m (get_succ_ptr find_ptr) ptr
        some { s with mem := m }
      else
        let m := set_pointer s.mem (get_pred_ptr ptr) find_ptr
        let m := set_pointer m (get_succ_ptr ptr) 0
        let m := set_pointer m (get_succ_ptr find_ptr) ptr
        some { s with mem := m, seg_freelist := Function.update s.seg_freelist lst ptr }
    else
      if insert_ptr ≠ 0 then
        let m := set_pointer s.mem (get_pred_ptr ptr) 0
        let m := set_pointer m (get_succ_ptr ptr) insert_ptr
        let m := set_pointer m (get_pred_ptr insert_ptr) ptr
        some { s with mem := m }
      else
        let m := set_pointer s.mem (get_pred_ptr ptr) 0
        let m := set_pointer m (get_succ_ptr ptr) 0
        some { s with mem := m, seg_freelist := Function.update s.seg_freelist lst ptr }

/-- Source function `node_del` (`mm.c`, lines 276-306). -/
def node_del (s : State) (ptr : Nat) : State :=
  let size := fetch_size s.mem (header_ptr ptr)
  let lst := (seg_loop (SEGLIST_SIZE - 1) 0 size).1
  if get_pred s.mem ptr ≠ 0 then
    if get_succ s.mem ptr ≠ 0 then
      let m := set_pointer s.mem (get_succ_ptr (get_pred s.mem ptr)) (get_succ s.mem ptr)
      let m := set_pointer m (get_pred_ptr (get_succ m ptr)) (get_pred m ptr)
      { s with mem := m }
    else
      let m := set_pointer s.mem (get_succ_ptr (get_pred s.mem ptr)) 0
      { s with mem := m, seg_freelist := Function.update s.seg_freelist lst (get_pred m ptr) }
  else
    if get_succ s.mem ptr ≠ 0 then
      let m := set_pointer s.mem (get_pred_ptr (get_succ s.mem ptr)) 0
      { s with mem := m }
    else
      { s with seg_freelist := Function.update s.seg_freelist lst 0 }

/-- Source function `block_coalescing` (`mm.c`, lines 309-358). -/
def block_coalescing (s : State) (ptr : Nat) : Option (Nat × State) :=
  let prev_alloc := fetch_alloc s.mem (header_ptr (prev_blockptr s.mem ptr))
  let next_alloc := fetch_alloc s.mem (header_ptr (next_blockptr s.mem ptr))
  let size := fetch_size s.mem (header_ptr ptr)
  let prev_alloc := if read_tag s.mem (header_ptr (prev_blockptr s.mem ptr)) ≠ 0 then 1 else prev_alloc
  if prev_alloc = 1 ∧ next_alloc = 1 then
    some (ptr, s)
  else if prev_alloc = 1 ∧ next_alloc = 0 then
    let s := node_del s ptr
    let s := node_del s (next_blockptr s.mem ptr)
    let size := (size + fetch_size s.mem (header_ptr (next_blockptr s.mem ptr))) % SIZE_MOD
    let m := write_word s.mem (header_ptr ptr) (set_word size 0)
    let m := write_word m (footer_ptr m ptr) (set_word size 0)
    match node_insert { s with mem := m } ptr size with
    | none => none
    | some s => some (ptr, s)
  else if prev_alloc = 0 ∧ next_alloc = 1 then
    let s := node_del s ptr
    let s := node_del s (prev_blockptr s.mem ptr)
    let size := (size + fetch_size s.mem (header_ptr (prev_blockptr s.mem ptr))) % SIZE_MOD
    let m := write_word s.mem (footer_ptr s.mem ptr) (set_word size 0)
    let m := write_word m (header_ptr (prev_blockptr m ptr)) (set_word size 0)
    let ptr := prev_blockptr m ptr
    match node_insert { s with mem := m } ptr size with
    | none => none
    | some s => some (ptr, s)
  else
    let s := node_del s ptr
    let s := node_del s (prev_blockptr s.mem ptr)
    let s := node_del s (next_blockptr s.mem ptr)
    let size := (size + (fetch_size s.mem (header_ptr (prev_blockptr s.mem ptr))
      + fetch_size s.mem (header_ptr (next_blockptr s.mem ptr))) % SIZE_MOD) % SIZE_MOD
    let m := write_word s.mem (header_ptr (prev_blockptr s.mem ptr)) (set_word size 0)
    let m := write_word m (footer_ptr m (next_blockptr m ptr)) (set_word size 0)
    let ptr := prev_blockptr m ptr
    match node_insert { s with mem := m } ptr size with
    | none => none
    | some s => some (ptr, s)

/-- Source function `heap_extension` (`mm.c`, lines 192-220); the result pointer `0`
is `NULL`. -/
def heap_extension (s : State) (size : Nat) : Option (Nat × State) :=
  let esize := ((size + (ALIGNMENT - 1)) % SIZE_MOD) &&& MASK_SIZE
  match mem_sbrk s esize with
  | none => some (0, s)
  | some (ptr, s) =>
    let m := write_no_tag s.mem (header_ptr ptr) (set_word esize 0)
    let m := write_no_tag m (footer_ptr m ptr) (set_word esize 0)
    let m := write_no_tag m (header_ptr (next_blockptr m ptr)) (set_word 0 1)
    match node_insert { s with mem := m } ptr esize with
    | none => none
    | some s => block_coalescing s ptr

/-- Source function `insert_block` (`mm.c`, lines 361-392). -/
def insert_block (s : State) (ptr adj_size : Nat) : Option (Nat × State) :=
  let tot_size := fetch_size s.mem (header_ptr ptr)
  let rem_size := (tot_size + SIZE_MOD - adj_size) % SIZE_MOD
  let s := node_del s ptr
  if rem_size < DOUBLESIZE * 2 then
    let m := write_word s.mem (header_ptr ptr) (set_word tot_size 1)
    let m := write_word m (footer_ptr m ptr) (set_word tot_size 1)
    some (ptr, { s with mem := m })
  else if adj_size ≥ 100 then
    let m := write_word s.mem (header_ptr ptr) (set_word rem_size 0)
    let m := write_word m (footer_ptr m ptr) (set_word rem_size 0)
    let m := write_no_tag m (header_ptr (next_blockptr m ptr)) (set_word adj_size 1)
    let m := write_no_tag m (footer_ptr m (next_blockptr m ptr)) (set_word adj_size 1)
    match node_insert { s with mem := m } ptr rem_size with
    | none => none
    | some s => some (next_blockptr s.mem ptr, s)
  else
    let m := write_word s.mem (header_ptr ptr) (set_word adj_size 1)
    let m := write_word m (footer_ptr m ptr) (set_word adj_size 1)
    let m := write_no_tag m (header_ptr (next_blockptr m ptr)) (set_word rem_size 0)
    let m := write_no_tag m (footer_ptr m (next_blockptr m ptr)) (set_word rem_size 0)
    match node_insert { s with mem := m } (next_blockptr m ptr) rem_size with
    | none => none
    | some s => some (ptr, s)

/-! ## Public functions -/

/-- Source function `mm_init` (`mm.c`, lines 401-429).  When the first growth request
fails, `heap_ptr` holds the failure sentinel `(void *)-1`. -/
def mm_init (s : State) : Option (Bool × State) :=
  match mem_sbrk s (4 * WORDSIZE) with
  | none => some (false, { s with heap_ptr := SIZE_MOD - 1 })
  | some (p, s) =>
    let s := { s with heap_ptr := p }
    let s := { s with seg_freelist := fun indx => if indx < SEGLIST_SIZE then 0 else s.seg_freelist indx }
    let m := write_no_tag s.mem s.heap_ptr 0
    let m := write_no_tag m (s.heap_ptr + 1 * WORDSIZE) (set_word DOUBLESIZE 1)
    let m := write_no_tag m (s.heap_ptr + 2 * WORDSIZE) (set_word DOUBLESIZE 1)
    let m := write_no_tag m (s.heap_ptr + 3 * WORDSIZE) (set_word 0 1)
    let size := INITIALCHUNK
    match heap_extension { s with mem := m } size with
    | none => none
    | some (ptr, s) => if ptr = 0 then some (false, s) else some (true, s)

/-- The inner loop of the search in `malloc`:
`while ((ptr != NULL) && ((adj_size > fetch_size(header_ptr(ptr))) || (read_tag(header_ptr(ptr)))))`. -/
def fit_scan : Nat → Mem → Nat → Nat → Option Nat
  | 0, _, _, _ => none
  | fuel + 1, m, adj_size, ptr =>
    if ptr ≠ 0 ∧ (adj_size > fetch_size m (header_ptr ptr) ∨ read_tag m (header_ptr ptr) ≠ 0) then
      fit_scan fuel m adj_size (get_pred m ptr)
    else some ptr

/-- The `for (idx = 0; idx < SEGLIST_SIZE; idx++)` loop of `malloc`; the first
argument counts the iterations left, the last is the current value of `ptr`.
It returns the final `ptr`. -/
def search_loop : Nat → State → Nat → Nat → Nat → Nat → Option Nat
  | 0, _, _, _, _, ptr => some ptr
  | n + 1, s, adj_size, idx, find_size, ptr =>
    if idx < SEGLIST_SIZE then
      if idx = SEGLIST_SIZE - 1 ∨ (find_size ≤ 1 ∧ s.seg_freelist idx ≠ 0) then
        match fit_scan s.brk s.mem adj_size (s.seg_freelist idx) with
        | none => none
        | some ptr =>
          if ptr ≠ 0 then some ptr
          else search_loop n s adj_size (idx + 1) (find_size >>> 1) ptr
      else search_loop n s adj_size (idx + 1) (find_size >>> 1) ptr
    else some ptr

/-- The adjusted size computed by `malloc`:
`(((size+DOUBLESIZE)+(ALIGNMENT-1)) & ~0xf)`. -/
def adj_size (size : Nat) : Nat :=
  (((size + DOUBLESIZE) % SIZE_MOD + (ALIGNMENT - 1)) % SIZE_MOD) &&& MASK_SIZE

/-- Source function `malloc` (`mm.c`, lines 434-484); the result pointer `0` is `NULL`.
The local `ptr` is not initialised in C; the loop assigns it at
`idx = SEGLIST_SIZE - 1` at the latest. -/
def malloc (s : State) (size : Nat) : Option (Nat × State) :=
  if size = 0 then some (0, s)
  else
    let adj_size := adj_size size
    match search_loop SEGLIST_SIZE s adj_size 0 adj_size 0 with
    | none => none
    | some ptr =>
      if ptr = 0 then
        let extending_size := adj_size
        match heap_extension s extending_size with
        | none => none
        | some (ptr, s) =>
          if ptr = 0 then some (0, s)
          else insert_block s ptr adj_size
      else insert_block s ptr adj_size

/-- Source function `free` (`mm.c`, lines 489-510). -/
def free (s : State) (ptr : Nat) : Option State :=
  if ptr = 0 then some s
  else
    let size := fetch_size s.mem (header_ptr ptr)
    let m := del_realloc_tag s.mem (header_ptr (next_blockptr s.mem ptr))
    let m := write_word m (header_ptr ptr) (set_word size 0)
    let m := write_word m (footer_ptr m ptr) (set_word size 0)
    match node_insert { s with mem := m } ptr size with
    | none => none
    | some s =>
      match block_coalescing s ptr with
      | none => none
      | some (_, s) => some s

/-- Source function `realloc` (`mm.c`, lines 515-545). -/
def realloc (s : State) (oldptr size : Nat) : Option (Nat × State) :=
  if size = 0 then
    match free s oldptr with
    | none => none
    | some s => some (0, s)
  else if oldptr = 0 then malloc s size
  else
    match malloc s size with
    | none => none
    | some (newptr, s) =>
      if newptr = 0 then some (0, s)
      else
        let cpy_size := size
        match memcpy s newptr oldptr cpy_size with
        | none => none
        | some m =>
          match free { s with mem := m } oldptr with
          | none => none
          | some s => some (newptr, s)

/-- Source function `calloc` (`mm.c`, lines 552-561). -/
def calloc (s : State) (nmemb size : Nat) : Option (Nat × State) :=
  let size := (size * nmemb) % SIZE_MOD
  match malloc s size with
  | none => none
  | some (ptr, s) =>
    if ptr ≠ 0 then
      match memset s ptr 0 size with
      | none => none
      | some m => some (ptr, { s with mem := m })
    else some (ptr, s)

/-! ## Observations of the heap -/

/-- A block as seen by a linear walk: payload address, stored size, allocated bit. -/
structure Blk where
  addr : Nat
  size : Nat
  alloc : Bool
deriving DecidableEq, Repr

/-- The linear heap walk of `mm_checkheap`:
`for (p = ...; fetch_size(header_ptr(p)) > 0; p = next_blockptr(p))`,
collecting the blocks it visits. -/
def heap_walk_from : Nat → Mem → Nat → List Blk
  | 0, _, _ => []
  | fuel + 1, m, p =>
    if fetch_size m (header_ptr p) > 0 then
      ⟨p, fetch_size m (header_ptr p), fetch_alloc m (header_ptr p) = 1⟩
        :: heap_walk_from fuel m (next_blockptr m p)
    else []

/-- The blocks between the prologue and the terminal marker. -/
def heap_walk (s : State) : List Blk :=
  heap_walk_from s.brk s.mem (next_blockptr s.mem (s.heap_ptr + DOUBLESIZE))

/-- The chain of a bucket, followed from a head through the `get_pred` links,
as `node_insert` and the search of `malloc` follow it. -/
def chain_walk : Nat → Mem → Nat → List Nat
  | 0, _, _ => []
  | fuel + 1, m, p => if p = 0 then [] else p :: chain_walk fuel m (get_pred m p)

/-- The chain of bucket `k`. -/
def chain (s : State) (k : Nat) : List Nat := chain_walk s.brk s.mem (s.seg_freelist k)

/-- The bucket index chosen by the halving loop of `node_insert` and `node_del`. -/
def seg_index (size : Nat) : Nat := (seg_loop (SEGLIST_SIZE - 1) 0 size).1

/-- Total stored size of the free blocks of a walk. -/
def free_bytes (bs : List Blk) : Nat := ((bs.filter (fun b => !b.alloc)).map Blk.size).sum

/-! ## Reachable states

The second component records the live allocations: the addresses handed out
and not yet freed, each with the size that was requested for it. -/

/-- The live allocations after `realloc(p, size)` returned `q`. -/
def realloc_live (L : List (Nat × Nat)) (p n size q : Nat) : List (Nat × Nat) :=
  if size = 0 then L.erase (p, n)
  else if q = 0 then L
  else (q, size) :: L.erase (p, n)

/-- States reachable from a successful `mm_init` on an empty heap by public calls
with valid arguments (`free` and `realloc` on live addresses or on `NULL`, request
sizes with `size + 31 < 2 ^ 64`) and by client stores inside live payloads. -/
inductive Reach : State → List (Nat × Nat) → Prop
  | init (s0 s : State) : s0.brk = s0.lo → s0.cap < 2 ^ 64 →
      mm_init s0 = some (true, s) → Reach s []
  | malloc (s s' : State) (L : List (Nat × Nat)) (size p : Nat) : Reach s L →
      size + 31 < 2 ^ 64 → malloc s size = some (p, s') →
      Reach s' (if p = 0 then L else (p, size) :: L)
  | free (s s' : State) (L : List (Nat × Nat)) (p n : Nat) : Reach s L →
      (p, n) ∈ L → free s p = some s' → Reach s' (L.erase (p, n))
  | free_null (s s' : State) (L : List (Nat × Nat)) : Reach s L →
      free s 0 = some s' → Reach s' L
  | realloc (s s' : State) (L : List (Nat × Nat)) (p n size q : Nat) : Reach s L →
      (p, n) ∈ L → size + 31 < 2 ^ 64 → realloc s p size = some (q, s') →
      Reach s' (realloc_live L p n size q)
  | realloc_null (s s' : State) (L : List (Nat × Nat)) (size q : Nat) : Reach s L →
      size + 31 < 2 ^ 64 → realloc s 0 size = some (q, s') →
      Reach s' (if q = 0 then L else (q, size) :: L)
  | calloc (s s' : State) (L : List (Nat × Nat)) (nmemb size p : Nat) : Reach s L →
      nmemb * size + 31 < 2 ^ 64 → calloc s nmemb size = some (p, s') →
      Reach s' (if p = 0 then L else (p, nmemb * size) :: L)
  | store (s : State) (L : List (Nat × Nat)) (p n a v : Nat) : Reach s L →
      (p, n) ∈ L → p ≤ a → a < p + n →
      Reach { s with mem := write_byte s.mem a v } L

/-! ## The heap invariant -/

/-- Blocks laid end to end from payload address `p` to `e`. -/
def Contig : Nat → List Blk → Nat → Prop
  | p, [], e => p = e
  | p, b :: bs, e => b.addr = p ∧ Contig (p + b.size) bs e

/-- The boundary tags of a block in memory: the header is `size | alloc`, the
footer is `size | alloc` possibly with bit `0x2`. -/
def BlkOK (m : Mem) (b : Blk) : Prop :=
  32 ≤ b.size ∧ b.size % 16 = 0 ∧
  read_word m (b.addr - 8) = b.size + b.alloc.toNat ∧
  ∃ t, (t = 0 ∨ t = 2) ∧ read_word m (b.addr + b.size - 16) = b.size + b.alloc.toNat + t

/-- A doubly linked segment: `l` lists the nodes in `get_pred` order, `s` is the
`get_succ` link of the first node and `t` the `get_pred` link of the last. -/
def DLLseg (m : Mem) : Nat → List Nat → Nat → Prop
  | _, [], _ => True
  | s, x :: rest, t =>
    x ≠ 0 ∧ read_word m (x + 8) = s ∧ read_word m x = rest.headD t ∧ DLLseg m x rest t

/-- The byte `a` lies in the payload (between header and footer) of an allocated
block of `bs`. -/
def InPayload (bs : List Blk) (a : Nat) : Prop :=
  ∃ c ∈ bs, c.alloc = true ∧ c.addr ≤ a ∧ a + 16 < c.addr + c.size

/-- The block structure of the heap: `bs` are the blocks between the prologue
and the terminal marker.  `K` is a set of bytes, in payloads of allocated blocks
or in the padding word, whose contents are those of the reference memory `G`. -/
structure Core (K : Nat → Prop) (G : Mem) (s : State) (bs : List Blk) : Prop where
  cap_lt : s.cap < 2 ^ 64
  brk_le : s.brk ≤ s.cap
  lo_eq : s.lo = s.heap_ptr
  contig : Contig (s.heap_ptr + 32) bs s.brk
  pro_hdr : read_word s.mem (s.heap_ptr + 8) = 17
  pro_ftr : read_word s.mem (s.heap_ptr + 16) = 17
  epi : read_word s.mem (s.brk - 8) = 1
  blk : ∀ b ∈ bs, BlkOK s.mem b
  kok : ∀ a, K a → InPayload bs a ∨ a < s.heap_ptr + 8
  keep : ∀ a, K a → s.mem a = G a

/-- The free-list index: `ch k` is the chain of bucket `k`, a doubly linked list
of distinct free blocks whose stored size selects bucket `k`. -/
structure Index (s : State) (bs : List Blk) (ch : Nat → List Nat) : Prop where
  heads : ∀ k, k < 20 → s.seg_freelist k = (ch k).headD 0
  dll : ∀ k, DLLseg s.mem 0 (ch k) 0
  mem_ch : ∀ k, ∀ x ∈ ch k, ∃ b ∈ bs, b.addr = x ∧ b.alloc = false ∧ seg_index b.size = k
  nodup : ∀ k, (ch k).Nodup

/-- Well-formed heap. -/
def WF (K : Nat → Prop) (G : Mem) (s : State) (bs : List Blk) (ch : Nat → List Nat) : Prop :=
  Core K G s bs ∧ Index s bs ch

/-- Every free block is in the chain of its bucket. -/
def Complete (bs : List Blk) (ch : Nat → List Nat) : Prop :=
  ∀ b ∈ bs, b.alloc = false → b.addr ∈ ch (seg_index b.size)

/-- No two neighbouring blocks are both free. -/
def NoAdjFree (bs : List Blk) : Prop :=
  List.Chain' (fun b1 b2 : Blk => b1.alloc = true ∨ b2.alloc = true) bs

/-- Every live allocation is an allocated block large enough for the request. -/
def LiveOK (bs : List Blk) (L : List (Nat × Nat)) : Prop :=
  (∀ pn ∈ L, ∃ b ∈ bs, b.addr = pn.1 ∧ b.alloc = true ∧ pn.2 + 16 ≤ b.size) ∧
  (L.map Prod.fst).Nodup

/-- The invariant of reachable states. -/
def Inv (s : State) (L : List (Nat × Nat)) : Prop :=
  ∃ bs ch, WF (fun _ => False) s.mem s bs ch ∧ Complete bs ch ∧ NoAdjFree bs ∧ LiveOK bs L

/-- A sequence of `free` calls, one per address. -/
def free_all : State → List Nat → Option State
  | s, [] => some s
  | s, p :: ps =>
    match free s p with
    | none => none
    | some s' => free_all s' ps

/-! ## Concrete heaps

A 4080-byte arena starting at address 16, all bytes zero, and the states a short
run of calls produces from it. -/

/-- An empty heap: `lo = brk = 16`, capacity up to address 4096. -/
def heap0 : State := ⟨fun _ => 0, fun _ => 0, 0, 16, 16, 4096⟩

/-- After `mm_init`. -/
def heap1 : State := ((mm_init heap0).getD (false, heap0)).2

/-- After `malloc(16)`, which returns 48. -/
def heap2 : State := ((malloc heap1 16).getD (0, heap1)).2

/-- After a second `malloc(16)`, which returns 80. -/
def heap3 : State := ((malloc heap2 16).getD (0, heap2)).2

/-- After `free(48)`. -/
def heap4 : State := (free heap3 48).getD heap3

/-- After the client stored the byte 9 at address 88, inside the payload of 80. -/
def heap5 : State := { heap4 with mem := write_byte heap4.mem 88 9 }

/-- After `realloc(80, 40)` in `heap5`. -/
def heap7 : State := ((realloc heap5 80 40).getD (0, heap5)).2

/-- After `calloc(2^63 + 1, 2)` in `heap1`. -/
def heap8 : State := ((calloc heap1 (2 ^ 63 + 1) 2).getD (0, heap1)).2

/-- After `calloc(2, 8)` in `heap1`. -/
def heap10 : State := ((calloc heap1 2 8).getD (0, heap1)).2

/-! ## The consistency checker

`mm_checkheap` has a body only when `DEBUG` is defined; that body is embedded here.
Its `dbg_printf` calls have no effect on the result and are left out, and so are
the locals `fsize` and `falloc` of the loop, which are only printed. -/

/-- Modelled from the spec: `heap_low()` of the heap-growth collaborator
(`mem_heap_lo` of `memlib`), the address of the first byte of the heap. -/
def mem_heap_lo (s : State) : Nat := s.lo

/-- Modelled from the spec: `heap_high()` of the heap-growth collaborator
(`mem_heap_hi` of `memlib`), the address of the last byte of the heap; the bounds
are inclusive. -/
def mem_heap_hi (s : State) : Nat := s.brk - 1

/-- Source function `in_heap`: `p <= mem_heap_hi() && p >= mem_heap_lo()`. -/
def in_heap (s : State) (p : Nat) : Bool := decide (p ≤ mem_heap_hi s ∧ p ≥ mem_heap_lo s)

/-- Source function `aligned`: `align(ip) == ip` for `ip = (size_t) p`. -/
def aligned (p : Nat) : Bool := decide (align (p % SIZE_MOD) = p % SIZE_MOD)

/-- The `for` loop of `mm_checkheap` (`mm.c`, lines 629-674), from its condition
`fetch_size(header_ptr(block_ptr)) > 0` on.  The test of the terminal marker
(unit test 9) stands inside the loop body, before the closing brace of the loop. -/
def check_loop : Nat → State → Nat → Option Bool
  | 0, _, _ => none
  | fuel + 1, s, block_ptr =>
    if fetch_size s.mem (header_ptr block_ptr) > 0 then
      let hsize := fetch_size s.mem (header_ptr block_ptr)
      if in_heap s block_ptr = false then some false
      else if aligned block_ptr = false then some false
      else if hsize = 0 then some false
      else if header_ptr block_ptr = footer_ptr s.mem block_ptr then some false
      else
        let hsize := fetch_size s.mem (header_ptr block_ptr)
        let halloc := fetch_alloc s.mem (header_ptr block_ptr)
        if hsize ≠ 0 ∨ halloc = 0 then some false
        else check_loop fuel s (next_blockptr s.mem block_ptr)
    else some true

/-- Source function `mm_checkheap` (`mm.c`, lines 585-681), the body compiled under
`DEBUG`. -/
def mm_checkheap (s : State) (lineno : Int) : Option Bool :=
  if lineno ≤ 0 then some false
  else
    let start_blockptr := s.heap_ptr + DOUBLESIZE
    let hsize := fetch_size s.mem (header_ptr start_blockptr)
    let halloc := fetch_alloc s.mem (header_ptr start_blockptr)
    if hsize ≠ DOUBLESIZE ∨ halloc = 0 then some false
    else
      let fsize := fetch_size s.mem (footer_ptr s.mem start_blockptr)
      let falloc := fetch_alloc s.mem (footer_ptr s.mem start_blockptr)
      if fsize ≠ DOUBLESIZE ∨ falloc = 0 then some false
      else check_loop s.brk s (next_blockptr s.mem start_blockptr)

/-- The address at which a walk by stored header sizes stops: the first
`block_ptr` whose header has size 0. -/
def walk_end : Nat → Mem → Nat → Option Nat
  | 0, _, _ => none
  | fuel + 1, m, p =>
    if fetch_size m (header_ptr p) > 0 then walk_end fuel m (next_blockptr m p) else some p

/-- A list of sizes is in non-decreasing order. -/
def Ascending : List Nat → Prop
  | a :: b :: l => a ≤ b ∧ Ascending (b :: l)
  | _ => True

/-! ## More concrete heaps -/

/-- Modelled from the spec: the corruption a test-only build applies to a header
("deliberately corrupt a header's size field"): the size field of the header of
the block at `ptr` is overwritten with `v`, the four low bits keep their values. -/
def corrupt_size (s : State) (ptr v : Nat) : State :=
  { s with
    mem := store_word s.mem (header_ptr ptr)
      ((v &&& MASK_SIZE) ||| (read_word s.mem (header_ptr ptr) &&& 0xf)) }

/-- The heap after `mm_init` with the size field of the header of the first block
(the free block at 48, of size 64) overwritten with 0. -/
def heap11 : State := corrupt_size heap1 48 0

/-- The heap after `mm_init` and `malloc(16)` with the size field of the header of
the first block (the allocated block at 48, of size 32) overwritten with 0. -/
def heap17 : State := corrupt_size heap2 48 0

/-- After `malloc(32)` in `heap3`, which returns 112. -/
def heap12 : State := ((malloc heap3 32).getD (0, heap3)).2

/-- After `malloc(16)` in `heap12`, which returns 160. -/
def heap13 : State := ((malloc heap12 16).getD (0, heap12)).2

/-- After `free(48)` in `heap13`. -/
def heap14 : State := (free heap13 48).getD heap13

/-- After `free(112)` in `heap14`. -/
def heap15 : State := (free heap14 112).getD heap14

/-- After `malloc(48)` in `heap1`, which returns 48 and takes the whole block. -/
def heap18 : State := ((malloc heap1 48).getD (0, heap1)).2

/-- After the client stored the byte 2 at address 64, inside the payload of 48. -/
def heap19 : State := { heap18 with mem := write_byte heap18.mem 64 2 }

/-- After `free(48)` in `heap19`. -/
def heap20 : State := (free heap19 48).getD heap19

/-- After `malloc(16)` in `heap20`, which returns 48 and splits the block. -/
def heap21 : State := ((malloc heap20 16).getD (0, heap20)).2

/-- The memory after `node_del` when the links of the node are `p` and `q`. -/
def unlink_mem (m : Mem) (p q : Nat) : Mem :=
  if p ≠ 0 then
    if q ≠ 0 then store_word (store_word m (p + 8) q) q p else store_word m (p + 8) 0
  else if q ≠ 0 then store_word m q 0 else m

/-- The memory after `node_insert` put `x` between `q` and `p`. -/
def link_mem (m : Mem) (x p q : Nat) : Mem :=
  let m1 := store_word (store_word m x p) (x + 8) q
  let m2 := if q ≠ 0 then store_word m1 q x else m1
  if p ≠ 0 then store_word m2 (p + 8) x else m2

/-- The chains hold exactly the free blocks outside `D`. -/
def IdxExcept (bs : List Blk) (ch : Nat → List Nat) (D : List Blk) : Prop :=
  (∀ d ∈ bs, d.alloc = false → d ∉ D → d.addr ∈ ch (seg_index d.size)) ∧
  (∀ d ∈ D, ∀ k, d.addr ∉ ch k)

/-- Shape of the result of a coalescing step: the blocks `mid` around `b`, all
free, have become the single free block from `p` to `e`. -/
def CoalescedTo (K : Nat → Prop) (G : Mem) (s : State) (bs : List Blk) (b : Blk)
    (r : Option (Nat × State)) : Prop :=
  ∃ s' ch' pre' mid post' p e, bs = pre' ++ mid ++ post' ∧ b ∈ mid ∧
    (∀ c ∈ mid, c.alloc = false) ∧ Contig p mid e ∧ r = some (p, s') ∧
    (s'.brk = s.brk ∧ s'.heap_ptr = s.heap_ptr ∧ s'.cap = s.cap ∧ s'.lo = s.lo) ∧
    WF K G s' (pre' ++ [⟨p, e - p, false⟩] ++ post') ch' ∧
    Complete (pre' ++ [⟨p, e - p, false⟩] ++ post') ch' ∧
    NoAdjFree (pre' ++ [⟨p, e - p, false⟩] ++ post')

/-- The branch of `block_coalescing` taken when only the next block is free,
after the two calls of `node_del`. -/
def coalesce_next_tail (s : State) (ptr size : Nat) : Option (Nat × State) :=
  let size := (size + fetch_size s.mem (header_ptr (next_blockptr s.mem ptr))) % SIZE_MOD
  let m := write_word s.mem (header_ptr ptr) (set_word size 0)
  let m := write_word m (footer_ptr m ptr) (set_word size 0)
  match node_insert { s with mem := m } ptr size with
  | none => none
  | some s => some (ptr, s)

/-- The branch of `block_coalescing` taken when only the previous block is free,
after the two calls of `node_del`. -/
def coalesce_prev_tail (s : State) (ptr size : Nat) : Option (Nat × State) :=
  let size := (size + fetch_size s.mem (header_ptr (prev_blockptr s.mem ptr))) % SIZE_MOD
  let m := write_word s.mem (footer_ptr s.mem ptr) (set_word size 0)
  let m := write_word m (header_ptr (prev_blockptr m ptr)) (set_word size 0)
  let ptr := prev_blockptr m ptr
  match node_insert { s with mem := m } ptr size with
  | none => none
  | some s => some (ptr, s)

/-- The branch of `block_coalescing` taken when both neighbours are free, after
the three calls of `node_del`. -/
def coalesce_both_tail (s : State) (ptr size : Nat) : Option (Nat × State) :=
  let size := (size + (fetch_size s.mem (header_ptr (prev_blockptr s.mem ptr))
      + fetch_size s.mem (header_ptr (next_blockptr s.mem ptr))) % SIZE_MOD) % SIZE_MOD
  let m := write_word s.mem (header_ptr (prev_blockptr s.mem ptr)) (set_word size 0)
  let m := write_word m (footer_ptr m (next_blockptr m ptr)) (set_word size 0)
  let ptr := prev_blockptr m ptr
  match node_insert { s with mem := m } ptr size with
  | none => none
  | some s => some (ptr, s)

/-- The memory after the header and footer of a block were written. -/
def tag_mem (m : Mem) (p sz a t : Nat) : Mem :=
  store_word (store_word m (p - 8) (sz + a)) (p + sz - 16) (sz + a + t)

/-- The function `insert_block` after its call of `node_del`. -/
def insert_block_tail (s : State) (ptr tot_size adj_size : Nat) : Option (Nat × State) :=
  let rem_size := (tot_size + SIZE_MOD - adj_size) % SIZE_MOD
  if rem_size < DOUBLESIZE * 2 then
    let m := write_word s.mem (header_ptr ptr) (set_word tot_size 1)
    let m := write_word m (footer_ptr m ptr) (set_word tot_size 1)
    some (ptr, { s with mem := m })
  else if adj_size ≥ 100 then
    let m := write_word s.mem (header_ptr ptr) (set_word rem_size 0)
    let m := write_word m (footer_ptr m ptr) (set_word rem_size 0)
    let m := write_no_tag m (header_ptr (next_blockptr m ptr)) (set_word adj_size 1)
    let m := write_no_tag m (footer_ptr m (next_blockptr m ptr)) (set_word adj_size 1)
    match node_insert { s with mem := m } ptr rem_size with
    | none => none
    | some s => some (next_blockptr s.mem ptr, s)
  else
    let m := write_word s.mem (header_ptr ptr) (set_word adj_size 1)
    let m := write_word m (footer_ptr m ptr) (set_word adj_size 1)
    let m := write_no_tag m (header_ptr (next_blockptr m ptr)) (set_word rem_size 0)
    let m := write_no_tag m (footer_ptr m (next_blockptr m ptr)) (set_word rem_size 0)
    match node_insert { s with mem := m } (next_blockptr m ptr) rem_size with
    | none => none
    | some s => some (ptr, s)

/-- Result of placing a request of `adj` bytes in the free block `b`: the blocks
`mid'` replace `b`, and `nb` among them is the allocated block returned. -/
def Placed (K : Nat → Prop) (G : Mem) (s : State) (pre post : List Blk) (b : Blk) (adj : Nat)
    (r : Option (Nat × State)) : Prop :=
  ∃ s' ch' mid' nb, r = some (nb.addr, s') ∧
    (s'.brk = s.brk ∧ s'.heap_ptr = s.heap_ptr ∧ s'.cap = s.cap ∧ s'.lo = s.lo) ∧
    WF K G s' (pre ++ mid' ++ post) ch' ∧ Complete (pre ++ mid' ++ post) ch' ∧
    NoAdjFree (pre ++ mid' ++ post) ∧ Contig b.addr mid' (b.addr + b.size) ∧
    nb ∈ mid' ∧ nb.alloc = true ∧ adj ≤ nb.size ∧
    (mid' = [⟨b.addr, b.size, true⟩] ∧ b.size - adj < 32 ∨
      mid' = [⟨b.addr, b.size - adj, false⟩, ⟨b.addr + (b.size - adj), adj, true⟩] ∧
        32 ≤ b.size - adj ∧ 100 ≤ adj ∨
      mid' = [⟨b.addr, adj, true⟩, ⟨b.addr + adj, b.size - adj, false⟩] ∧
        32 ≤ b.size - adj ∧ adj < 100)

/-- The memory after `heap_extension` wrote the tags of the new block and the
new terminal marker. -/
def extend_mem (m : Mem) (p sz : Nat) : Mem :=
  store_word (tag_mem m p sz 0 0) (p + sz - 8) 1

/-- The part of `heap_extension` after a successful `mem_sbrk`. -/
def heap_extension_tail (s : State) (ptr esize : Nat) : Option (Nat × State) :=
  let m := write_no_tag s.mem (header_ptr ptr) (set_word esize 0)
  let m := write_no_tag m (footer_ptr m ptr) (set_word esize 0)
  let m := write_no_tag m (header_ptr (next_blockptr m ptr)) (set_word 0 1)
  match node_insert { s with mem := m } ptr esize with
  | none => none
  | some s => block_coalescing s ptr

/-- The block at `x` can hold `adj` bytes and its realloc-pending flag is clear. -/
def Fit (m : Mem) (adj x : Nat) : Prop :=
  adj ≤ fetch_size m (header_ptr x) ∧ read_tag m (header_ptr x) = 0

/-- Bucket `k` is one that the search scans for `adj`. -/
def Scanned (adj k : Nat) : Prop := k = 19 ∨ adj >>> k ≤ 1

/-- No block in any chain can hold `adj` bytes. -/
def NoFit (m : Mem) (ch : Nat → List Nat) (adj : Nat) : Prop :=
  ∀ k, k < 20 → ∀ x ∈ ch k, ¬Fit m adj x

/-- The result of a successful allocation of `adj` bytes: `nb` is the new
allocated block, the other allocated blocks are those of `bs`. -/
def Allocated (K : Nat → Prop) (G : Mem) (s : State) (bs : List Blk) (adj : Nat)
    (r : Nat × State) : Prop :=
  ∃ bs' ch' nb, WF K G r.2 bs' ch' ∧ Complete bs' ch' ∧ NoAdjFree bs' ∧
    nb ∈ bs' ∧ nb.addr = r.1 ∧ nb.alloc = true ∧ adj ≤ nb.size ∧
    (∀ c ∈ bs, c.alloc = true → c ∈ bs' ∧ c.addr ≠ nb.addr) ∧
    (∀ c ∈ bs', c.alloc = true → c = nb ∨ c ∈ bs) ∧
    r.2.heap_ptr = s.heap_ptr ∧ r.2.cap = s.cap ∧ r.2.lo = s.lo

/-- The memory after the three boundary-tag writes of `free`. -/
def free_mem (m : Mem) (ptr : Nat) : Mem :=
  let size := fetch_size m (header_ptr ptr)
  let m := del_realloc_tag m (header_ptr (next_blockptr m ptr))
  let m := write_word m (header_ptr ptr) (set_word size 0)
  write_word m (footer_ptr m ptr) (set_word size 0)

/-- The rest of `free` after the block has been entered in its chain. -/
def free_tail (s : State) (ptr : Nat) : Option State :=
  match block_coalescing s ptr with
  | none => none
  | some (_, s) => some s

/-- The result of freeing the allocated block `b`. -/
def Freed (K : Nat → Prop) (G : Mem) (s : State) (bs : List Blk) (b : Blk)
    (r : Option State) : Prop :=
  ∃ s' bs' ch', r = some s' ∧
    (s'.brk = s.brk ∧ s'.heap_ptr = s.heap_ptr ∧ s'.cap = s.cap ∧ s'.lo = s.lo) ∧
    WF K G s' bs' ch' ∧ Complete bs' ch' ∧ NoAdjFree bs' ∧
    (∀ c ∈ bs, c.alloc = true → c ≠ b → c ∈ bs') ∧
    (∀ c ∈ bs', c.alloc = true → c ∈ bs ∧ c ≠ b) ∧
    free_bytes bs' = free_bytes bs + b.size ∧
    (∀ x ∈ bs, x = b ∨ x.alloc = false →
      ∃ f ∈ bs', f.alloc = false ∧ f.addr ≤ x.addr ∧ x.addr + x.size ≤ f.addr + f.size)

/-- The memory after the four stores of `mm_init`. -/
def init_mem (m : Mem) (lo : Nat) : Mem :=
  store_word (store_word (store_word (store_word m lo 0) (lo + 8) 17) (lo + 16) 17) (lo + 24) 1

/-- The state in which `mm_init` calls `heap_extension`. -/
def init_state (s0 : State) : State :=
  { s0 with
    brk := s0.brk + 32
    heap_ptr := s0.brk
    seg_freelist := fun indx => if indx < SEGLIST_SIZE then 0 else s0.seg_freelist indx
    mem := init_mem s0.mem s0.brk }

/-- The result of a successful `realloc` of the block `b` to `size` bytes. -/
def Moved (s : State) (bs : List Blk) (b : Blk) (size : Nat) (r : Nat × State) : Prop :=
  ∃ bs' ch' nb, WF (fun _ => False) r.2.mem r.2 bs' ch' ∧ Complete bs' ch' ∧ NoAdjFree bs' ∧
    nb ∈ bs' ∧ nb.addr = r.1 ∧ nb.alloc = true ∧ adj_size size ≤ nb.size ∧
    (∀ c ∈ bs, c.alloc = true → c ≠ b → c ∈ bs' ∧ c.addr ≠ nb.addr) ∧
    (∀ c ∈ bs', c.alloc = true → c = nb ∨ (c ∈ bs ∧ c ≠ b)) ∧
    (r.2.heap_ptr = s.heap_ptr ∧ r.2.cap = s.cap ∧ r.2.lo = s.lo) ∧
    (∀ i, i < size → i + 16 < b.size → r.2.mem (r.1 + i) = s.mem (b.addr + i))

/-- The block `x` lies inside a free block of `bs`. -/
def Covered (bs : List Blk) (x : Blk) : Prop :=
  ∃ f ∈ bs, f.alloc = false ∧ f.addr ≤ x.addr ∧ x.addr + x.size ≤ f.addr + f.size

/-- Progress of freeing the blocks of `run`: those whose address is still in
`rem` are allocated blocks of `bs`, the others lie inside free blocks. -/
def RunInv (bs run : List Blk) (rem : List Nat) : Prop :=
  ∀ x ∈ run, (x.addr ∈ rem → x ∈ bs ∧ x.alloc = true) ∧ (x.addr ∉ rem → Covered bs x)

/-! # Lemmas -/

section

/-! ## Bit-level facts -/

theorem land_split (q r c d : Nat) (hr : r < 2 ^ 4) (hd : d < 2 ^ 4) :
    (2 ^ 4 * q + r) &&& (2 ^ 4 * c + d) = 2 ^ 4 * (q &&& c) + (r &&& d) := by
  have hrd : r &&& d < 2 ^ 4 := Nat.and_lt_two_pow r hd
  apply Nat.eq_of_testBit_eq
  intro j
  rw [Nat.testBit_and, Nat.testBit_mul_pow_two_add q hr, Nat.testBit_mul_pow_two_add c hd,
    Nat.testBit_mul_pow_two_add (q &&& c) hrd]
  by_cases hj : j < 4 <;> simp [hj, Nat.testBit_and]

theorem lor_split (q r c d : Nat) (hr : r < 2 ^ 4) (hd : d < 2 ^ 4) :
    (2 ^ 4 * q + r) ||| (2 ^ 4 * c + d) = 2 ^ 4 * (q ||| c) + (r ||| d) := by
  have hrd : r ||| d < 2 ^ 4 := Nat.or_lt_two_pow hr hd
  apply Nat.eq_of_testBit_eq
  intro j
  rw [Nat.testBit_or, Nat.testBit_mul_pow_two_add q hr, Nat.testBit_mul_pow_two_add c hd,
    Nat.testBit_mul_pow_two_add (q ||| c) hrd]
  by_cases hj : j < 4 <;> simp [hj, Nat.testBit_or]

theorem and_mask_size (x : Nat) (h : x < 2 ^ 64) : x &&& MASK_SIZE = x - x % 16 := by
  have hx : x = 2 ^ 4 * (x / 16) + x % 16 := by omega
  have hm : MASK_SIZE = 2 ^ 4 * (2 ^ 60 - 1) + 0 := by decide
  have hq : x / 16 < 2 ^ 60 := by omega
  conv_lhs => rw [hx, hm]
  rw [land_split _ _ _ _ (by omega) (by decide), Nat.and_pow_two_sub_one_eq_mod,
    Nat.mod_eq_of_lt hq]
  simp
  omega

theorem and_one (x : Nat) : x &&& 1 = x % 2 := Nat.and_one_is_mod x

theorem small_and_two : ∀ r, r < 16 → r &&& 2 = 2 * (r / 2 % 2) := by decide

theorem small_and_notag : ∀ r, r < 16 → r &&& 13 = r - 2 * (r / 2 % 2) := by decide

theorem small_or : ∀ r, r < 16 → ∀ t, t < 16 → r &&& t = 0 → r ||| t = r + t := by decide

theorem and_two (x : Nat) : x &&& 2 = 2 * (x / 2 % 2) := by
  have hx : x = 2 ^ 4 * (x / 16) + x % 16 := by omega
  have h := land_split (x / 16) (x % 16) 0 2 (by omega) (by decide)
  rw [← hx, small_and_two _ (by omega)] at h
  simp at h
  rw [h]
  omega

theorem and_mask_notag (x : Nat) (h : x < 2 ^ 64) : x &&& MASK_NOTAG = x - 2 * (x / 2 % 2) := by
  have hx : x = 2 ^ 4 * (x / 16) + x % 16 := by omega
  have hm : MASK_NOTAG = 2 ^ 4 * (2 ^ 60 - 1) + 13 := by decide
  have hq : x / 16 < 2 ^ 60 := by omega
  conv_lhs => rw [hx, hm]
  rw [land_split _ _ _ _ (by omega) (by decide), Nat.and_pow_two_sub_one_eq_mod,
    Nat.mod_eq_of_lt hq, small_and_notag _ (by omega)]
  omega

/-- The value `x | t` for a small `t` whose bits are clear in `x`. -/
theorem or_small (x t : Nat) (ht : t < 16) (h : (x % 16) &&& t = 0) : x ||| t = x + t := by
  have hx : x = 2 ^ 4 * (x / 16) + x % 16 := by omega
  have hm : t = 2 ^ 4 * 0 + t := by omega
  conv_lhs => rw [hx, hm]
  rw [lor_split _ _ _ _ (by omega) (by omega), small_or _ (by omega) _ ht h]
  simp
  omega

theorem small_and_zero : ∀ r, r < 16 → ∀ t, t < 4 → r % 4 = 0 → r &&& t = 0 := by decide

end

section

/-! ## Words in byte memory -/

theorem read_word_lt (m : Mem) (p : Nat) : read_word m p < 2 ^ 64 := by
  unfold read_word
  norm_num
  omega

theorem read_word_congr {m m' : Mem} {p : Nat}
    (h : ∀ a, p ≤ a → a < p + 8 → m' a = m a) : read_word m' p = read_word m p := by
  unfold read_word
  rw [h p (by omega) (by omega), h (p + 1) (by omega) (by omega), h (p + 2) (by omega) (by omega),
    h (p + 3) (by omega) (by omega), h (p + 4) (by omega) (by omega),
    h (p + 5) (by omega) (by omega), h (p + 6) (by omega) (by omega),
    h (p + 7) (by omega) (by omega)]

theorem store_word_other (m : Mem) (p v a : Nat) (h : a < p ∨ p + 8 ≤ a) :
    store_word m p v a = m a := by
  unfold store_word
  rw [if_neg (by omega)]

theorem store_word_byte (m : Mem) (p v i : Nat) (h : i < 8) :
    store_word m p v (p + i) = v / 256 ^ i % 256 := by
  unfold store_word
  rw [if_pos (by omega), Nat.add_sub_cancel_left]

theorem read_store_same (m : Mem) (p v : Nat) :
    read_word (store_word m p v) p = v % 2 ^ 64 := by
  have h0 := store_word_byte m p v 0 (by omega)
  rw [Nat.add_zero] at h0
  unfold read_word
  rw [h0, store_word_byte m p v 1 (by omega), store_word_byte m p v 2 (by omega),
    store_word_byte m p v 3 (by omega), store_word_byte m p v 4 (by omega),
    store_word_byte m p v 5 (by omega), store_word_byte m p v 6 (by omega),
    store_word_byte m p v 7 (by omega)]
  norm_num
  omega

theorem read_store_other (m : Mem) (p v q : Nat) (h : q + 8 ≤ p ∨ p + 8 ≤ q) :
    read_word (store_word m p v) q = read_word m q :=
  read_word_congr (fun a h1 h2 => store_word_other m p v a (by omega))

end

section

/-! ## Geometry of the block list -/

theorem contig_append {p e : Nat} {l1 l2 : List Blk} :
    Contig p (l1 ++ l2) e ↔ ∃ q, Contig p l1 q ∧ Contig q l2 e := by
  induction l1 generalizing p with
  | nil => simp [Contig]
  | cons b l ih =>
    show (b.addr = p ∧ Contig (p + b.size) (l ++ l2) e) ↔
      ∃ q, (b.addr = p ∧ Contig (p + b.size) l q) ∧ Contig q l2 e
    rw [ih]
    constructor
    · rintro ⟨h1, q, h2, h3⟩
      exact ⟨q, ⟨h1, h2⟩, h3⟩
    · rintro ⟨q, ⟨h1, h2⟩, h3⟩
      exact ⟨h1, q, h2, h3⟩

theorem contig_le {p e : Nat} {l : List Blk} (h : Contig p l e) : p ≤ e := by
  induction l generalizing p with
  | nil => simp [Contig] at h; omega
  | cons b l ih =>
    have := ih h.2
    omega

theorem contig_mem {p e : Nat} {l : List Blk} (h : Contig p l e) {b : Blk} (hb : b ∈ l) :
    p ≤ b.addr ∧ b.addr + b.size ≤ e := by
  induction l generalizing p with
  | nil => simp at hb
  | cons c l ih =>
    rcases List.mem_cons.1 hb with rfl | hb
    · have := contig_le h.2
      have := h.1
      omega
    · have := ih h.2 hb
      omega

theorem contig_end_unique {p e e' : Nat} {l : List Blk} (h : Contig p l e) (h' : Contig p l e') :
    e = e' := by
  induction l generalizing p with
  | nil => simp [Contig] at h h'; omega
  | cons b l ih => exact ih h.2 h'.2

theorem contig_sep {p e : Nat} {l : List Blk} (h : Contig p l e) (hpos : ∀ b ∈ l, 0 < b.size)
    {b1 b2 : Blk} (h1 : b1 ∈ l) (h2 : b2 ∈ l) :
    b1 = b2 ∨ b1.addr + b1.size ≤ b2.addr ∨ b2.addr + b2.size ≤ b1.addr := by
  induction l generalizing p with
  | nil => simp at h1
  | cons c l ih =>
    rcases List.mem_cons.1 h1 with e1 | h1' <;> rcases List.mem_cons.1 h2 with e2 | h2'
    · exact Or.inl (e1.trans e2.symm)
    · have := contig_mem h.2 h2'
      have := h.1
      subst e1
      omega
    · have := contig_mem h.2 h1'
      have := h.1
      subst e2
      omega
    · exact ih h.2 (fun b hb => hpos b (List.mem_cons_of_mem _ hb)) h1' h2'

theorem contig_addr_inj {p e : Nat} {l : List Blk} (h : Contig p l e)
    (hpos : ∀ b ∈ l, 0 < b.size) {b1 b2 : Blk} (h1 : b1 ∈ l) (h2 : b2 ∈ l)
    (ha : b1.addr = b2.addr) : b1 = b2 := by
  rcases contig_sep h hpos h1 h2 with h3 | h3 | h3
  · exact h3
  · have := hpos b1 h1; omega
  · have := hpos b2 h2; omega

theorem contig_mod {p e : Nat} {l : List Blk} (h : Contig p l e)
    (hsz : ∀ b ∈ l, b.size % 16 = 0) : e % 16 = p % 16 ∧ ∀ b ∈ l, b.addr % 16 = p % 16 := by
  induction l generalizing p with
  | nil => simp [Contig] at h; simp [h]
  | cons c l ih =>
    have hc := hsz c (List.mem_cons_self _ _)
    have := ih h.2 (fun b hb => hsz b (List.mem_cons_of_mem _ hb))
    have h1 := h.1
    refine ⟨by omega, ?_⟩
    intro b hb
    rcases List.mem_cons.1 hb with rfl | hb
    · omega
    · have := this.2 b hb
      omega

/-! ## Doubly linked segments -/

theorem dll_frame {m m' : Mem} {s t : Nat} {l : List Nat} (h : DLLseg m s l t)
    (hf : ∀ x ∈ l, ∀ a, x ≤ a → a < x + 16 → m' a = m a) : DLLseg m' s l t := by
  induction l generalizing s with
  | nil => trivial
  | cons x r ih =>
    obtain ⟨h0, h1, h2, h3⟩ := h
    have hx := hf x (List.mem_cons_self _ _)
    refine ⟨h0, ?_, ?_, ih h3 (fun y hy => hf y (List.mem_cons_of_mem _ hy))⟩
    · rw [read_word_congr (fun a ha1 ha2 => hx a (by omega) (by omega)), h1]
    · rw [read_word_congr (fun a ha1 ha2 => hx a (by omega) (by omega)), h2]

theorem dll_append {m : Mem} {s t : Nat} {l1 l2 : List Nat} :
    DLLseg m s (l1 ++ l2) t ↔ DLLseg m s l1 (l2.headD t) ∧ DLLseg m (l1.getLastD s) l2 t := by
  induction l1 generalizing s with
  | nil => simp [DLLseg]
  | cons x r ih =>
    cases r with
    | nil =>
      simp only [List.cons_append, List.nil_append, DLLseg, List.getLastD_cons, List.getLastD_nil,
        List.headD_nil, and_true]
      tauto
    | cons y r' =>
      have := @ih x
      simp only [List.cons_append, DLLseg, List.headD_cons, List.getLastD_cons] at this ⊢
      rw [this]
      tauto

theorem dll_ne_zero {m : Mem} {s t : Nat} {l : List Nat} (h : DLLseg m s l t) :
    ∀ x ∈ l, x ≠ 0 := by
  induction l generalizing s with
  | nil => simp
  | cons x r ih =>
    intro y hy
    rcases List.mem_cons.1 hy with rfl | hy
    · exact h.1
    · exact ih h.2.2.2 y hy

end

section

/-! ## Accessors in arithmetic form -/

theorem fetch_size_eq (m : Mem) (p : Nat) :
    fetch_size m p = read_word m p - read_word m p % 16 :=
  and_mask_size _ (read_word_lt m p)

theorem fetch_alloc_eq (m : Mem) (p : Nat) : fetch_alloc m p = read_word m p % 2 :=
  and_one _

theorem read_tag_eq (m : Mem) (p : Nat) : read_tag m p = 2 * (read_word m p / 2 % 2) :=
  and_two _

theorem set_word_eq (sz a : Nat) (h : sz % 16 = 0) (ha : a < 16) : set_word sz a = sz + a := by
  unfold set_word
  apply or_small _ _ ha
  rw [h]
  exact Nat.zero_and a

theorem or_tag (x t : Nat) (ht : t = 0 ∨ t = 2) (hx : x / 2 % 2 = 0) : x ||| t = x + t := by
  apply or_small _ _ (by omega)
  rcases ht with rfl | rfl
  · exact Nat.and_zero _
  · rw [small_and_two _ (by omega)]
    omega

theorem write_word_eq (m : Mem) (p val : Nat) (h : val / 2 % 2 = 0) :
    write_word m p val = store_word m p (val + read_tag m p) := by
  unfold write_word
  rw [or_tag _ _ _ h]
  rw [read_tag_eq]
  omega

theorem read_write_no_tag (m : Mem) (p v : Nat) (h : v < 2 ^ 64) :
    read_word (write_no_tag m p v) p = v := by
  unfold write_no_tag
  rw [read_store_same, Nat.mod_eq_of_lt h]

theorem toNat_le_one (b : Bool) : b.toNat ≤ 1 := by cases b <;> simp

theorem toNat_false : (false : Bool).toNat = 0 := rfl

theorem toNat_true : (true : Bool).toNat = 1 := rfl

section blk

variable {m : Mem} {b : Blk}

theorem blk_fetch_size (h : BlkOK m b) : fetch_size m (b.addr - 8) = b.size := by
  obtain ⟨_, h2, h3, _⟩ := h
  have := toNat_le_one b.alloc
  rw [fetch_size_eq, h3]
  omega

theorem blk_fetch_alloc (h : BlkOK m b) : fetch_alloc m (b.addr - 8) = b.alloc.toNat := by
  obtain ⟨_, h2, h3, _⟩ := h
  have := toNat_le_one b.alloc
  rw [fetch_alloc_eq, h3]
  omega

theorem blk_read_tag (h : BlkOK m b) : read_tag m (b.addr - 8) = 0 := by
  obtain ⟨_, h2, h3, _⟩ := h
  have := toNat_le_one b.alloc
  rw [read_tag_eq, h3]
  omega

theorem blk_fetch_size_ftr (h : BlkOK m b) : fetch_size m (b.addr + b.size - 16) = b.size := by
  obtain ⟨_, h2, _, t, ht, h4⟩ := h
  have := toNat_le_one b.alloc
  rw [fetch_size_eq, h4]
  omega

theorem blk_next (h : BlkOK m b) : next_blockptr m b.addr = b.addr + b.size := by
  unfold next_blockptr
  rw [blk_fetch_size h]

theorem blk_footer (h : BlkOK m b) : footer_ptr m b.addr = b.addr + b.size - 16 := by
  unfold footer_ptr header_ptr
  rw [blk_fetch_size h]
  rfl

theorem blk_frame {m' : Mem} (h : BlkOK m b)
    (hf : ∀ a, (b.addr - 8 ≤ a ∧ a < b.addr - 8 + 8) ∨
      (b.addr + b.size - 16 ≤ a ∧ a < b.addr + b.size - 16 + 8) → m' a = m a) : BlkOK m' b := by
  obtain ⟨h1, h2, h3, t, ht, h4⟩ := h
  refine ⟨h1, h2, ?_, t, ht, ?_⟩
  · rw [read_word_congr (fun a ha1 ha2 => hf a (Or.inl ⟨ha1, ha2⟩)), h3]
  · rw [read_word_congr (fun a ha1 ha2 => hf a (Or.inr ⟨ha1, ha2⟩)), h4]

end blk

/-! ## Memories with the same words -/

theorem store_read_mod (m : Mem) (w a : Nat) :
    store_word m w (read_word m w) a % 256 = m a % 256 := by
  by_cases h : w ≤ a ∧ a < w + 8
  · obtain ⟨i, rfl⟩ : ∃ i, a = w + i := ⟨a - w, by omega⟩
    have hi : i < 8 := by omega
    rw [store_word_byte _ _ _ _ hi]
    unfold read_word
    interval_cases i <;> norm_num <;> omega
  · rw [store_word_other _ _ _ _ (by omega)]

theorem read_word_mod_congr {m m' : Mem} (h : ∀ a, m' a % 256 = m a % 256) (c : Nat) :
    read_word m' c = read_word m c := by
  unfold read_word
  simp only [h]

theorem dll_congr {m m' : Mem} (h : ∀ c, read_word m' c = read_word m c) {s t : Nat}
    {l : List Nat} (hd : DLLseg m s l t) : DLLseg m' s l t := by
  induction l generalizing s with
  | nil => trivial
  | cons x r ih =>
    obtain ⟨h0, h1, h2, h3⟩ := hd
    exact ⟨h0, by rw [h, h1], by rw [h, h2], ih h3⟩

theorem wf_congr {K : Nat → Prop} {G : Mem} {s : State} {bs : List Blk} {ch : Nat → List Nat}
    {m' : Mem} (h : WF K G s bs ch) (hw : ∀ c, read_word m' c = read_word s.mem c)
    (hk : ∀ a, K a → m' a = s.mem a) : WF K G { s with mem := m' } bs ch := by
  obtain ⟨hc, hi⟩ := h
  constructor
  · refine ⟨hc.cap_lt, hc.brk_le, hc.lo_eq, hc.contig, ?_, ?_, ?_, ?_, hc.kok, ?_⟩
    · show read_word m' _ = 17
      rw [hw]; exact hc.pro_hdr
    · show read_word m' _ = 17
      rw [hw]; exact hc.pro_ftr
    · show read_word m' _ = 1
      rw [hw]; exact hc.epi
    · intro b hb
      obtain ⟨h1, h2, h3, t, ht, h4⟩ := hc.blk b hb
      exact ⟨h1, h2, by rw [hw]; exact h3, t, ht, by rw [hw]; exact h4⟩
    · intro a ha
      show m' a = G a
      rw [hk a ha]; exact hc.keep a ha
  · exact ⟨hi.heads, fun k => dll_congr hw (hi.dll k), hi.mem_ch, hi.nodup⟩

end

section

/-! ## Unfolding the pointer helpers -/

theorem header_ptr_eq (p : Nat) : header_ptr p = p - 8 := rfl

theorem get_pred_ptr_eq (p : Nat) : get_pred_ptr p = p := rfl

theorem get_succ_ptr_eq (p : Nat) : get_succ_ptr p = p + 8 := rfl

theorem get_pred_eq (m : Mem) (p : Nat) : get_pred m p = read_word m p := rfl

theorem get_succ_eq (m : Mem) (p : Nat) : get_succ m p = read_word m (p + 8) := rfl

theorem set_pointer_eq (m : Mem) (p v : Nat) : set_pointer m p v = store_word m p v := rfl

theorem write_no_tag_eq (m : Mem) (p v : Nat) : write_no_tag m p v = store_word m p v := rfl

theorem next_blockptr_eq (m : Mem) (p : Nat) : next_blockptr m p = p + fetch_size m (p - 8) := rfl

theorem prev_blockptr_eq (m : Mem) (p : Nat) : prev_blockptr m p = p - fetch_size m (p - 16) := rfl

theorem footer_ptr_eq (m : Mem) (p : Nat) : footer_ptr m p = p + fetch_size m (p - 8) - 16 := rfl

end

section

theorem fetch_size_store_other (m : Mem) (c v x : Nat) (h : x + 8 ≤ c ∨ c + 8 ≤ x) :
    fetch_size (store_word m c v) x = fetch_size m x := by
  rw [fetch_size_eq, fetch_size_eq, read_store_other _ _ _ _ h]

theorem fetch_alloc_store_other (m : Mem) (c v x : Nat) (h : x + 8 ≤ c ∨ c + 8 ≤ x) :
    fetch_alloc (store_word m c v) x = fetch_alloc m x := by
  rw [fetch_alloc_eq, fetch_alloc_eq, read_store_other _ _ _ _ h]

theorem read_tag_store_other (m : Mem) (c v x : Nat) (h : x + 8 ≤ c ∨ c + 8 ≤ x) :
    read_tag (store_word m c v) x = read_tag m x := by
  rw [read_tag_eq, read_tag_eq, read_store_other _ _ _ _ h]

end

section

variable {K : Nat → Prop} {G : Mem} {s : State} {bs : List Blk} {ch : Nat → List Nat}

/-! ## Basic consequences of the block structure -/

theorem core_pos (h : Core K G s bs) : ∀ b ∈ bs, 0 < b.size := by
  intro b hb
  have := (h.blk b hb).1
  omega

theorem core_bounds (h : Core K G s bs) {b : Blk} (hb : b ∈ bs) :
    s.heap_ptr + 32 ≤ b.addr ∧ b.addr + b.size ≤ s.brk ∧ 32 ≤ b.size ∧ b.size % 16 = 0 ∧
      s.brk < 2 ^ 64 := by
  have h1 := contig_mem h.contig hb
  have h2 := h.blk b hb
  have h3 := h.cap_lt
  have h4 := h.brk_le
  exact ⟨h1.1, h1.2, h2.1, h2.2.1, by omega⟩

theorem core_sep (h : Core K G s bs) {b c : Blk} (hb : b ∈ bs) (hc : c ∈ bs) :
    b = c ∨ b.addr + b.size ≤ c.addr ∨ c.addr + c.size ≤ b.addr :=
  contig_sep h.contig (core_pos h) hb hc

theorem core_brk (h : Core K G s bs) : s.heap_ptr + 32 ≤ s.brk ∧ s.brk < 2 ^ 64 := by
  have := contig_le h.contig
  have := h.cap_lt
  have := h.brk_le
  omega

/-! ## Stores that leave the block structure alone -/

/-- A change confined to the two link words of a free block. -/
theorem core_link_frame (h : Core K G s bs) {y : Blk} (hy : y ∈ bs) (hyf : y.alloc = false)
    {m' : Mem} (hm : ∀ a, a < y.addr ∨ y.addr + 16 ≤ a → m' a = s.mem a) :
    Core K G { s with mem := m' } bs := by
  have hyb := core_bounds h hy
  have hbrk := core_brk h
  refine ⟨h.cap_lt, h.brk_le, h.lo_eq, h.contig, ?_, ?_, ?_, ?_, h.kok, ?_⟩
  · show read_word m' (s.heap_ptr + 8) = 17
    rw [read_word_congr (fun a h1 h2 => hm a (by omega)), h.pro_hdr]
  · show read_word m' (s.heap_ptr + 16) = 17
    rw [read_word_congr (fun a h1 h2 => hm a (by omega)), h.pro_ftr]
  · show read_word m' (s.brk - 8) = 1
    rw [read_word_congr (fun a h1 h2 => hm a (by omega)), h.epi]
  · intro c hc
    have hcb := core_bounds h hc
    apply blk_frame (h.blk c hc)
    intro a h1
    apply hm
    rcases core_sep h hc hy with rfl | h3 | h3 <;> omega
  · intro a ha
    show m' a = G a
    rw [hm a, h.keep a ha]
    rcases h.kok a ha with ⟨c, hc, hca, h1, h2⟩ | hpad
    · rcases core_sep h hc hy with rfl | h3 | h3
      · rw [hyf] at hca; cases hca
      · omega
      · omega
    · omega

/-- Replacing the blocks `mid` of a region by `mid'`, the memory changing only
inside the region. -/
theorem core_rewrite_gen (h : Core K G s bs) {pre mid mid' post : List Blk} {p e : Nat}
    {m' : Mem} (hbs : bs = pre ++ mid ++ post)
    (hp : Contig (s.heap_ptr + 32) pre p) (hmid' : Contig p mid' e) (hpost : Contig e post s.brk)
    (hlow : ∀ a, a + 8 < p → m' a = s.mem a) (hhigh : ∀ a, e ≤ a + 8 → m' a = s.mem a)
    (hok : ∀ b ∈ mid', BlkOK m' b)
    (hkok : ∀ a, K a → InPayload (pre ++ mid' ++ post) a ∨ a < s.heap_ptr + 8)
    (hkeep : ∀ a, K a → m' a = G a) :
    Core K G { s with mem := m' } (pre ++ mid' ++ post) := by
  have hbrk := core_brk h
  have hpe := contig_le hmid'
  have hp1 := contig_le hp
  have he1 := contig_le hpost
  refine ⟨h.cap_lt, h.brk_le, h.lo_eq, ?_, ?_, ?_, ?_, ?_, hkok, hkeep⟩
  · exact contig_append.2 ⟨e, contig_append.2 ⟨p, hp, hmid'⟩, hpost⟩
  · show read_word m' (s.heap_ptr + 8) = 17
    rw [read_word_congr (fun a h1 h2 => hlow a (by omega)), h.pro_hdr]
  · show read_word m' (s.heap_ptr + 16) = 17
    rw [read_word_congr (fun a h1 h2 => hlow a (by omega)), h.pro_ftr]
  · show read_word m' (s.brk - 8) = 1
    rw [read_word_congr (fun a h1 h2 => hhigh a (by omega)), h.epi]
  · intro b hb
    rcases List.mem_append.1 hb with hb | hb
    · rcases List.mem_append.1 hb with hb | hb
      · have hb' : b ∈ bs := by rw [hbs]; simp [hb]
        have := contig_mem hp hb
        have := core_bounds h hb'
        exact blk_frame (h.blk b hb') (fun a h1 => hlow a (by omega))
      · exact hok b hb
    · have hb' : b ∈ bs := by rw [hbs]; simp [hb]
      have := contig_mem hpost hb
      have := core_bounds h hb'
      exact blk_frame (h.blk b hb') (fun a h1 => hhigh a (by omega))

theorem core_split (h : Core K G s bs) {pre mid post : List Blk} (hbs : bs = pre ++ mid ++ post) :
    ∃ p e, Contig (s.heap_ptr + 32) pre p ∧ Contig p mid e ∧ Contig e post s.brk := by
  have := h.contig
  rw [hbs, contig_append] at this
  obtain ⟨e, h1, h2⟩ := this
  obtain ⟨p, h3, h4⟩ := contig_append.1 h1
  exact ⟨p, e, h3, h4, h2⟩

/-- The region rewrite when no byte of `K` lies in a block of the region. -/
theorem core_rewrite (h : Core K G s bs) {pre mid mid' post : List Blk} {p e : Nat}
    {m' : Mem} (hbs : bs = pre ++ mid ++ post)
    (hp : Contig (s.heap_ptr + 32) pre p) (hmid' : Contig p mid' e) (hpost : Contig e post s.brk)
    (hlow : ∀ a, a + 8 < p → m' a = s.mem a) (hhigh : ∀ a, e ≤ a + 8 → m' a = s.mem a)
    (hok : ∀ b ∈ mid', BlkOK m' b)
    (hK : ∀ c ∈ mid, c.alloc = true → ∀ a, K a → ¬(c.addr ≤ a ∧ a + 16 < c.addr + c.size)) :
    Core K G { s with mem := m' } (pre ++ mid' ++ post) := by
  have key : ∀ a, K a → (∃ c, (c ∈ pre ∨ c ∈ post) ∧ c.alloc = true ∧ c.addr ≤ a ∧
      a + 16 < c.addr + c.size) ∨ a < s.heap_ptr + 8 := by
    intro a ha
    rcases h.kok a ha with ⟨c, hc, hca, h1, h2⟩ | hpad
    · left
      rw [hbs] at hc
      rcases List.mem_append.1 hc with hc | hc
      · rcases List.mem_append.1 hc with hc | hc
        · exact ⟨c, Or.inl hc, hca, h1, h2⟩
        · exact absurd ⟨h1, h2⟩ (hK c hc hca a ha)
      · exact ⟨c, Or.inr hc, hca, h1, h2⟩
    · exact Or.inr hpad
  apply core_rewrite_gen h hbs hp hmid' hpost hlow hhigh hok
  · intro a ha
    rcases key a ha with ⟨c, hc, hca, h1, h2⟩ | hpad
    · left
      refine ⟨c, ?_, hca, h1, h2⟩
      rcases hc with hc | hc <;> simp [hc]
    · exact Or.inr hpad
  · intro a ha
    rw [← h.keep a ha]
    rcases key a ha with ⟨c, hc, hca, h1, h2⟩ | hpad
    · rcases hc with hc | hc
      · have := contig_mem hp hc
        exact hlow a (by omega)
      · have := contig_mem hpost hc
        exact hhigh a (by omega)
    · have := contig_le hp
      exact hlow a (by omega)

/-! ## Stores that leave the index alone -/

theorem index_frame (hi : Index s bs ch) {m' : Mem} {bs' : List Blk}
    (hm : ∀ k, ∀ x ∈ ch k, ∀ a, x ≤ a → a < x + 16 → m' a = s.mem a)
    (hsub : ∀ k, ∀ x ∈ ch k, ∀ b ∈ bs, b.addr = x → b ∈ bs') :
    Index { s with mem := m' } bs' ch := by
  refine ⟨hi.heads, fun k => dll_frame (hi.dll k) (hm k), ?_, hi.nodup⟩
  intro k x hx
  obtain ⟨b, hb, h1, h2, h3⟩ := hi.mem_ch k x hx
  exact ⟨b, hsub k x hx b hb h1, h1, h2, h3⟩

/-- The region rewrite leaves the index alone when no block of the region is
in a chain. -/
theorem index_rewrite (h : Core K G s bs) (hi : Index s bs ch) {pre mid mid' post : List Blk}
    {p e : Nat} {m' : Mem} (hbs : bs = pre ++ mid ++ post)
    (hp : Contig (s.heap_ptr + 32) pre p) (hpost : Contig e post s.brk)
    (hlow : ∀ a, a + 8 < p → m' a = s.mem a) (hhigh : ∀ a, e ≤ a + 8 → m' a = s.mem a)
    (hnotin : ∀ b ∈ mid, ∀ k, b.addr ∉ ch k) :
    Index { s with mem := m' } (pre ++ mid' ++ post) ch := by
  have key : ∀ k, ∀ x ∈ ch k, ∀ b ∈ bs, b.addr = x → b ∈ pre ∨ b ∈ post := by
    intro k x hx b hb hbx
    rw [hbs] at hb
    rcases List.mem_append.1 hb with hb | hb
    · rcases List.mem_append.1 hb with hb | hb
      · exact Or.inl hb
      · exact absurd (hbx ▸ hx) (hnotin b hb k)
    · exact Or.inr hb
  apply index_frame hi
  · intro k x hx a h1 h2
    obtain ⟨b, hb, hbx, -, -⟩ := hi.mem_ch k x hx
    have hbb := core_bounds h hb
    rcases key k x hx b hb hbx with hc | hc
    · have := contig_mem hp hc
      exact hlow a (by omega)
    · have := contig_mem hpost hc
      exact hhigh a (by omega)
  · intro k x hx b hb hbx
    rcases key k x hx b hb hbx with hc | hc <;> simp [hc]

theorem wf_rewrite (h : WF K G s bs ch) {pre mid mid' post : List Blk} {p e : Nat}
    {m' : Mem} (hbs : bs = pre ++ mid ++ post)
    (hp : Contig (s.heap_ptr + 32) pre p) (hmid' : Contig p mid' e) (hpost : Contig e post s.brk)
    (hlow : ∀ a, a + 8 < p → m' a = s.mem a) (hhigh : ∀ a, e ≤ a + 8 → m' a = s.mem a)
    (hok : ∀ b ∈ mid', BlkOK m' b)
    (hK : ∀ c ∈ mid, c.alloc = true → ∀ a, K a → ¬(c.addr ≤ a ∧ a + 16 < c.addr + c.size))
    (hnotin : ∀ b ∈ mid, ∀ k, b.addr ∉ ch k) :
    WF K G { s with mem := m' } (pre ++ mid' ++ post) ch :=
  ⟨core_rewrite h.1 hbs hp hmid' hpost hlow hhigh hok hK,
    index_rewrite h.1 h.2 hbs hp hpost hlow hhigh hnotin⟩

end

section

variable {K : Nat → Prop} {G : Mem} {s : State} {bs : List Blk} {ch : Nat → List Nat}

/-- A change confined to the link words of free blocks. -/
theorem core_links_frame (h : Core K G s bs) {m' : Mem}
    (hm : ∀ a, (∀ y ∈ bs, y.alloc = false → a < y.addr ∨ y.addr + 16 ≤ a) → m' a = s.mem a) :
    Core K G { s with mem := m' } bs := by
  have hbrk := core_brk h
  refine ⟨h.cap_lt, h.brk_le, h.lo_eq, h.contig, ?_, ?_, ?_, ?_, h.kok, ?_⟩
  · show read_word m' (s.heap_ptr + 8) = 17
    rw [read_word_congr (fun a h1 h2 => hm a (fun y hy _ => by
      have := core_bounds h hy; omega)), h.pro_hdr]
  · show read_word m' (s.heap_ptr + 16) = 17
    rw [read_word_congr (fun a h1 h2 => hm a (fun y hy _ => by
      have := core_bounds h hy; omega)), h.pro_ftr]
  · show read_word m' (s.brk - 8) = 1
    rw [read_word_congr (fun a h1 h2 => hm a (fun y hy _ => by
      have := core_bounds h hy; omega)), h.epi]
  · intro c hc
    have hcb := core_bounds h hc
    apply blk_frame (h.blk c hc)
    intro a h1
    apply hm
    intro y hy _
    have := core_bounds h hy
    rcases core_sep h hc hy with rfl | h3 | h3 <;> omega
  · intro a ha
    show m' a = G a
    rw [hm a, h.keep a ha]
    intro y hy hyf
    have := core_bounds h hy
    rcases h.kok a ha with ⟨c, hc, hca, h1, h2⟩ | hpad
    · rcases core_sep h hc hy with rfl | h3 | h3
      · rw [hyf] at hca; cases hca
      · omega
      · omega
    · omega

end

section

variable {K : Nat → Prop} {G : Mem} {s : State} {bs : List Blk} {ch : Nat → List Nat}

/-! ## Chains -/

theorem list_nil_or_snoc {α : Type} (l : List α) : l = [] ∨ ∃ init z, l = init ++ [z] := by
  rcases List.eq_nil_or_concat l with h | ⟨init, z, h⟩
  · exact Or.inl h
  · exact Or.inr ⟨init, z, by rw [h, List.concat_eq_append]⟩

theorem dll_split3 {m : Mem} {s t x : Nat} {l1 l2 : List Nat} :
    DLLseg m s (l1 ++ x :: l2) t ↔
      DLLseg m s l1 x ∧ x ≠ 0 ∧ read_word m (x + 8) = l1.getLastD s ∧
        read_word m x = l2.headD t ∧ DLLseg m x l2 t := by
  rw [dll_append]
  simp [DLLseg]

/-- Changing the `get_pred` link of the last node of a segment. -/
theorem dll_snoc_retarget {m m' : Mem} {s t t' z : Nat} {init : List Nat}
    (h : DLLseg m s (init ++ [z]) t)
    (hf : ∀ x ∈ init, ∀ a, x ≤ a → a < x + 16 → m' a = m a)
    (hs : read_word m' (z + 8) = read_word m (z + 8)) (hv : read_word m' z = t') :
    DLLseg m' s (init ++ [z]) t' := by
  rw [dll_split3] at h ⊢
  obtain ⟨h1, h2, h3, h4, -⟩ := h
  exact ⟨dll_frame h1 hf, h2, by rw [hs, h3], by simp [hv], trivial⟩

/-- Changing the `get_succ` link of the first node of a segment. -/
theorem dll_cons_retarget {m m' : Mem} {s s' t y : Nat} {r : List Nat}
    (h : DLLseg m s (y :: r) t)
    (hf : ∀ x ∈ r, ∀ a, x ≤ a → a < x + 16 → m' a = m a)
    (hp : read_word m' y = read_word m y) (hv : read_word m' (y + 8) = s') :
    DLLseg m' s' (y :: r) t := by
  obtain ⟨h1, h2, h3, h4⟩ := h
  exact ⟨h1, hv, by rw [hp, h3], dll_frame h4 hf⟩

theorem index_block (hi : Index s bs ch) {k x : Nat} (hx : x ∈ ch k) :
    ∃ b ∈ bs, b.addr = x ∧ b.alloc = false ∧ seg_index b.size = k :=
  hi.mem_ch k x hx

theorem index_sep (hc : Core K G s bs) (hi : Index s bs ch) {k k' x y : Nat} (hx : x ∈ ch k)
    (hy : y ∈ ch k') : (x = y ∧ k = k') ∨ x + 32 ≤ y ∨ y + 32 ≤ x := by
  obtain ⟨b, hb, h1, -, h2⟩ := hi.mem_ch k x hx
  obtain ⟨c, hcm, h3, -, h4⟩ := hi.mem_ch k' y hy
  have := core_bounds hc hb
  have := core_bounds hc hcm
  rcases core_sep hc hb hcm with rfl | h | h
  · exact Or.inl ⟨h1.symm.trans h3, h2.symm.trans h4⟩
  · right; left; omega
  · right; right; omega

theorem index_bounds (hc : Core K G s bs) (hi : Index s bs ch) {k x : Nat} (hx : x ∈ ch k) :
    s.heap_ptr + 32 ≤ x ∧ x + 32 ≤ s.brk ∧ s.brk < 2 ^ 64 := by
  obtain ⟨b, hb, h1, -, h2⟩ := hi.mem_ch k x hx
  have := core_bounds hc hb
  omega

/-- A block that is not the block at `x` is away from the link words of `x`. -/
theorem index_blk_sep (hc : Core K G s bs) (hi : Index s bs ch) {k x : Nat} (hx : x ∈ ch k)
    {c : Blk} (hcm : c ∈ bs) : c.addr = x ∨ c.addr + c.size ≤ x ∨ x + 32 ≤ c.addr := by
  obtain ⟨b, hb, h1, -, h2⟩ := hi.mem_ch k x hx
  have := core_bounds hc hb
  rcases core_sep hc hb hcm with rfl | h | h
  · exact Or.inl h1
  · right; right; omega
  · right; left; omega

@[simp] theorem node_del_brk (s : State) (p : Nat) : (node_del s p).brk = s.brk := by
  unfold node_del; split_ifs <;> rfl

@[simp] theorem node_del_heap_ptr (s : State) (p : Nat) : (node_del s p).heap_ptr = s.heap_ptr := by
  unfold node_del; split_ifs <;> rfl

@[simp] theorem node_del_cap (s : State) (p : Nat) : (node_del s p).cap = s.cap := by
  unfold node_del; split_ifs <;> rfl

@[simp] theorem node_del_lo (s : State) (p : Nat) : (node_del s p).lo = s.lo := by
  unfold node_del; split_ifs <;> rfl

end

section

variable {K : Nat → Prop} {G : Mem} {s : State} {bs : List Blk} {ch : Nat → List Nat}

theorem core_seg (h : Core K G s bs) (m' : Mem) (seg' : Nat → Nat)
    (h' : Core K G { s with mem := m' } bs) :
    Core K G { s with mem := m', seg_freelist := seg' } bs :=
  ⟨h.cap_lt, h.brk_le, h.lo_eq, h.contig, h'.pro_hdr, h'.pro_ftr, h'.epi, h'.blk, h'.kok, h'.keep⟩

theorem headD_mem {l : List Nat} (h : l.headD 0 ≠ 0) : l.headD 0 ∈ l := by
  cases l with
  | nil => simp at h
  | cons a r => simp

theorem getLastD_mem {l : List Nat} (h : l.getLastD 0 ≠ 0) : l.getLastD 0 ∈ l := by
  rcases list_nil_or_snoc l with rfl | ⟨init, z, rfl⟩
  · simp at h
  · simp

/-- Unlinking the node `x` from the chain of bucket `k`, in terms of the memory
that results. -/
theorem wf_unlink (h : WF K G s bs ch) {k x : Nat} {l1 l2 : List Nat}
    (hl : ch k = l1 ++ x :: l2) {m' : Mem} {seg' : Nat → Nat}
    (hA1 : ∀ a, ¬(l2.headD 0 ≠ 0 ∧ l2.headD 0 + 8 ≤ a ∧ a < l2.headD 0 + 16) →
      ¬(l1.getLastD 0 ≠ 0 ∧ l1.getLastD 0 ≤ a ∧ a < l1.getLastD 0 + 8) → m' a = s.mem a)
    (hA2 : l2.headD 0 ≠ 0 → read_word m' (l2.headD 0 + 8) = l1.getLastD 0)
    (hA3 : l1.getLastD 0 ≠ 0 → read_word m' (l1.getLastD 0) = l2.headD 0)
    (hseg : ∀ k', k' < 20 →
      seg' k' = if k' = k then (l1 ++ l2).headD 0 else s.seg_freelist k') :
    WF K G { s with mem := m', seg_freelist := seg' } bs (Function.update ch k (l1 ++ l2)) := by
  obtain ⟨hc, hi⟩ := h
  have hnd := hi.nodup k
  rw [hl] at hnd
  have hmem1 : ∀ e ∈ l1, e ∈ ch k := fun e he => by rw [hl]; simp [he]
  have hmem2 : ∀ e ∈ l2, e ∈ ch k := fun e he => by rw [hl]; simp [he]
  have hnd1 : l1.Nodup := (List.nodup_append.1 hnd).1
  have hnd2 : l2.Nodup := (List.nodup_cons.1 (List.nodup_append.1 hnd).2.1).2
  have hdisj : ∀ e ∈ l1, e ∉ l2 := fun e he he2 =>
    (List.nodup_append.1 hnd).2.2 he (List.mem_cons_of_mem _ he2)
  have hp : l2.headD 0 ≠ 0 → l2.headD 0 ∈ l2 := headD_mem
  have hq : l1.getLastD 0 ≠ 0 → l1.getLastD 0 ∈ l1 := getLastD_mem
  have hd := hi.dll k
  rw [hl, dll_split3] at hd
  obtain ⟨d1, -, -, -, d4⟩ := hd
  -- cells of chain members away from the two changed words
  have hA1' : ∀ k' e, e ∈ ch k' → ∀ a, e ≤ a → a < e + 16 → (e = l2.headD 0 → a < e + 8) →
      (e = l1.getLastD 0 → e + 8 ≤ a) → m' a = s.mem a := by
    intro k' e he a h1 h2 h3 h4
    apply hA1
    · rintro ⟨g1, g2, g3⟩
      rcases index_sep hc hi he (hmem2 _ (hp g1)) with ⟨h5, -⟩ | h5 | h5
      · have := h3 h5; omega
      · omega
      · omega
    · rintro ⟨g1, g2, g3⟩
      rcases index_sep hc hi he (hmem1 _ (hq g1)) with ⟨h5, -⟩ | h5 | h5
      · have := h4 h5; omega
      · omega
      · omega
  have hother : ∀ k' e, e ∈ ch k' → e ∉ l1 → e ∉ l2 → ∀ a, e ≤ a → a < e + 16 →
      m' a = s.mem a := by
    intro k' e he hn1 hn2 a h1 h2
    refine hA1' k' e he a h1 h2 (fun h3 => ?_) (fun h3 => ?_)
    · exfalso
      by_cases g : l2.headD 0 = 0
      · have := index_bounds hc hi he; omega
      · exact hn2 (h3 ▸ hp g)
    · exfalso
      by_cases g : l1.getLastD 0 = 0
      · have := index_bounds hc hi he; omega
      · exact hn1 (h3 ▸ hq g)
  constructor
  · apply core_seg hc
    apply core_links_frame hc
    intro a ha
    apply hA1
    · rintro ⟨g1, g2, g3⟩
      obtain ⟨y, hy, hy1, hy2, -⟩ := hi.mem_ch k _ (hmem2 _ (hp g1))
      have := ha y hy hy2
      omega
    · rintro ⟨g1, g2, g3⟩
      obtain ⟨y, hy, hy1, hy2, -⟩ := hi.mem_ch k _ (hmem1 _ (hq g1))
      have := ha y hy hy2
      omega
  · refine ⟨?_, ?_, ?_, ?_⟩
    · intro k' hk'
      show seg' k' = _
      rw [hseg k' hk']
      by_cases hkk : k' = k
      · subst hkk; simp
      · rw [if_neg hkk, Function.update_noteq hkk]
        exact hi.heads k' hk'
    · intro k'
      show DLLseg m' 0 _ 0
      by_cases hkk : k' = k
      · subst hkk
        rw [Function.update_same, dll_append]
        constructor
        · rcases list_nil_or_snoc l1 with rfl | ⟨init, z, rfl⟩
          · trivial
          · have hz : (init ++ [z]).getLastD 0 = z := by simp
            have hz0 : z ≠ 0 := dll_ne_zero d1 z (by simp)
            have hzi : z ∉ init := by
              have := List.nodup_append.1 hnd1
              intro hzi
              exact this.2.2 hzi (by simp)
            rw [hz] at hA3 hA1'
            refine dll_snoc_retarget d1 ?_ ?_ (hA3 hz0)
            · intro e he a h1 h2
              have he1 : e ∈ init ++ [z] := by simp [he]
              refine hA1' k' e (hmem1 e he1) a h1 h2 (fun h3 => ?_) (fun h3 => ?_)
              · exfalso
                by_cases g : l2.headD 0 = 0
                · have := index_bounds hc hi (hmem1 e he1); omega
                · exact hdisj e he1 (h3 ▸ hp g)
              · exact absurd (h3 ▸ he) hzi
            · apply read_word_congr
              intro a h1 h2
              refine hA1' k' z (hmem1 z (by simp)) a (by omega) (by omega) (fun h3 => ?_)
                (fun _ => by omega)
              exfalso
              by_cases g : l2.headD 0 = 0
              · omega
              · exact hdisj z (by simp) (h3 ▸ hp g)
        · rcases l2 with _ | ⟨y, r⟩
          · trivial
          · have hy0 : y ≠ 0 := dll_ne_zero d4 y (by simp)
            have hyr : y ∉ r := (List.nodup_cons.1 hnd2).1
            simp only [List.headD_cons] at hA2 hA1'
            refine dll_cons_retarget d4 ?_ ?_ (hA2 hy0)
            · intro e he a h1 h2
              have he2 : e ∈ y :: r := List.mem_cons_of_mem _ he
              refine hA1' k' e (hmem2 e he2) a h1 h2 (fun h3 => ?_) (fun h3 => ?_)
              · exact absurd (h3 ▸ he) hyr
              · exfalso
                by_cases g : l1.getLastD 0 = 0
                · have := index_bounds hc hi (hmem2 e he2); omega
                · exact hdisj _ (hq g) (h3 ▸ he2)
            · apply read_word_congr
              intro a h1 h2
              refine hA1' k' y (hmem2 y (by simp)) a (by omega) (by omega) (fun _ => by omega)
                (fun h3 => ?_)
              exfalso
              by_cases g : l1.getLastD 0 = 0
              · omega
              · exact hdisj _ (hq g) (h3 ▸ List.mem_cons_self _ _)
      · rw [Function.update_noteq hkk]
        apply dll_frame (hi.dll k')
        intro e he a h1 h2
        refine hother k' e he (fun h3 => ?_) (fun h3 => ?_) a h1 h2
        · rcases index_sep hc hi he (hmem1 e h3) with ⟨-, h5⟩ | h5 | h5
          · exact hkk h5
          · omega
          · omega
        · rcases index_sep hc hi he (hmem2 e h3) with ⟨-, h5⟩ | h5 | h5
          · exact hkk h5
          · omega
          · omega
    · intro k' e he
      by_cases hkk : k' = k
      · subst hkk
        rw [Function.update_same] at he
        apply hi.mem_ch k'
        rcases List.mem_append.1 he with he | he
        · exact hmem1 e he
        · exact hmem2 e he
      · rw [Function.update_noteq hkk] at he
        exact hi.mem_ch k' e he
    · intro k'
      by_cases hkk : k' = k
      · subst hkk
        rw [Function.update_same]
        exact List.nodup_append.2 ⟨hnd1, hnd2, fun a h1 h2 => hdisj a h1 h2⟩
      · rw [Function.update_noteq hkk]
        exact hi.nodup k'

end

section

variable {K : Nat → Prop} {G : Mem} {s : State} {bs : List Blk} {ch : Nat → List Nat}

/-! ## `node_del` -/

theorem node_del_eq (s : State) (x p q : Nat) (hp : get_pred s.mem x = p)
    (hq : get_succ s.mem x = q) (hsep : p ≠ 0 → p + 16 ≤ x ∨ x + 8 ≤ p) :
    node_del s x = { s with
      mem := unlink_mem s.mem p q
      seg_freelist := if q = 0 then
          Function.update s.seg_freelist (seg_index (fetch_size s.mem (header_ptr x))) p
        else s.seg_freelist } := by
  have e1 : ∀ v, read_word (store_word s.mem (p + 8) v) x = p ∨ p = 0 := by
    intro v
    by_cases h1 : p = 0
    · exact Or.inr h1
    · left
      rw [read_store_other _ _ _ _ (by have := hsep h1; omega)]
      exact hp
  have e2 : ∀ v, read_word (store_word s.mem (p + 8) v) (x + 8) = q ∨ p = 0 := by
    intro v
    by_cases h1 : p = 0
    · exact Or.inr h1
    · left
      rw [read_store_other _ _ _ _ (by have := hsep h1; omega)]
      exact hq
  unfold node_del unlink_mem
  rw [hp, hq]
  simp only [get_pred_eq, get_succ_eq, set_pointer_eq, get_succ_ptr_eq, get_pred_ptr_eq]
  by_cases h1 : p = 0 <;> by_cases h2 : q = 0
  · simp [h1, h2, seg_index]
  · simp [h1, h2]
  · simp [h1, h2, (e1 0).resolve_right h1, seg_index]
  · simp [h1, h2, (e1 q).resolve_right h1, (e2 q).resolve_right h1]

theorem unlink_mem_other (m : Mem) (p q a : Nat)
    (h1 : ¬(p ≠ 0 ∧ p + 8 ≤ a ∧ a < p + 16)) (h2 : ¬(q ≠ 0 ∧ q ≤ a ∧ a < q + 8)) :
    unlink_mem m p q a = m a := by
  unfold unlink_mem
  by_cases g1 : p = 0 <;> by_cases g2 : q = 0 <;> simp only [g1, g2, ne_eq, not_true_eq_false,
    not_false_eq_true, if_true, if_false]
  · exact store_word_other _ _ _ _ (by omega)
  · exact store_word_other _ _ _ _ (by omega)
  · rw [store_word_other _ _ _ _ (by omega), store_word_other _ _ _ _ (by omega)]

theorem unlink_mem_succ (m : Mem) (p q : Nat) (hp : p ≠ 0) (hq : q < 2 ^ 64)
    (hsep : q ≠ 0 → q + 8 ≤ p + 8 ∨ p + 16 ≤ q) : read_word (unlink_mem m p q) (p + 8) = q := by
  unfold unlink_mem
  by_cases g2 : q = 0
  · simp only [hp, g2, ne_eq, not_true_eq_false, not_false_eq_true, if_true, if_false]
    rw [read_store_same]; rfl
  · simp only [hp, g2, ne_eq, not_true_eq_false, not_false_eq_true, if_true, if_false]
    rw [read_store_other _ _ _ _ (by have := hsep g2; omega), read_store_same,
      Nat.mod_eq_of_lt hq]

theorem unlink_mem_pred (m : Mem) (p q : Nat) (hq : q ≠ 0) (hp : p < 2 ^ 64) :
    read_word (unlink_mem m p q) q = p := by
  unfold unlink_mem
  by_cases g1 : p = 0
  · simp only [hq, g1, ne_eq, not_true_eq_false, not_false_eq_true, if_true, if_false]
    rw [read_store_same]; rfl
  · simp only [hq, g1, ne_eq, not_true_eq_false, not_false_eq_true, if_true, if_false]
    rw [read_store_same, Nat.mod_eq_of_lt hp]

theorem node_del_spec (h : WF K G s bs ch) {b : Blk} (hb : b ∈ bs)
    (hin : b.addr ∈ ch (seg_index b.size)) :
    WF K G (node_del s b.addr) bs
      (Function.update ch (seg_index b.size) ((ch (seg_index b.size)).erase b.addr)) := by
  have hc := h.1
  have hi := h.2
  obtain ⟨l1, l2, hl⟩ := List.append_of_mem hin
  have hnd := hi.nodup (seg_index b.size)
  rw [hl] at hnd
  have hx1 : b.addr ∉ l1 := fun hx =>
    (List.nodup_append.1 hnd).2.2 hx (List.mem_cons_self _ _)
  have herase : (ch (seg_index b.size)).erase b.addr = l1 ++ l2 := by
    rw [hl, List.erase_append_right _ hx1, List.erase_cons_head]
  have hmem1 : ∀ e ∈ l1, e ∈ ch (seg_index b.size) := fun e he => by rw [hl]; simp [he]
  have hmem2 : ∀ e ∈ l2, e ∈ ch (seg_index b.size) := fun e he => by rw [hl]; simp [he]
  have hd := hi.dll (seg_index b.size)
  rw [hl, dll_split3] at hd
  obtain ⟨-, -, d2, d3, -⟩ := hd
  have hsz : fetch_size s.mem (header_ptr b.addr) = b.size := blk_fetch_size (hc.blk b hb)
  have hpm : l2.headD 0 ≠ 0 → l2.headD 0 ∈ ch (seg_index b.size) :=
    fun g => hmem2 _ (headD_mem g)
  have hqm : l1.getLastD 0 ≠ 0 → l1.getLastD 0 ∈ ch (seg_index b.size) :=
    fun g => hmem1 _ (getLastD_mem g)
  have hpx : l2.headD 0 ≠ 0 → l2.headD 0 ≠ b.addr := fun g e =>
    (List.nodup_cons.1 (List.nodup_append.1 hnd).2.1).1 (e ▸ headD_mem g)
  have hpq : l2.headD 0 ≠ 0 → l1.getLastD 0 ≠ 0 → l2.headD 0 ≠ l1.getLastD 0 := fun g1 g2 e =>
    (List.nodup_append.1 hnd).2.2 (getLastD_mem g2) (List.mem_cons_of_mem _ (e ▸ headD_mem g1))
  have hplt : l2.headD 0 < 2 ^ 64 := by
    by_cases g : l2.headD 0 = 0
    · rw [g]; omega
    · have := index_bounds hc hi (hpm g); omega
  have hqlt : l1.getLastD 0 < 2 ^ 64 := by
    by_cases g : l1.getLastD 0 = 0
    · rw [g]; omega
    · have := index_bounds hc hi (hqm g); omega
  rw [node_del_eq s b.addr (l2.headD 0) (l1.getLastD 0) d3 d2, hsz, herase]
  · apply wf_unlink h hl
    · intro a h1 h2
      exact unlink_mem_other _ _ _ _ h1 h2
    · intro g
      apply unlink_mem_succ _ _ _ g hqlt
      intro g2
      rcases index_sep hc hi (hpm g) (hqm g2) with ⟨h5, -⟩ | h5 | h5
      · exact absurd h5 (hpq g g2)
      · omega
      · omega
    · intro g
      exact unlink_mem_pred _ _ _ g hplt
    · intro k' hk'
      by_cases hkk : k' = seg_index b.size
      · subst hkk
        rw [if_pos rfl]
        by_cases g : l1.getLastD 0 = 0
        · rw [if_pos g, Function.update_same]
          rcases list_nil_or_snoc l1 with rfl | ⟨init, z, rfl⟩
          · simp
          · exfalso
            have : z ∈ ch (seg_index b.size) := hmem1 z (by simp)
            have := index_bounds hc hi this
            simp at g
            omega
        · rw [if_neg g, hi.heads _ hk', hl]
          rcases list_nil_or_snoc l1 with rfl | ⟨init, z, rfl⟩
          · simp at g
          · cases init <;> simp
      · rw [if_neg hkk]
        by_cases g : l1.getLastD 0 = 0
        · rw [if_pos g, Function.update_noteq hkk]
        · rw [if_neg g]
  · intro g
    have hbin : b.addr ∈ ch (seg_index b.size) := hin
    rcases index_sep hc hi (hpm g) hbin with ⟨h5, -⟩ | h5 | h5
    · exact absurd h5 (hpx g)
    · omega
    · omega

end

section

variable {K : Nat → Prop} {G : Mem} {s : State} {bs : List Blk} {ch : Nat → List Nat}

/-! ## `node_insert` -/

/-- Linking the node `x` into the chain of bucket `k` between `l1` and `l2`, in
terms of the memory that results. -/
theorem wf_link (h : WF K G s bs ch) {k : Nat} {b : Blk} {l1 l2 : List Nat}
    (hb : b ∈ bs) (hbf : b.alloc = false) (hbk : seg_index b.size = k)
    (hnot : ∀ k', b.addr ∉ ch k')
    (hl : ch k = l1 ++ l2) {m' : Mem} {seg' : Nat → Nat}
    (hB1 : ∀ a, (a < b.addr ∨ b.addr + 16 ≤ a) →
      ¬(l2.headD 0 ≠ 0 ∧ l2.headD 0 + 8 ≤ a ∧ a < l2.headD 0 + 16) →
      ¬(l1.getLastD 0 ≠ 0 ∧ l1.getLastD 0 ≤ a ∧ a < l1.getLastD 0 + 8) → m' a = s.mem a)
    (hB2 : read_word m' b.addr = l2.headD 0)
    (hB3 : read_word m' (b.addr + 8) = l1.getLastD 0)
    (hB4 : l2.headD 0 ≠ 0 → read_word m' (l2.headD 0 + 8) = b.addr)
    (hB5 : l1.getLastD 0 ≠ 0 → read_word m' (l1.getLastD 0) = b.addr)
    (hseg : ∀ k', k' < 20 →
      seg' k' = if k' = k then (l1 ++ b.addr :: l2).headD 0 else s.seg_freelist k') :
    WF K G { s with mem := m', seg_freelist := seg' } bs
      (Function.update ch k (l1 ++ b.addr :: l2)) := by
  obtain ⟨hc, hi⟩ := h
  have hbb := core_bounds hc hb
  have hnd := hi.nodup k
  rw [hl] at hnd
  have hmem1 : ∀ e ∈ l1, e ∈ ch k := fun e he => by rw [hl]; simp [he]
  have hmem2 : ∀ e ∈ l2, e ∈ ch k := fun e he => by rw [hl]; simp [he]
  have hnd1 : l1.Nodup := (List.nodup_append.1 hnd).1
  have hnd2 : l2.Nodup := (List.nodup_append.1 hnd).2.1
  have hdisj : ∀ e ∈ l1, e ∉ l2 := fun e he he2 => (List.nodup_append.1 hnd).2.2 he he2
  have hp : l2.headD 0 ≠ 0 → l2.headD 0 ∈ l2 := headD_mem
  have hq : l1.getLastD 0 ≠ 0 → l1.getLastD 0 ∈ l1 := getLastD_mem
  have hd := hi.dll k
  rw [hl, dll_append] at hd
  obtain ⟨d1, d4⟩ := hd
  -- chain members are away from the new node
  have hxsep : ∀ k' e, e ∈ ch k' → e + 32 ≤ b.addr ∨ b.addr + 32 ≤ e := by
    intro k' e he
    obtain ⟨c, hcm, h1, -, -⟩ := hi.mem_ch k' e he
    have := core_bounds hc hcm
    rcases core_sep hc hcm hb with rfl | h5 | h5
    · exact absurd (h1 ▸ he) (hnot k')
    · omega
    · omega
  have hB1' : ∀ k' e, e ∈ ch k' → ∀ a, e ≤ a → a < e + 16 → (e = l2.headD 0 → a < e + 8) →
      (e = l1.getLastD 0 → e + 8 ≤ a) → m' a = s.mem a := by
    intro k' e he a h1 h2 h3 h4
    have := hxsep k' e he
    apply hB1 a (by omega)
    · rintro ⟨g1, g2, g3⟩
      rcases index_sep hc hi he (hmem2 _ (hp g1)) with ⟨h5, -⟩ | h5 | h5
      · have := h3 h5; omega
      · omega
      · omega
    · rintro ⟨g1, g2, g3⟩
      rcases index_sep hc hi he (hmem1 _ (hq g1)) with ⟨h5, -⟩ | h5 | h5
      · have := h4 h5; omega
      · omega
      · omega
  have hother : ∀ k' e, e ∈ ch k' → e ∉ l1 → e ∉ l2 → ∀ a, e ≤ a → a < e + 16 →
      m' a = s.mem a := by
    intro k' e he hn1 hn2 a h1 h2
    refine hB1' k' e he a h1 h2 (fun h3 => ?_) (fun h3 => ?_)
    · exfalso
      by_cases g : l2.headD 0 = 0
      · have := index_bounds hc hi he; omega
      · exact hn2 (h3 ▸ hp g)
    · exfalso
      by_cases g : l1.getLastD 0 = 0
      · have := index_bounds hc hi he; omega
      · exact hn1 (h3 ▸ hq g)
  constructor
  · apply core_seg hc
    apply core_links_frame hc
    intro a ha
    have := ha b hb hbf
    apply hB1 a this
    · rintro ⟨g1, g2, g3⟩
      obtain ⟨y, hy, hy1, hy2, -⟩ := hi.mem_ch k _ (hmem2 _ (hp g1))
      have := ha y hy hy2
      omega
    · rintro ⟨g1, g2, g3⟩
      obtain ⟨y, hy, hy1, hy2, -⟩ := hi.mem_ch k _ (hmem1 _ (hq g1))
      have := ha y hy hy2
      omega
  · refine ⟨?_, ?_, ?_, ?_⟩
    · intro k' hk'
      show seg' k' = _
      rw [hseg k' hk']
      by_cases hkk : k' = k
      · subst hkk; simp
      · rw [if_neg hkk, Function.update_noteq hkk]
        exact hi.heads k' hk'
    · intro k'
      show DLLseg m' 0 _ 0
      by_cases hkk : k' = k
      · subst hkk
        rw [Function.update_same, dll_split3]
        refine ⟨?_, by omega, ?_, hB2, ?_⟩
        · rcases list_nil_or_snoc l1 with rfl | ⟨init, z, rfl⟩
          · trivial
          · have hz : (init ++ [z]).getLastD 0 = z := by simp
            have hz0 : z ≠ 0 := dll_ne_zero d1 z (by simp)
            have hzi : z ∉ init := by
              have := List.nodup_append.1 hnd1
              intro hzi
              exact this.2.2 hzi (by simp)
            rw [hz] at hB5 hB1'
            refine dll_snoc_retarget d1 ?_ ?_ (hB5 hz0)
            · intro e he a h1 h2
              have he1 : e ∈ init ++ [z] := by simp [he]
              refine hB1' k' e (hmem1 e he1) a h1 h2 (fun h3 => ?_) (fun h3 => ?_)
              · exfalso
                by_cases g : l2.headD 0 = 0
                · have := index_bounds hc hi (hmem1 e he1); omega
                · exact hdisj e he1 (h3 ▸ hp g)
              · exact absurd (h3 ▸ he) hzi
            · apply read_word_congr
              intro a h1 h2
              refine hB1' k' z (hmem1 z (by simp)) a (by omega) (by omega) (fun h3 => ?_)
                (fun _ => by omega)
              exfalso
              by_cases g : l2.headD 0 = 0
              · omega
              · exact hdisj z (by simp) (h3 ▸ hp g)
        · rw [hB3]
        · rcases l2 with _ | ⟨y, r⟩
          · trivial
          · have hy0 : y ≠ 0 := dll_ne_zero d4 y (by simp)
            have hyr : y ∉ r := (List.nodup_cons.1 hnd2).1
            simp only [List.headD_cons] at hB4 hB1'
            refine dll_cons_retarget d4 ?_ ?_ (hB4 hy0)
            · intro e he a h1 h2
              have he2 : e ∈ y :: r := List.mem_cons_of_mem _ he
              refine hB1' k' e (hmem2 e he2) a h1 h2 (fun h3 => ?_) (fun h3 => ?_)
              · exact absurd (h3 ▸ he) hyr
              · exfalso
                by_cases g : l1.getLastD 0 = 0
                · have := index_bounds hc hi (hmem2 e he2); omega
                · exact hdisj _ (hq g) (h3 ▸ he2)
            · apply read_word_congr
              intro a h1 h2
              refine hB1' k' y (hmem2 y (by simp)) a (by omega) (by omega) (fun _ => by omega)
                (fun h3 => ?_)
              exfalso
              by_cases g : l1.getLastD 0 = 0
              · omega
              · exact hdisj _ (hq g) (h3 ▸ List.mem_cons_self _ _)
      · rw [Function.update_noteq hkk]
        apply dll_frame (hi.dll k')
        intro e he a h1 h2
        refine hother k' e he (fun h3 => ?_) (fun h3 => ?_) a h1 h2
        · rcases index_sep hc hi he (hmem1 e h3) with ⟨-, h5⟩ | h5 | h5
          · exact hkk h5
          · omega
          · omega
        · rcases index_sep hc hi he (hmem2 e h3) with ⟨-, h5⟩ | h5 | h5
          · exact hkk h5
          · omega
          · omega
    · intro k' e he
      by_cases hkk : k' = k
      · subst hkk
        rw [Function.update_same] at he
        rcases List.mem_append.1 he with he | he
        · exact hi.mem_ch k' e (hmem1 e he)
        · rcases List.mem_cons.1 he with rfl | he
          · exact ⟨b, hb, rfl, hbf, hbk⟩
          · exact hi.mem_ch k' e (hmem2 e he)
      · rw [Function.update_noteq hkk] at he
        exact hi.mem_ch k' e he
    · intro k'
      by_cases hkk : k' = k
      · subst hkk
        rw [Function.update_same]
        have hx1 : b.addr ∉ l1 := fun hx => hnot k' (hmem1 _ hx)
        have hx2 : b.addr ∉ l2 := fun hx => hnot k' (hmem2 _ hx)
        refine List.nodup_append.2 ⟨hnd1, List.nodup_cons.2 ⟨hx2, hnd2⟩, ?_⟩
        intro a h1 h2
        rcases List.mem_cons.1 h2 with rfl | h2
        · exact hx1 h1
        · exact hdisj a h1 h2
      · rw [Function.update_noteq hkk]
        exact hi.nodup k'

end

section

variable {K : Nat → Prop} {G : Mem} {s : State} {bs : List Blk} {ch : Nat → List Nat}

theorem insert_scan_spec (m : Mem) (size : Nat) :
    ∀ (l : List Nat) (s0 ins fuel : Nat), DLLseg m s0 l 0 → l.length < fuel →
      ∃ l1 l2, l = l1 ++ l2 ∧
        insert_scan fuel m size (l.headD 0) ins = some (l2.headD 0, l1.getLastD ins) := by
  intro l
  induction l with
  | nil =>
    intro s0 ins fuel _ hf
    obtain ⟨f, rfl⟩ : ∃ f, fuel = f + 1 := ⟨fuel - 1, by simp at hf; omega⟩
    exact ⟨[], [], rfl, by simp [insert_scan]⟩
  | cons x r ih =>
    intro s0 ins fuel hd hf
    obtain ⟨f, rfl⟩ : ∃ f, fuel = f + 1 := ⟨fuel - 1, by simp at hf; omega⟩
    obtain ⟨h0, -, h2, h3⟩ := hd
    by_cases hc : size > fetch_size m (header_ptr x)
    · obtain ⟨l1, l2, e1, e2⟩ := ih x x f h3 (by simp at hf; omega)
      refine ⟨x :: l1, l2, by rw [e1]; rfl, ?_⟩
      simp only [List.headD_cons, insert_scan, h0, ne_eq, not_false_eq_true, hc, and_self,
        if_true, get_pred_eq, h2, List.getLastD_cons]
      exact e2
    · exact ⟨[], x :: r, rfl, by simp [insert_scan, hc]⟩

theorem index_length (hc : Core K G s bs) (hi : Index s bs ch) (k : Nat) :
    (ch k).length < s.brk := by
  have h1 : (ch k).toFinset ⊆ Finset.Ico 32 s.brk := by
    intro x hx
    have := index_bounds hc hi (List.mem_toFinset.1 hx)
    exact Finset.mem_Ico.2 ⟨by omega, by omega⟩
  have h2 := Finset.card_le_card h1
  rw [List.toFinset_card_of_nodup (hi.nodup k), Nat.card_Ico] at h2
  have := core_brk hc
  omega

theorem node_insert_eq (s : State) (x size p q : Nat)
    (h : insert_scan s.brk s.mem (seg_loop 19 0 size).2 (s.seg_freelist (seg_index size)) 0
      = some (p, q)) :
    node_insert s x size = some { s with
      mem := link_mem s.mem x p q
      seg_freelist := if q = 0 then Function.update s.seg_freelist (seg_index size) x
        else s.seg_freelist } := by
  have h' : insert_scan s.brk s.mem (seg_loop 19 0 size).2
      (s.seg_freelist (seg_loop 19 0 size).1) 0 = some (p, q) := h
  have e : seg_index size = (seg_loop 19 0 size).1 := rfl
  unfold node_insert link_mem
  simp only [set_pointer_eq, get_succ_ptr_eq, get_pred_ptr_eq, e, Nat.add_one_sub_one]
  rw [h']
  by_cases h1 : p = 0 <;> by_cases h2 : q = 0 <;> simp [h1, h2]

theorem link_mem_other (m : Mem) (x p q a : Nat) (h0 : a < x ∨ x + 16 ≤ a)
    (h1 : ¬(p ≠ 0 ∧ p + 8 ≤ a ∧ a < p + 16)) (h2 : ¬(q ≠ 0 ∧ q ≤ a ∧ a < q + 8)) :
    link_mem m x p q a = m a := by
  unfold link_mem
  by_cases g1 : p = 0 <;> by_cases g2 : q = 0 <;> simp only [g1, g2, ne_eq, not_true_eq_false,
    not_false_eq_true, if_true, if_false]
  · rw [store_word_other _ _ _ _ (by omega), store_word_other _ _ _ _ (by omega)]
  · rw [store_word_other _ _ _ _ (by omega), store_word_other _ _ _ _ (by omega),
      store_word_other _ _ _ _ (by omega)]
  · rw [store_word_other _ _ _ _ (by omega), store_word_other _ _ _ _ (by omega),
      store_word_other _ _ _ _ (by omega)]
  · rw [store_word_other _ _ _ _ (by omega), store_word_other _ _ _ _ (by omega),
      store_word_other _ _ _ _ (by omega), store_word_other _ _ _ _ (by omega)]

/-- Reading a word of `link_mem` that none of the later stores overlaps. -/
theorem link_mem_read (m : Mem) (x p q c : Nat)
    (h1 : p ≠ 0 → c = p + 8 ∨ c + 8 ≤ p + 8 ∨ p + 16 ≤ c)
    (h2 : q ≠ 0 → c = q ∨ c + 8 ≤ q ∨ q + 8 ≤ c)
    (h3 : c = x ∨ c = x + 8 ∨ c + 8 ≤ x ∨ x + 16 ≤ c)
    (hq0 : q ≠ 0 → q ≠ x ∧ q ≠ x + 8) (hp0 : p ≠ 0 → p + 8 ≠ x ∧ p ≠ x)
    (hpq : p ≠ 0 → q ≠ 0 → p + 8 ≠ q)
    (hx : x < 2 ^ 64) (hp : p < 2 ^ 64) (hq : q < 2 ^ 64) :
    read_word (link_mem m x p q) c =
      if p ≠ 0 ∧ c = p + 8 then x else if q ≠ 0 ∧ c = q then x
      else if c = x + 8 then q else if c = x then p else read_word m c := by
  unfold link_mem
  by_cases g1 : p = 0 <;> by_cases g2 : q = 0
  · subst g1; subst g2
    simp only [ne_eq, not_true_eq_false, if_false, false_and]
    rcases h3 with rfl | rfl | h3 | h3
    · rw [read_store_other _ _ _ _ (by omega), read_store_same]; simp
    · rw [read_store_same]; simp
    · rw [read_store_other _ _ _ _ (by omega), read_store_other _ _ _ _ (by omega),
        if_neg (by omega), if_neg (by omega)]
    · rw [read_store_other _ _ _ _ (by omega), read_store_other _ _ _ _ (by omega),
        if_neg (by omega), if_neg (by omega)]
  · subst g1
    have := h2 g2
    have := hq0 g2
    simp only [ne_eq, not_true_eq_false, if_false, false_and, g2, not_false_eq_true, if_true,
      true_and]
    by_cases e : c = q
    · subst e
      rw [read_store_same, if_pos rfl, Nat.mod_eq_of_lt hx]
    · rw [read_store_other _ _ _ _ (by omega), if_neg e]
      rcases h3 with rfl | rfl | h3 | h3
      · rw [read_store_other _ _ _ _ (by omega), read_store_same]; simp
      · rw [read_store_same, Nat.mod_eq_of_lt hq]; simp
      · rw [read_store_other _ _ _ _ (by omega), read_store_other _ _ _ _ (by omega),
          if_neg (by omega), if_neg (by omega)]
      · rw [read_store_other _ _ _ _ (by omega), read_store_other _ _ _ _ (by omega),
          if_neg (by omega), if_neg (by omega)]
  · subst g2
    have := h1 g1
    have := hp0 g1
    simp only [ne_eq, not_true_eq_false, if_false, false_and, g1, not_false_eq_true, if_true,
      true_and]
    by_cases e : c = p + 8
    · subst e
      rw [read_store_same, if_pos rfl, Nat.mod_eq_of_lt hx]
    · rw [read_store_other _ _ _ _ (by omega), if_neg e]
      rcases h3 with rfl | rfl | h3 | h3
      · rw [read_store_other _ _ _ _ (by omega), read_store_same, Nat.mod_eq_of_lt hp]; simp
      · rw [read_store_same]; simp
      · rw [read_store_other _ _ _ _ (by omega), read_store_other _ _ _ _ (by omega),
          if_neg (by omega), if_neg (by omega)]
      · rw [read_store_other _ _ _ _ (by omega), read_store_other _ _ _ _ (by omega),
          if_neg (by omega), if_neg (by omega)]
  · have := h1 g1
    have := hp0 g1
    have := h2 g2
    have := hq0 g2
    have := hpq g1 g2
    simp only [ne_eq, g1, g2, not_false_eq_true, if_true, true_and]
    by_cases e : c = p + 8
    · subst e
      rw [read_store_same, if_pos rfl, Nat.mod_eq_of_lt hx]
    · rw [read_store_other _ _ _ _ (by omega), if_neg e]
      by_cases e' : c = q
      · subst e'
        rw [read_store_same, if_pos rfl, Nat.mod_eq_of_lt hx]
      · rw [read_store_other _ _ _ _ (by omega), if_neg e']
        rcases h3 with rfl | rfl | h3 | h3
        · rw [read_store_other _ _ _ _ (by omega), read_store_same, Nat.mod_eq_of_lt hp]; simp
        · rw [read_store_same, Nat.mod_eq_of_lt hq]; simp
        · rw [read_store_other _ _ _ _ (by omega), read_store_other _ _ _ _ (by omega),
            if_neg (by omega), if_neg (by omega)]
        · rw [read_store_other _ _ _ _ (by omega), read_store_other _ _ _ _ (by omega),
            if_neg (by omega), if_neg (by omega)]

end

section

variable {K : Nat → Prop} {G : Mem} {s : State} {bs : List Blk} {ch : Nat → List Nat}

theorem seg_loop_le (n lst size : Nat) (h : lst ≤ 19) : (seg_loop n lst size).1 ≤ 19 := by
  induction n generalizing lst size with
  | zero => simpa [seg_loop] using h
  | succ n ih =>
    unfold seg_loop
    split_ifs with hc
    · exact ih _ _ (by simp at hc; omega)
    · exact h

theorem seg_index_lt (size : Nat) : seg_index size < 20 := by
  have := seg_loop_le 19 0 size (by omega)
  show (seg_loop 19 0 size).1 < 20
  omega

theorem node_insert_spec (h : WF K G s bs ch) {b : Blk} (hb : b ∈ bs) (hbf : b.alloc = false)
    (hnot : ∀ k', b.addr ∉ ch k') :
    ∃ s' ch', node_insert s b.addr b.size = some s' ∧
      (s'.brk = s.brk ∧ s'.heap_ptr = s.heap_ptr ∧ s'.cap = s.cap ∧ s'.lo = s.lo) ∧
      WF K G s' bs ch' ∧
      ∀ k' e, e ∈ ch' k' ↔ (e ∈ ch k' ∨ (k' = seg_index b.size ∧ e = b.addr)) := by
  have hc := h.1
  have hi := h.2
  have hbb := core_bounds hc hb
  have hk := seg_index_lt b.size
  obtain ⟨l1, l2, e1, e2⟩ := insert_scan_spec s.mem (seg_loop 19 0 b.size).2
    (ch (seg_index b.size)) 0 0 s.brk (hi.dll _) (index_length hc hi _)
  rw [← hi.heads _ hk] at e2
  have hmem1 : ∀ e ∈ l1, e ∈ ch (seg_index b.size) := fun e he => by rw [e1]; simp [he]
  have hmem2 : ∀ e ∈ l2, e ∈ ch (seg_index b.size) := fun e he => by rw [e1]; simp [he]
  have hnd := hi.nodup (seg_index b.size)
  rw [e1] at hnd
  have hpm : l2.headD 0 ≠ 0 → l2.headD 0 ∈ ch (seg_index b.size) :=
    fun g => hmem2 _ (headD_mem g)
  have hqm : l1.getLastD 0 ≠ 0 → l1.getLastD 0 ∈ ch (seg_index b.size) :=
    fun g => hmem1 _ (getLastD_mem g)
  have hpq : l2.headD 0 ≠ 0 → l1.getLastD 0 ≠ 0 →
      l2.headD 0 + 32 ≤ l1.getLastD 0 ∨ l1.getLastD 0 + 32 ≤ l2.headD 0 := by
    intro g1 g2
    rcases index_sep hc hi (hpm g1) (hqm g2) with ⟨h5, -⟩ | h5 | h5
    · exact absurd (h5 ▸ headD_mem g1) ((List.nodup_append.1 hnd).2.2 (getLastD_mem g2))
    · exact Or.inl h5
    · exact Or.inr h5
  have hxsep : ∀ k' e, e ∈ ch k' → e + 32 ≤ b.addr ∨ b.addr + 32 ≤ e := by
    intro k' e he
    obtain ⟨c, hcm, h1, -, -⟩ := hi.mem_ch k' e he
    have := core_bounds hc hcm
    rcases core_sep hc hcm hb with rfl | h5 | h5
    · exact absurd (h1 ▸ he) (hnot k')
    · omega
    · omega
  have hplt : l2.headD 0 < 2 ^ 64 := by
    by_cases g : l2.headD 0 = 0
    · rw [g]; omega
    · have := index_bounds hc hi (hpm g); omega
  have hqlt : l1.getLastD 0 < 2 ^ 64 := by
    by_cases g : l1.getLastD 0 = 0
    · rw [g]; omega
    · have := index_bounds hc hi (hqm g); omega
  have hread := fun c => link_mem_read s.mem b.addr (l2.headD 0) (l1.getLastD 0) c
  refine ⟨_, Function.update ch (seg_index b.size) (l1 ++ b.addr :: l2),
    node_insert_eq s b.addr b.size _ _ e2, ⟨rfl, rfl, rfl, rfl⟩, ?_, ?_⟩
  · apply wf_link h hb hbf rfl hnot e1
    · intro a h0 h1 h2
      exact link_mem_other _ _ _ _ _ h0 h1 h2
    · rw [hread]
      · rw [if_neg, if_neg, if_neg (by omega), if_pos rfl]
        · rintro ⟨g, g'⟩; have := hxsep _ _ (hqm g); omega
        · rintro ⟨g, g'⟩; have := hxsep _ _ (hpm g); omega
      · intro g; have := hxsep _ _ (hpm g); omega
      · intro g; have := hxsep _ _ (hqm g); omega
      · omega
      · intro g; have := hxsep _ _ (hqm g); omega
      · intro g; have := hxsep _ _ (hpm g); omega
      · intro g g'; have := hpq g g'; omega
      · omega
      · exact hplt
      · exact hqlt
    · rw [hread]
      · rw [if_neg, if_neg, if_pos rfl]
        · rintro ⟨g, g'⟩; have := hxsep _ _ (hqm g); omega
        · rintro ⟨g, g'⟩; have := hxsep _ _ (hpm g); omega
      · intro g; have := hxsep _ _ (hpm g); omega
      · intro g; have := hxsep _ _ (hqm g); omega
      · omega
      · intro g; have := hxsep _ _ (hqm g); omega
      · intro g; have := hxsep _ _ (hpm g); omega
      · intro g g'; have := hpq g g'; omega
      · omega
      · exact hplt
      · exact hqlt
    · intro gp
      rw [hread]
      · rw [if_pos ⟨gp, rfl⟩]
      · intro g; omega
      · intro g; have := hpq gp g; omega
      · have := hxsep _ _ (hpm gp); omega
      · intro g; have := hxsep _ _ (hqm g); omega
      · intro g; have := hxsep _ _ (hpm g); omega
      · intro g g'; have := hpq g g'; omega
      · omega
      · exact hplt
      · exact hqlt
    · intro gq
      rw [hread]
      · rw [if_neg, if_pos ⟨gq, rfl⟩]
        rintro ⟨g, g'⟩; have := hpq g gq; omega
      · intro g; have := hpq g gq; omega
      · intro g; omega
      · have := hxsep _ _ (hqm gq); omega
      · intro g; have := hxsep _ _ (hqm g); omega
      · intro g; have := hxsep _ _ (hpm g); omega
      · intro g g'; have := hpq g g'; omega
      · omega
      · exact hplt
      · exact hqlt
    · intro k' hk'
      show (if l1.getLastD 0 = 0 then Function.update s.seg_freelist (seg_index b.size) b.addr
        else s.seg_freelist) k' = _
      by_cases hkk : k' = seg_index b.size
      · subst hkk
        rw [if_pos rfl]
        rcases list_nil_or_snoc l1 with rfl | ⟨init, z, rfl⟩
        · simp
        · have : z ∈ ch (seg_index b.size) := hmem1 z (by simp)
          have := index_bounds hc hi this
          have hz : (init ++ [z]).getLastD 0 = z := by simp
          rw [hz, if_neg (by omega), hi.heads _ hk', e1]
          cases init <;> simp
      · rw [if_neg hkk]
        by_cases g : l1.getLastD 0 = 0
        · rw [if_pos g, Function.update_noteq hkk]
        · rw [if_neg g]
  · intro k' e
    by_cases hkk : k' = seg_index b.size
    · subst hkk
      rw [Function.update_same, e1]
      simp only [List.mem_append, List.mem_cons, true_and]
      tauto
    · rw [Function.update_noteq hkk]
      simp [hkk]

theorem node_del_mem_iff (hi : Index s bs ch) {b : Blk} (k' e : Nat) :
    e ∈ Function.update ch (seg_index b.size) ((ch (seg_index b.size)).erase b.addr) k' ↔
      (e ∈ ch k' ∧ ¬(k' = seg_index b.size ∧ e = b.addr)) := by
  by_cases hkk : k' = seg_index b.size
  · subst hkk
    rw [Function.update_same, (hi.nodup _).mem_erase_iff]
    tauto
  · rw [Function.update_noteq hkk]
    simp [hkk]

end

section

variable {K : Nat → Prop} {G : Mem} {s : State} {bs : List Blk} {ch : Nat → List Nat}

/-! ## Merging and splitting regions -/

theorem chain'_snoc_cons {α : Type} {R : α → α → Prop} {l1 l2 : List α} {x : α}
    (h1 : List.Chain' R l1) (h2 : List.Chain' R l2)
    (ha : ∀ a, l1.getLast? = some a → R a x) (hb : ∀ c, l2.head? = some c → R x c) :
    List.Chain' R (l1 ++ x :: l2) := by
  apply List.Chain'.append h1
  · exact List.Chain'.cons' h2 (fun c hc => hb c hc)
  · intro a ha' c hc
    simp at hc
    subst hc
    exact ha a ha'

theorem noadj_left {l1 l2 : List Blk} (h : NoAdjFree (l1 ++ l2)) : NoAdjFree l1 :=
  List.Chain'.left_of_append h

theorem noadj_right {l1 l2 : List Blk} (h : NoAdjFree (l1 ++ l2)) : NoAdjFree l2 :=
  List.Chain'.right_of_append h

/-- After the blocks of `mid` (all free, none in a chain) have been overwritten
by the boundary tags of one free block, `node_insert` restores the invariant. -/
theorem merge_finish (h : WF K G s bs ch) {pre mid post : List Blk} {p e : Nat}
    (hbs : bs = pre ++ mid ++ post) (hne : mid ≠ [])
    (hp : Contig (s.heap_ptr + 32) pre p) (hmid : Contig p mid e) (hpost : Contig e post s.brk)
    (hfree : ∀ c ∈ mid, c.alloc = false) (hunidx : ∀ c ∈ mid, ∀ k, c.addr ∉ ch k)
    (hcomp : ∀ d ∈ bs, d.alloc = false → d ∉ mid → d.addr ∈ ch (seg_index d.size))
    (hnpre : NoAdjFree pre) (hnpost : NoAdjFree post)
    (hpa : ∀ a, pre.getLast? = some a → a.alloc = true)
    (hna : ∀ c, post.head? = some c → c.alloc = true)
    {m' : Mem}
    (hagree : ∀ a, (a + 8 < p ∨ p ≤ a) → (a + 16 < e ∨ e ≤ a + 8) → m' a = s.mem a)
    (hhdr : read_word m' (p - 8) = e - p)
    (hftr : ∃ t, (t = 0 ∨ t = 2) ∧ read_word m' (e - 16) = e - p + t) :
    ∃ s' ch', node_insert { s with mem := m' } p (e - p) = some s' ∧
      (s'.brk = s.brk ∧ s'.heap_ptr = s.heap_ptr ∧ s'.cap = s.cap ∧ s'.lo = s.lo) ∧
      WF K G s' (pre ++ [⟨p, e - p, false⟩] ++ post) ch' ∧
      Complete (pre ++ [⟨p, e - p, false⟩] ++ post) ch' ∧
      NoAdjFree (pre ++ [⟨p, e - p, false⟩] ++ post) := by
  have hc := h.1
  have hi := h.2
  -- size facts for the merged block
  have hmidbs : ∀ c ∈ mid, c ∈ bs := fun c hcm => by rw [hbs]; simp [hcm]
  obtain ⟨c0, mid0, rfl⟩ := List.exists_cons_of_ne_nil hne
  have hc0 := core_bounds hc (hmidbs c0 (List.mem_cons_self _ _))
  have hc0m := contig_mem hmid (List.mem_cons_self c0 mid0)
  have hc0a : c0.addr = p := hmid.1
  have hmod := (contig_mod hmid (fun c hcm => (core_bounds hc (hmidbs c hcm)).2.2.2.1)).1
  have hple := contig_le hp
  have hebrk := contig_le hpost
  have hbrk := core_brk hc
  have hok : BlkOK m' ⟨p, e - p, false⟩ := by
    obtain ⟨t, ht, hf⟩ := hftr
    refine ⟨by show 32 ≤ e - p; omega, by show (e - p) % 16 = 0; omega, ?_, t, ht, ?_⟩
    · show read_word m' (p - 8) = e - p + 0
      rw [hhdr]; rfl
    · show read_word m' (p + (e - p) - 16) = e - p + 0 + t
      rw [show p + (e - p) - 16 = e - 16 by omega, hf]; rfl
  have hmid' : Contig p [⟨p, e - p, false⟩] e := by
    refine ⟨rfl, ?_⟩
    show p + (e - p) = e
    omega
  have hwf : WF K G { s with mem := m' } (pre ++ [⟨p, e - p, false⟩] ++ post) ch := by
    apply wf_rewrite h hbs hp hmid' hpost
    · intro a ha; exact hagree a (by omega) (by omega)
    · intro a ha; exact hagree a (by omega) (by omega)
    · intro b hb
      rw [List.mem_singleton.1 hb]
      exact hok
    · intro c hcm hca
      rw [hfree c hcm] at hca
      cases hca
    · exact hunidx
  have hnot : ∀ k', (⟨p, e - p, false⟩ : Blk).addr ∉ ch k' := by
    intro k'
    show p ∉ ch k'
    rw [← hc0a]
    exact hunidx c0 (List.mem_cons_self _ _) k'
  obtain ⟨s', ch', e1, e2, e3, e4⟩ :=
    node_insert_spec hwf (b := ⟨p, e - p, false⟩) (by simp) rfl hnot
  refine ⟨s', ch', e1, e2, e3, ?_, ?_⟩
  · intro d hd hdf
    rw [e4]
    simp only [List.mem_append, List.mem_singleton] at hd
    rcases hd with (hd | hd) | hd
    · left
      apply hcomp d (by rw [hbs]; simp [hd]) hdf
      intro hdm
      have h1 := contig_mem hp hd
      have h2 := contig_mem hmid hdm
      have := core_bounds hc (hmidbs d hdm)
      omega
    · right
      rw [hd]
      exact ⟨rfl, rfl⟩
    · left
      apply hcomp d (by rw [hbs]; simp [hd]) hdf
      intro hdm
      have h1 := contig_mem hpost hd
      have h2 := contig_mem hmid hdm
      have := core_bounds hc (hmidbs d hdm)
      omega
  · rw [List.append_assoc]
    apply chain'_snoc_cons hnpre hnpost
    · intro a ha; exact Or.inl (hpa a ha)
    · intro c hcm; exact Or.inr (hna c hcm)

end

section

variable {K : Nat → Prop} {G : Mem} {s : State} {bs : List Blk} {ch : Nat → List Nat}

theorem read_tag_cases (m : Mem) (c : Nat) : read_tag m c = 0 ∨ read_tag m c = 2 := by
  rw [read_tag_eq]
  omega

theorem write_word_set (m : Mem) (c sz a : Nat) (hsz : sz % 16 = 0) (ha : a ≤ 1) :
    write_word m c (set_word sz a) = store_word m c (sz + a + read_tag m c) := by
  rw [set_word_eq sz a hsz (by omega), write_word_eq _ _ _ (by omega)]

theorem write_word_hdr (m : Mem) (c sz a : Nat) (hsz : sz % 16 = 0) (ha : a ≤ 1)
    (ht : read_tag m c = 0) : write_word m c (set_word sz a) = store_word m c (sz + a) := by
  rw [write_word_set m c sz a hsz ha, ht]
  rfl

theorem write_no_tag_set (m : Mem) (c sz a : Nat) (hsz : sz % 16 = 0) (ha : a ≤ 1) :
    write_no_tag m c (set_word sz a) = store_word m c (sz + a) := by
  rw [set_word_eq sz a hsz (by omega)]
  rfl

theorem fetch_size_store (m : Mem) (c sz r : Nat) (hsz : sz % 16 = 0) (hr : r < 16)
    (hlt : sz + r < 2 ^ 64) : fetch_size (store_word m c (sz + r)) c = sz := by
  rw [fetch_size_eq, read_store_same, Nat.mod_eq_of_lt hlt]
  omega

/-- What `block_coalescing` reads about the block before `b`. -/
theorem prev_facts (hc : Core K G s bs) {pre post : List Blk} {b : Blk}
    (hbs : bs = pre ++ b :: post) :
    read_tag s.mem (header_ptr (prev_blockptr s.mem b.addr)) = 0 ∧
    ((∃ pre' a, pre = pre' ++ [a] ∧ a.alloc = false ∧ prev_blockptr s.mem b.addr = a.addr ∧
        fetch_alloc s.mem (header_ptr (prev_blockptr s.mem b.addr)) = 0) ∨
      ((∀ a, pre.getLast? = some a → a.alloc = true) ∧
        fetch_alloc s.mem (header_ptr (prev_blockptr s.mem b.addr)) = 1)) := by
  have hct := hc.contig
  rw [hbs, contig_append] at hct
  obtain ⟨q, h1, h2⟩ := hct
  have hbq : b.addr = q := h2.1
  rcases list_nil_or_snoc pre with rfl | ⟨pre', a, rfl⟩
  · have hq : s.heap_ptr + 32 = q := h1
    have e1 : prev_blockptr s.mem b.addr = s.heap_ptr + 16 := by
      rw [prev_blockptr_eq, fetch_size_eq, hbq, ← hq,
        show s.heap_ptr + 32 - 16 = s.heap_ptr + 16 by omega, hc.pro_ftr]
      omega
    rw [e1, header_ptr_eq, show s.heap_ptr + 16 - 8 = s.heap_ptr + 8 by omega, read_tag_eq,
      fetch_alloc_eq, hc.pro_hdr]
    exact ⟨rfl, Or.inr ⟨by simp, rfl⟩⟩
  · obtain ⟨q', h3, h4⟩ := contig_append.1 h1
    have ha : a ∈ bs := by rw [hbs]; simp
    have hab := core_bounds hc ha
    have haq : a.addr + a.size = q := by
      have := h4.1
      have : q' + a.size = q := h4.2
      omega
    have hok := hc.blk a ha
    have e1 : prev_blockptr s.mem b.addr = a.addr := by
      rw [prev_blockptr_eq, hbq, ← haq, show a.addr + a.size - 16 = a.addr + a.size - 16 from rfl,
        blk_fetch_size_ftr hok]
      omega
    rw [e1, header_ptr_eq, blk_read_tag hok, blk_fetch_alloc hok]
    refine ⟨rfl, ?_⟩
    cases haa : a.alloc
    · exact Or.inl ⟨pre', a, rfl, haa, rfl, rfl⟩
    · refine Or.inr ⟨?_, rfl⟩
      intro a' ha'
      simp at ha'
      rw [← ha', haa]

/-- What `block_coalescing` reads about the block after `b`. -/
theorem next_facts (hc : Core K G s bs) {pre post : List Blk} {b : Blk}
    (hbs : bs = pre ++ b :: post) :
    next_blockptr s.mem b.addr = b.addr + b.size ∧
    ((∃ c post', post = c :: post' ∧ c.alloc = false ∧ c.addr = b.addr + b.size ∧
        fetch_alloc s.mem (header_ptr (next_blockptr s.mem b.addr)) = 0) ∨
      ((∀ c, post.head? = some c → c.alloc = true) ∧
        fetch_alloc s.mem (header_ptr (next_blockptr s.mem b.addr)) = 1)) := by
  have hct := hc.contig
  rw [hbs, contig_append] at hct
  obtain ⟨q, h1, h2⟩ := hct
  have hb : b ∈ bs := by rw [hbs]; simp
  have hbb := core_bounds hc hb
  have e1 := blk_next (hc.blk b hb)
  refine ⟨e1, ?_⟩
  rw [e1, header_ptr_eq]
  rcases post with _ | ⟨c, post'⟩
  · have : q + b.size = s.brk := h2.2
    have hbq : b.addr = q := h2.1
    rw [show b.addr + b.size = s.brk by omega, fetch_alloc_eq, hc.epi]
    exact Or.inr ⟨by simp, rfl⟩
  · have hcm : c ∈ bs := by rw [hbs]; simp
    have hca : c.addr = q + b.size := h2.2.1
    have hbq : b.addr = q := h2.1
    have hok := hc.blk c hcm
    rw [show b.addr + b.size = c.addr by omega, blk_fetch_alloc hok]
    cases haa : c.alloc
    · exact Or.inl ⟨c, post', rfl, haa, by omega, rfl⟩
    · refine Or.inr ⟨?_, rfl⟩
      intro c' hc'
      simp at hc'
      rw [← hc', haa]

theorem idx_of_complete (h : Complete bs ch) : IdxExcept bs ch [] :=
  ⟨fun d hd hf _ => h d hd hf, fun d hd => by simp at hd⟩

theorem del_step (h : WF K G s bs ch) {D : List Blk} (hD : IdxExcept bs ch D) {x : Blk}
    (hx : x ∈ bs) (hxf : x.alloc = false) (hxD : x ∉ D) :
    ∃ ch', WF K G (node_del s x.addr) bs ch' ∧ IdxExcept bs ch' (x :: D) := by
  have hin := hD.1 x hx hxf hxD
  refine ⟨_, node_del_spec h hx hin, ?_, ?_⟩
  · intro d hd hdf hdD
    rw [node_del_mem_iff h.2]
    simp only [List.mem_cons, not_or] at hdD
    refine ⟨hD.1 d hd hdf hdD.2, ?_⟩
    rintro ⟨-, h2⟩
    exact hdD.1 (contig_addr_inj h.1.contig (core_pos h.1) hd hx h2)
  · intro d hd k
    rw [node_del_mem_iff h.2]
    rintro ⟨h1, h2⟩
    rcases List.mem_cons.1 hd with rfl | hd
    · obtain ⟨c, hc1, hc2, -, hc4⟩ := h.2.mem_ch k _ h1
      have := contig_addr_inj h.1.contig (core_pos h.1) hc1 hx hc2
      subst this
      exact h2 ⟨hc4.symm, rfl⟩
    · exact hD.2 d hd k h1

end

section

variable {K : Nat → Prop} {G : Mem} {s : State} {bs : List Blk} {ch : Nat → List Nat}

/-! ## `block_coalescing` -/

theorem blk_eta (b : Blk) (hbf : b.alloc = false) :
    (⟨b.addr, b.addr + b.size - b.addr, false⟩ : Blk) = b := by
  cases b
  simp at hbf
  simp [hbf]

/-- A header written by `write_word` followed by the footer found through it. -/
theorem tags_hdr_ftr (m : Mem) (p sz a : Nat) (hsz : sz % 16 = 0) (ha : a ≤ 1)
    (hlt : sz + 3 < 2 ^ 64) (ht : read_tag m (header_ptr p) = 0) :
    ∃ t, (t = 0 ∨ t = 2) ∧
      write_word (write_word m (header_ptr p) (set_word sz a))
        (footer_ptr (write_word m (header_ptr p) (set_word sz a)) p) (set_word sz a)
      = store_word (store_word m (p - 8) (sz + a)) (p + sz - 16) (sz + a + t) := by
  rw [header_ptr_eq] at ht ⊢
  rw [footer_ptr_eq, write_word_hdr _ _ _ _ hsz ha ht,
    fetch_size_store _ _ _ a hsz (by omega) (by omega), write_word_set _ _ _ _ hsz ha]
  exact ⟨_, read_tag_cases _ _, rfl⟩

/-- A header written by `write_no_tag` followed by the footer found through it. -/
theorem tags_hdr_ftr_no_tag (m : Mem) (p sz a : Nat) (hsz : sz % 16 = 0) (ha : a ≤ 1)
    (hlt : sz + 3 < 2 ^ 64) :
    write_no_tag (write_no_tag m (header_ptr p) (set_word sz a))
        (footer_ptr (write_no_tag m (header_ptr p) (set_word sz a)) p) (set_word sz a)
      = store_word (store_word m (p - 8) (sz + a)) (p + sz - 16) (sz + a) := by
  simp only [header_ptr_eq, footer_ptr_eq, write_no_tag_set _ _ _ _ hsz ha]
  rw [fetch_size_store _ _ _ a hsz (by omega) (by omega)]

/-- Two stores at separate words. -/
theorem two_stores (m : Mem) (c1 v1 c2 v2 : Nat) (hsep : c1 + 8 ≤ c2 ∨ c2 + 8 ≤ c1)
    (hv1 : v1 < 2 ^ 64) (hv2 : v2 < 2 ^ 64) :
    (∀ x, (x < c1 ∨ c1 + 8 ≤ x) → (x < c2 ∨ c2 + 8 ≤ x) →
        store_word (store_word m c1 v1) c2 v2 x = m x) ∧
      read_word (store_word (store_word m c1 v1) c2 v2) c1 = v1 ∧
      read_word (store_word (store_word m c1 v1) c2 v2) c2 = v2 := by
  refine ⟨?_, ?_, ?_⟩
  · intro x h1 h2
    rw [store_word_other _ _ _ _ h2, store_word_other _ _ _ _ h1]
  · rw [read_store_other _ _ _ _ hsep, read_store_same, Nat.mod_eq_of_lt hv1]
  · rw [read_store_same, Nat.mod_eq_of_lt hv2]

theorem bc_eq_next (s : State) (ptr : Nat)
    (ht : read_tag s.mem (header_ptr (prev_blockptr s.mem ptr)) = 0)
    (hp : fetch_alloc s.mem (header_ptr (prev_blockptr s.mem ptr)) = 1)
    (hn : fetch_alloc s.mem (header_ptr (next_blockptr s.mem ptr)) = 0) :
    block_coalescing s ptr =
      coalesce_next_tail (node_del (node_del s ptr) (next_blockptr (node_del s ptr).mem ptr)) ptr
        (fetch_size s.mem (header_ptr ptr)) := by
  unfold block_coalescing coalesce_next_tail
  simp only [ht, hp, hn, ne_eq, not_true_eq_false, if_false, and_false, and_self, if_true,
    one_ne_zero, and_true] <;> rfl

theorem bc_next_tail {s2 : State} {ch2 : Nat → List Nat} (w2 : WF K G s2 bs ch2)
    {pre post' : List Blk} {b c : Blk} (i2 : IdxExcept bs ch2 [c, b])
    (hbs' : bs = pre ++ [b, c] ++ post') (hbf : b.alloc = false) (hcf : c.alloc = false)
    (hnpre : NoAdjFree pre) (hnpost : NoAdjFree (c :: post'))
    (hpa : ∀ a, pre.getLast? = some a → a.alloc = true) :
    ∃ s' ch' e, Contig b.addr [b, c] e ∧
      coalesce_next_tail s2 b.addr b.size = some (b.addr, s') ∧
      (s'.brk = s2.brk ∧ s'.heap_ptr = s2.heap_ptr ∧ s'.cap = s2.cap ∧ s'.lo = s2.lo) ∧
      WF K G s' (pre ++ [⟨b.addr, e - b.addr, false⟩] ++ post') ch' ∧
      Complete (pre ++ [⟨b.addr, e - b.addr, false⟩] ++ post') ch' ∧
      NoAdjFree (pre ++ [⟨b.addr, e - b.addr, false⟩] ++ post') := by
  have hb : b ∈ bs := by rw [hbs']; simp
  have hcm : c ∈ bs := by rw [hbs']; simp
  have hbb := core_bounds w2.1 hb
  have hcb := core_bounds w2.1 hcm
  obtain ⟨p0, e0, hc1, hc2, hc3⟩ := core_split w2.1 hbs'
  have hbp : b.addr = p0 := hc2.1
  subst hbp
  have hca : c.addr = b.addr + b.size := hc2.2.1
  have he0 : b.addr + b.size + c.size = e0 := hc2.2.2
  have n2 : next_blockptr s2.mem b.addr = c.addr := by
    rw [blk_next (w2.1.blk b hb)]; omega
  have z2 : fetch_size s2.mem (header_ptr c.addr) = c.size := blk_fetch_size (w2.1.blk c hcm)
  have t2 : read_tag s2.mem (header_ptr b.addr) = 0 := blk_read_tag (w2.1.blk b hb)
  have hsz : (b.size + c.size) % SIZE_MOD = e0 - b.addr := by
    rw [Nat.mod_eq_of_lt (by show b.size + c.size < 2 ^ 64; omega)]; omega
  have hsz16 : (e0 - b.addr) % 16 = 0 := by omega
  -- the memory after the two tag writes
  obtain ⟨t, ht', hM⟩ := tags_hdr_ftr s2.mem b.addr (e0 - b.addr) 0 hsz16 (by omega)
    (by omega) t2
  rw [show b.addr + (e0 - b.addr) - 16 = e0 - 16 by omega] at hM
  unfold coalesce_next_tail
  simp only [n2, z2, hsz, hM]
  clear hM n2 z2 t2
  obtain ⟨a1, a2, a3⟩ := two_stores s2.mem (b.addr - 8) (e0 - b.addr + 0) (e0 - 16)
    (e0 - b.addr + 0 + t) (by omega) (by omega) (by omega)
  replace a1 : ∀ a, (a + 8 < b.addr ∨ b.addr ≤ a) → (a + 16 < e0 ∨ e0 ≤ a + 8) →
      store_word (store_word s2.mem (b.addr - 8) (e0 - b.addr + 0)) (e0 - 16)
        (e0 - b.addr + 0 + t) a = s2.mem a := fun a h1 h2 => a1 a (by omega) (by omega)
  replace a3 : ∃ t', (t' = 0 ∨ t' = 2) ∧
      read_word (store_word (store_word s2.mem (b.addr - 8) (e0 - b.addr + 0)) (e0 - 16)
        (e0 - b.addr + 0 + t)) (e0 - 16) = e0 - b.addr + t' := ⟨t, ht', a3⟩
  have a4 : ∀ d ∈ [b, c], d.alloc = false := by
    intro d hd; simp at hd; rcases hd with rfl | rfl <;> assumption
  have a5 : ∀ d ∈ [b, c], ∀ k, d.addr ∉ ch2 k := by
    intro d hd; exact i2.2 d (by simp at hd ⊢; tauto)
  have a6 : ∀ d ∈ bs, d.alloc = false → d ∉ [b, c] → d.addr ∈ ch2 (seg_index d.size) := by
    intro d hd hdf hdm; exact i2.1 d hd hdf (by simp at hdm ⊢; tauto)
  have a7 : ∀ d, post'.head? = some d → d.alloc = true := by
    intro d hd
    rcases post' with _ | ⟨d', r⟩
    · simp at hd
    · simp at hd; subst hd
      rcases (List.chain'_cons.1 hnpost).1 with h2 | h2
      · rw [hcf] at h2; cases h2
      · exact h2
  obtain ⟨s', ch', f1, f2, f3, f4, f5⟩ := merge_finish w2 hbs' (by simp) hc1 hc2 hc3 a4 a5 a6
    hnpre (@noadj_right [c] _ hnpost) hpa a7 a1 a2 a3
  rw [f1]
  exact ⟨s', ch', e0, hc2, rfl, f2, f3, f4, f5⟩

theorem bc_case_next (h : WF K G s bs ch) (hcomp : Complete bs ch) {pre post' : List Blk}
    {b c : Blk} (hbs : bs = pre ++ b :: c :: post') (hbf : b.alloc = false)
    (hcf : c.alloc = false)
    (hnpre : NoAdjFree pre) (hnpost : NoAdjFree (c :: post'))
    (hpa : ∀ a, pre.getLast? = some a → a.alloc = true)
    (ht : read_tag s.mem (header_ptr (prev_blockptr s.mem b.addr)) = 0)
    (hp : fetch_alloc s.mem (header_ptr (prev_blockptr s.mem b.addr)) = 1)
    (hn : fetch_alloc s.mem (header_ptr (next_blockptr s.mem b.addr)) = 0) :
    CoalescedTo K G s bs b (block_coalescing s b.addr) := by
  have hb : b ∈ bs := by rw [hbs]; simp
  have hcm : c ∈ bs := by rw [hbs]; simp
  have hbb := core_bounds h.1 hb
  have hbs' : bs = pre ++ [b, c] ++ post' := by rw [hbs]; simp
  obtain ⟨p0, e0, hc1, hc2, hc3⟩ := core_split h.1 hbs'
  have hca : c.addr = p0 + b.size := hc2.2.1
  have hbp : b.addr = p0 := hc2.1
  have hne : b ≠ c := by
    intro e; rw [e] at hbp; omega
  have z0 : fetch_size s.mem (header_ptr b.addr) = b.size := blk_fetch_size (h.1.blk b hb)
  obtain ⟨ch1, w1, i1⟩ := del_step h (idx_of_complete hcomp) hb hbf (by simp)
  have n1 : next_blockptr (node_del s b.addr).mem b.addr = c.addr := by
    rw [blk_next (w1.1.blk b hb)]; omega
  obtain ⟨ch2, w2, i2⟩ := del_step w1 i1 hcm hcf (by simp [hne.symm])
  obtain ⟨s', ch', e, g1, g2, g3, g4, g5, g6⟩ := bc_next_tail w2 i2 hbs' hbf hcf hnpre hnpost hpa
  refine ⟨s', ch', pre, [b, c], post', b.addr, e, hbs', by simp, ?_, g1, ?_, ?_, g4, g5, g6⟩
  · intro d hd; simp at hd; rcases hd with rfl | rfl <;> assumption
  · rw [bc_eq_next s b.addr ht hp hn, n1, z0, g2]
  · simpa using g3

end

section

variable {K : Nat → Prop} {G : Mem} {s : State} {bs : List Blk} {ch : Nat → List Nat}

theorem blk_prev {m : Mem} {a : Blk} (h : BlkOK m a) {q : Nat} (hq : a.addr + a.size = q) :
    prev_blockptr m q = a.addr := by
  have := h.1
  rw [prev_blockptr_eq, ← hq, blk_fetch_size_ftr h]
  omega

theorem bc_eq_prev (s : State) (ptr : Nat)
    (ht : read_tag s.mem (header_ptr (prev_blockptr s.mem ptr)) = 0)
    (hp : fetch_alloc s.mem (header_ptr (prev_blockptr s.mem ptr)) = 0)
    (hn : fetch_alloc s.mem (header_ptr (next_blockptr s.mem ptr)) = 1) :
    block_coalescing s ptr =
      coalesce_prev_tail (node_del (node_del s ptr) (prev_blockptr (node_del s ptr).mem ptr)) ptr
        (fetch_size s.mem (header_ptr ptr)) := by
  unfold block_coalescing coalesce_prev_tail
  simp only [ht, hp, hn, ne_eq, not_true_eq_false, if_false, and_false, and_self, if_true,
    one_ne_zero, and_true, zero_ne_one, false_and] <;> rfl

theorem bc_prev_tail {s2 : State} {ch2 : Nat → List Nat} (w2 : WF K G s2 bs ch2)
    {pre' post : List Blk} {a b : Blk} (i2 : IdxExcept bs ch2 [a, b])
    (hbs' : bs = pre' ++ [a, b] ++ post) (haf : a.alloc = false) (hbf : b.alloc = false)
    (hnpre : NoAdjFree (pre' ++ [a])) (hnpost : NoAdjFree post)
    (hna : ∀ c, post.head? = some c → c.alloc = true) :
    ∃ s' ch' e, Contig a.addr [a, b] e ∧
      coalesce_prev_tail s2 b.addr b.size = some (a.addr, s') ∧
      (s'.brk = s2.brk ∧ s'.heap_ptr = s2.heap_ptr ∧ s'.cap = s2.cap ∧ s'.lo = s2.lo) ∧
      WF K G s' (pre' ++ [⟨a.addr, e - a.addr, false⟩] ++ post) ch' ∧
      Complete (pre' ++ [⟨a.addr, e - a.addr, false⟩] ++ post) ch' ∧
      NoAdjFree (pre' ++ [⟨a.addr, e - a.addr, false⟩] ++ post) := by
  have ha : a ∈ bs := by rw [hbs']; simp
  have hb : b ∈ bs := by rw [hbs']; simp
  have hab := core_bounds w2.1 ha
  have hbb := core_bounds w2.1 hb
  obtain ⟨p0, e0, hc1, hc2, hc3⟩ := core_split w2.1 hbs'
  have hap : a.addr = p0 := hc2.1
  subst hap
  have hba : b.addr = a.addr + a.size := hc2.2.1
  have he0 : a.addr + a.size + b.size = e0 := hc2.2.2
  have oka := w2.1.blk a ha
  have okb := w2.1.blk b hb
  have n2 : prev_blockptr s2.mem b.addr = a.addr := blk_prev oka hba.symm
  have z2 : fetch_size s2.mem (a.addr - 8) = a.size := blk_fetch_size oka
  have t2 : read_tag s2.mem (a.addr - 8) = 0 := blk_read_tag oka
  have f2 : footer_ptr s2.mem b.addr = e0 - 16 := by rw [blk_footer okb]; omega
  have hsz : (b.size + a.size) % SIZE_MOD = e0 - a.addr := by
    rw [Nat.mod_eq_of_lt (by show b.size + a.size < 2 ^ 64; omega)]; omega
  have hsz16 : (e0 - a.addr) % 16 = 0 := by omega
  obtain ⟨t, ht1, hw1⟩ : ∃ t, (t = 0 ∨ t = 2) ∧
      write_word s2.mem (e0 - 16) (set_word (e0 - a.addr) 0) =
        store_word s2.mem (e0 - 16) (e0 - a.addr + 0 + t) :=
    ⟨_, read_tag_cases _ _, write_word_set s2.mem (e0 - 16) (e0 - a.addr) 0 hsz16 (by omega)⟩
  have n3 : prev_blockptr (store_word s2.mem (e0 - 16) (e0 - a.addr + 0 + t)) b.addr = a.addr := by
    rw [prev_blockptr_eq, fetch_size_eq, read_store_other _ _ _ _ (by omega), ← fetch_size_eq,
      ← prev_blockptr_eq, n2]
  have t3 : read_tag (store_word s2.mem (e0 - 16) (e0 - a.addr + 0 + t)) (a.addr - 8) = 0 := by
    rw [read_tag_eq, read_store_other _ _ _ _ (by omega), ← read_tag_eq, t2]
  have hw2 := write_word_hdr (store_word s2.mem (e0 - 16) (e0 - a.addr + 0 + t)) (a.addr - 8)
    (e0 - a.addr) 0 hsz16 (by omega) t3
  have n4 : prev_blockptr (store_word (store_word s2.mem (e0 - 16) (e0 - a.addr + 0 + t))
      (a.addr - 8) (e0 - a.addr + 0)) b.addr = a.addr := by
    rw [prev_blockptr_eq, fetch_size_eq, read_store_other _ _ _ _ (by omega),
      read_store_other _ _ _ _ (by omega), ← fetch_size_eq, ← prev_blockptr_eq, n2]
  unfold coalesce_prev_tail
  simp only [n2, z2, hsz, f2, hw1, n3, header_ptr_eq, hw2, n4]
  clear hw1 hw2 n2 n3 n4 z2 t2 t3 f2
  obtain ⟨a1, a3, a2⟩ := two_stores s2.mem (e0 - 16) (e0 - a.addr + 0 + t) (a.addr - 8)
    (e0 - a.addr + 0) (by omega) (by omega) (by omega)
  replace a1 : ∀ x, (x + 8 < a.addr ∨ a.addr ≤ x) → (x + 16 < e0 ∨ e0 ≤ x + 8) →
      store_word (store_word s2.mem (e0 - 16) (e0 - a.addr + 0 + t))
        (a.addr - 8) (e0 - a.addr + 0) x = s2.mem x := fun a h1 h2 => a1 a (by omega) (by omega)
  replace a3 : ∃ t', (t' = 0 ∨ t' = 2) ∧
      read_word (store_word (store_word s2.mem (e0 - 16) (e0 - a.addr + 0 + t))
        (a.addr - 8) (e0 - a.addr + 0)) (e0 - 16) = e0 - a.addr + t' := ⟨t, ht1, a3⟩
  have a4 : ∀ d ∈ [a, b], d.alloc = false := by
    intro d hd; simp at hd; rcases hd with rfl | rfl <;> assumption
  have a5 : ∀ d ∈ [a, b], ∀ k, d.addr ∉ ch2 k := fun d hd => i2.2 d hd
  have a6 : ∀ d ∈ bs, d.alloc = false → d ∉ [a, b] → d.addr ∈ ch2 (seg_index d.size) :=
    fun d hd hdf hdm => i2.1 d hd hdf hdm
  have a7 : ∀ d, pre'.getLast? = some d → d.alloc = true := by
    intro d hd
    rcases list_nil_or_snoc pre' with rfl | ⟨init, z, rfl⟩
    · simp at hd
    · simp at hd; subst hd
      have h1 : NoAdjFree ([z] ++ [a]) := by
        have := @noadj_right init ([z] ++ [a]) (by simpa using hnpre)
        exact this
      rcases (List.chain'_cons.1 h1).1 with h2 | h2
      · exact h2
      · rw [haf] at h2; cases h2
  obtain ⟨s', ch', f1, f2, f3, f4, f5⟩ := merge_finish w2 hbs' (by simp) hc1 hc2 hc3 a4 a5 a6
    (noadj_left hnpre) hnpost a7 hna a1 a2 a3
  rw [f1]
  exact ⟨s', ch', e0, hc2, rfl, f2, f3, f4, f5⟩

theorem bc_case_prev (h : WF K G s bs ch) (hcomp : Complete bs ch) {pre' post : List Blk}
    {a b : Blk} (hbs : bs = pre' ++ [a] ++ b :: post) (haf : a.alloc = false)
    (hbf : b.alloc = false)
    (hnpre : NoAdjFree (pre' ++ [a])) (hnpost : NoAdjFree post)
    (hna : ∀ c, post.head? = some c → c.alloc = true)
    (ht : read_tag s.mem (header_ptr (prev_blockptr s.mem b.addr)) = 0)
    (hp : fetch_alloc s.mem (header_ptr (prev_blockptr s.mem b.addr)) = 0)
    (hn : fetch_alloc s.mem (header_ptr (next_blockptr s.mem b.addr)) = 1) :
    CoalescedTo K G s bs b (block_coalescing s b.addr) := by
  have ha : a ∈ bs := by rw [hbs]; simp
  have hb : b ∈ bs := by rw [hbs]; simp
  have hab := core_bounds h.1 ha
  have hbs' : bs = pre' ++ [a, b] ++ post := by rw [hbs]; simp
  obtain ⟨p0, e0, hc1, hc2, hc3⟩ := core_split h.1 hbs'
  have hba : b.addr = p0 + a.size := hc2.2.1
  have hap : a.addr = p0 := hc2.1
  have hne : a ≠ b := by
    intro e; rw [e] at hap; omega
  have z0 : fetch_size s.mem (header_ptr b.addr) = b.size := blk_fetch_size (h.1.blk b hb)
  obtain ⟨ch1, w1, i1⟩ := del_step h (idx_of_complete hcomp) hb hbf (by simp)
  have n1 : prev_blockptr (node_del s b.addr).mem b.addr = a.addr :=
    blk_prev (w1.1.blk a ha) (by omega)
  obtain ⟨ch2, w2, i2⟩ := del_step w1 i1 ha haf (by simp [hne])
  obtain ⟨s', ch', e, g1, g2, g3, g4, g5, g6⟩ := bc_prev_tail w2 i2 hbs' haf hbf hnpre hnpost hna
  refine ⟨s', ch', pre', [a, b], post, a.addr, e, hbs', by simp, ?_, g1, ?_, ?_, g4, g5, g6⟩
  · intro d hd; simp at hd; rcases hd with rfl | rfl <;> assumption
  · rw [bc_eq_prev s b.addr ht hp hn, n1, z0, g2]
  · simpa using g3

end

section

variable {K : Nat → Prop} {G : Mem} {s : State} {bs : List Blk} {ch : Nat → List Nat}

theorem bc_eq_both (s : State) (ptr : Nat)
    (ht : read_tag s.mem (header_ptr (prev_blockptr s.mem ptr)) = 0)
    (hp : fetch_alloc s.mem (header_ptr (prev_blockptr s.mem ptr)) = 0)
    (hn : fetch_alloc s.mem (header_ptr (next_blockptr s.mem ptr)) = 0) :
    block_coalescing s ptr =
      coalesce_both_tail
        (node_del (node_del (node_del s ptr) (prev_blockptr (node_del s ptr).mem ptr))
          (next_blockptr (node_del (node_del s ptr) (prev_blockptr (node_del s ptr).mem ptr)).mem
            ptr)) ptr (fetch_size s.mem (header_ptr ptr)) := by
  unfold block_coalescing coalesce_both_tail
  simp only [ht, hp, hn, ne_eq, not_true_eq_false, if_false, and_false, and_self, if_true,
    one_ne_zero, and_true, zero_ne_one, false_and] <;> rfl

theorem bc_both_tail {s2 : State} {ch2 : Nat → List Nat} (w2 : WF K G s2 bs ch2)
    {pre' post' : List Blk} {a b c : Blk} (i2 : IdxExcept bs ch2 [a, b, c])
    (hbs' : bs = pre' ++ [a, b, c] ++ post') (haf : a.alloc = false) (hbf : b.alloc = false)
    (hcf : c.alloc = false)
    (hnpre : NoAdjFree (pre' ++ [a])) (hnpost : NoAdjFree (c :: post')) :
    ∃ s' ch' e, Contig a.addr [a, b, c] e ∧
      coalesce_both_tail s2 b.addr b.size = some (a.addr, s') ∧
      (s'.brk = s2.brk ∧ s'.heap_ptr = s2.heap_ptr ∧ s'.cap = s2.cap ∧ s'.lo = s2.lo) ∧
      WF K G s' (pre' ++ [⟨a.addr, e - a.addr, false⟩] ++ post') ch' ∧
      Complete (pre' ++ [⟨a.addr, e - a.addr, false⟩] ++ post') ch' ∧
      NoAdjFree (pre' ++ [⟨a.addr, e - a.addr, false⟩] ++ post') := by
  have ha : a ∈ bs := by rw [hbs']; simp
  have hb : b ∈ bs := by rw [hbs']; simp
  have hcm : c ∈ bs := by rw [hbs']; simp
  obtain ⟨p0, e0, hc1, hc2, hc3⟩ := core_split w2.1 hbs'
  have hap : a.addr = p0 := hc2.1
  subst hap
  have oka := w2.1.blk a ha
  have okb := w2.1.blk b hb
  have okc := w2.1.blk c hcm
  have n2 : prev_blockptr s2.mem b.addr = a.addr := blk_prev oka hc2.2.1.symm
  have n2' : next_blockptr s2.mem b.addr = c.addr := by
    have h4 : b.addr = a.addr + a.size := hc2.2.1
    have h5 : c.addr = a.addr + a.size + b.size := hc2.2.2.1
    rw [blk_next okb]; omega
  have z2 : fetch_size s2.mem (a.addr - 8) = a.size := blk_fetch_size oka
  have z2' : fetch_size s2.mem (c.addr - 8) = c.size := blk_fetch_size okc
  have zb : fetch_size s2.mem (b.addr - 8) = b.size := blk_fetch_size okb
  have t2 : read_tag s2.mem (a.addr - 8) = 0 := blk_read_tag oka
  -- all the arithmetic in one place
  have num : b.addr = a.addr + a.size ∧ c.addr = a.addr + a.size + b.size ∧
      a.addr + a.size + b.size + c.size = e0 ∧ 32 ≤ a.size ∧ 32 ≤ b.size ∧ 32 ≤ c.size ∧
      a.size % 16 = 0 ∧ b.size % 16 = 0 ∧ c.size % 16 = 0 ∧ 32 ≤ a.addr ∧ e0 < 2 ^ 64 := by
    have h1 := core_bounds w2.1 ha
    have h2 := core_bounds w2.1 hb
    have h3 := core_bounds w2.1 hcm
    have h4 : b.addr = a.addr + a.size := hc2.2.1
    have h5 : c.addr = a.addr + a.size + b.size := hc2.2.2.1
    have h6 : a.addr + a.size + b.size + c.size = e0 := hc2.2.2.2
    omega
  have hsz : (b.size + (a.size + c.size) % SIZE_MOD) % SIZE_MOD = e0 - a.addr := by
    rw [Nat.mod_eq_of_lt (show a.size + c.size < SIZE_MOD by show _ < 2 ^ 64; omega),
      Nat.mod_eq_of_lt (show b.size + (a.size + c.size) < SIZE_MOD by show _ < 2 ^ 64; omega)]
    omega
  have hsz16 : (e0 - a.addr) % 16 = 0 := by omega
  have hw1 := write_word_hdr s2.mem (a.addr - 8) (e0 - a.addr) 0 hsz16 (by omega) t2
  have n3 : next_blockptr (store_word s2.mem (a.addr - 8) (e0 - a.addr + 0)) b.addr = c.addr := by
    rw [next_blockptr_eq, fetch_size_store_other _ _ _ _ (by omega), zb]; omega
  have f3 : footer_ptr (store_word s2.mem (a.addr - 8) (e0 - a.addr + 0)) c.addr = e0 - 16 := by
    rw [footer_ptr_eq, fetch_size_store_other _ _ _ _ (by omega), z2']; omega
  obtain ⟨t, ht1, hw2⟩ : ∃ t, (t = 0 ∨ t = 2) ∧
      write_word (store_word s2.mem (a.addr - 8) (e0 - a.addr + 0)) (e0 - 16)
        (set_word (e0 - a.addr) 0) =
        store_word (store_word s2.mem (a.addr - 8) (e0 - a.addr + 0)) (e0 - 16)
          (e0 - a.addr + 0 + t) :=
    ⟨_, read_tag_cases _ _, write_word_set _ (e0 - 16) (e0 - a.addr) 0 hsz16 (by omega)⟩
  have n4 : prev_blockptr (store_word (store_word s2.mem (a.addr - 8) (e0 - a.addr + 0)) (e0 - 16)
      (e0 - a.addr + 0 + t)) b.addr = a.addr := by
    rw [prev_blockptr_eq, fetch_size_store_other _ _ _ _ (by omega),
      fetch_size_store_other _ _ _ _ (by omega), ← prev_blockptr_eq, n2]
  unfold coalesce_both_tail
  simp only [n2, n2', z2, z2', hsz, header_ptr_eq, hw1, n3, f3, hw2, n4]
  clear hw1 hw2 n2 n2' n3 n4 z2 z2' zb t2 f3
  obtain ⟨a1, a2, a3⟩ := two_stores s2.mem (a.addr - 8) (e0 - a.addr + 0) (e0 - 16)
    (e0 - a.addr + 0 + t) (by omega) (by omega) (by omega)
  replace a1 : ∀ x, (x + 8 < a.addr ∨ a.addr ≤ x) → (x + 16 < e0 ∨ e0 ≤ x + 8) →
      store_word (store_word s2.mem (a.addr - 8) (e0 - a.addr + 0)) (e0 - 16)
        (e0 - a.addr + 0 + t) x = s2.mem x := fun a h1 h2 => a1 a (by omega) (by omega)
  replace a3 : ∃ t', (t' = 0 ∨ t' = 2) ∧
      read_word (store_word (store_word s2.mem (a.addr - 8) (e0 - a.addr + 0)) (e0 - 16)
        (e0 - a.addr + 0 + t)) (e0 - 16) = e0 - a.addr + t' := ⟨t, ht1, a3⟩
  clear num hsz hsz16
  have a4 : ∀ d ∈ [a, b, c], d.alloc = false := by
    intro d hd; simp at hd; rcases hd with rfl | rfl | rfl <;> assumption
  have a5 : ∀ d ∈ [a, b, c], ∀ k, d.addr ∉ ch2 k := fun d hd => i2.2 d hd
  have a6 : ∀ d ∈ bs, d.alloc = false → d ∉ [a, b, c] → d.addr ∈ ch2 (seg_index d.size) :=
    fun d hd hdf hdm => i2.1 d hd hdf hdm
  have a7 : ∀ d, pre'.getLast? = some d → d.alloc = true := by
    intro d hd
    rcases list_nil_or_snoc pre' with rfl | ⟨init, z, rfl⟩
    · simp at hd
    · simp at hd; subst hd
      have h1 : NoAdjFree ([z] ++ [a]) := by
        have := @noadj_right init ([z] ++ [a]) (by simpa using hnpre)
        exact this
      rcases (List.chain'_cons.1 h1).1 with h2 | h2
      · exact h2
      · rw [haf] at h2; cases h2
  have a8 : ∀ d, post'.head? = some d → d.alloc = true := by
    intro d hd
    rcases post' with _ | ⟨d', r⟩
    · simp at hd
    · simp at hd; subst hd
      rcases (List.chain'_cons.1 hnpost).1 with h2 | h2
      · rw [hcf] at h2; cases h2
      · exact h2
  obtain ⟨s', ch', f1, f2, f3, f4, f5⟩ := merge_finish w2 hbs' (by simp) hc1 hc2 hc3 a4 a5 a6
    (noadj_left hnpre) (@noadj_right [c] _ hnpost) a7 a8 a1 a2 a3
  rw [f1]
  exact ⟨s', ch', e0, hc2, rfl, f2, f3, f4, f5⟩

end

section

variable {K : Nat → Prop} {G : Mem} {s : State} {bs : List Blk} {ch : Nat → List Nat}

theorem bc_case_both (h : WF K G s bs ch) (hcomp : Complete bs ch) {pre' post' : List Blk}
    {a b c : Blk} (hbs : bs = pre' ++ [a] ++ b :: c :: post') (haf : a.alloc = false)
    (hbf : b.alloc = false) (hcf : c.alloc = false)
    (hnpre : NoAdjFree (pre' ++ [a])) (hnpost : NoAdjFree (c :: post'))
    (ht : read_tag s.mem (header_ptr (prev_blockptr s.mem b.addr)) = 0)
    (hp : fetch_alloc s.mem (header_ptr (prev_blockptr s.mem b.addr)) = 0)
    (hn : fetch_alloc s.mem (header_ptr (next_blockptr s.mem b.addr)) = 0) :
    CoalescedTo K G s bs b (block_coalescing s b.addr) := by
  have ha : a ∈ bs := by rw [hbs]; simp
  have hb : b ∈ bs := by rw [hbs]; simp
  have hcm : c ∈ bs := by rw [hbs]; simp
  have hbs' : bs = pre' ++ [a, b, c] ++ post' := by rw [hbs]; simp
  obtain ⟨p0, e0, hc1, hc2, hc3⟩ := core_split h.1 hbs'
  have num : b.addr = a.addr + a.size ∧ c.addr = b.addr + b.size ∧ 32 ≤ a.size ∧
      32 ≤ b.size := by
    have h1 := core_bounds h.1 ha
    have h2 := core_bounds h.1 hb
    have h0 : a.addr = p0 := hc2.1
    have h4 : b.addr = p0 + a.size := hc2.2.1
    have h5 : c.addr = p0 + a.size + b.size := hc2.2.2.1
    omega
  have hne1 : a ≠ b := by
    intro e; rw [e] at num; omega
  have hne2 : b ≠ c := by
    intro e; rw [e] at num; omega
  have hne3 : a ≠ c := by
    intro e; rw [e] at num; omega
  have z0 : fetch_size s.mem (header_ptr b.addr) = b.size := blk_fetch_size (h.1.blk b hb)
  obtain ⟨ch1, w1, i1⟩ := del_step h (idx_of_complete hcomp) hb hbf (by simp)
  have n1 : prev_blockptr (node_del s b.addr).mem b.addr = a.addr :=
    blk_prev (w1.1.blk a ha) num.1.symm
  obtain ⟨ch2, w2, i2⟩ := del_step w1 i1 ha haf (by simp [hne1])
  have n2 : next_blockptr (node_del (node_del s b.addr) a.addr).mem b.addr = c.addr := by
    rw [blk_next (w2.1.blk b hb)]; exact num.2.1.symm
  obtain ⟨ch3, w3, i3⟩ := del_step w2 i2 hcm hcf (by simp [hne2.symm, hne3.symm])
  have i3' : IdxExcept bs ch3 [a, b, c] := by
    refine ⟨fun d hd hdf hdm => i3.1 d hd hdf ?_, fun d hd => i3.2 d ?_⟩
    · simp at hdm ⊢; tauto
    · simp at hd ⊢; tauto
  obtain ⟨s', ch', e, g1, g2, g3, g4, g5, g6⟩ :=
    bc_both_tail w3 i3' hbs' haf hbf hcf hnpre hnpost
  refine ⟨s', ch', pre', [a, b, c], post', a.addr, e, hbs', by simp, ?_, g1, ?_, ?_, g4, g5, g6⟩
  · intro d hd; simp at hd; rcases hd with rfl | rfl | rfl <;> assumption
  · rw [bc_eq_both s b.addr ht hp hn, n1, n2, z0, g2]
  · simpa using g3

theorem bc_case_none (h : WF K G s bs ch) (hcomp : Complete bs ch) {pre post : List Blk}
    {b : Blk} (hbs : bs = pre ++ b :: post) (hbf : b.alloc = false)
    (hnpre : NoAdjFree pre) (hnpost : NoAdjFree post)
    (hpa : ∀ a, pre.getLast? = some a → a.alloc = true)
    (hna : ∀ c, post.head? = some c → c.alloc = true)
    (ht : read_tag s.mem (header_ptr (prev_blockptr s.mem b.addr)) = 0)
    (hp : fetch_alloc s.mem (header_ptr (prev_blockptr s.mem b.addr)) = 1)
    (hn : fetch_alloc s.mem (header_ptr (next_blockptr s.mem b.addr)) = 1) :
    CoalescedTo K G s bs b (block_coalescing s b.addr) := by
  have hbs' : bs = pre ++ [b] ++ post := by rw [hbs]; simp
  obtain ⟨p0, e0, hc1, hc2, hc3⟩ := core_split h.1 hbs'
  have hbp : b.addr = p0 := hc2.1
  subst hbp
  have he : b.addr + b.size = e0 := hc2.2
  subst he
  have hbe := blk_eta b hbf
  refine ⟨s, ch, pre, [b], post, b.addr, b.addr + b.size, hbs', by simp, ?_, hc2, ?_,
    ⟨rfl, rfl, rfl, rfl⟩, ?_, ?_, ?_⟩
  · intro d hd; simp at hd; rw [hd]; exact hbf
  · unfold block_coalescing
    simp [ht, hp, hn]
  · rw [hbe, ← hbs']; exact h
  · rw [hbe, ← hbs']; exact hcomp
  · rw [hbe, List.append_assoc]
    exact chain'_snoc_cons hnpre hnpost (fun a ha => Or.inl (hpa a ha))
      (fun c hc => Or.inr (hna c hc))

/-- The function `block_coalescing` on a free, indexed block merges it with its free
neighbours and keeps the heap well formed. -/
theorem block_coalescing_spec (h : WF K G s bs ch) (hcomp : Complete bs ch)
    {pre post : List Blk} {b : Blk} (hbs : bs = pre ++ b :: post) (hbf : b.alloc = false)
    (hnpre : NoAdjFree pre) (hnpost : NoAdjFree post) :
    CoalescedTo K G s bs b (block_coalescing s b.addr) := by
  obtain ⟨ht, hprev⟩ := prev_facts h.1 hbs
  obtain ⟨-, hnext⟩ := next_facts h.1 hbs
  rcases hprev with ⟨pre', a, rfl, haf, -, hp⟩ | ⟨hpa, hp⟩ <;>
    rcases hnext with ⟨c, post', rfl, hcf, -, hn⟩ | ⟨hna, hn⟩
  · exact bc_case_both h hcomp hbs haf hbf hcf hnpre hnpost ht hp hn
  · exact bc_case_prev h hcomp hbs haf hbf hnpre hnpost hna ht hp hn
  · exact bc_case_next h hcomp hbs hbf hcf hnpre hnpost hpa ht hp hn
  · exact bc_case_none h hcomp hbs hbf hnpre hnpost hpa hna ht hp hn

end

section

variable {K : Nat → Prop} {G : Mem} {s : State} {bs : List Blk} {ch : Nat → List Nat}

/-! ## `insert_block` -/

theorem tag_mem_other (m : Mem) (p sz a t x : Nat) (h8 : 8 ≤ p) (h16 : 16 ≤ sz)
    (h1 : x + 8 < p ∨ p ≤ x)
    (h2 : x + 16 < p + sz ∨ p + sz ≤ x + 8) : tag_mem m p sz a t x = m x := by
  unfold tag_mem
  rw [store_word_other _ _ _ _ (by omega), store_word_other _ _ _ _ (by omega)]

theorem tag_mem_blk (m : Mem) (p sz t : Nat) (a : Bool) (h8 : 8 ≤ p) (h32 : 32 ≤ sz)
    (h16 : sz % 16 = 0) (hlt : p + sz < 2 ^ 64) (ht : t = 0 ∨ t = 2) :
    BlkOK (tag_mem m p sz a.toNat t) ⟨p, sz, a⟩ := by
  have ha := toNat_le_one a
  obtain ⟨_, h2, h3⟩ := two_stores m (p - 8) (sz + a.toNat) (p + sz - 16) (sz + a.toNat + t)
    (by omega) (by omega) (by omega)
  exact ⟨h32, h16, h2, t, ht, h3⟩

theorem tag_mem_hdr (m : Mem) (p sz a t : Nat) (h8 : 8 ≤ p) (h32 : 32 ≤ sz)
    (hlt : sz + a + t < 2 ^ 64) : read_word (tag_mem m p sz a t) (p - 8) = sz + a :=
  (two_stores m (p - 8) (sz + a) (p + sz - 16) (sz + a + t) (by omega) (by omega) (by omega)).2.1

theorem tags_write (m : Mem) (p sz a : Nat) (hsz : sz % 16 = 0) (ha : a ≤ 1)
    (hlt : sz + 3 < 2 ^ 64) (ht : read_tag m (header_ptr p) = 0) :
    ∃ t, (t = 0 ∨ t = 2) ∧
      write_word (write_word m (header_ptr p) (set_word sz a))
        (footer_ptr (write_word m (header_ptr p) (set_word sz a)) p) (set_word sz a)
      = tag_mem m p sz a t :=
  tags_hdr_ftr m p sz a hsz ha hlt ht

theorem tags_write_no_tag (m : Mem) (p sz a : Nat) (hsz : sz % 16 = 0) (ha : a ≤ 1)
    (hlt : sz + 3 < 2 ^ 64) :
    write_no_tag (write_no_tag m (header_ptr p) (set_word sz a))
        (footer_ptr (write_no_tag m (header_ptr p) (set_word sz a)) p) (set_word sz a)
      = tag_mem m p sz a 0 :=
  tags_hdr_ftr_no_tag m p sz a hsz ha hlt

theorem noadj_split {pre post : List Blk} {b : Blk} (h : NoAdjFree (pre ++ b :: post))
    (hbf : b.alloc = false) :
    NoAdjFree pre ∧ NoAdjFree post ∧ (∀ a, pre.getLast? = some a → a.alloc = true) ∧
      (∀ c, post.head? = some c → c.alloc = true) := by
  refine ⟨noadj_left h, @noadj_right [b] _ (noadj_right h), ?_, ?_⟩
  · intro a ha
    rcases list_nil_or_snoc pre with rfl | ⟨init, z, rfl⟩
    · simp at ha
    · simp at ha; subst ha
      have h1 : NoAdjFree ([z] ++ b :: post) := by
        have := @noadj_right init ([z] ++ b :: post) (by simpa using h)
        exact this
      rcases (List.chain'_cons.1 h1).1 with h2 | h2
      · exact h2
      · rw [hbf] at h2; cases h2
  · intro c hc
    rcases post with _ | ⟨d', r⟩
    · simp at hc
    · simp at hc; subst hc
      have h1 : NoAdjFree (b :: d' :: r) := noadj_right h
      rcases (List.chain'_cons.1 h1).1 with h2 | h2
      · rw [hbf] at h2; cases h2
      · exact h2

theorem insert_block_eq (s : State) (ptr adj : Nat) :
    insert_block s ptr adj =
      insert_block_tail (node_del s ptr) ptr (fetch_size s.mem (header_ptr ptr)) adj := rfl

end

section

variable {K : Nat → Prop} {G : Mem} {s : State} {bs : List Blk} {ch : Nat → List Nat}

theorem complete_rewrite (hc : Core K G s bs) {pre mid mid' post : List Blk}
    (hbs : bs = pre ++ mid ++ post) {D : List Blk} (hidx : IdxExcept bs ch D)
    (hD : ∀ d ∈ D, d ∈ mid) {ch' : Nat → List Nat}
    (hmid' : ∀ d ∈ mid', d.alloc = false → d.addr ∈ ch' (seg_index d.size))
    (hch : ∀ k e, e ∈ ch k → e ∈ ch' k) : Complete (pre ++ mid' ++ post) ch' := by
  obtain ⟨p, e, h1, h2, h3⟩ := core_split hc hbs
  intro d hd hdf
  simp only [List.mem_append] at hd
  rcases hd with (hd | hd) | hd
  · apply hch
    have hdb : d ∈ bs := by rw [hbs]; simp [hd]
    apply hidx.1 d hdb hdf
    intro hdD
    have := contig_mem h1 hd
    have := contig_mem h2 (hD d hdD)
    have := core_pos hc d hdb
    omega
  · exact hmid' d hd hdf
  · apply hch
    have hdb : d ∈ bs := by rw [hbs]; simp [hd]
    apply hidx.1 d hdb hdf
    intro hdD
    have := contig_mem h3 hd
    have := contig_mem h2 (hD d hdD)
    have := core_pos hc d (hbs ▸ (by simp [hD d hdD] : d ∈ pre ++ mid ++ post))
    omega

theorem rem_size_eq (tot adj : Nat) (h1 : adj ≤ tot) (h2 : tot < 2 ^ 64) :
    (tot + SIZE_MOD - adj) % SIZE_MOD = tot - adj := by
  show (tot + 2 ^ 64 - adj) % 2 ^ 64 = tot - adj
  omega

/-- Placement without a split. -/
theorem ib_whole {s1 : State} {ch1 : Nat → List Nat} (w1 : WF K G s1 bs ch1)
    {pre post : List Blk} {b : Blk} (i1 : IdxExcept bs ch1 [b])
    (hbs : bs = pre ++ [b] ++ post) (hbf : b.alloc = false)
    (hnpre : NoAdjFree pre) (hnpost : NoAdjFree post)
    {adj : Nat} (hadj : adj ≤ b.size) (hrem : b.size - adj < 32) :
    Placed K G s1 pre post b adj (insert_block_tail s1 b.addr b.size adj) := by
  have hb : b ∈ bs := by rw [hbs]; simp
  have hbb := core_bounds w1.1 hb
  obtain ⟨p0, e0, hc1, hc2, hc3⟩ := core_split w1.1 hbs
  have hbp : b.addr = p0 := hc2.1
  subst hbp
  have he : b.addr + b.size = e0 := hc2.2
  subst he
  have t1 : read_tag s1.mem (header_ptr b.addr) = 0 := blk_read_tag (w1.1.blk b hb)
  obtain ⟨t, ht, hM⟩ := tags_write s1.mem b.addr b.size 1 (by omega) (by omega) (by omega) t1
  have hr := rem_size_eq b.size adj hadj (by omega)
  have e1 : insert_block_tail s1 b.addr b.size adj =
      some (b.addr, { s1 with mem := tag_mem s1.mem b.addr b.size 1 t }) := by
    unfold insert_block_tail
    simp only [hr, hM]
    rw [if_pos (by show b.size - adj < 32; exact hrem)]
  clear hM t1 hr
  have hmid' : Contig b.addr [(⟨b.addr, b.size, true⟩ : Blk)] (b.addr + b.size) := ⟨rfl, rfl⟩
  have hwf : WF K G { s1 with mem := tag_mem s1.mem b.addr b.size 1 t }
      (pre ++ [⟨b.addr, b.size, true⟩] ++ post) ch1 := by
    apply wf_rewrite w1 hbs hc1 hmid' hc3
    · intro a ha; exact tag_mem_other _ _ _ _ _ _ (by omega) (by omega) (by omega) (by omega)
    · intro a ha; exact tag_mem_other _ _ _ _ _ _ (by omega) (by omega) (by omega) (by omega)
    · intro d hd
      rw [List.mem_singleton.1 hd]
      exact tag_mem_blk _ _ _ _ true (by omega) (by omega) (by omega) (by omega) ht
    · intro c hcm hca
      rw [List.mem_singleton.1 hcm, hbf] at hca
      cases hca
    · intro c hcm
      exact i1.2 c hcm
  refine ⟨_, ch1, [⟨b.addr, b.size, true⟩], ⟨b.addr, b.size, true⟩, e1, ⟨rfl, rfl, rfl, rfl⟩,
    hwf, ?_, ?_, hmid', by simp, rfl, hadj, Or.inl ⟨rfl, hrem⟩⟩
  · apply complete_rewrite w1.1 hbs i1 (fun d hd => hd) _ (fun k e he => he)
    intro d hd hdf
    rw [List.mem_singleton.1 hd] at hdf
    cases hdf
  · rw [List.append_assoc]
    exact chain'_snoc_cons hnpre hnpost (fun a _ => Or.inr rfl) (fun c _ => Or.inl rfl)

end

section

variable {K : Nat → Prop} {G : Mem} {s : State} {bs : List Blk} {ch : Nat → List Nat}

theorem next_tag_mem (m : Mem) (p sz a t : Nat) (h8 : 8 ≤ p) (h32 : 32 ≤ sz)
    (h16 : sz % 16 = 0) (ha : a ≤ 1) (hlt : sz + a + t < 2 ^ 64) :
    next_blockptr (tag_mem m p sz a t) p = p + sz := by
  rw [next_blockptr_eq, fetch_size_eq, tag_mem_hdr m p sz a t h8 h32 hlt]
  omega

/-- The memory after the tags of two adjacent blocks were written. -/
theorem split_mem_facts (m : Mem) (p sz1 sz2 t : Nat) (a1 a2 : Bool) (h8 : 8 ≤ p)
    (h1 : 32 ≤ sz1) (h2 : 32 ≤ sz2) (h3 : sz1 % 16 = 0) (h4 : sz2 % 16 = 0)
    (hlt : p + sz1 + sz2 < 2 ^ 64) (ht : t = 0 ∨ t = 2) :
    BlkOK (tag_mem (tag_mem m p sz1 a1.toNat t) (p + sz1) sz2 a2.toNat 0) ⟨p, sz1, a1⟩ ∧
    BlkOK (tag_mem (tag_mem m p sz1 a1.toNat t) (p + sz1) sz2 a2.toNat 0) ⟨p + sz1, sz2, a2⟩ ∧
    ∀ x, (x + 8 < p ∨ p + sz1 + sz2 ≤ x + 8) →
      tag_mem (tag_mem m p sz1 a1.toNat t) (p + sz1) sz2 a2.toNat 0 x = m x := by
  refine ⟨?_, ?_, ?_⟩
  · apply blk_frame (tag_mem_blk m p sz1 t a1 h8 h1 h3 (by omega) ht)
    intro x hx
    apply tag_mem_other _ _ _ _ _ _ (by omega) (by omega)
    · show x + 8 < p + sz1 ∨ p + sz1 ≤ x
      simp only at hx
      omega
    · show x + 16 < p + sz1 + sz2 ∨ p + sz1 + sz2 ≤ x + 8
      simp only at hx
      omega
  · exact tag_mem_blk _ (p + sz1) sz2 0 a2 (by omega) h2 h4 (by omega) (Or.inl rfl)
  · intro x hx
    rw [tag_mem_other _ _ _ _ _ _ (by omega) (by omega) (by omega) (by omega),
      tag_mem_other _ _ _ _ _ _ (by omega) (by omega) (by omega) (by omega)]

/-- The four tag writes of a split, in terms of `tag_mem`. -/
theorem split_writes (m : Mem) (p sz1 sz2 a1 a2 : Nat) (h8 : 8 ≤ p)
    (h1 : 32 ≤ sz1) (h2 : 32 ≤ sz2) (h3 : sz1 % 16 = 0) (h4 : sz2 % 16 = 0)
    (ha1 : a1 ≤ 1) (ha2 : a2 ≤ 1)
    (hlt : p + sz1 + sz2 < 2 ^ 64) (ht : read_tag m (header_ptr p) = 0) :
    ∃ t, (t = 0 ∨ t = 2) ∧
      (let m1 := write_word m (header_ptr p) (set_word sz1 a1)
       let m2 := write_word m1 (footer_ptr m1 p) (set_word sz1 a1)
       let m3 := write_no_tag m2 (header_ptr (next_blockptr m2 p)) (set_word sz2 a2)
       write_no_tag m3 (footer_ptr m3 (next_blockptr m3 p)) (set_word sz2 a2))
      = tag_mem (tag_mem m p sz1 a1 t) (p + sz1) sz2 a2 0 := by
  obtain ⟨t, ht', hM⟩ := tags_write m p sz1 a1 h3 ha1 (by omega) ht
  refine ⟨t, ht', ?_⟩
  have hn := next_tag_mem m p sz1 a1 t h8 h1 h3 ha1 (by omega)
  have hn' : next_blockptr (write_no_tag (tag_mem m p sz1 a1 t) (header_ptr (p + sz1))
      (set_word sz2 a2)) p = p + sz1 := by
    rw [write_no_tag_eq, header_ptr_eq, next_blockptr_eq,
      fetch_size_store_other _ _ _ _ (by omega), ← next_blockptr_eq, hn]
  simp only [hM, hn, hn']
  exact tags_write_no_tag _ (p + sz1) sz2 a2 h4 ha2 (by omega)

end

section

variable {K : Nat → Prop} {G : Mem} {s : State} {bs : List Blk} {ch : Nat → List Nat}

/-- Placement with a split, the request in the upper part. -/
theorem ib_upper {s1 : State} {ch1 : Nat → List Nat} (w1 : WF K G s1 bs ch1)
    {pre post : List Blk} {b : Blk} (i1 : IdxExcept bs ch1 [b])
    (hbs : bs = pre ++ [b] ++ post) (hbf : b.alloc = false)
    (hnpre : NoAdjFree pre) (hnpost : NoAdjFree post)
    (hpa : ∀ a, pre.getLast? = some a → a.alloc = true)
    {adj : Nat} (hadj : adj ≤ b.size) (h16 : adj % 16 = 0)
    (hrem : 32 ≤ b.size - adj) (h100 : 100 ≤ adj) :
    Placed K G s1 pre post b adj (insert_block_tail s1 b.addr b.size adj) := by
  have hb : b ∈ bs := by rw [hbs]; simp
  obtain ⟨p0, e0, hc1, hc2, hc3⟩ := core_split w1.1 hbs
  have hbp : b.addr = p0 := hc2.1
  subst hbp
  have he : b.addr + b.size = e0 := hc2.2
  subst he
  have num : 32 ≤ b.addr ∧ b.addr + b.size < 2 ^ 64 ∧ b.size % 16 = 0 ∧
      (b.size - adj) % 16 = 0 ∧ b.addr + (b.size - adj) + adj = b.addr + b.size := by
    have := core_bounds w1.1 hb
    omega
  have t1 : read_tag s1.mem (header_ptr b.addr) = 0 := blk_read_tag (w1.1.blk b hb)
  obtain ⟨t, ht, hM⟩ := split_writes s1.mem b.addr (b.size - adj) adj 0 1 (by omega) hrem
    (by omega) (by omega) h16 (by omega) (by omega) (by omega) t1
  obtain ⟨k1, k2, k3⟩ := split_mem_facts s1.mem b.addr (b.size - adj) adj t false true
    (by omega) hrem (by omega) (by omega) h16 (by omega) ht
  have hr := rem_size_eq b.size adj hadj (by omega)
  have e1 : insert_block_tail s1 b.addr b.size adj =
      (match node_insert { s1 with mem := (tag_mem (tag_mem s1.mem b.addr (b.size - adj) 0 t)
          (b.addr + (b.size - adj)) adj 1 0) } b.addr (b.size - adj) with
      | none => none
      | some s => some (next_blockptr s.mem b.addr, s)) := by
    unfold insert_block_tail
    simp only [hr] at hM ⊢
    rw [if_neg (by show ¬ b.size - adj < 32; omega), if_pos (by show adj ≥ 100; exact h100)]
    simp only [hM]
  clear hM t1 hr
  have hmid' : Contig b.addr [(⟨b.addr, b.size - adj, false⟩ : Blk),
      ⟨b.addr + (b.size - adj), adj, true⟩] (b.addr + b.size) := ⟨rfl, rfl, num.2.2.2.2⟩
  have hwf : WF K G { s1 with mem := (tag_mem (tag_mem s1.mem b.addr (b.size - adj) 0 t)
      (b.addr + (b.size - adj)) adj 1 0) }
      (pre ++ [⟨b.addr, b.size - adj, false⟩, ⟨b.addr + (b.size - adj), adj, true⟩] ++ post)
      ch1 := by
    apply wf_rewrite w1 hbs hc1 hmid' hc3
    · intro a ha; exact k3 a (by omega)
    · intro a ha; exact k3 a (by omega)
    · intro d hd
      simp only [List.mem_cons, List.mem_singleton, List.not_mem_nil, or_false] at hd
      rcases hd with rfl | rfl
      · exact k1
      · exact k2
    · intro c hcm hca
      rw [List.mem_singleton.1 hcm, hbf] at hca
      cases hca
    · intro c hcm
      exact i1.2 c hcm
  clear k1 k2 k3
  obtain ⟨s', ch', f1, f2, f3, f4⟩ := node_insert_spec hwf
    (b := ⟨b.addr, b.size - adj, false⟩) (by simp) rfl (fun k => i1.2 b (by simp) k)
  have hnext : next_blockptr s'.mem b.addr = b.addr + (b.size - adj) :=
    blk_next (f3.1.blk ⟨b.addr, b.size - adj, false⟩ (by simp))
  refine ⟨s', ch', _, ⟨b.addr + (b.size - adj), adj, true⟩, ?_, f2, f3, ?_, ?_, hmid',
    by simp, rfl, le_refl _, Or.inr (Or.inl ⟨rfl, hrem, h100⟩)⟩
  · rw [e1]
    simp only [f1, hnext]
  · apply complete_rewrite w1.1 hbs i1 (fun d hd => hd) _ (fun k e he => (f4 k e).2 (Or.inl he))
    intro d hd hdf
    simp only [List.mem_cons, List.mem_singleton, List.not_mem_nil, or_false] at hd
    rcases hd with rfl | rfl
    · exact (f4 _ _).2 (Or.inr ⟨rfl, rfl⟩)
    · cases hdf
  · rw [List.append_assoc]
    apply chain'_snoc_cons hnpre
    · exact List.Chain'.cons' hnpost (fun c _ => Or.inl rfl)
    · intro a ha; exact Or.inl (hpa a ha)
    · intro c hc
      simp at hc
      subst hc
      exact Or.inr rfl

/-- Placement with a split, the request in the lower part. -/
theorem ib_lower {s1 : State} {ch1 : Nat → List Nat} (w1 : WF K G s1 bs ch1)
    {pre post : List Blk} {b : Blk} (i1 : IdxExcept bs ch1 [b])
    (hbs : bs = pre ++ [b] ++ post) (hbf : b.alloc = false)
    (hnpre : NoAdjFree pre) (hnpost : NoAdjFree post)
    (hna : ∀ c, post.head? = some c → c.alloc = true)
    {adj : Nat} (hadj : adj ≤ b.size) (h16 : adj % 16 = 0) (h32 : 32 ≤ adj)
    (hrem : 32 ≤ b.size - adj) (h100 : adj < 100) :
    Placed K G s1 pre post b adj (insert_block_tail s1 b.addr b.size adj) := by
  have hb : b ∈ bs := by rw [hbs]; simp
  obtain ⟨p0, e0, hc1, hc2, hc3⟩ := core_split w1.1 hbs
  have hbp : b.addr = p0 := hc2.1
  subst hbp
  have he : b.addr + b.size = e0 := hc2.2
  subst he
  have num : 32 ≤ b.addr ∧ b.addr + b.size < 2 ^ 64 ∧ b.size % 16 = 0 ∧
      (b.size - adj) % 16 = 0 ∧ b.addr + adj + (b.size - adj) = b.addr + b.size := by
    have := core_bounds w1.1 hb
    omega
  have t1 : read_tag s1.mem (header_ptr b.addr) = 0 := blk_read_tag (w1.1.blk b hb)
  obtain ⟨t, ht, hM⟩ := split_writes s1.mem b.addr adj (b.size - adj) 1 0 (by omega) h32
    hrem h16 (by omega) (by omega) (by omega) (by omega) t1
  obtain ⟨k1, k2, k3⟩ := split_mem_facts s1.mem b.addr adj (b.size - adj) t true false
    (by omega) h32 hrem h16 (by omega) (by omega) ht
  have hr := rem_size_eq b.size adj hadj (by omega)
  have hnext0 : next_blockptr (tag_mem (tag_mem s1.mem b.addr adj 1 t) (b.addr + adj)
      (b.size - adj) 0 0) b.addr = b.addr + adj := blk_next k1
  have e1 : insert_block_tail s1 b.addr b.size adj =
      (match node_insert { s1 with mem := (tag_mem (tag_mem s1.mem b.addr adj 1 t)
          (b.addr + adj) (b.size - adj) 0 0) } (b.addr + adj) (b.size - adj) with
      | none => none
      | some s => some (b.addr, s)) := by
    unfold insert_block_tail
    simp only [hr] at hM ⊢
    rw [if_neg (by show ¬ b.size - adj < 32; omega), if_neg (by show ¬ adj ≥ 100; omega)]
    simp only [hM, hnext0]
  clear hM t1 hr hnext0
  have hmid' : Contig b.addr [(⟨b.addr, adj, true⟩ : Blk),
      ⟨b.addr + adj, b.size - adj, false⟩] (b.addr + b.size) := ⟨rfl, rfl, num.2.2.2.2⟩
  have hwf : WF K G { s1 with mem := (tag_mem (tag_mem s1.mem b.addr adj 1 t)
      (b.addr + adj) (b.size - adj) 0 0) }
      (pre ++ [⟨b.addr, adj, true⟩, ⟨b.addr + adj, b.size - adj, false⟩] ++ post) ch1 := by
    apply wf_rewrite w1 hbs hc1 hmid' hc3
    · intro a ha; exact k3 a (by omega)
    · intro a ha; exact k3 a (by omega)
    · intro d hd
      simp only [List.mem_cons, List.mem_singleton, List.not_mem_nil, or_false] at hd
      rcases hd with rfl | rfl
      · exact k1
      · exact k2
    · intro c hcm hca
      rw [List.mem_singleton.1 hcm, hbf] at hca
      cases hca
    · intro c hcm
      exact i1.2 c hcm
  clear k1 k2 k3
  have hnot : ∀ k, (⟨b.addr + adj, b.size - adj, false⟩ : Blk).addr ∉ ch1 k := by
    intro k hk
    obtain ⟨c, hcm, hc1', -, -⟩ := w1.2.mem_ch k _ hk
    have hc1'' : c.addr = b.addr + adj := hc1'
    have := core_bounds w1.1 hcm
    rcases core_sep w1.1 hcm hb with rfl | h5 | h5 <;> omega
  obtain ⟨s', ch', f1, f2, f3, f4⟩ := node_insert_spec hwf
    (b := ⟨b.addr + adj, b.size - adj, false⟩) (by simp) rfl hnot
  refine ⟨s', ch', _, ⟨b.addr, adj, true⟩, ?_, f2, f3, ?_, ?_, hmid',
    by simp, rfl, le_refl _, Or.inr (Or.inr ⟨rfl, hrem, h100⟩)⟩
  · rw [e1]
    simp only [f1]
  · apply complete_rewrite w1.1 hbs i1 (fun d hd => hd) _ (fun k e he => (f4 k e).2 (Or.inl he))
    intro d hd hdf
    simp only [List.mem_cons, List.mem_singleton, List.not_mem_nil, or_false] at hd
    rcases hd with rfl | rfl
    · cases hdf
    · exact (f4 _ _).2 (Or.inr ⟨rfl, rfl⟩)
  · rw [List.append_assoc]
    apply chain'_snoc_cons hnpre
    · exact List.Chain'.cons' hnpost (fun c hc => Or.inr (hna c hc))
    · intro a ha; exact Or.inr rfl
    · intro c hc
      simp at hc
      subst hc
      exact Or.inl rfl

/-- The function `insert_block` places a request in a free, indexed block that is large
enough, and keeps the heap well formed. -/
theorem insert_block_spec (h : WF K G s bs ch) (hcomp : Complete bs ch) (hno : NoAdjFree bs)
    {pre post : List Blk} {b : Blk} (hbs : bs = pre ++ [b] ++ post) (hbf : b.alloc = false)
    {adj : Nat} (hadj : adj ≤ b.size) (h16 : adj % 16 = 0) (h32 : 32 ≤ adj) :
    Placed K G s pre post b adj (insert_block s b.addr adj) := by
  have hb : b ∈ bs := by rw [hbs]; simp
  have hno' : NoAdjFree (pre ++ b :: post) := by
    rw [hbs] at hno; simpa using hno
  obtain ⟨hnpre, hnpost, hpa, hna⟩ := noadj_split hno' hbf
  obtain ⟨ch1, w1, i1⟩ := del_step h (idx_of_complete hcomp) hb hbf (by simp)
  have z0 : fetch_size s.mem (header_ptr b.addr) = b.size := blk_fetch_size (h.1.blk b hb)
  rw [insert_block_eq, z0]
  have key : Placed K G (node_del s b.addr) pre post b adj
      (insert_block_tail (node_del s b.addr) b.addr b.size adj) := by
    by_cases hrem : b.size - adj < 32
    · exact ib_whole w1 i1 hbs hbf hnpre hnpost hadj hrem
    · by_cases h100 : 100 ≤ adj
      · exact ib_upper w1 i1 hbs hbf hnpre hnpost hpa hadj h16 (by omega) h100
      · exact ib_lower w1 i1 hbs hbf hnpre hnpost hna hadj h16 h32 (by omega) (by omega)
  obtain ⟨s', ch', mid', nb, g1, g2, g3⟩ := key
  exact ⟨s', ch', mid', nb, g1, by simpa using g2, g3⟩

end

section

variable {K : Nat → Prop} {G : Mem} {s : State} {bs : List Blk} {ch : Nat → List Nat}

/-! ## `heap_extension` -/

theorem esize_eq (size : Nat) (h16 : size % 16 = 0) (hlt : size + 15 < 2 ^ 64) :
    ((size + (ALIGNMENT - 1)) % SIZE_MOD) &&& MASK_SIZE = size := by
  have e : (size + (ALIGNMENT - 1)) % SIZE_MOD = size + 15 := by
    show (size + 15) % 2 ^ 64 = size + 15
    omega
  rw [e, and_mask_size _ hlt]
  omega

theorem extend_writes (m : Mem) (p sz : Nat) (h8 : 8 ≤ p) (h32 : 32 ≤ sz) (h16 : sz % 16 = 0)
    (hlt : sz + 3 < 2 ^ 64) :
    (let m1 := write_no_tag m (header_ptr p) (set_word sz 0)
     let m2 := write_no_tag m1 (footer_ptr m1 p) (set_word sz 0)
     write_no_tag m2 (header_ptr (next_blockptr m2 p)) (set_word 0 1)) = extend_mem m p sz := by
  have hM := tags_write_no_tag m p sz 0 h16 (by omega) hlt
  have hn := next_tag_mem m p sz 0 0 h8 h32 h16 (by omega) (by omega)
  rw [header_ptr_eq] at hM
  simp only [header_ptr_eq, hM, hn]
  rw [write_no_tag_set _ _ 0 1 (by omega) (by omega)]
  rfl

theorem extend_mem_facts (m : Mem) (p sz : Nat) (h8 : 8 ≤ p) (h32 : 32 ≤ sz)
    (h16 : sz % 16 = 0) (hlt : p + sz < 2 ^ 64) :
    BlkOK (extend_mem m p sz) ⟨p, sz, false⟩ ∧ read_word (extend_mem m p sz) (p + sz - 8) = 1 ∧
      ∀ x, x + 8 < p → extend_mem m p sz x = m x := by
  unfold extend_mem
  refine ⟨?_, ?_, ?_⟩
  · apply blk_frame (tag_mem_blk m p sz 0 false h8 h32 h16 hlt (Or.inl rfl))
    intro x hx
    simp only at hx
    exact store_word_other _ _ _ _ (by omega)
  · rw [read_store_same]; rfl
  · intro x hx
    rw [store_word_other _ _ _ _ (by omega),
      tag_mem_other _ _ _ _ _ _ h8 (by omega) (by omega) (by omega)]

/-- Growing the heap by one free block keeps it well formed (the new block is
not yet in a chain). -/
theorem wf_extend (h : WF K G s bs ch) {sz : Nat} (h32 : 32 ≤ sz) (h16 : sz % 16 = 0)
    (hcap : s.brk + sz ≤ s.cap) :
    WF K G { s with brk := s.brk + sz, mem := extend_mem s.mem s.brk sz }
      (bs ++ [⟨s.brk, sz, false⟩]) ch := by
  obtain ⟨hc, hi⟩ := h
  have hbrk := core_brk hc
  have hcl := hc.cap_lt
  obtain ⟨k1, k2, k3⟩ := extend_mem_facts s.mem s.brk sz (by omega) h32 h16 (by omega)
  constructor
  · refine ⟨hc.cap_lt, hcap, hc.lo_eq, ?_, ?_, ?_, ?_, ?_, ?_, ?_⟩
    · exact contig_append.2 ⟨s.brk, hc.contig, rfl, rfl⟩
    · show read_word (extend_mem s.mem s.brk sz) (s.heap_ptr + 8) = 17
      rw [read_word_congr (fun a h1 h2 => k3 a (by omega)), hc.pro_hdr]
    · show read_word (extend_mem s.mem s.brk sz) (s.heap_ptr + 16) = 17
      rw [read_word_congr (fun a h1 h2 => k3 a (by omega)), hc.pro_ftr]
    · show read_word (extend_mem s.mem s.brk sz) (s.brk + sz - 8) = 1
      exact k2
    · intro b hb
      rcases List.mem_append.1 hb with hb | hb
      · have := core_bounds hc hb
        exact blk_frame (hc.blk b hb) (fun a ha => k3 a (by omega))
      · rw [List.mem_singleton.1 hb]
        exact k1
    · intro a ha
      rcases hc.kok a ha with ⟨c, hcm, h1, h2, h3⟩ | hpad
      · exact Or.inl ⟨c, List.mem_append_left _ hcm, h1, h2, h3⟩
      · exact Or.inr hpad
    · intro a ha
      show extend_mem s.mem s.brk sz a = G a
      have hb0 := core_brk hc
      rcases hc.kok a ha with ⟨c, hcm, h1, h2, h3⟩ | hpad
      · have := core_bounds hc hcm
        rw [k3 a (by omega)]
        exact hc.keep a ha
      · rw [k3 a (by omega)]
        exact hc.keep a ha
  · refine ⟨hi.heads, ?_, ?_, hi.nodup⟩
    · intro k
      apply dll_frame (hi.dll k)
      intro x hx a h1 h2
      have := index_bounds hc hi hx
      exact k3 a (by omega)
    · intro k x hx
      obtain ⟨b, hb, h1, h2, h3⟩ := hi.mem_ch k x hx
      exact ⟨b, List.mem_append_left _ hb, h1, h2, h3⟩

theorem heap_extension_eq (s : State) (size : Nat) :
    heap_extension s size =
      match mem_sbrk s (((size + (ALIGNMENT - 1)) % SIZE_MOD) &&& MASK_SIZE) with
      | none => some (0, s)
      | some (ptr, s1) =>
        heap_extension_tail s1 ptr (((size + (ALIGNMENT - 1)) % SIZE_MOD) &&& MASK_SIZE) := by
  unfold heap_extension heap_extension_tail
  rfl

theorem heap_extension_fail (s : State) (size : Nat) (h16 : size % 16 = 0)
    (hlt : size + 15 < 2 ^ 64) (hcap : ¬ s.brk + size ≤ s.cap) :
    heap_extension s size = some (0, s) := by
  rw [heap_extension_eq, esize_eq size h16 hlt]
  unfold mem_sbrk
  rw [if_neg hcap]

/-- A successful `heap_extension` appends a free block of the requested size,
merged with a free last block. -/
theorem heap_extension_spec (h : WF K G s bs ch) (hcomp : Complete bs ch) (hno : NoAdjFree bs)
    {size : Nat} (h32 : 32 ≤ size) (h16 : size % 16 = 0) (hcap : s.brk + size ≤ s.cap) :
    CoalescedTo K G { s with brk := s.brk + size } (bs ++ [⟨s.brk, size, false⟩])
      ⟨s.brk, size, false⟩ (heap_extension s size) := by
  have hbrk := core_brk h.1
  have hcl := h.1.cap_lt
  have hM := extend_writes s.mem s.brk size (by omega) h32 h16 (by omega)
  have e1 : heap_extension s size =
      match node_insert { s with brk := s.brk + size, mem := extend_mem s.mem s.brk size }
        s.brk size with
      | none => none
      | some s' => block_coalescing s' s.brk := by
    rw [heap_extension_eq, esize_eq size h16 (by omega)]
    unfold mem_sbrk heap_extension_tail
    rw [if_pos hcap]
    simp only [hM]
  clear hM
  have w1 := wf_extend h h32 h16 hcap
  have hnot : ∀ k, (⟨s.brk, size, false⟩ : Blk).addr ∉ ch k := by
    intro k hk
    have := index_bounds h.1 h.2 hk
    have e : (⟨s.brk, size, false⟩ : Blk).addr = s.brk := rfl
    omega
  obtain ⟨s2, ch2, f1, f2, f3, f4⟩ := node_insert_spec w1 (b := ⟨s.brk, size, false⟩)
    (by simp) rfl hnot
  have hcomp2 : Complete (bs ++ [⟨s.brk, size, false⟩]) ch2 := by
    intro d hd hdf
    rw [f4]
    rcases List.mem_append.1 hd with hd | hd
    · exact Or.inl (hcomp d hd hdf)
    · rw [List.mem_singleton.1 hd]
      exact Or.inr ⟨rfl, rfl⟩
  have hbs2 : bs ++ [(⟨s.brk, size, false⟩ : Blk)] = bs ++ (⟨s.brk, size, false⟩ : Blk) :: [] :=
    rfl
  have key := block_coalescing_spec f3 hcomp2 hbs2 rfl hno List.chain'_nil
  rw [e1, f1]
  obtain ⟨s', ch', pre', mid, post', p, e, g1, g2, g3, g4, g5, g6, g7⟩ := key
  refine ⟨s', ch', pre', mid, post', p, e, g1, g2, g3, g4, g5, ?_, g7⟩
  obtain ⟨a1, a2, a3, a4⟩ := g6
  obtain ⟨b1, b2, b3, b4⟩ := f2
  exact ⟨a1.trans b1, a2.trans b2, a3.trans b3, a4.trans b4⟩

end

section

variable {K : Nat → Prop} {G : Mem} {s : State} {bs : List Blk} {ch : Nat → List Nat}

/-! ## The search of `malloc` -/

theorem fit_scan_spec (m : Mem) (adj : Nat) :
    ∀ (l : List Nat) (s0 fuel : Nat), DLLseg m s0 l 0 → l.length < fuel →
      ∃ r, fit_scan fuel m adj (l.headD 0) = some r ∧
        ((r = 0 ∧ ∀ x ∈ l, ¬Fit m adj x) ∨ (r ≠ 0 ∧ r ∈ l ∧ Fit m adj r)) := by
  intro l
  induction l with
  | nil =>
    intro s0 fuel _ hf
    obtain ⟨f, rfl⟩ : ∃ f, fuel = f + 1 := ⟨fuel - 1, by simp at hf; omega⟩
    exact ⟨0, by simp [fit_scan], Or.inl ⟨rfl, by simp⟩⟩
  | cons x r ih =>
    intro s0 fuel hd hf
    obtain ⟨f, rfl⟩ : ∃ f, fuel = f + 1 := ⟨fuel - 1, by simp at hf; omega⟩
    obtain ⟨h0, -, h2, h3⟩ := hd
    by_cases hfit : Fit m adj x
    · refine ⟨x, ?_, Or.inr ⟨h0, by simp, hfit⟩⟩
      have h1 : ¬(adj > fetch_size m (header_ptr x) ∨ read_tag m (header_ptr x) ≠ 0) := by
        rintro (h | h)
        · exact absurd hfit.1 (by omega)
        · exact h hfit.2
      simp [fit_scan, h1]
    · obtain ⟨q, e1, e2⟩ := ih x f h3 (by simp at hf; omega)
      have h1 : adj > fetch_size m (header_ptr x) ∨ read_tag m (header_ptr x) ≠ 0 := by
        by_contra hc
        push_neg at hc
        exact hfit ⟨hc.1, hc.2⟩
      refine ⟨q, ?_, ?_⟩
      · simp only [List.headD_cons, fit_scan, h0, ne_eq, not_false_eq_true, h1, and_self,
          if_true, get_pred_eq, h2]
        exact e1
      · rcases e2 with ⟨e3, e4⟩ | ⟨e3, e4, e5⟩
        · left
          refine ⟨e3, ?_⟩
          intro y hy
          rcases List.mem_cons.1 hy with rfl | hy
          · exact hfit
          · exact e4 y hy
        · right
          exact ⟨e3, List.mem_cons_of_mem _ e4, e5⟩

theorem search_loop_spec (hc : Core K G s bs) (hi : Index s bs ch) (adj : Nat) :
    ∀ (n idx ptr0 : Nat), idx + n = 20 → 0 < n →
      ∃ r, search_loop n s adj idx (adj >>> idx) ptr0 = some r ∧
        ((r = 0 ∧ ∀ k, idx ≤ k → k < 20 → Scanned adj k → ∀ x ∈ ch k, ¬Fit s.mem adj x) ∨
          (r ≠ 0 ∧ ∃ k, r ∈ ch k ∧ Fit s.mem adj r)) := by
  intro n
  induction n with
  | zero => intro idx ptr0 _ h; omega
  | succ n ih =>
    intro idx ptr0 hn _
    have hidx : idx < 20 := by omega
    have hshift : (adj >>> idx) >>> 1 = adj >>> (idx + 1) := by
      rw [← Nat.shiftRight_add]
    obtain ⟨q, e1, e2⟩ := fit_scan_spec s.mem adj (ch idx) 0 s.brk (hi.dll idx)
      (index_length hc hi idx)
    rw [← hi.heads idx hidx] at e1
    by_cases hcond : idx = SEGLIST_SIZE - 1 ∨ (adj >>> idx ≤ 1 ∧ s.seg_freelist idx ≠ 0)
    · -- the bucket is scanned
      rcases e2 with ⟨e3, e4⟩ | ⟨e3, e4, e5⟩
      · subst e3
        by_cases hn0 : n = 0
        · subst hn0
          refine ⟨0, ?_, Or.inl ⟨rfl, ?_⟩⟩
          · simp only [search_loop, hidx, if_true, hcond, e1, ne_eq, not_true_eq_false, if_false]
          · intro k h1 h2 _ x hx
            have : k = idx := by omega
            subst this
            exact e4 x hx
        · obtain ⟨r, f1, f2⟩ := ih (idx + 1) 0 (by omega) (by omega)
          refine ⟨r, ?_, ?_⟩
          · simp only [search_loop, hidx, if_true, hcond, e1, ne_eq, not_true_eq_false, if_false,
              hshift]
            exact f1
          · rcases f2 with ⟨f3, f4⟩ | f3
            · left
              refine ⟨f3, ?_⟩
              intro k h1 h2 h3 x hx
              by_cases hk : k = idx
              · subst hk; exact e4 x hx
              · exact f4 k (by omega) h2 h3 x hx
            · exact Or.inr f3
      · refine ⟨q, ?_, Or.inr ⟨e3, idx, e4, e5⟩⟩
        simp only [search_loop, hidx, if_true, hcond, e1, ne_eq, e3, not_false_eq_true]
    · -- the bucket is skipped
      have hn0 : n ≠ 0 := by
        intro h0
        apply hcond
        left
        show idx = 19
        omega
      obtain ⟨r, f1, f2⟩ := ih (idx + 1) ptr0 (by omega) (by omega)
      refine ⟨r, ?_, ?_⟩
      · simp only [search_loop, hidx, if_true, hcond, if_false, hshift]
        exact f1
      · rcases f2 with ⟨f3, f4⟩ | f3
        · left
          refine ⟨f3, ?_⟩
          intro k h1 h2 h3 x hx
          by_cases hk : k = idx
          · subst hk
            exfalso
            push_neg at hcond
            have h19 : k ≠ 19 := hcond.1
            have hs : adj >>> k ≤ 1 := by
              rcases h3 with h3 | h3
              · exact absurd h3 h19
              · exact h3
            have hz := hcond.2 hs
            rw [hi.heads k hidx] at hz
            cases hl : ch k with
            | nil => rw [hl] at hx; simp at hx
            | cons y t =>
              rw [hl] at hz
              simp at hz
              have := index_bounds hc hi (k := k) (x := y) (by rw [hl]; simp)
              omega
          · exact f4 k (by omega) h2 h3 x hx
        · exact Or.inr f3

theorem seg_loop_bound (k : Nat) : ∀ (n lst size : Nat), (seg_loop n lst size).1 = k →
    lst + n = 19 → k < 19 → lst ≤ k ∧ size < 2 ^ (k + 1 - lst) := by
  intro n
  induction n with
  | zero =>
    intro lst size h1 h2 h3
    simp [seg_loop] at h1
    omega
  | succ n ih =>
    intro lst size h1 h2 h3
    unfold seg_loop at h1
    split_ifs at h1 with hc
    · obtain ⟨g1, g2⟩ := ih (lst + 1) (size >>> 1) h1 (by omega) h3
      refine ⟨by omega, ?_⟩
      have e : k + 1 - lst = (k + 1 - (lst + 1)) + 1 := by omega
      rw [e, Nat.pow_succ]
      rw [Nat.shiftRight_eq_div_pow] at g2
      simp only [pow_one] at g2
      omega
    · simp only at h1
      subst h1
      have : size ≤ 1 := by
        by_contra h
        exact hc ⟨by show lst < 19; omega, by omega⟩
      refine ⟨le_refl _, ?_⟩
      rw [show lst + 1 - lst = 1 by omega]
      omega

theorem seg_index_bound {size k : Nat} (h : seg_index size = k) (hk : k < 19) :
    size < 2 ^ (k + 1) :=
  (seg_loop_bound k 19 0 size h rfl hk).2

theorem not_scanned_small {adj k size : Nat} (h : ¬Scanned adj k) (hs : seg_index size = k) :
    size < adj := by
  unfold Scanned at h
  push_neg at h
  have hk : k < 19 := by
    have := seg_index_lt size
    omega
  have h1 := seg_index_bound hs hk
  have h2 : 2 ≤ adj / 2 ^ k := by
    have := h.2
    rw [Nat.shiftRight_eq_div_pow] at this
    omega
  have h3 := (Nat.le_div_iff_mul_le (Nat.pos_pow_of_pos k (by omega))).1 h2
  rw [Nat.pow_succ] at h1
  omega

/-- The search of `malloc` returns a fitting indexed block, or `NULL` when there
is none. -/
theorem search_spec (h : WF K G s bs ch) (adj : Nat) :
    ∃ r, search_loop SEGLIST_SIZE s adj 0 adj 0 = some r ∧
      ((r = 0 ∧ NoFit s.mem ch adj) ∨
        (r ≠ 0 ∧ ∃ b ∈ bs, b.addr = r ∧ b.alloc = false ∧ adj ≤ b.size)) := by
  obtain ⟨hc, hi⟩ := h
  obtain ⟨r, e1, e2⟩ := search_loop_spec hc hi adj 20 0 0 rfl (by omega)
  refine ⟨r, e1, ?_⟩
  rcases e2 with ⟨e3, e4⟩ | ⟨e3, k, e4, e5⟩
  · left
    refine ⟨e3, ?_⟩
    intro k hk x hx
    by_cases hsc : Scanned adj k
    · exact e4 k (by omega) hk hsc x hx
    · obtain ⟨b, hb, h1, h2, h3⟩ := hi.mem_ch k x hx
      have := not_scanned_small hsc h3
      intro hfit
      have := hfit.1
      rw [← h1, header_ptr_eq, blk_fetch_size (hc.blk b hb)] at this
      omega
  · right
    obtain ⟨b, hb, h1, h2, h3⟩ := hi.mem_ch k r e4
    refine ⟨e3, b, hb, h1, h2, ?_⟩
    have := e5.1
    rwa [← h1, header_ptr_eq, blk_fetch_size (hc.blk b hb)] at this

end

section

variable {K : Nat → Prop} {G : Mem} {s : State} {bs : List Blk} {ch : Nat → List Nat}

/-! ## `malloc` -/

theorem adj_size_eq (size : Nat) (hlt : size + 31 < 2 ^ 64) :
    adj_size size = size + 31 - (size + 31) % 16 := by
  have e : ((size + DOUBLESIZE) % SIZE_MOD + (ALIGNMENT - 1)) % SIZE_MOD = size + 31 := by
    show ((size + 16) % 2 ^ 64 + 15) % 2 ^ 64 = size + 31
    omega
  unfold adj_size
  rw [e, and_mask_size _ hlt]

theorem adj_size_facts (size : Nat) (hsz : 0 < size) (hlt : size + 31 < 2 ^ 64) :
    adj_size size % 16 = 0 ∧ 32 ≤ adj_size size ∧ size + 16 ≤ adj_size size ∧
      adj_size size < size + 32 := by
  rw [adj_size_eq size hlt]
  omega

theorem placed_allocated {s1 : State} {pre post : List Blk} {b : Blk} {adj : Nat}
    {r : Option (Nat × State)} (h : Placed K G s1 pre post b adj r) (hbf : b.alloc = false) :
    ∃ q, r = some q ∧ Allocated K G s1 (pre ++ [b] ++ post) adj q ∧ q.2.brk = s1.brk := by
  obtain ⟨s', ch', mid', nb, g1, g2, g3, g4, g5, g6, g7, g8, g9, g10⟩ := h
  refine ⟨(nb.addr, s'), g1, ⟨pre ++ mid' ++ post, ch', nb, g3, g4, g5, by simp [g7], rfl, g8, g9,
    ?_, ?_, g2.2.1, g2.2.2.1, g2.2.2.2⟩, g2.1⟩
  · obtain ⟨p, e, h1, h2, h3⟩ := core_split g3.1
      (rfl : pre ++ mid' ++ post = pre ++ mid' ++ post)
    have hnb := contig_mem h2 g7
    have hnbpos := core_pos g3.1 nb (by simp [g7])
    intro c hc hca
    simp only [List.mem_append, List.mem_singleton] at hc
    rcases hc with (hc | hc) | hc
    · have := contig_mem h1 hc
      have := core_pos g3.1 c (by simp [hc])
      exact ⟨by simp [hc], by omega⟩
    · rw [hc, hbf] at hca; cases hca
    · have := contig_mem h3 hc
      exact ⟨by simp [hc], by omega⟩
  · intro c hc hca
    simp only [List.mem_append] at hc
    rcases hc with (hc | hc) | hc
    · right; simp [hc]
    · left
      rcases g10 with ⟨e1, -⟩ | ⟨e1, -⟩ | ⟨e1, -⟩
      · rw [e1] at hc g7
        rw [List.mem_singleton.1 hc, List.mem_singleton.1 g7]
      · rw [e1] at hc g7
        simp only [List.mem_cons, List.mem_singleton, List.not_mem_nil, or_false] at hc g7
        rcases hc with rfl | rfl
        · cases hca
        · rcases g7 with rfl | rfl
          · cases g8
          · rfl
      · rw [e1] at hc g7
        simp only [List.mem_cons, List.mem_singleton, List.not_mem_nil, or_false] at hc g7
        rcases hc with rfl | rfl
        · rcases g7 with rfl | rfl
          · rfl
          · cases g8
        · cases hca
    · right; simp [hc]

theorem malloc_eq (s : State) {size r : Nat} (hs : size ≠ 0)
    (e1 : search_loop SEGLIST_SIZE s (adj_size size) 0 (adj_size size) 0 = some r) :
    malloc s size =
      if r = 0 then
        match heap_extension s (adj_size size) with
        | none => none
        | some (ptr, s1) =>
          if ptr = 0 then some (0, s1) else insert_block s1 ptr (adj_size size)
      else insert_block s r (adj_size size) := by
  unfold malloc
  rw [if_neg hs]
  simp only [e1] <;> rfl

/-- The function `malloc` with a valid request: it fails exactly when no indexed block fits
and the heap cannot grow, and leaves the state alone then; otherwise it returns a
new allocated block. -/
theorem malloc_spec (h : WF K G s bs ch) (hcomp : Complete bs ch) (hno : NoAdjFree bs)
    {size : Nat} (hsz : 0 < size) (hlt : size + 31 < 2 ^ 64) :
    (NoFit s.mem ch (adj_size size) ∧ ¬ s.brk + adj_size size ≤ s.cap ∧
        malloc s size = some (0, s)) ∨
    ∃ r, malloc s size = some r ∧ r.1 ≠ 0 ∧ Allocated K G s bs (adj_size size) r ∧
      ((¬NoFit s.mem ch (adj_size size) ∧ r.2.brk = s.brk) ∨
        (NoFit s.mem ch (adj_size size) ∧ s.brk + adj_size size ≤ s.cap ∧
          r.2.brk = s.brk + adj_size size)) := by
  obtain ⟨a16, a32, asz, -⟩ := adj_size_facts size hsz hlt
  have alt : adj_size size + 15 < 2 ^ 64 := by
    rw [adj_size_eq size hlt]; omega
  obtain ⟨p, e1, e2⟩ := search_spec h (adj_size size)
  have hm := malloc_eq s (Nat.pos_iff_ne_zero.1 hsz) e1
  rcases e2 with ⟨rfl, hnf⟩ | ⟨hp0, b, hb, hbp, hbf, hba⟩
  · -- no block fits
    rw [if_pos rfl] at hm
    by_cases hcap : s.brk + adj_size size ≤ s.cap
    · right
      obtain ⟨s1, ch1, pre', mid, post', p, e, g1, g2, g3, g4, g5, g6, g7, g8, g9⟩ :=
        heap_extension_spec h hcomp hno a32 a16 hcap
      have hfb : (⟨p, e - p, false⟩ : Blk) ∈ pre' ++ [⟨p, e - p, false⟩] ++ post' := by simp
      have hfbb := core_bounds g7.1 hfb
      have hmem := contig_mem g4 g2
      have hadj : adj_size size ≤ (⟨p, e - p, false⟩ : Blk).size := by
        show adj_size size ≤ e - p
        have e3 : (⟨s.brk, adj_size size, false⟩ : Blk).addr = s.brk := rfl
        have e4 : (⟨s.brk, adj_size size, false⟩ : Blk).size = adj_size size := rfl
        omega
      have hpl := insert_block_spec g7 g8 g9
        (rfl : pre' ++ [(⟨p, e - p, false⟩ : Blk)] ++ post' = pre' ++ [⟨p, e - p, false⟩] ++ post')
        rfl hadj a16 a32
      obtain ⟨q, q1, ⟨bs', ch', nb, k1, k2, k3, k4, k5, k6, k7, k8, k9, k10⟩, q3⟩ :=
        placed_allocated hpl rfl
      have hp0 : p ≠ 0 := by
        have e3 : (⟨p, e - p, false⟩ : Blk).addr = p := rfl
        omega
      have hq : malloc s size = some q := by
        rw [hm, g5]
        simp only [hp0, if_false]
        exact q1
      have hsub : ∀ c ∈ bs, c.alloc = true → c ∈ pre' ++ [⟨p, e - p, false⟩] ++ post' := by
        intro c hc hca
        have : c ∈ pre' ++ mid ++ post' := by rw [← g1]; simp [hc]
        simp only [List.mem_append] at this ⊢
        rcases this with (h1 | h1) | h1
        · exact Or.inl (Or.inl h1)
        · rw [g3 c h1] at hca; cases hca
        · exact Or.inr h1
      refine ⟨q, hq, ?_, ⟨bs', ch', nb, k1, k2, k3, k4, k5, k6, k7, ?_, ?_, ?_⟩, ?_⟩
      · rw [← k5]
        have := core_bounds k1.1 k4
        omega
      · intro c hc hca
        exact k8 c (hsub c hc hca) hca
      · intro c hc hca
        rcases k9 c hc hca with h1 | h1
        · exact Or.inl h1
        · right
          simp only [List.mem_append, List.mem_singleton] at h1
          have hcc : c ∈ pre' ++ mid ++ post' := by
            simp only [List.mem_append]
            rcases h1 with (h1 | h1) | h1
            · exact Or.inl (Or.inl h1)
            · rw [h1] at hca; cases hca
            · exact Or.inr h1
          rw [← g1] at hcc
          rcases List.mem_append.1 hcc with h2 | h2
          · exact h2
          · rw [List.mem_singleton.1 h2] at hca; cases hca
      · exact ⟨k10.1.trans g6.2.1, k10.2.1.trans g6.2.2.1, k10.2.2.trans g6.2.2.2⟩
      · right
        exact ⟨hnf, hcap, q3.trans g6.1⟩
    · left
      refine ⟨hnf, hcap, ?_⟩
      rw [hm, heap_extension_fail s _ a16 alt hcap]
      simp
  · -- a block fits
    right
    rw [if_neg hp0] at hm
    obtain ⟨pre, post, hbs⟩ := List.append_of_mem hb
    have hbs' : bs = pre ++ [b] ++ post := by rw [hbs]; simp
    have hpl := insert_block_spec h hcomp hno hbs' hbf hba a16 a32
    obtain ⟨q, q1, q2, q3⟩ := placed_allocated hpl hbf
    rw [hbp, ← hm] at q1
    rw [← hbs'] at q2
    refine ⟨q, q1, ?_, q2, Or.inl ⟨?_, q3⟩⟩
    · obtain ⟨bs', ch', nb, k1, k2, k3, k4, k5, -⟩ := q2
      rw [← k5]
      have := core_bounds k1.1 k4
      omega
    · intro hnf
      obtain ⟨k, hk⟩ : ∃ k, b.addr ∈ ch k := ⟨_, hcomp b hb hbf⟩
      have hk20 : k < 20 := by
        obtain ⟨c, -, -, -, h3⟩ := h.2.mem_ch k _ hk
        rw [← h3]; exact seg_index_lt _
      apply hnf k hk20 _ hk
      have hok := h.1.blk b hb
      exact ⟨by rw [header_ptr_eq, blk_fetch_size hok]; exact hba,
        by rw [header_ptr_eq]; exact blk_read_tag hok⟩

end

section

variable {K : Nat → Prop} {G : Mem} {s : State} {bs : List Blk} {ch : Nat → List Nat}

/-! ## `free` -/

theorem free_bytes_append (l1 l2 : List Blk) :
    free_bytes (l1 ++ l2) = free_bytes l1 + free_bytes l2 := by
  simp [free_bytes, List.filter_append, List.map_append, List.sum_append]

theorem free_bytes_nil : free_bytes [] = 0 := rfl

theorem free_bytes_cons (c : Blk) (l : List Blk) :
    free_bytes (c :: l) = (if c.alloc = true then 0 else c.size) + free_bytes l := by
  cases hc : c.alloc <;> simp [free_bytes, List.filter_cons, hc]

theorem free_bytes_contig {p e : Nat} {l : List Blk} (h : Contig p l e)
    (hf : ∀ c ∈ l, c.alloc = false) : p + free_bytes l = e := by
  induction l generalizing p with
  | nil =>
    have : p = e := h
    simp [free_bytes, this]
  | cons c l ih =>
    have hc := hf c (by simp)
    have := ih h.2 (fun d hd => hf d (by simp [hd]))
    rw [free_bytes_cons, hc]
    simp only [Bool.false_eq_true, if_false]
    omega

theorem free_eq (s : State) (ptr : Nat) (h : ptr ≠ 0) :
    free s ptr =
      match node_insert { s with mem := free_mem s.mem ptr } ptr
          (fetch_size s.mem (header_ptr ptr)) with
      | none => none
      | some s => free_tail s ptr := by
  unfold free
  rw [if_neg h]
  rfl

theorem free_mem_facts (hc : Core K G s bs) {pre post : List Blk} {b : Blk}
    (hbs : bs = pre ++ [b] ++ post) :
    ∃ m1 t, (t = 0 ∨ t = 2) ∧ (∀ c, read_word m1 c = read_word s.mem c) ∧
      (∀ a, (a < b.addr + b.size - 8 ∨ b.addr + b.size ≤ a) → m1 a = s.mem a) ∧
      free_mem s.mem b.addr =
        store_word (store_word m1 (b.addr - 8) b.size) (b.addr + b.size - 16) (b.size + t) := by
  have hb : b ∈ bs := by rw [hbs]; simp
  have hbb := core_bounds hc hb
  have hok := hc.blk b hb
  obtain ⟨p0, e0, c1, c2, c3⟩ := core_split hc hbs
  have c2' : b.addr = p0 ∧ p0 + b.size = e0 := c2
  have htag : read_word s.mem (b.addr + b.size - 8) / 2 % 2 = 0 := by
    cases post with
    | nil =>
      have : e0 = s.brk := c3
      have := hc.epi
      have e1 : b.addr + b.size - 8 = s.brk - 8 := by omega
      rw [e1, hc.epi]
    | cons c post' =>
      have hcm : c ∈ bs := by rw [hbs]; simp
      have hcok := hc.blk c hcm
      have hca : c.addr = e0 := c3.1
      have e1 : b.addr + b.size - 8 = c.addr - 8 := by omega
      have := toNat_le_one c.alloc
      have := hcok.2.1
      rw [e1, hcok.2.2.1]
      omega
  have e1 : del_realloc_tag s.mem (header_ptr (next_blockptr s.mem b.addr)) =
      store_word s.mem (b.addr + b.size - 8) (read_word s.mem (b.addr + b.size - 8)) := by
    rw [blk_next hok, header_ptr_eq]
    unfold del_realloc_tag
    rw [and_mask_notag _ (read_word_lt _ _), htag]
    rfl
  have hr : ∀ c, read_word (store_word s.mem (b.addr + b.size - 8)
      (read_word s.mem (b.addr + b.size - 8))) c = read_word s.mem c :=
    read_word_mod_congr (store_read_mod _ _)
  have ht0 : read_tag (store_word s.mem (b.addr + b.size - 8)
      (read_word s.mem (b.addr + b.size - 8))) (header_ptr b.addr) = 0 := by
    rw [read_tag_eq, hr, header_ptr_eq, hok.2.2.1]
    have := toNat_le_one b.alloc
    have := hok.2.1
    omega
  obtain ⟨t, ht, e2⟩ := tags_hdr_ftr _ b.addr b.size 0 hbb.2.2.2.1 (by omega) (by omega) ht0
  refine ⟨_, t, ht, hr, ?_, ?_⟩
  · intro a ha
    exact store_word_other _ _ _ _ (by omega)
  · unfold free_mem
    simp only []
    have hsz : fetch_size s.mem (header_ptr b.addr) = b.size := by
      rw [header_ptr_eq]; exact blk_fetch_size hok
    rw [hsz, e1, e2]
    rfl

theorem free_spec (h : WF K G s bs ch) (hcomp : Complete bs ch) (hno : NoAdjFree bs)
    {b : Blk} (hb : b ∈ bs) (hba : b.alloc = true)
    (hK : ∀ a, K a → ¬(b.addr ≤ a ∧ a + 16 < b.addr + b.size)) :
    Freed K G s bs b (free s b.addr) := by
  obtain ⟨pre, post, hbs0⟩ := List.append_of_mem hb
  have hbs : bs = pre ++ [b] ++ post := by rw [hbs0]; simp
  have hbb := core_bounds h.1 hb
  have hok := h.1.blk b hb
  obtain ⟨p0, e0, c1, c2, c3⟩ := core_split h.1 hbs
  have c2' : b.addr = p0 ∧ p0 + b.size = e0 := c2
  obtain ⟨hp0, he0⟩ := c2'
  obtain ⟨m1, t, ht, hr, hfar, hfm⟩ := free_mem_facts h.1 hbs
  have hnotin : ∀ k, b.addr ∉ ch k := by
    intro k hk
    obtain ⟨c, hc, h1, h2, -⟩ := h.2.mem_ch k _ hk
    have := contig_addr_inj h.1.contig (core_pos h.1) hc hb h1
    rw [this, hba] at h2
    cases h2
  have hk1 : ∀ a, K a → m1 a = s.mem a := by
    intro a ha
    apply hfar
    rcases h.1.kok a ha with ⟨c, hc, hca, h1, h2⟩ | hpad
    · rcases core_sep h.1 hc hb with h3 | h3 | h3
      · subst h3; exact absurd ⟨h1, h2⟩ (hK a ha)
      · omega
      · omega
    · omega
  have WF1 : WF K G { s with mem := m1 } bs ch := wf_congr h hr hk1
  have hsep : (b.addr - 8) + 8 ≤ b.addr + b.size - 16 ∨ (b.addr + b.size - 16) + 8 ≤ b.addr - 8 := by
    omega
  obtain ⟨f1, f2, f3⟩ := two_stores m1 (b.addr - 8) b.size (b.addr + b.size - 16) (b.size + t)
    hsep (by omega) (by omega)
  have hfm' : free_mem s.mem b.addr =
      store_word (store_word m1 (b.addr - 8) b.size) (b.addr + b.size - 16) (b.size + t) := hfm
  generalize store_word (store_word m1 (b.addr - 8) b.size) (b.addr + b.size - 16) (b.size + t)
    = m3 at f1 f2 f3 hfm'
  have WF3 : WF K G { s with mem := m3 } (pre ++ [⟨b.addr, b.size, false⟩] ++ post) ch := by
    have c2n : Contig p0 [(⟨b.addr, b.size, false⟩ : Blk)] e0 := ⟨hp0, he0⟩
    refine wf_rewrite WF1 hbs c1 c2n c3 ?_ ?_ ?_ ?_ ?_
    · intro a ha
      exact f1 a (by omega) (by omega)
    · intro a ha
      exact f1 a (by omega) (by omega)
    · intro c hc
      rw [List.mem_singleton.1 hc]
      exact ⟨hbb.2.2.1, hbb.2.2.2.1, f2, t, ht, f3⟩
    · intro c hc hca a ha
      rw [List.mem_singleton.1 hc]
      exact hK a ha
    · intro c hc k
      rw [List.mem_singleton.1 hc]
      exact hnotin k
  have hb' : (⟨b.addr, b.size, false⟩ : Blk) ∈ pre ++ [⟨b.addr, b.size, false⟩] ++ post := by simp
  obtain ⟨s4, ch4, e4, hbd4, WF4, hiff⟩ := node_insert_spec WF3 hb' rfl hnotin
  have hcomp4 : Complete (pre ++ [⟨b.addr, b.size, false⟩] ++ post) ch4 := by
    intro d hd hdf
    rw [hiff]
    simp only [List.mem_append, List.mem_singleton] at hd
    rcases hd with (hd | hd) | hd
    · exact Or.inl (hcomp d (by rw [hbs]; simp [hd]) hdf)
    · right; rw [hd]; exact ⟨rfl, rfl⟩
    · exact Or.inl (hcomp d (by rw [hbs]; simp [hd]) hdf)
  have hnpre : NoAdjFree pre := noadj_left (noadj_left (hbs ▸ hno))
  have hnpost : NoAdjFree post := noadj_right (hbs ▸ hno)
  have hbs4 : pre ++ [(⟨b.addr, b.size, false⟩ : Blk)] ++ post =
      pre ++ (⟨b.addr, b.size, false⟩ : Blk) :: post := by simp
  obtain ⟨s5, ch5, pre', mid, post', p, e, g1, g2, g3, g4, g5, g6, g7, g8, g9⟩ :=
    block_coalescing_spec WF4 hcomp4 hbs4 rfl hnpre hnpost
  have g5' : block_coalescing s4 b.addr = some (p, s5) := g5
  have e4' : node_insert { s with mem := m3 } b.addr b.size = some s4 := e4
  have hfree : free s b.addr = some s5 := by
    rw [free_eq s b.addr (by omega), hfm', header_ptr_eq, blk_fetch_size hok, e4']
    show free_tail s4 b.addr = some s5
    unfold free_tail
    rw [g5']
  have hpe := contig_le g4
  have hmidb := contig_mem g4 g2
  have hsub : ∀ c, c.alloc = true → (c ∈ pre' ++ mid ++ post' ↔ c ∈ bs ∧ c ≠ b) := by
    intro c hca
    rw [← g1]
    simp only [hbs, List.mem_append, List.mem_singleton]
    constructor
    · rintro ((h1 | h1) | h1)
      · refine ⟨Or.inl (Or.inl h1), ?_⟩
        rintro rfl
        have := contig_mem c1 h1
        omega
      · rw [h1] at hca; cases hca
      · refine ⟨Or.inr h1, ?_⟩
        rintro rfl
        have := contig_mem c3 h1
        omega
    · rintro ⟨(h1 | h1) | h1, h2⟩
      · exact Or.inl (Or.inl h1)
      · exact absurd h1 h2
      · exact Or.inr h1
  refine ⟨s5, pre' ++ [⟨p, e - p, false⟩] ++ post', ch5, hfree, ?_, g7, g8, g9, ?_, ?_, ?_, ?_⟩
  · exact ⟨g6.1.trans hbd4.1, g6.2.1.trans hbd4.2.1, g6.2.2.1.trans hbd4.2.2.1,
      g6.2.2.2.trans hbd4.2.2.2⟩
  · intro c hc hca hcb
    have := (hsub c hca).2 ⟨hc, hcb⟩
    simp only [List.mem_append] at this ⊢
    rcases this with (h1 | h1) | h1
    · exact Or.inl (Or.inl h1)
    · rw [g3 c h1] at hca; cases hca
    · exact Or.inr h1
  · intro c hc hca
    apply (hsub c hca).1
    simp only [List.mem_append, List.mem_singleton] at hc ⊢
    rcases hc with (h1 | h1) | h1
    · exact Or.inl (Or.inl h1)
    · rw [h1] at hca; cases hca
    · exact Or.inr h1
  · have e1 : free_bytes (pre ++ [(⟨b.addr, b.size, false⟩ : Blk)] ++ post) =
        free_bytes bs + b.size := by
      rw [hbs]
      simp only [free_bytes_append, free_bytes_cons, free_bytes_nil, hba, if_true,
        Bool.false_eq_true, if_false]
      omega
    rw [← e1, g1]
    have := free_bytes_contig g4 g3
    simp only [free_bytes_append, free_bytes_cons, free_bytes_nil, Bool.false_eq_true, if_false]
    omega
  · intro x hx hxx
    have hxm : x = b ∨ (x.alloc = false ∧ x ∈ pre' ++ mid ++ post') := by
      rcases hxx with h1 | h1
      · exact Or.inl h1
      · right
        refine ⟨h1, ?_⟩
        rw [← g1]
        rw [hbs] at hx
        simp only [List.mem_append, List.mem_singleton] at hx ⊢
        rcases hx with (h2 | h2) | h2
        · exact Or.inl (Or.inl h2)
        · rw [h2, hba] at h1; cases h1
        · exact Or.inr h2
    rcases hxm with rfl | ⟨hxf, hxm⟩
    · refine ⟨⟨p, e - p, false⟩, by simp, rfl, ?_, ?_⟩
      · exact hmidb.1
      · show x.addr + x.size ≤ p + (e - p)
        have : (⟨x.addr, x.size, false⟩ : Blk).addr + (⟨x.addr, x.size, false⟩ : Blk).size ≤ e :=
          hmidb.2
        have : x.addr + x.size ≤ e := this
        omega
    · simp only [List.mem_append] at hxm
      rcases hxm with (h1 | h1) | h1
      · exact ⟨x, by simp [h1], hxf, le_refl _, le_refl _⟩
      · have := contig_mem g4 h1
        refine ⟨⟨p, e - p, false⟩, by simp, rfl, this.1, ?_⟩
        show x.addr + x.size ≤ p + (e - p)
        omega
      · exact ⟨x, by simp [h1], hxf, le_refl _, le_refl _⟩

end

section

variable {K : Nat → Prop} {G : Mem} {s : State} {bs : List Blk} {ch : Nat → List Nat}

/-! ## Ghost frame, client stores -/

theorem wf_ghost (h : WF K G s bs ch) {K' : Nat → Prop} {G' : Mem}
    (hk : ∀ a, K' a → (InPayload bs a ∨ a < s.heap_ptr + 8) ∧ s.mem a = G' a) :
    WF K' G' s bs ch :=
  ⟨⟨h.1.cap_lt, h.1.brk_le, h.1.lo_eq, h.1.contig, h.1.pro_hdr, h.1.pro_ftr, h.1.epi, h.1.blk,
    fun a ha => (hk a ha).1, fun a ha => (hk a ha).2⟩, h.2⟩

/-- A store confined to the payload of an allocated block. -/
theorem wf_payload_write (h : WF K G s bs ch) {c : Blk} (hc : c ∈ bs) (hca : c.alloc = true)
    {m' : Mem} (hm : ∀ a, (a < c.addr ∨ c.addr + c.size ≤ a + 16) → m' a = s.mem a)
    (hkeep : ∀ a, K a → m' a = G a) : WF K G { s with mem := m' } bs ch := by
  obtain ⟨pre, post, hbs0⟩ := List.append_of_mem hc
  have hbs : bs = pre ++ [c] ++ post := by rw [hbs0]; simp
  have hbb := core_bounds h.1 hc
  obtain ⟨p0, e0, c1, c2, c3⟩ := core_split h.1 hbs
  have c2' : c.addr = p0 ∧ p0 + c.size = e0 := c2
  have hlow : ∀ a, a + 8 < p0 → m' a = s.mem a := fun a ha => hm a (by omega)
  have hhigh : ∀ a, e0 ≤ a + 8 → m' a = s.mem a := fun a ha => hm a (by omega)
  have hco := core_rewrite_gen h.1 hbs c1 c2 c3 hlow hhigh
    (by
      intro d hd
      rw [List.mem_singleton.1 hd]
      exact blk_frame (h.1.blk c hc) (fun a ha => hm a (by omega)))
    (by rw [← hbs]; exact h.1.kok) hkeep
  have hix : Index { s with mem := m' } (pre ++ [c] ++ post) ch :=
    index_rewrite h.1 h.2 hbs c1 c3 hlow hhigh
    (by
      intro d hd k hk
      rw [List.mem_singleton.1 hd] at hk
      obtain ⟨x, hx, h1, h2, -⟩ := h.2.mem_ch k _ hk
      have := contig_addr_inj h.1.contig (core_pos h.1) hx hc h1
      rw [this, hca] at h2
      cases h2)
  rw [← hbs] at hco hix
  exact ⟨hco, hix⟩

/-! ## The walks read the abstract heap -/

theorem contig_length {p e : Nat} {l : List Blk} (h : Contig p l e)
    (hpos : ∀ b ∈ l, 0 < b.size) : p + l.length ≤ e := by
  induction l generalizing p with
  | nil =>
    have : p = e := h
    simp [this]
  | cons c l ih =>
    have := ih h.2 (fun d hd => hpos d (by simp [hd]))
    have := hpos c (by simp)
    simp only [List.length_cons]
    omega

theorem heap_walk_from_eq {m : Mem} {e : Nat} : ∀ (l : List Blk) (fuel p : Nat),
    Contig p l e → (∀ b ∈ l, BlkOK m b) → fetch_size m (e - 8) = 0 → l.length ≤ fuel →
    heap_walk_from fuel m p = l
  | [], fuel, p, hc, _, he, _ => by
    have hp : p = e := hc
    cases fuel with
    | zero => rfl
    | succ n =>
      unfold heap_walk_from
      rw [header_ptr_eq, hp, he]
      simp
  | b :: l, fuel, p, hc, hok, he, hf => by
    have hb := hok b (by simp)
    have hp : b.addr = p := hc.1
    cases fuel with
    | zero => simp at hf
    | succ n =>
      unfold heap_walk_from
      have e1 : fetch_size m (header_ptr p) = b.size := by
        rw [header_ptr_eq, ← hp]; exact blk_fetch_size hb
      have e2 : fetch_alloc m (header_ptr p) = b.alloc.toNat := by
        rw [header_ptr_eq, ← hp]; exact blk_fetch_alloc hb
      have e3 : next_blockptr m p = p + b.size := by
        rw [← hp]; exact blk_next hb
      have hpos : 0 < b.size := by have := hb.1; omega
      rw [e1, e2, e3, if_pos hpos]
      rw [heap_walk_from_eq l n (p + b.size) hc.2 (fun d hd => hok d (by simp [hd])) he
        (by simpa using hf)]
      congr 1
      cases b with
      | mk a sz al =>
        simp only at hp
        subst hp
        cases al <;> simp

theorem heap_walk_eq (hc : Core K G s bs) : heap_walk s = bs := by
  unfold heap_walk
  have e1 : next_blockptr s.mem (s.heap_ptr + DOUBLESIZE) = s.heap_ptr + 32 := by
    rw [next_blockptr_eq]
    show s.heap_ptr + 16 + fetch_size s.mem (s.heap_ptr + 16 - 8) = s.heap_ptr + 32
    have : s.heap_ptr + 16 - 8 = s.heap_ptr + 8 := by omega
    rw [this, fetch_size_eq, hc.pro_hdr]
  rw [e1]
  apply heap_walk_from_eq bs _ _ hc.contig hc.blk
  · rw [fetch_size_eq, hc.epi]
  · have := contig_length hc.contig (core_pos hc)
    omega

theorem chain_walk_eq {m : Mem} : ∀ (l : List Nat) (fuel sc : Nat),
    DLLseg m sc l 0 → l.length ≤ fuel → chain_walk fuel m (l.headD 0) = l
  | [], fuel, sc, _, _ => by
    cases fuel with
    | zero => rfl
    | succ n => simp [chain_walk]
  | x :: l, fuel, sc, hd, hf => by
    cases fuel with
    | zero => simp at hf
    | succ n =>
      obtain ⟨h1, h2, h3, h4⟩ := hd
      show chain_walk (n + 1) m x = x :: l
      unfold chain_walk
      rw [if_neg h1, get_pred_eq, h3]
      rw [chain_walk_eq l n x h4 (by simpa using hf)]

theorem chain_eq (h : WF K G s bs ch) {k : Nat} (hk : k < 20) : chain s k = ch k := by
  unfold chain
  rw [h.2.heads k hk]
  exact chain_walk_eq _ _ 0 (h.2.dll k) (le_of_lt (index_length h.1 h.2 k))

/-! ## `mm_init` -/

theorem mm_init_eq (s0 : State) (h : s0.brk + 32 ≤ s0.cap) :
    mm_init s0 =
      match heap_extension (init_state s0) INITIALCHUNK with
      | none => none
      | some (ptr, s) => if ptr = 0 then some (false, s) else some (true, s) := by
  have h' : s0.brk + 4 * WORDSIZE ≤ s0.cap := h
  unfold mm_init mem_sbrk
  rw [if_pos h']
  rfl

theorem init_state_wf (s0 : State) (hbrk : s0.brk = s0.lo) (hcap : s0.cap < 2 ^ 64)
    (h : s0.brk + 32 ≤ s0.cap) :
    WF (fun a => s0.brk ≤ a ∧ a < s0.brk + 8) (init_mem s0.mem s0.brk) (init_state s0) []
      (fun _ => []) := by
  constructor
  · refine ⟨hcap, h, hbrk.symm, rfl, ?_, ?_, ?_, ?_, ?_, ?_⟩
    · show read_word (init_mem s0.mem s0.brk) (s0.brk + 8) = 17
      unfold init_mem
      rw [read_store_other _ _ _ _ (by omega), read_store_other _ _ _ _ (by omega),
        read_store_same]
      rfl
    · show read_word (init_mem s0.mem s0.brk) (s0.brk + 16) = 17
      unfold init_mem
      rw [read_store_other _ _ _ _ (by omega), read_store_same]
      rfl
    · show read_word (init_mem s0.mem s0.brk) (s0.brk + 32 - 8) = 1
      have : s0.brk + 32 - 8 = s0.brk + 24 := by omega
      rw [this]
      unfold init_mem
      rw [read_store_same]
      rfl
    · intro b hb
      simp at hb
    · intro a ha
      right
      exact ha.2
    · intro a ha
      rfl
  · refine ⟨?_, ?_, ?_, ?_⟩
    · intro k hk
      show (if k < SEGLIST_SIZE then 0 else s0.seg_freelist k) = 0
      rw [if_pos hk]
    · intro k
      trivial
    · intro k x hx
      simp at hx
    · intro k
      exact List.nodup_nil

theorem init_mem_pad (m : Mem) (lo : Nat) : read_word (init_mem m lo) lo = 0 := by
  unfold init_mem
  rw [read_store_other _ _ _ _ (by omega), read_store_other _ _ _ _ (by omega),
    read_store_other _ _ _ _ (by omega), read_store_same]
  rfl

theorem singleton_split {α : Type} {x : α} {l1 l2 l3 : List α} (h : [x] = l1 ++ l2 ++ l3)
    (hx : x ∈ l2) : l1 = [] ∧ l2 = [x] ∧ l3 = [] := by
  have hl := congrArg List.length h
  simp only [List.length_singleton, List.length_append] at hl
  have h2 : 0 < l2.length := List.length_pos_of_mem hx
  have h1 : l1 = [] := List.length_eq_zero.1 (by omega)
  have h3 : l3 = [] := List.length_eq_zero.1 (by omega)
  subst h1 h3
  simp only [List.nil_append, List.append_nil] at h
  exact ⟨rfl, h.symm, rfl⟩

/-- The function `mm_init` on an empty heap with room for 96 bytes. -/
theorem mm_init_spec (s0 : State) (hbrk : s0.brk = s0.lo) (hcap : s0.cap < 2 ^ 64)
    (h : s0.lo + 96 ≤ s0.cap) :
    ∃ s ch, mm_init s0 = some (true, s) ∧
      (s.brk = s0.lo + 96 ∧ s.heap_ptr = s0.lo ∧ s.cap = s0.cap ∧ s.lo = s0.lo) ∧
      WF (fun a => s0.lo ≤ a ∧ a < s0.lo + 8) (init_mem s0.mem s0.lo) s
        [⟨s0.lo + 32, 64, false⟩] ch ∧
      Complete [⟨s0.lo + 32, 64, false⟩] ch := by
  have hwf := init_state_wf s0 hbrk hcap (by omega)
  have hsp := heap_extension_spec hwf (fun b hb => by simp at hb) List.chain'_nil
    (by omega : 32 ≤ 64) (by omega) (by show s0.brk + 32 + 64 ≤ s0.cap; omega)
  obtain ⟨s1, ch1, pre', mid, post', p, e, g1, g2, g3, g4, g5, g6, g7, g8, g9⟩ := hsp
  obtain ⟨rfl, rfl, rfl⟩ := singleton_split g1 g2
  have g4' : s0.brk + 32 = p ∧ p + 64 = e := g4
  obtain ⟨hp, he⟩ := g4'
  have hpe : e - p = 64 := by omega
  rw [hpe, ← hp, hbrk] at g7 g8
  refine ⟨s1, ch1, ?_, ?_, g7, g8⟩
  · rw [mm_init_eq s0 (by omega)]
    show (match heap_extension (init_state s0) 64 with
      | none => none
      | some (ptr, s) => if ptr = 0 then some (false, s) else some (true, s)) = _
    rw [g5]
    show (if p = 0 then some (false, s1) else some (true, s1)) = _
    rw [if_neg (by omega)]
  · refine ⟨?_, ?_, ?_, ?_⟩
    · rw [g6.1]; show s0.brk + 32 + 64 = _; omega
    · rw [g6.2.1]; exact hbrk
    · rw [g6.2.2.1]; rfl
    · rw [g6.2.2.2]; rfl

theorem mm_init_fail (s0 : State) (hcap : s0.cap < 2 ^ 64) (h : ¬ s0.brk + 96 ≤ s0.cap) :
    ∃ s, mm_init s0 = some (false, s) := by
  by_cases h1 : s0.brk + 32 ≤ s0.cap
  · rw [mm_init_eq s0 h1]
    have := heap_extension_fail (init_state s0) 64 (by omega) (by omega)
      (by show ¬ s0.brk + 32 + 64 ≤ s0.cap; omega)
    refine ⟨init_state s0, ?_⟩
    show (match heap_extension (init_state s0) 64 with
      | none => none
      | some (ptr, s) => if ptr = 0 then some (false, s) else some (true, s)) = _
    rw [this]
    rfl
  · refine ⟨{ s0 with heap_ptr := SIZE_MOD - 1 }, ?_⟩
    have h' : ¬ s0.brk + 4 * WORDSIZE ≤ s0.cap := h1
    unfold mm_init mem_sbrk
    rw [if_neg h']

end

section

variable {K : Nat → Prop} {G : Mem} {s : State} {bs : List Blk} {ch : Nat → List Nat}

/-! ## Requests whose adjusted size wraps around

For `size + 31 ≥ 2 ^ 64` the adjusted size is `0` or `16`.  These lemmas follow the
code far enough to know which pointer `malloc` returns. -/

theorem adj_size_wrap (size : Nat) (h1 : 2 ^ 64 ≤ size + 31) (h2 : size < 2 ^ 64) :
    adj_size size = 0 ∨ adj_size size = 16 := by
  unfold adj_size
  rw [and_mask_size _ (Nat.mod_lt _ (by decide))]
  show ((size + 16) % 2 ^ 64 + 15) % 2 ^ 64 - ((size + 16) % 2 ^ 64 + 15) % 2 ^ 64 % 16 = 0 ∨
    ((size + 16) % 2 ^ 64 + 15) % 2 ^ 64 - ((size + 16) % 2 ^ 64 + 15) % 2 ^ 64 % 16 = 16
  omega

theorem insert_block_ptr {s s' : State} {ptr adj p : Nat}
    (h : insert_block s ptr adj = some (p, s')) (hadj : adj < 100) : p = ptr := by
  rw [insert_block_eq] at h
  unfold insert_block_tail at h
  simp only [] at h
  split_ifs at h with h1 h2
  · simp only [Option.some.injEq, Prod.mk.injEq] at h
    exact h.1.symm
  · omega
  · split at h
    · cases h
    · simp only [Option.some.injEq, Prod.mk.injEq] at h
      exact h.1.symm

theorem nofit_small (h : WF K G s bs ch) (hcomp : Complete bs ch) {adj : Nat} (hadj : adj ≤ 32)
    (hnf : NoFit s.mem ch adj) :
    (∀ k, k < 20 → s.seg_freelist k = 0) ∧ ∀ b ∈ bs, b.alloc = true := by
  have hemp : ∀ k, k < 20 → ch k = [] := by
    intro k hk
    apply List.eq_nil_iff_forall_not_mem.2
    intro x hx
    obtain ⟨b, hb, h1, h2, -⟩ := h.2.mem_ch k x hx
    have hok := h.1.blk b hb
    apply hnf k hk x hx
    rw [← h1]
    refine ⟨?_, ?_⟩
    · rw [header_ptr_eq, blk_fetch_size hok]
      have := hok.1
      omega
    · rw [header_ptr_eq]; exact blk_read_tag hok
  constructor
  · intro k hk
    rw [h.2.heads k hk, hemp k hk]
    rfl
  · intro b hb
    cases hba : b.alloc with
    | true => rfl
    | false =>
      have := hcomp b hb hba
      rw [hemp _ (seg_index_lt _)] at this
      simp at this

theorem node_insert_empty (s : State) (ptr size : Nat)
    (hh : s.seg_freelist (seg_loop (SEGLIST_SIZE - 1) 0 size).1 = 0) (hb : 0 < s.brk) :
    node_insert s ptr size =
      some { s with
        mem := store_word (store_word s.mem ptr 0) (ptr + 8) 0
        seg_freelist :=
          Function.update s.seg_freelist (seg_loop (SEGLIST_SIZE - 1) 0 size).1 ptr } := by
  obtain ⟨n, hn⟩ : ∃ n, s.brk = n + 1 := ⟨s.brk - 1, by omega⟩
  unfold node_insert
  simp only [hh, hn]
  unfold insert_scan
  simp only [ne_eq, not_true_eq_false, false_and, if_false]
  rfl

theorem bc_eq_none (s : State) (ptr : Nat)
    (ht : read_tag s.mem (header_ptr (prev_blockptr s.mem ptr)) = 0)
    (hp : fetch_alloc s.mem (header_ptr (prev_blockptr s.mem ptr)) = 1)
    (hn : fetch_alloc s.mem (header_ptr (next_blockptr s.mem ptr)) = 1) :
    block_coalescing s ptr = some (ptr, s) := by
  unfold block_coalescing
  simp only [ht, hp, hn, ne_eq, not_true_eq_false, if_false, and_self, if_true]

theorem coalesce_next_tail_ptr {s s' : State} {ptr size p : Nat}
    (h : coalesce_next_tail s ptr size = some (p, s')) : p = ptr := by
  unfold coalesce_next_tail at h
  simp only [] at h
  split at h
  · cases h
  · simp only [Option.some.injEq, Prod.mk.injEq] at h
    exact h.1.symm

/-- What the last footer of the heap says when the last block is allocated. -/
theorem last_facts (hc : Core K G s bs) (hall : ∀ b ∈ bs, b.alloc = true) :
    ∃ sz, 16 ≤ sz ∧ sz + 16 ≤ s.brk ∧ fetch_size s.mem (s.brk - 16) = sz ∧
      read_word s.mem (s.brk - sz - 8) % 16 = 1 := by
  rcases list_nil_or_snoc bs with rfl | ⟨init, z, rfl⟩
  · have hb : s.heap_ptr + 32 = s.brk := hc.contig
    refine ⟨16, le_refl _, by omega, ?_, ?_⟩
    · have : s.brk - 16 = s.heap_ptr + 16 := by omega
      rw [this, fetch_size_eq, hc.pro_ftr]
    · have : s.brk - 16 - 8 = s.heap_ptr + 8 := by omega
      rw [this, hc.pro_hdr]
  · have hz : z ∈ init ++ [z] := by simp
    have hok := hc.blk z hz
    have hzb := core_bounds hc hz
    have hct := hc.contig
    rw [contig_append] at hct
    obtain ⟨q, -, h2⟩ := hct
    have h2' : z.addr = q ∧ q + z.size = s.brk := h2
    have hza := hall z hz
    refine ⟨z.size, by omega, by omega, ?_, ?_⟩
    · have : s.brk - 16 = z.addr + z.size - 16 := by omega
      rw [this]; exact blk_fetch_size_ftr hok
    · have : s.brk - z.size - 8 = z.addr - 8 := by omega
      rw [this, hok.2.2.1, hza]
      show (z.size + 1) % 16 = 1
      omega

theorem word_store_val (m : Mem) (c v : Nat) (hv : v < 2 ^ 64) :
    fetch_size (store_word m c v) c = v - v % 16 ∧ fetch_alloc (store_word m c v) c = v % 2 ∧
      read_tag (store_word m c v) c = 2 * (v / 2 % 2) := by
  rw [fetch_size_eq, fetch_alloc_eq, read_tag_eq, read_store_same, Nat.mod_eq_of_lt hv]
  exact ⟨rfl, rfl, rfl⟩

/-- Growing the heap by an adjusted size of `0`. -/
theorem heap_extension_zero (h : WF K G s bs ch) (hcomp : Complete bs ch)
    (hnf : NoFit s.mem ch 0) : ∃ s3, heap_extension s 0 = some (s.brk, s3) := by
  obtain ⟨hheads, hall⟩ := nofit_small h hcomp (by omega) hnf
  have hbrk := core_brk h.1
  have hle := h.1.brk_le
  have e0 : heap_extension s 0 = heap_extension_tail { s with brk := s.brk + 0 } s.brk 0 := by
    rw [heap_extension_eq, esize_eq 0 rfl (by omega)]
    unfold mem_sbrk
    rw [if_pos (by omega)]
  have f1 : fetch_size (store_word s.mem (s.brk - 8) 0) (s.brk - 8) = 0 :=
    (word_store_val s.mem (s.brk - 8) 0 (by omega)).1
  have f2 : fetch_size (store_word (store_word s.mem (s.brk - 8) 0) (s.brk - 16) 0) (s.brk - 8)
      = 0 := by
    rw [fetch_size_store_other _ _ _ _ (by omega), f1]
  have e1 : heap_extension_tail { s with brk := s.brk + 0 } s.brk 0 =
      match node_insert { s with
          mem := store_word (store_word (store_word s.mem (s.brk - 8) 0) (s.brk - 16) 0)
            (s.brk - 8) 1 } s.brk 0 with
      | none => none
      | some s2 => block_coalescing s2 s.brk := by
    unfold heap_extension_tail
    simp only [write_no_tag_eq, header_ptr_eq, footer_ptr_eq, next_blockptr_eq]
    have hs0 : set_word 0 0 = 0 := rfl
    have hs1 : set_word 0 1 = 1 := rfl
    rw [hs0, hs1, f1]
    simp only [Nat.add_zero]
    rw [f2]
    simp only [Nat.add_zero] <;> rfl
  have hni := node_insert_empty { s with
      mem := store_word (store_word (store_word s.mem (s.brk - 8) 0) (s.brk - 16) 0)
        (s.brk - 8) 1 } s.brk 0 (hheads _ (seg_index_lt 0)) (by show 0 < s.brk; omega)
  rw [e0, e1, hni]
  have r1 : ∀ x, x + 8 ≤ s.brk → read_word (store_word (store_word (store_word (store_word
      (store_word s.mem (s.brk - 8) 0) (s.brk - 16) 0) (s.brk - 8) 1) s.brk 0) (s.brk + 8) 0) x =
      read_word (store_word (store_word (store_word s.mem (s.brk - 8) 0) (s.brk - 16) 0)
        (s.brk - 8) 1) x := by
    intro x hx
    rw [read_store_other _ _ _ _ (by omega), read_store_other _ _ _ _ (by omega)]
  have r2 : read_word (store_word (store_word (store_word s.mem (s.brk - 8) 0) (s.brk - 16) 0)
      (s.brk - 8) 1) (s.brk - 16) = 0 := by
    rw [read_store_other _ _ _ _ (by omega), read_store_same]
    rfl
  have r3 : read_word (store_word (store_word (store_word s.mem (s.brk - 8) 0) (s.brk - 16) 0)
      (s.brk - 8) 1) (s.brk - 8) = 1 := by
    rw [read_store_same]
    rfl
  have p1 : prev_blockptr (store_word (store_word (store_word (store_word
      (store_word s.mem (s.brk - 8) 0) (s.brk - 16) 0) (s.brk - 8) 1) s.brk 0) (s.brk + 8) 0)
      s.brk = s.brk := by
    rw [prev_blockptr_eq, fetch_size_eq, r1 _ (by omega), r2]
    rfl
  have p2 : next_blockptr (store_word (store_word (store_word (store_word
      (store_word s.mem (s.brk - 8) 0) (s.brk - 16) 0) (s.brk - 8) 1) s.brk 0) (s.brk + 8) 0)
      s.brk = s.brk := by
    rw [next_blockptr_eq, fetch_size_eq, r1 _ (by omega), r3]
    rfl
  refine ⟨_, bc_eq_none _ _ ?_ ?_ ?_⟩
  · show read_tag _ (header_ptr (prev_blockptr _ s.brk)) = 0
    rw [p1, header_ptr_eq, read_tag_eq, r1 _ (by omega), r3]
  · show fetch_alloc _ (header_ptr (prev_blockptr _ s.brk)) = 1
    rw [p1, header_ptr_eq, fetch_alloc_eq, r1 _ (by omega), r3]
  · show fetch_alloc _ (header_ptr (next_blockptr _ s.brk)) = 1
    rw [p2, header_ptr_eq, fetch_alloc_eq, r1 _ (by omega), r3]

/-- Growing the heap by an adjusted size of `16`. -/
theorem heap_extension_sixteen (h : WF K G s bs ch) (hcomp : Complete bs ch)
    (hnf : NoFit s.mem ch 16) (hcap : s.brk + 16 ≤ s.cap) {ptr : Nat} {s3 : State}
    (he : heap_extension s 16 = some (ptr, s3)) : ptr = s.brk := by
  obtain ⟨hheads, hall⟩ := nofit_small h hcomp (by omega) hnf
  have hbrk := core_brk h.1
  have hcl := h.1.cap_lt
  obtain ⟨sz, hsz1, hsz2, hsz3, hsz4⟩ := last_facts h.1 hall
  have e0 : heap_extension s 16 = heap_extension_tail { s with brk := s.brk + 16 } s.brk 16 := by
    rw [heap_extension_eq, esize_eq 16 rfl (by omega)]
    unfold mem_sbrk
    rw [if_pos hcap]
  have f1 : fetch_size (store_word s.mem (s.brk - 8) 16) (s.brk - 8) = 16 :=
    (word_store_val s.mem (s.brk - 8) 16 (by omega)).1
  have f2 : fetch_size (store_word (store_word s.mem (s.brk - 8) 16) (s.brk + 16 - 16) 16)
      (s.brk - 8) = 16 := by
    rw [fetch_size_store_other _ _ _ _ (by omega), f1]
  have e1 : heap_extension_tail { s with brk := s.brk + 16 } s.brk 16 =
      match node_insert { s with
          brk := s.brk + 16
          mem := store_word (store_word (store_word s.mem (s.brk - 8) 16) (s.brk + 16 - 16) 16)
            (s.brk + 16 - 8) 1 } s.brk 16 with
      | none => none
      | some s2 => block_coalescing s2 s.brk := by
    unfold heap_extension_tail
    simp only [write_no_tag_eq, header_ptr_eq, footer_ptr_eq, next_blockptr_eq]
    have hs0 : set_word 16 0 = 16 := rfl
    have hs1 : set_word 0 1 = 1 := rfl
    rw [hs0, hs1, f1, f2] <;> rfl
  have hni := node_insert_empty { s with
      brk := s.brk + 16
      mem := store_word (store_word (store_word s.mem (s.brk - 8) 16) (s.brk + 16 - 16) 16)
        (s.brk + 16 - 8) 1 } s.brk 16 (hheads _ (seg_index_lt 16))
      (by show 0 < s.brk + 16; omega)
  rw [e0, e1, hni] at he
  have he' : block_coalescing _ s.brk = some (ptr, s3) := he
  dsimp only at he'
  have e8 : s.brk + 16 - 8 = s.brk + 8 := by omega
  have r1 : ∀ x, x + 16 ≤ s.brk → read_word (store_word (store_word (store_word (store_word
      (store_word s.mem (s.brk - 8) 16) (s.brk + 16 - 16) 16) (s.brk + 16 - 8) 1) s.brk 0)
      (s.brk + 8) 0) x = read_word s.mem x := by
    intro x hx
    rw [read_store_other _ _ _ _ (by omega), read_store_other _ _ _ _ (by omega),
      read_store_other _ _ _ _ (by omega), read_store_other _ _ _ _ (by omega),
      read_store_other _ _ _ _ (by omega)]
  have r2 : read_word (store_word (store_word (store_word (store_word
      (store_word s.mem (s.brk - 8) 16) (s.brk + 16 - 16) 16) (s.brk + 16 - 8) 1) s.brk 0)
      (s.brk + 8) 0) (s.brk - 8) = 16 := by
    rw [read_store_other _ _ _ _ (by omega), read_store_other _ _ _ _ (by omega),
      read_store_other _ _ _ _ (by omega), read_store_other _ _ _ _ (by omega),
      read_store_same]
    rfl
  have r3 : read_word (store_word (store_word (store_word (store_word
      (store_word s.mem (s.brk - 8) 16) (s.brk + 16 - 16) 16) (s.brk + 16 - 8) 1) s.brk 0)
      (s.brk + 8) 0) (s.brk + 16 - 8) = 0 := by
    rw [e8, read_store_same]
    rfl
  have p1 : prev_blockptr (store_word (store_word (store_word (store_word
      (store_word s.mem (s.brk - 8) 16) (s.brk + 16 - 16) 16) (s.brk + 16 - 8) 1) s.brk 0)
      (s.brk + 8) 0) s.brk = s.brk - sz := by
    rw [prev_blockptr_eq, fetch_size_eq, r1 _ (by omega), ← fetch_size_eq, hsz3]
  have p2 : next_blockptr (store_word (store_word (store_word (store_word
      (store_word s.mem (s.brk - 8) 16) (s.brk + 16 - 16) 16) (s.brk + 16 - 8) 1) s.brk 0)
      (s.brk + 8) 0) s.brk = s.brk + 16 := by
    rw [next_blockptr_eq, fetch_size_eq, r2]
  rw [bc_eq_next _ _ ?_ ?_ ?_] at he'
  · exact coalesce_next_tail_ptr he'
  · show read_tag _ (header_ptr (prev_blockptr _ s.brk)) = 0
    rw [p1, header_ptr_eq, read_tag_eq, r1 _ (by omega)]
    omega
  · show fetch_alloc _ (header_ptr (prev_blockptr _ s.brk)) = 1
    rw [p1, header_ptr_eq, fetch_alloc_eq, r1 _ (by omega)]
    omega
  · show fetch_alloc _ (header_ptr (next_blockptr _ s.brk)) = 0
    rw [p2, header_ptr_eq, fetch_alloc_eq, r3]

/-! ## `malloc` for every 64-bit request -/

theorem not_nofit (h : WF K G s bs ch) (hcomp : Complete bs ch) {b : Blk} (hb : b ∈ bs)
    (hbf : b.alloc = false) {adj : Nat} (hba : adj ≤ b.size) : ¬NoFit s.mem ch adj := by
  intro hnf
  have hk := hcomp b hb hbf
  apply hnf _ (seg_index_lt _) _ hk
  have hok := h.1.blk b hb
  exact ⟨by rw [header_ptr_eq, blk_fetch_size hok]; exact hba,
    by rw [header_ptr_eq]; exact blk_read_tag hok⟩

theorem core_mod (hc : Core K G s bs) :
    s.brk % 16 = s.heap_ptr % 16 ∧ ∀ b ∈ bs, b.addr % 16 = s.heap_ptr % 16 := by
  obtain ⟨h1, h2⟩ := contig_mod hc.contig (fun b hb => (hc.blk b hb).2.1)
  constructor
  · omega
  · intro b hb
    have := h2 b hb
    omega

/-- What `malloc` returns, for every 64-bit request size. -/
theorem malloc_any (h : WF K G s bs ch) (hcomp : Complete bs ch) (hno : NoAdjFree bs)
    {size p : Nat} {s' : State} (hlt : size < 2 ^ 64) (hm : malloc s size = some (p, s')) :
    (p = 0 → s' = s ∧
      (size = 0 ∨ (NoFit s.mem ch (adj_size size) ∧ ¬ s.brk + adj_size size ≤ s.cap))) ∧
    (p ≠ 0 → size ≠ 0 ∧
      ¬(NoFit s.mem ch (adj_size size) ∧ ¬ s.brk + adj_size size ≤ s.cap) ∧
      p % 16 = s.heap_ptr % 16 ∧ s.heap_ptr + 32 ≤ p) := by
  have hbrk := core_brk h.1
  have hmod := core_mod h.1
  by_cases hz : size = 0
  · subst hz
    have : malloc s 0 = some (0, s) := by unfold malloc; rw [if_pos rfl]
    rw [this] at hm
    simp only [Option.some.injEq, Prod.mk.injEq] at hm
    obtain ⟨rfl, rfl⟩ := hm
    exact ⟨fun _ => ⟨rfl, Or.inl rfl⟩, fun hp => absurd rfl hp⟩
  by_cases hv : size + 31 < 2 ^ 64
  · rcases malloc_spec h hcomp hno (Nat.pos_of_ne_zero hz) hv with ⟨g1, g2, g3⟩ |
      ⟨r, g1, g2, ⟨bs', ch', nb, k1, k2, k3, k4, k5, k6, k7, k8, k9, k10⟩, g4⟩
    · rw [g3] at hm
      simp only [Option.some.injEq, Prod.mk.injEq] at hm
      obtain ⟨rfl, rfl⟩ := hm
      exact ⟨fun _ => ⟨rfl, Or.inr ⟨g1, g2⟩⟩, fun hp => absurd rfl hp⟩
    · rw [g1] at hm
      simp only [Option.some.injEq] at hm
      subst hm
      refine ⟨fun hp => absurd hp g2, fun _ => ⟨hz, ?_, ?_, ?_⟩⟩
      · rintro ⟨n1, n2⟩
        rcases g4 with ⟨n3, -⟩ | ⟨-, n3, -⟩
        · exact n3 n1
        · exact n2 n3
      · have := (core_mod k1.1).2 nb k4
        rw [k5, k10.1] at this
        exact this
      · have := core_bounds k1.1 k4
        rw [k5, k10.1] at this
        exact this.1
  · have hadj := adj_size_wrap size (by omega) hlt
    have a16 : adj_size size % 16 = 0 := by rcases hadj with e | e <;> rw [e]
    have alt : adj_size size < 100 := by rcases hadj with e | e <;> rw [e] <;> omega
    obtain ⟨r, e1, e2⟩ := search_spec h (adj_size size)
    rw [malloc_eq s hz e1] at hm
    rcases e2 with ⟨rfl, hnf⟩ | ⟨hr0, b, hb, hbr, hbf, hba⟩
    · rw [if_pos rfl] at hm
      by_cases hcap : s.brk + adj_size size ≤ s.cap
      · have key : ∀ ptr s3, heap_extension s (adj_size size) = some (ptr, s3) → ptr = s.brk := by
          intro ptr s3 he
          rcases hadj with e | e
          · rw [e] at he hnf
            obtain ⟨s4, h4⟩ := heap_extension_zero h hcomp hnf
            rw [h4] at he
            simp only [Option.some.injEq, Prod.mk.injEq] at he
            exact he.1.symm
          · rw [e] at he hnf hcap
            exact heap_extension_sixteen h hcomp hnf hcap he
        cases he : heap_extension s (adj_size size) with
        | none => rw [he] at hm; cases hm
        | some q =>
          obtain ⟨ptr, s3⟩ := q
          have hptr := key ptr s3 he
          rw [he] at hm
          have hm' : (if ptr = 0 then some (0, s3) else insert_block s3 ptr (adj_size size)) =
              some (p, s') := hm
          rw [if_neg (by omega)] at hm'
          have := insert_block_ptr hm' alt
          refine ⟨fun hp => by omega, fun _ => ⟨hz, fun hh => hh.2 hcap, ?_, ?_⟩⟩
          · rw [this, hptr]; exact hmod.1
          · omega
      · rw [heap_extension_fail s _ a16 (by omega) hcap] at hm
        have hm' : (if (0 : Nat) = 0 then some (0, s) else insert_block s 0 (adj_size size)) =
            some (p, s') := hm
        rw [if_pos rfl] at hm'
        simp only [Option.some.injEq, Prod.mk.injEq] at hm'
        obtain ⟨rfl, rfl⟩ := hm'
        exact ⟨fun _ => ⟨rfl, Or.inr ⟨hnf, hcap⟩⟩, fun hp => absurd rfl hp⟩
    · rw [if_neg hr0] at hm
      have := insert_block_ptr hm alt
      have hbb := core_bounds h.1 hb
      refine ⟨fun hp => by omega, fun _ => ⟨hz, fun hh => not_nofit h hcomp hb hbf hba hh.1, ?_, ?_⟩⟩
      · rw [this, ← hbr]; exact hmod.2 b hb
      · omega

end

section

variable {K : Nat → Prop} {G : Mem} {s : State} {bs : List Blk} {ch : Nat → List Nat}

/-! ## `realloc` and `calloc` -/

theorem realloc_eq (s : State) (p size : Nat) (hs : size ≠ 0) (hp : p ≠ 0) :
    realloc s p size =
      match malloc s size with
      | none => none
      | some (newptr, s1) =>
        if newptr = 0 then some (0, s1)
        else
          match memcpy s1 newptr p size with
          | none => none
          | some m =>
            match free { s1 with mem := m } p with
            | none => none
            | some s2 => some (newptr, s2) := by
  unfold realloc
  rw [if_neg hs, if_neg hp] <;> rfl

theorem memcpy_some {s : State} {dst src n : Nat} (h1 : s.lo ≤ dst) (h2 : dst + n ≤ s.cap)
    (h3 : s.lo ≤ src) (h4 : src + n ≤ s.cap) :
    memcpy s dst src n = some (copy_bytes s.mem dst src n) := by
  unfold memcpy
  rw [if_pos ⟨h1, h2, h3, h4⟩]

theorem memcpy_bounds {s : State} {dst src n : Nat} {m : Mem} (h : memcpy s dst src n = some m) :
    s.lo ≤ dst ∧ dst + n ≤ s.cap ∧ s.lo ≤ src ∧ src + n ≤ s.cap ∧
      m = copy_bytes s.mem dst src n := by
  unfold memcpy at h
  split_ifs at h with hc
  simp only [Option.some.injEq] at h
  exact ⟨hc.1, hc.2.1, hc.2.2.1, hc.2.2.2, h.symm⟩

theorem memset_some {s : State} {dst c n : Nat} (h1 : s.lo ≤ dst) (h2 : dst + n ≤ s.cap) :
    memset s dst c n = some (fill_bytes s.mem dst c n) := by
  unfold memset
  rw [if_pos ⟨h1, h2⟩]

theorem memset_bounds {s : State} {dst c n : Nat} {m : Mem} (h : memset s dst c n = some m) :
    s.lo ≤ dst ∧ dst + n ≤ s.cap ∧ m = fill_bytes s.mem dst c n := by
  unfold memset at h
  split_ifs at h with hc
  simp only [Option.some.injEq] at h
  exact ⟨hc.1, hc.2, h.symm⟩

/-- What a non-null result of `realloc` on a non-null pointer is made of. -/
theorem realloc_some {s s' : State} {p size q : Nat} (hs : size ≠ 0) (hp : p ≠ 0)
    (h : realloc s p size = some (q, s')) (hq : q ≠ 0) :
    ∃ s1 m, malloc s size = some (q, s1) ∧ memcpy s1 q p size = some m ∧
      free { s1 with mem := m } p = some s' := by
  rw [realloc_eq s p size hs hp] at h
  cases hm : malloc s size with
  | none => rw [hm] at h; cases h
  | some r =>
    obtain ⟨q1, s1⟩ := r
    rw [hm] at h
    simp only [] at h
    split_ifs at h with h0
    · simp only [Option.some.injEq, Prod.mk.injEq] at h
      exact absurd h.1.symm hq
    · cases hc : memcpy s1 q1 p size with
      | none => rw [hc] at h; cases h
      | some m =>
        rw [hc] at h
        simp only [] at h
        cases hf : free { s1 with mem := m } p with
        | none => rw [hf] at h; cases h
        | some s2 =>
          rw [hf] at h
          simp only [Option.some.injEq, Prod.mk.injEq] at h
          obtain ⟨rfl, rfl⟩ := h
          exact ⟨s1, m, rfl, hc, hf⟩

theorem realloc_spec (h : WF K G s bs ch) (hcomp : Complete bs ch) (hno : NoAdjFree bs)
    {b : Blk} (hb : b ∈ bs) (hba : b.alloc = true) {size : Nat} (hsz : 0 < size)
    (hlt : size + 31 < 2 ^ 64) (hsrc : b.addr + size ≤ s.cap) :
    (malloc s size = some (0, s) ∧ realloc s b.addr size = some (0, s)) ∨
    ∃ r, realloc s b.addr size = some r ∧ r.1 ≠ 0 ∧ Moved s bs b size r := by
  have hbb := core_bounds h.1 hb
  have hre := realloc_eq s b.addr size (by omega) (by omega)
  have h1 : WF (fun a => b.addr ≤ a ∧ a + 16 < b.addr + b.size) s.mem s bs ch :=
    wf_ghost h (fun a ha => ⟨Or.inl ⟨b, hb, hba, ha.1, ha.2⟩, rfl⟩)
  obtain ⟨a16, a32, asz, -⟩ := adj_size_facts size hsz hlt
  rcases malloc_spec h1 hcomp hno hsz hlt with ⟨-, -, g3⟩ |
    ⟨r, g1, g2, ⟨bs1, ch1, nb, k1, k2, k3, k4, k5, k6, k7, k8, k9, k10⟩, -⟩
  · left
    refine ⟨g3, ?_⟩
    rw [hre, g3]
    rfl
  · right
    obtain ⟨q, s1⟩ := r
    simp only at g2 k1 k5 k10
    obtain ⟨hb1, hbn⟩ := k8 b hb hba
    have hnbb := core_bounds k1.1 k4
    have hsep : b.addr + b.size ≤ nb.addr ∨ nb.addr + nb.size ≤ b.addr := by
      rcases core_sep k1.1 hb1 k4 with e | e | e
      · rw [e] at hbn; exact absurd rfl hbn
      · exact Or.inl e
      · exact Or.inr e
    have hcopy : ∀ a, (a < nb.addr ∨ nb.addr + nb.size ≤ a + 16) →
        copy_bytes s1.mem q b.addr size a = s1.mem a := by
      intro a ha
      unfold copy_bytes
      rw [if_neg (by omega)]
    have hdef : memcpy s1 q b.addr size = some (copy_bytes s1.mem q b.addr size) := by
      have := k1.1.lo_eq
      have := k1.1.brk_le
      have := h.1.lo_eq
      exact memcpy_some (by omega) (by omega) (by omega) (by omega)
    have h2 : WF (fun a => q ≤ a ∧ a < q + size ∧ a - q + 16 < b.size)
        (copy_bytes s1.mem q b.addr size) { s1 with mem := copy_bytes s1.mem q b.addr size }
        bs1 ch1 := by
      have w0 : WF (fun _ => False) s1.mem s1 bs1 ch1 := wf_ghost k1 (fun a ha => ha.elim)
      have w1 := wf_payload_write w0 k4 k6 hcopy (fun a ha => ha.elim)
      exact wf_ghost w1 (fun a ha => ⟨Or.inl ⟨nb, k4, k6, by omega, by omega⟩, rfl⟩)
    obtain ⟨s2, bs2, ch2, f1, f2, f3, f4, f5, f6, f7, -, -⟩ :=
      free_spec h2 k2 k3 hb1 hba (fun a ha => by omega)
    refine ⟨(q, s2), ?_, g2, bs2, ch2, nb, wf_ghost f3 (fun a ha => ha.elim), f4, f5, ?_, k5, k6,
      k7, ?_, ?_, ?_, ?_⟩
    · rw [hre, g1]
      show (if q = 0 then some (0, s1) else
        match memcpy s1 q b.addr size with
        | none => none
        | some m =>
          match free { s1 with mem := m } b.addr with
          | none => none
          | some s2 => some (q, s2)) = _
      rw [if_neg g2, hdef]
      show (match free { s1 with mem := copy_bytes s1.mem q b.addr size } b.addr with
        | none => none
        | some s2 => some (q, s2)) = _
      rw [f1]
    · exact f6 nb k4 k6 (fun e => hbn (by rw [e]))
    · intro c hc hca hcb
      obtain ⟨c1, c2⟩ := k8 c hc hca
      exact ⟨f6 c c1 hca hcb, c2⟩
    · intro c hc hca
      obtain ⟨c1, c2⟩ := f7 c hc hca
      rcases k9 c c1 hca with e | e
      · exact Or.inl e
      · exact Or.inr ⟨e, c2⟩
    · exact ⟨f2.2.1.trans k10.1, f2.2.2.1.trans k10.2.1, f2.2.2.2.trans k10.2.2⟩
    · intro i hi1 hi2
      show s2.mem (q + i) = s.mem (b.addr + i)
      have e1 := f3.1.keep (q + i) ⟨by omega, by omega, by omega⟩
      have e2 := k1.1.keep (b.addr + i) ⟨by omega, by omega⟩
      rw [e1, ← e2]
      unfold copy_bytes
      rw [if_pos ⟨by omega, by omega⟩]
      congr 1
      omega

/-- When the range that `realloc` reads leaves the backing store, `realloc` has no
result unless its `malloc` fails. -/
theorem realloc_fault (h : WF K G s bs ch) (hcomp : Complete bs ch) (hno : NoAdjFree bs)
    {b : Blk} (hb : b ∈ bs) (hba : b.alloc = true) {size : Nat} (hsz : 0 < size)
    (hlt : size + 31 < 2 ^ 64) (hsrc : ¬ b.addr + size ≤ s.cap) :
    (malloc s size = some (0, s) ∧ realloc s b.addr size = some (0, s)) ∨
    realloc s b.addr size = none := by
  have hbb := core_bounds h.1 hb
  have hre := realloc_eq s b.addr size (by omega) (by omega)
  rcases malloc_spec h hcomp hno hsz hlt with ⟨-, -, g3⟩ |
    ⟨r, g1, g2, ⟨bs1, ch1, nb, k1, k2, k3, k4, k5, k6, k7, k8, k9, k10⟩, -⟩
  · left
    refine ⟨g3, ?_⟩
    rw [hre, g3]
    rfl
  · right
    obtain ⟨q, s1⟩ := r
    simp only at g2 k10
    have hnone : memcpy s1 q b.addr size = none := by
      unfold memcpy
      rw [if_neg]
      rintro ⟨-, -, -, h4⟩
      rw [k10.2.1] at h4
      exact hsrc h4
    rw [hre, g1]
    show (if q = 0 then some (0, s1) else
      match memcpy s1 q b.addr size with
      | none => none
      | some m =>
        match free { s1 with mem := m } b.addr with
        | none => none
        | some s2 => some (q, s2)) = _
    rw [if_neg g2, hnone]

/-- The pointer returned by `realloc` is `NULL` or the one its `malloc` returned. -/
theorem realloc_ptr {s s' : State} {p size q : Nat} (h : realloc s p size = some (q, s')) :
    q = 0 ∨ ∃ s1, malloc s size = some (q, s1) := by
  unfold realloc at h
  split_ifs at h with h1 h2
  · split at h
    · cases h
    · simp only [Option.some.injEq, Prod.mk.injEq] at h
      exact Or.inl h.1.symm
  · exact Or.inr ⟨s', h⟩
  · split at h
    · cases h
    · rename_i newptr s1 hm
      split_ifs at h with h3
      · simp only [Option.some.injEq, Prod.mk.injEq] at h
        exact Or.inl h.1.symm
      · simp only [] at h
        split at h
        · cases h
        · split at h
          · cases h
          · simp only [Option.some.injEq, Prod.mk.injEq] at h
            rw [← h.1]
            exact Or.inr ⟨s1, hm⟩

/-- The pointer returned by `calloc` is the one its `malloc` returned. -/
theorem calloc_ptr {s s' : State} {nmemb size p : Nat} (h : calloc s nmemb size = some (p, s')) :
    ∃ s1, malloc s ((size * nmemb) % SIZE_MOD) = some (p, s1) := by
  unfold calloc at h
  simp only [] at h
  split at h
  · cases h
  · rename_i ptr s1 hm
    split_ifs at h with h1
    · split at h
      · cases h
      · simp only [Option.some.injEq, Prod.mk.injEq] at h
        rw [← h.1]
        exact ⟨s1, hm⟩
    · simp only [Option.some.injEq, Prod.mk.injEq] at h
      rw [← h.1]
      exact ⟨s1, hm⟩

theorem calloc_eq (s : State) (nmemb size : Nat) :
    calloc s nmemb size =
      match malloc s ((size * nmemb) % SIZE_MOD) with
      | none => none
      | some (ptr, s1) =>
        if ptr ≠ 0 then
          match memset s1 ptr 0 ((size * nmemb) % SIZE_MOD) with
          | none => none
          | some m => some (ptr, { s1 with mem := m })
        else some (ptr, s1) := rfl

theorem calloc_spec (h : WF K G s bs ch) (hcomp : Complete bs ch) (hno : NoAdjFree bs)
    {nmemb size : Nat} (hsz : 0 < nmemb * size) (hlt : nmemb * size + 31 < 2 ^ 64) :
    (malloc s (nmemb * size) = some (0, s) ∧ calloc s nmemb size = some (0, s)) ∨
    ∃ r, calloc s nmemb size = some r ∧ r.1 ≠ 0 ∧
      Allocated (fun _ => False) r.2.mem s bs (adj_size (nmemb * size)) r ∧
      (r.2.brk = s.brk ∨ r.2.brk = s.brk + adj_size (nmemb * size)) ∧
      ∀ i, i < nmemb * size → r.2.mem (r.1 + i) = 0 := by
  have hprod : (size * nmemb) % SIZE_MOD = nmemb * size := by
    rw [Nat.mul_comm]
    exact Nat.mod_eq_of_lt (by show nmemb * size < 2 ^ 64; omega)
  have hce := calloc_eq s nmemb size
  rw [hprod] at hce
  obtain ⟨a16, a32, asz, -⟩ := adj_size_facts _ hsz hlt
  rcases malloc_spec h hcomp hno hsz hlt with ⟨-, -, g3⟩ |
    ⟨r, g1, g2, ⟨bs1, ch1, nb, k1, k2, k3, k4, k5, k6, k7, k8, k9, k10⟩, g4⟩
  · left
    refine ⟨g3, ?_⟩
    rw [hce, g3]
    rfl
  · right
    obtain ⟨q, s1⟩ := r
    simp only at g2 k1 k5 k10 g4
    have hnbb := core_bounds k1.1 k4
    have hset : ∀ a, (a < nb.addr ∨ nb.addr + nb.size ≤ a + 16) →
        fill_bytes s1.mem q 0 (nmemb * size) a = s1.mem a := by
      intro a ha
      unfold fill_bytes
      rw [if_neg (by omega)]
    have hdef : memset s1 q 0 (nmemb * size) = some (fill_bytes s1.mem q 0 (nmemb * size)) := by
      have := k1.1.lo_eq
      have := k1.1.brk_le
      exact memset_some (by omega) (by omega)
    have w0 : WF (fun _ => False) s1.mem s1 bs1 ch1 := wf_ghost k1 (fun a ha => ha.elim)
    have w1 := wf_payload_write w0 k4 k6 hset (fun a ha => ha.elim)
    have w2 : WF (fun _ => False) (fill_bytes s1.mem q 0 (nmemb * size))
        { s1 with mem := fill_bytes s1.mem q 0 (nmemb * size) } bs1 ch1 :=
      wf_ghost w1 (fun a ha => ha.elim)
    refine ⟨(q, { s1 with mem := fill_bytes s1.mem q 0 (nmemb * size) }), ?_, g2,
      ⟨bs1, ch1, nb, w2, k2, k3, k4, k5, k6, k7, k8, k9, k10⟩, ?_, ?_⟩
    · rw [hce, g1]
      show (if q ≠ 0 then
        (match memset s1 q 0 (nmemb * size) with
          | none => none
          | some m => some (q, { s1 with mem := m }))
        else _) = _
      rw [if_pos g2, hdef]
    · rcases g4 with ⟨-, e⟩ | ⟨-, -, e⟩
      · exact Or.inl e
      · exact Or.inr e
    · intro i hi
      show fill_bytes s1.mem q 0 (nmemb * size) (q + i) = 0
      unfold fill_bytes
      rw [if_pos ⟨by omega, by omega⟩]

end

section

variable {K : Nat → Prop} {G : Mem} {s : State} {bs : List Blk} {ch : Nat → List Nat}

/-! ## The invariant holds in every reachable state -/

theorem liveok_mono {bs bs' : List Blk} {L : List (Nat × Nat)} (h : LiveOK bs L)
    (hsub : ∀ c ∈ bs, c.alloc = true → c ∈ bs') : LiveOK bs' L := by
  refine ⟨?_, h.2⟩
  intro pn hpn
  obtain ⟨c, hc, h1, h2, h3⟩ := h.1 pn hpn
  exact ⟨c, hsub c hc h2, h1, h2, h3⟩

theorem liveok_cons {bs : List Blk} {L : List (Nat × Nat)} (h : LiveOK bs L) {nb : Blk}
    (hnb : nb ∈ bs) (hna : nb.alloc = true) {size : Nat} (hsz : size + 16 ≤ nb.size)
    (hne : ∀ pn ∈ L, pn.1 ≠ nb.addr) : LiveOK bs ((nb.addr, size) :: L) := by
  constructor
  · intro pn hpn
    rcases List.mem_cons.1 hpn with rfl | hpn
    · exact ⟨nb, hnb, rfl, hna, hsz⟩
    · exact h.1 pn hpn
  · rw [List.map_cons, List.nodup_cons]
    refine ⟨?_, h.2⟩
    intro hmem
    obtain ⟨pn, hpn, e⟩ := List.mem_map.1 hmem
    exact hne pn hpn e

theorem liveok_erase {bs bs' : List Blk} {L : List (Nat × Nat)} (h : LiveOK bs L) {p n : Nat}
    (hpn : (p, n) ∈ L) {b : Blk} (hbp : b.addr = p)
    (hsub : ∀ c ∈ bs, c.alloc = true → c ≠ b → c ∈ bs') : LiveOK bs' (L.erase (p, n)) := by
  have hnd : L.Nodup := List.Nodup.of_map _ h.2
  constructor
  · intro x hx
    have hxL : x ∈ L := List.mem_of_mem_erase hx
    have hxne : x ≠ (p, n) := ((List.Nodup.mem_erase_iff hnd).1 hx).1
    obtain ⟨c, hc, h1, h2, h3⟩ := h.1 x hxL
    refine ⟨c, hsub c hc h2 ?_, h1, h2, h3⟩
    intro hcb
    apply hxne
    apply List.inj_on_of_nodup_map h.2 hxL hpn
    show x.1 = p
    rw [← h1, hcb, hbp]
  · exact List.Nodup.sublist ((List.erase_sublist (p, n) L).map Prod.fst) h.2

theorem inv_intro {s' : State} {bs' : List Blk} {ch' : Nat → List Nat} {L : List (Nat × Nat)}
    (h : WF K G s' bs' ch') (hcomp : Complete bs' ch') (hno : NoAdjFree bs')
    (hl : LiveOK bs' L) : Inv s' L :=
  ⟨bs', ch', wf_ghost h (fun a ha => ha.elim), hcomp, hno, hl⟩

theorem inv_init {s0 s : State} (hbrk : s0.brk = s0.lo) (hcap : s0.cap < 2 ^ 64)
    (hi : mm_init s0 = some (true, s)) : Inv s [] := by
  by_cases h : s0.lo + 96 ≤ s0.cap
  · obtain ⟨s1, ch, e, -, hwf, hcomp⟩ := mm_init_spec s0 hbrk hcap h
    rw [e] at hi
    simp only [Option.some.injEq, Prod.mk.injEq, true_and] at hi
    subst hi
    exact inv_intro hwf hcomp (List.chain'_singleton _) ⟨fun pn hpn => by simp at hpn,
      List.nodup_nil⟩
  · obtain ⟨s1, e⟩ := mm_init_fail s0 hcap (by omega)
    rw [e] at hi
    simp at hi

theorem inv_malloc {s s' : State} {L : List (Nat × Nat)} {size p : Nat} (h : Inv s L)
    (hlt : size + 31 < 2 ^ 64) (hm : malloc s size = some (p, s')) :
    Inv s' (if p = 0 then L else (p, size) :: L) := by
  obtain ⟨bs, ch, hwf, hcomp, hno, hl⟩ := h
  obtain ⟨g1, g2⟩ := malloc_any hwf hcomp hno (by omega) hm
  by_cases hp : p = 0
  · rw [if_pos hp, (g1 hp).1]
    exact ⟨bs, ch, hwf, hcomp, hno, hl⟩
  · rw [if_neg hp]
    have hsz := (g2 hp).1
    rcases malloc_spec hwf hcomp hno (Nat.pos_of_ne_zero hsz) hlt with ⟨-, -, g3⟩ |
      ⟨r, e1, e2, ⟨bs', ch', nb, k1, k2, k3, k4, k5, k6, k7, k8, k9, k10⟩, -⟩
    · rw [g3] at hm
      simp only [Option.some.injEq, Prod.mk.injEq] at hm
      exact absurd hm.1.symm hp
    · rw [e1] at hm
      simp only [Option.some.injEq] at hm
      subst hm
      simp only at k1 k5
      subst k5
      have asz := (adj_size_facts size (Nat.pos_of_ne_zero hsz) hlt).2.2.1
      apply inv_intro k1 k2 k3
      apply liveok_cons (liveok_mono hl (fun c hc hca => (k8 c hc hca).1)) k4 k6 (by omega)
      intro pn hpn
      obtain ⟨c, hc, h1, h2, -⟩ := hl.1 pn hpn
      rw [← h1]
      exact (k8 c hc h2).2

theorem inv_free {s s' : State} {L : List (Nat × Nat)} {p n : Nat} (h : Inv s L)
    (hpn : (p, n) ∈ L) (hf : free s p = some s') : Inv s' (L.erase (p, n)) := by
  obtain ⟨bs, ch, hwf, hcomp, hno, hl⟩ := h
  obtain ⟨b, hb, h1, h2, -⟩ := hl.1 _ hpn
  have h1' : b.addr = p := h1
  obtain ⟨s2, bs2, ch2, f1, -, f3, f4, f5, f6, -, -, -⟩ :=
    free_spec hwf hcomp hno hb h2 (fun a ha => ha.elim)
  rw [h1', hf] at f1
  simp only [Option.some.injEq] at f1
  subst f1
  exact inv_intro f3 f4 f5 (liveok_erase hl hpn h1' f6)

theorem inv_realloc {s s' : State} {L : List (Nat × Nat)} {p n size q : Nat} (h : Inv s L)
    (hpn : (p, n) ∈ L) (hlt : size + 31 < 2 ^ 64) (hr : realloc s p size = some (q, s')) :
    Inv s' (realloc_live L p n size q) := by
  unfold realloc_live
  by_cases hs : size = 0
  · rw [if_pos hs]
    unfold realloc at hr
    rw [if_pos hs] at hr
    cases hf : free s p with
    | none => rw [hf] at hr; cases hr
    | some s2 =>
      rw [hf] at hr
      simp only [Option.some.injEq, Prod.mk.injEq] at hr
      rw [← hr.2]
      exact inv_free h hpn hf
  · rw [if_neg hs]
    obtain ⟨bs, ch, hwf, hcomp, hno, hl⟩ := h
    obtain ⟨b, hb, h1, h2, -⟩ := hl.1 _ hpn
    have h1' : b.addr = p := h1
    have hcases : (malloc s size = some (0, s) ∧ realloc s b.addr size = some (0, s)) ∨
        ∃ r, realloc s b.addr size = some r ∧ r.1 ≠ 0 ∧ Moved s bs b size r := by
      by_cases hsrc : b.addr + size ≤ s.cap
      · exact realloc_spec hwf hcomp hno hb h2 (Nat.pos_of_ne_zero hs) hlt hsrc
      · rcases realloc_fault hwf hcomp hno hb h2 (Nat.pos_of_ne_zero hs) hlt hsrc with g | g
        · exact Or.inl g
        · rw [h1', hr] at g
          cases g
    rcases hcases with ⟨-, g⟩ |
      ⟨r, e1, e2, bs', ch', nb, k1, k2, k3, k4, k5, k6, k7, k8, k9, -, -⟩
    · rw [h1', hr] at g
      simp only [Option.some.injEq, Prod.mk.injEq] at g
      rw [if_pos g.1, g.2]
      exact ⟨bs, ch, hwf, hcomp, hno, hl⟩
    · rw [h1', hr] at e1
      simp only [Option.some.injEq] at e1
      subst e1
      simp only at e2 k1 k5
      rw [if_neg e2]
      subst k5
      have asz := (adj_size_facts size (Nat.pos_of_ne_zero hs) hlt).2.2.1
      apply inv_intro k1 k2 k3
      have hl' : LiveOK bs' (L.erase (p, n)) :=
        liveok_erase hl hpn h1' (fun c hc hca hcb => (k8 c hc hca hcb).1)
      apply liveok_cons hl' k4 k6 (by omega)
      intro x hx
      have hxL : x ∈ L := List.mem_of_mem_erase hx
      have hnd : L.Nodup := List.Nodup.of_map _ hl.2
      have hxne : x ≠ (p, n) := ((List.Nodup.mem_erase_iff hnd).1 hx).1
      obtain ⟨c, hc, c1, c2, -⟩ := hl.1 x hxL
      rw [← c1]
      refine (k8 c hc c2 ?_).2
      intro hcb
      apply hxne
      apply List.inj_on_of_nodup_map hl.2 hxL hpn
      show x.1 = p
      rw [← c1, hcb, h1']

theorem inv_calloc {s s' : State} {L : List (Nat × Nat)} {nmemb size p : Nat} (h : Inv s L)
    (hlt : nmemb * size + 31 < 2 ^ 64) (hc : calloc s nmemb size = some (p, s')) :
    Inv s' (if p = 0 then L else (p, nmemb * size) :: L) := by
  obtain ⟨bs, ch, hwf, hcomp, hno, hl⟩ := h
  by_cases hz : nmemb * size = 0
  · have hprod : (size * nmemb) % SIZE_MOD = 0 := by
      rw [Nat.mul_comm, hz]; rfl
    have hm : malloc s 0 = some (0, s) := by unfold malloc; rw [if_pos rfl]
    rw [calloc_eq, hprod, hm] at hc
    simp only [ne_eq, not_true_eq_false, if_false, Option.some.injEq, Prod.mk.injEq] at hc
    rw [← hc.1, ← hc.2, if_pos rfl]
    exact ⟨bs, ch, hwf, hcomp, hno, hl⟩
  · rcases calloc_spec hwf hcomp hno (Nat.pos_of_ne_zero hz) hlt with ⟨-, g⟩ |
      ⟨r, e1, e2, ⟨bs', ch', nb, k1, k2, k3, k4, k5, k6, k7, k8, k9, k10⟩, -, -⟩
    · rw [hc] at g
      simp only [Option.some.injEq, Prod.mk.injEq] at g
      rw [if_pos g.1, g.2]
      exact ⟨bs, ch, hwf, hcomp, hno, hl⟩
    · rw [hc] at e1
      simp only [Option.some.injEq] at e1
      subst e1
      simp only at e2 k1 k5
      rw [if_neg e2]
      subst k5
      have asz := (adj_size_facts _ (Nat.pos_of_ne_zero hz) hlt).2.2.1
      apply inv_intro k1 k2 k3
      apply liveok_cons (liveok_mono hl (fun c hc hca => (k8 c hc hca).1)) k4 k6 (by omega)
      intro pn hpn
      obtain ⟨c, hc, h1, h2, -⟩ := hl.1 pn hpn
      rw [← h1]
      exact (k8 c hc h2).2

theorem inv_store {s : State} {L : List (Nat × Nat)} {p n a v : Nat} (h : Inv s L)
    (hpn : (p, n) ∈ L) (h1 : p ≤ a) (h2 : a < p + n) :
    Inv { s with mem := write_byte s.mem a v } L := by
  obtain ⟨bs, ch, hwf, hcomp, hno, hl⟩ := h
  obtain ⟨b, hb, e1, e2, e3⟩ := hl.1 _ hpn
  have e1' : b.addr = p := e1
  have e3' : n + 16 ≤ b.size := e3
  have w : WF (fun _ => False) s.mem { s with mem := write_byte s.mem a v } bs ch :=
    wf_payload_write hwf hb e2
    (by
      intro x hx
      unfold write_byte
      rw [if_neg (by omega)])
    (fun x hx => hx.elim)
  exact inv_intro w hcomp hno hl

theorem inv_free_null {s s' : State} {L : List (Nat × Nat)} (h : Inv s L)
    (hf : free s 0 = some s') : Inv s' L := by
  have : free s 0 = some s := by unfold free; rw [if_pos rfl]
  rw [this] at hf
  simp only [Option.some.injEq] at hf
  rw [← hf]
  exact h

theorem inv_realloc_null {s s' : State} {L : List (Nat × Nat)} {size q : Nat} (h : Inv s L)
    (hlt : size + 31 < 2 ^ 64) (hr : realloc s 0 size = some (q, s')) :
    Inv s' (if q = 0 then L else (q, size) :: L) := by
  by_cases hs : size = 0
  · have : realloc s 0 size = some (0, s) := by
      unfold realloc free
      rw [if_pos hs, if_pos rfl]
    rw [this] at hr
    simp only [Option.some.injEq, Prod.mk.injEq] at hr
    rw [← hr.1, ← hr.2, if_pos rfl]
    exact h
  · have : realloc s 0 size = malloc s size := by
      unfold realloc
      rw [if_neg hs, if_pos rfl]
    rw [this] at hr
    exact inv_malloc h hlt hr

/-- Every reachable state satisfies the invariant. -/
theorem reach_inv {s : State} {L : List (Nat × Nat)} (h : Reach s L) : Inv s L := by
  induction h with
  | init s0 s hbrk hcap hi => exact inv_init hbrk hcap hi
  | malloc s s' L size p _ hlt hm ih => exact inv_malloc ih hlt hm
  | free s s' L p n _ hpn hf ih => exact inv_free ih hpn hf
  | free_null s s' L _ hf ih => exact inv_free_null ih hf
  | realloc s s' L p n size q _ hpn hlt hr ih => exact inv_realloc ih hpn hlt hr
  | realloc_null s s' L size q _ hlt hr ih => exact inv_realloc_null ih hlt hr
  | calloc s s' L nmemb size p _ hlt hc ih => exact inv_calloc ih hlt hc
  | store s L p n a v _ hpn h1 h2 ih => exact inv_store ih hpn h1 h2

end

section

variable {K : Nat → Prop} {G : Mem} {s : State} {bs : List Blk} {ch : Nat → List Nat}

/-! ## Freeing a run of adjacent blocks -/

theorem contig_head {p e : Nat} {l : List Blk} (h : Contig p l e) (hpos : ∀ b ∈ l, 0 < b.size)
    {b : Blk} (hb : b ∈ l) (hbp : b.addr = p) : l.head? = some b := by
  cases l with
  | nil => simp at hb
  | cons c l =>
    rcases List.mem_cons.1 hb with rfl | hb'
    · rfl
    · have := contig_mem h.2 hb'
      have := hpos c (by simp)
      omega

/-- Two blocks that touch are neighbours in the walk, so not both free. -/
theorem noadj_contig {p e : Nat} {l : List Blk} (h : Contig p l e) (hpos : ∀ b ∈ l, 0 < b.size)
    (hno : NoAdjFree l) {b1 b2 : Blk} (h1 : b1 ∈ l) (h2 : b2 ∈ l)
    (ht : b1.addr + b1.size = b2.addr) : b1.alloc = true ∨ b2.alloc = true := by
  induction l generalizing p with
  | nil => simp at h1
  | cons c l ih =>
    have hc := hpos c (by simp)
    have hpos' : ∀ b ∈ l, 0 < b.size := fun b hb => hpos b (by simp [hb])
    have hca : c.addr = p := h.1
    rcases List.mem_cons.1 h1 with rfl | h1'
    · rcases List.mem_cons.1 h2 with rfl | h2'
      · omega
      · have hh := contig_head h.2 hpos' h2' (by omega)
        cases l with
        | nil => simp at h2'
        | cons d l =>
          simp only [List.head?_cons, Option.some.injEq] at hh
          subst hh
          have hno' : List.Chain' (fun b1 b2 : Blk => b1.alloc = true ∨ b2.alloc = true)
            (b1 :: d :: l) := hno
          have hrel := List.Chain'.rel_head hno'
          exact hrel
    · rcases List.mem_cons.1 h2 with rfl | h2'
      · have := contig_mem h.2 h1'
        have := hpos' b1 h1'
        omega
      · exact ih h.2 hpos' (List.Chain'.tail hno) h1' h2'

theorem contig_nodup {p e : Nat} {l : List Blk} (h : Contig p l e)
    (hpos : ∀ b ∈ l, 0 < b.size) : (l.map Blk.addr).Nodup := by
  induction l generalizing p with
  | nil => exact List.nodup_nil
  | cons c l ih =>
    rw [List.map_cons, List.nodup_cons]
    refine ⟨?_, ih h.2 (fun b hb => hpos b (by simp [hb]))⟩
    intro hmem
    obtain ⟨d, hd, e1⟩ := List.mem_map.1 hmem
    have := contig_mem h.2 hd
    have := hpos c (by simp)
    have hca : c.addr = p := h.1
    omega

theorem free_all_spec (run : List Blk) : ∀ (rem : List Nat) (s : State) (bs : List Blk)
    (ch : Nat → List Nat), WF (fun _ => False) G s bs ch → Complete bs ch → NoAdjFree bs →
    rem.Nodup → (∀ a ∈ rem, ∃ x ∈ run, x.addr = a) → RunInv bs run rem →
    ∃ s' bs' ch', free_all s rem = some s' ∧ WF (fun _ => False) G s' bs' ch' ∧
      Complete bs' ch' ∧ NoAdjFree bs' ∧ RunInv bs' run [] ∧
      (s'.brk = s.brk ∧ s'.heap_ptr = s.heap_ptr ∧ s'.cap = s.cap ∧ s'.lo = s.lo)
  | [], s, bs, ch, hwf, hcomp, hno, _, _, hri =>
    ⟨s, bs, ch, rfl, hwf, hcomp, hno, hri, rfl, rfl, rfl, rfl⟩
  | a :: rest, s, bs, ch, hwf, hcomp, hno, hnd, hrun, hri => by
    obtain ⟨x, hx, hxa⟩ := hrun a (by simp)
    obtain ⟨hxb, hxal⟩ := (hri x hx).1 (by simp [hxa])
    obtain ⟨s1, bs1, ch1, f1, f2, f3, f4, f5, f6, f7, -, f9⟩ :=
      free_spec hwf hcomp hno hxb hxal (fun a ha => ha.elim)
    have hnd' := List.nodup_cons.1 hnd
    have hri1 : RunInv bs1 run rest := by
      intro y hy
      constructor
      · intro hyr
        obtain ⟨hyb, hyal⟩ := (hri y hy).1 (List.mem_cons_of_mem _ hyr)
        refine ⟨f6 y hyb hyal ?_, hyal⟩
        rintro rfl
        rw [hxa] at hyr
        exact hnd'.1 hyr
      · intro hyr
        by_cases hya : y.addr = a
        · obtain ⟨hyb, hyal⟩ := (hri y hy).1 (by simp [hya])
          have hyx : y = x :=
            contig_addr_inj hwf.1.contig (core_pos hwf.1) hyb hxb (by rw [hya, hxa])
          rw [hyx]
          exact f9 x hxb (Or.inl rfl)
        · obtain ⟨f, hf, hff, h1, h2⟩ := (hri y hy).2 (by simp [hya, hyr])
          obtain ⟨f', hf', hff', h3, h4⟩ := f9 f hf (Or.inr hff)
          exact ⟨f', hf', hff', by omega, by omega⟩
    obtain ⟨s2, bs2, ch2, g1, g2, g3, g4, g5, g6⟩ :=
      free_all_spec run rest s1 bs1 ch1 f3 f4 f5 hnd'.2
        (fun b hb => hrun b (List.mem_cons_of_mem _ hb)) hri1
    refine ⟨s2, bs2, ch2, ?_, g2, g3, g4, g5, ?_⟩
    · show (match free s a with
        | none => none
        | some s' => free_all s' rest) = some s2
      rw [← hxa, f1]
      exact g1
    · exact ⟨g6.1.trans f2.1, g6.2.1.trans f2.2.1, g6.2.2.1.trans f2.2.2.1,
        g6.2.2.2.trans f2.2.2.2⟩

/-- A contiguous run of blocks, each inside a free block of a fully coalesced
heap, lies inside one free block. -/
theorem run_one_cover (hc : Core K G s bs) (hno : NoAdjFree bs) :
    ∀ (run : List Blk) (p e : Nat), Contig p run e → run ≠ [] → (∀ x ∈ run, 0 < x.size) →
      (∀ x ∈ run, Covered bs x) →
      ∃ f ∈ bs, f.alloc = false ∧ ∀ x ∈ run, f.addr ≤ x.addr ∧ x.addr + x.size ≤ f.addr + f.size
  | [], _, _, _, hne, _, _ => absurd rfl hne
  | [c], _, _, _, _, _, hcov => by
    obtain ⟨f, hf, hff, h1, h2⟩ := hcov c (by simp)
    refine ⟨f, hf, hff, ?_⟩
    intro x hx
    rw [List.mem_singleton.1 hx]
    exact ⟨h1, h2⟩
  | c :: d :: rest, p, e, hct, _, hpos, hcov => by
    obtain ⟨f', hf', hff', hall⟩ := run_one_cover hc hno (d :: rest) (p + c.size) e hct.2
      (by simp) (fun x hx => hpos x (List.mem_cons_of_mem _ hx))
      (fun x hx => hcov x (List.mem_cons_of_mem _ hx))
    obtain ⟨f, hf, hff, h1, h2⟩ := hcov c (by simp)
    have hd := hall d (by simp)
    have hca : c.addr = p := hct.1
    have hda : d.addr = p + c.size := hct.2.1
    have hcp := hpos c (by simp)
    have hdp := hpos d (by simp)
    have hfeq : f = f' := by
      rcases core_sep hc hf hf' with e1 | e1 | e1
      · exact e1
      · have := noadj_contig hc.contig (core_pos hc) hno hf hf' (by omega)
        rw [hff, hff'] at this
        simp at this
      · omega
    subst hfeq
    refine ⟨f, hf, hff, ?_⟩
    intro x hx
    rcases List.mem_cons.1 hx with rfl | hx'
    · exact ⟨h1, h2⟩
    · exact hall x hx'

/-- Freeing the blocks of a run of adjacent allocated blocks, in any order,
leaves one free block that spans the run. -/
theorem free_run_full (h : WF (fun _ => False) G s bs ch) (hcomp : Complete bs ch)
    (hno : NoAdjFree bs) {pre run post : List Blk} (hbs : bs = pre ++ run ++ post)
    (hne : run ≠ []) (hal : ∀ c ∈ run, c.alloc = true) {ps : List Nat}
    (hperm : ps.Perm (run.map Blk.addr)) :
    ∃ s' bs' ch', free_all s ps = some s' ∧ WF (fun _ => False) G s' bs' ch' ∧
      Complete bs' ch' ∧ NoAdjFree bs' ∧
      (s'.brk = s.brk ∧ s'.heap_ptr = s.heap_ptr ∧ s'.cap = s.cap ∧ s'.lo = s.lo) ∧
      ∃ f ∈ bs', f.alloc = false ∧
        (∀ x ∈ run, f.addr ≤ x.addr ∧ x.addr + x.size ≤ f.addr + f.size) ∧
        ∀ g ∈ bs', g.alloc = false →
          (∃ c ∈ run, g.addr < c.addr + c.size ∧ c.addr < g.addr + g.size) → g = f := by
  obtain ⟨p, e, c1, c2, c3⟩ := core_split h.1 hbs
  have hsub : ∀ x ∈ run, x ∈ bs := fun x hx => by rw [hbs]; simp [hx]
  have hpos : ∀ x ∈ run, 0 < x.size := fun x hx => core_pos h.1 x (hsub x hx)
  have hnd : ps.Nodup := (List.Perm.nodup_iff hperm).2 (contig_nodup c2 hpos)
  have hrun : ∀ a ∈ ps, ∃ x ∈ run, x.addr = a := by
    intro a ha
    exact List.mem_map.1 ((List.Perm.mem_iff hperm).1 ha)
  have hri : RunInv bs run ps := by
    intro x hx
    constructor
    · intro _
      exact ⟨hsub x hx, hal x hx⟩
    · intro hn
      exact absurd ((List.Perm.mem_iff hperm).2 (List.mem_map_of_mem _ hx)) hn
  obtain ⟨s', bs', ch', g1, g2, g3, g4, g5, g6⟩ :=
    free_all_spec run ps s bs ch h hcomp hno hnd hrun hri
  obtain ⟨f, hf, hff, hcov⟩ := run_one_cover g2.1 g4 run p e c2 hne hpos
    (fun x hx => (g5 x hx).2 (by simp))
  refine ⟨s', bs', ch', g1, g2, g3, g4, g6, f, hf, hff, hcov, ?_⟩
  rintro g hg hgf ⟨c, hc, o1, o2⟩
  have := hcov c hc
  rcases core_sep g2.1 hg hf with e1 | e1 | e1
  · exact e1
  · omega
  · omega

end

section

/-! ## The concrete heaps -/

theorem opt_fst_snd {α β : Type} {o : Option (α × β)} {a : α} (d : α × β)
    (h : o.map Prod.fst = some a) : o = some (a, (o.getD d).2) := by
  cases o with
  | none => simp at h
  | some x =>
    obtain ⟨x1, x2⟩ := x
    simp only [Option.map_some', Option.some.injEq] at h
    subst h
    rfl

theorem heap1_init : mm_init heap0 = some (true, heap1) :=
  opt_fst_snd (false, heap0) (by rfl)

theorem heap1_reach : Reach heap1 [] :=
  Reach.init heap0 heap1 rfl (by decide) heap1_init

theorem heap2_malloc : malloc heap1 16 = some (48, heap2) :=
  opt_fst_snd (0, heap1) (by rfl)

theorem heap2_reach : Reach heap2 [(48, 16)] :=
  Reach.malloc heap1 heap2 [] 16 48 heap1_reach (by decide) heap2_malloc

theorem heap3_malloc : malloc heap2 16 = some (80, heap3) :=
  opt_fst_snd (0, heap2) (by rfl)

theorem heap3_reach : Reach heap3 [(80, 16), (48, 16)] :=
  Reach.malloc heap2 heap3 [(48, 16)] 16 80 heap2_reach (by decide) heap3_malloc

theorem heap4_free : free heap3 48 = some heap4 := by
  have h : (free heap3 48).isSome = true := by rfl
  cases hf : free heap3 48 with
  | none => rw [hf] at h; cases h
  | some x => simp [heap4, hf]

theorem heap4_reach : Reach heap4 [(80, 16)] :=
  Reach.free heap3 heap4 [(80, 16), (48, 16)] 48 16 heap3_reach (by decide) heap4_free

theorem heap5_reach : Reach heap5 [(80, 16)] :=
  Reach.store heap4 [(80, 16)] 80 16 88 9 heap4_reach (by decide) (by decide) (by decide)

/-- A copy of `2 ^ 64 - 16` bytes leaves the backing store: `realloc` has no result. -/
theorem heap5_realloc_fault : realloc heap5 80 (2 ^ 64 - 16) = none := by rfl

theorem heap7_realloc : realloc heap5 80 40 = some (112, heap7) :=
  opt_fst_snd (0, heap5) (by rfl)

theorem heap8_calloc : calloc heap1 (2 ^ 63 + 1) 2 = some (48, heap8) :=
  opt_fst_snd (0, heap1) (by rfl)

/-- A fill of `2 ^ 64 - 16` bytes leaves the backing store: `calloc` has no result. -/
theorem heap1_calloc_fault : calloc heap1 1 (2 ^ 64 - 16) = none := by rfl

theorem heap10_calloc : calloc heap1 2 8 = some (48, heap10) :=
  opt_fst_snd (0, heap1) (by rfl)

theorem heap3_malloc_fail : malloc heap3 5000 = some (0, heap3) := by rfl

end

section

/-! ## No function of the allocator changes the limit of the backing store -/

theorem node_insert_cap {s s' : State} {ptr size : Nat} (h : node_insert s ptr size = some s') :
    s'.cap = s.cap := by
  unfold node_insert at h
  simp only [] at h
  split at h
  · cases h
  · split_ifs at h <;> simp only [Option.some.injEq] at h <;> subst h <;> rfl

theorem block_coalescing_cap {s s' : State} {ptr p : Nat}
    (h : block_coalescing s ptr = some (p, s')) : s'.cap = s.cap := by
  unfold block_coalescing at h
  simp only [] at h
  split_ifs at h
  all_goals
    first
    | (simp only [Option.some.injEq, Prod.mk.injEq] at h
       rw [← h.2])
    | (split at h
       · cases h
       · rename_i s2 hni
         simp only [Option.some.injEq, Prod.mk.injEq] at h
         rw [← h.2, node_insert_cap hni]
         simp only [node_del_cap])

theorem heap_extension_cap {s s' : State} {size p : Nat}
    (h : heap_extension s size = some (p, s')) : s'.cap = s.cap := by
  unfold heap_extension at h
  simp only [] at h
  split at h
  · simp only [Option.some.injEq, Prod.mk.injEq] at h
    rw [← h.2]
  · rename_i ptr s1 hsb
    have hc1 : s1.cap = s.cap := by
      unfold mem_sbrk at hsb
      split_ifs at hsb
      simp only [Option.some.injEq, Prod.mk.injEq] at hsb
      rw [← hsb.2]
    split at h
    · cases h
    · rename_i s2 hni
      rw [block_coalescing_cap h, node_insert_cap hni]
      exact hc1

theorem insert_block_cap {s s' : State} {ptr adj p : Nat}
    (h : insert_block s ptr adj = some (p, s')) : s'.cap = s.cap := by
  unfold insert_block at h
  simp only [] at h
  split_ifs at h
  all_goals
    first
    | (simp only [Option.some.injEq, Prod.mk.injEq] at h
       rw [← h.2]
       simp only [node_del_cap])
    | (split at h
       · cases h
       · rename_i s2 hni
         simp only [Option.some.injEq, Prod.mk.injEq] at h
         rw [← h.2, node_insert_cap hni]
         simp only [node_del_cap])

theorem malloc_cap {s s' : State} {size p : Nat} (h : malloc s size = some (p, s')) :
    s'.cap = s.cap := by
  unfold malloc at h
  split_ifs at h with h0
  · simp only [Option.some.injEq, Prod.mk.injEq] at h
    rw [← h.2]
  · simp only [] at h
    split at h
    · cases h
    · split_ifs at h with h1
      · split at h
        · cases h
        · rename_i q s1 he
          split_ifs at h with h2
          · simp only [Option.some.injEq, Prod.mk.injEq] at h
            rw [← h.2]
            exact heap_extension_cap he
          · rw [insert_block_cap h]
            exact heap_extension_cap he
      · exact insert_block_cap h

end

section

/-! ## Claims about `malloc` -/

theorem nofit_iff {K : Nat → Prop} {G : Mem} {s : State} {bs : List Blk} {ch : Nat → List Nat}
    (h : WF K G s bs ch) (adj : Nat) :
    NoFit s.mem ch adj ↔
      ∀ k, k < 20 → ∀ x ∈ chain s k, fetch_size s.mem (header_ptr x) < adj := by
  constructor
  · intro hnf k hk x hx
    rw [chain_eq h hk] at hx
    obtain ⟨b, hb, h1, -, -⟩ := h.2.mem_ch k x hx
    have ht : read_tag s.mem (header_ptr x) = 0 := by
      rw [← h1, header_ptr_eq]; exact blk_read_tag (h.1.blk b hb)
    have := hnf k hk x hx
    unfold Fit at this
    by_contra hc
    exact this ⟨by omega, ht⟩
  · intro hh k hk x hx hfit
    rw [← chain_eq h hk] at hx
    have := hh k hk x hx
    have := hfit.1
    omega

theorem mem_sbrk_none (s : State) (n : Nat) : mem_sbrk s n = none ↔ ¬ s.brk + n ≤ s.cap := by
  unfold mem_sbrk
  split_ifs with h <;> simp [h]

/-- The new block of a successful `malloc` with a valid request. -/
theorem malloc_reach {s s' : State} {L : List (Nat × Nat)} {size p : Nat} (hr : Reach s L)
    (hsz : 0 < size) (hlt : size + 31 < 2 ^ 64) (hm : malloc s size = some (p, s'))
    (hp : p ≠ 0) :
    ∃ bs ch, WF (fun _ => False) s.mem s bs ch ∧ LiveOK bs L ∧
      Allocated (fun _ => False) s.mem s bs (adj_size size) (p, s') := by
  obtain ⟨bs, ch, hwf, hcomp, hno, hl⟩ := reach_inv hr
  refine ⟨bs, ch, hwf, hl, ?_⟩
  rcases malloc_spec hwf hcomp hno hsz hlt with ⟨-, -, g3⟩ | ⟨r, e1, -, hal, -⟩
  · rw [g3] at hm
    simp only [Option.some.injEq, Prod.mk.injEq] at hm
    exact absurd hm.1.symm hp
  · rw [e1] at hm
    simp only [Option.some.injEq] at hm
    rw [← hm]
    exact hal

/-- C1 (no overlap of live blocks).  In a state reachable by valid calls, when
`malloc size` with `0 < size` and `size + 31 < 2 ^ 64` returns a non-null `p`, the
range `[p, p + size)` is disjoint from header, payload and footer of every block
that was allocated before the call, hence from the requested range of every live
allocation; it is disjoint from header, payload and footer of every block of the
new heap other than the block at `p`; and it lies above the prologue and ends
before the footer of its own block and the terminal marker. -/
theorem malloc_no_overlap (s s' : State) (L : List (Nat × Nat)) (size p : Nat)
    (hr : Reach s L) (hsz : 0 < size) (hlt : size + 31 < 2 ^ 64)
    (hm : malloc s size = some (p, s')) (hp : p ≠ 0) :
    (∀ c ∈ heap_walk s, c.alloc = true → p + size ≤ c.addr - 8 ∨ c.addr + c.size - 8 ≤ p) ∧
    (∀ qn ∈ L, p + size ≤ qn.1 ∨ qn.1 + qn.2 ≤ p) ∧
    (∀ c ∈ heap_walk s', c.addr ≠ p → p + size ≤ c.addr - 8 ∨ c.addr + c.size - 8 ≤ p) ∧
    s'.heap_ptr + 32 ≤ p ∧ p + size ≤ footer_ptr s'.mem p ∧ footer_ptr s'.mem p + 16 ≤ s'.brk := by
  obtain ⟨bs, ch, hwf, hl, bs', ch', nb, k1, k2, k3, k4, k5, k6, k7, k8, k9, k10⟩ :=
    malloc_reach hr hsz hlt hm hp
  simp only at k1 k5 k10
  have asz := (adj_size_facts size hsz hlt).2.2.1
  have hnb := core_bounds k1.1 k4
  have hold : ∀ c ∈ bs, c.alloc = true → p + size ≤ c.addr - 8 ∨ c.addr + c.size - 8 ≤ p := by
    intro c hc hca
    obtain ⟨c1, c2⟩ := k8 c hc hca
    have hcb := core_bounds k1.1 c1
    rcases core_sep k1.1 c1 k4 with e | e | e
    · rw [e] at c2; exact absurd rfl c2
    · right; omega
    · left; omega
  refine ⟨?_, ?_, ?_, ?_, ?_, ?_⟩
  · rw [heap_walk_eq hwf.1]
    exact hold
  · intro qn hqn
    obtain ⟨c, hc, h1, h2, h3⟩ := hl.1 qn hqn
    have hcb := core_bounds hwf.1 hc
    rcases hold c hc h2 with e | e
    · left; omega
    · right; omega
  · rw [heap_walk_eq k1.1]
    intro c hc hcp
    have hcb := core_bounds k1.1 hc
    rcases core_sep k1.1 hc k4 with e | e | e
    · rw [e, k5] at hcp; exact absurd rfl hcp
    · right; omega
    · left; omega
  · omega
  · rw [← k5, blk_footer (k1.1.blk nb k4)]
    omega
  · rw [← k5, blk_footer (k1.1.blk nb k4)]
    omega

/-- The claim C1 at a concrete call: the second `malloc(16)` of the sample run. -/
theorem malloc_no_overlap_witness :
    Reach heap2 [(48, 16)] ∧ malloc heap2 16 = some (80, heap3) ∧
    ((∀ c ∈ heap_walk heap2, c.alloc = true → 80 + 16 ≤ c.addr - 8 ∨ c.addr + c.size - 8 ≤ 80) ∧
    (∀ qn ∈ [(48, 16)], 80 + 16 ≤ qn.1 ∨ qn.1 + qn.2 ≤ 80) ∧
    (∀ c ∈ heap_walk heap3, c.addr ≠ 80 → 80 + 16 ≤ c.addr - 8 ∨ c.addr + c.size - 8 ≤ 80) ∧
    heap3.heap_ptr + 32 ≤ 80 ∧ 80 + 16 ≤ footer_ptr heap3.mem 80 ∧
    footer_ptr heap3.mem 80 + 16 ≤ heap3.brk) :=
  ⟨heap2_reach, heap3_malloc,
    malloc_no_overlap heap2 heap3 [(48, 16)] 16 80 heap2_reach (by decide) (by decide)
      heap3_malloc (by decide)⟩

/-- C2 (payload capacity).  In a reachable state, when `malloc size` with `0 < size`
and `size + 31 < 2 ^ 64` returns a non-null `p`, the header of `p` has its allocated
bit set and the stored block size `B` satisfies `B - 16 ≥ size` (indeed
`size + 16 ≤ B`). -/
theorem malloc_capacity (s s' : State) (L : List (Nat × Nat)) (size p : Nat)
    (hr : Reach s L) (hsz : 0 < size) (hlt : size + 31 < 2 ^ 64)
    (hm : malloc s size = some (p, s')) (hp : p ≠ 0) :
    fetch_alloc s'.mem (header_ptr p) = 1 ∧
    fetch_size s'.mem (header_ptr p) - 16 ≥ size ∧
    size + 16 ≤ fetch_size s'.mem (header_ptr p) := by
  obtain ⟨bs, ch, hwf, hl, bs', ch', nb, k1, k2, k3, k4, k5, k6, k7, k8, k9, k10⟩ :=
    malloc_reach hr hsz hlt hm hp
  simp only at k1 k5 k10
  have asz := (adj_size_facts size hsz hlt).2.2.1
  have hok := k1.1.blk nb k4
  rw [← k5, header_ptr_eq, blk_fetch_alloc hok, blk_fetch_size hok, k6]
  refine ⟨rfl, ?_, ?_⟩ <;> omega

/-- The claim C2 at a concrete call: the first `malloc(16)` of the sample run. -/
theorem malloc_capacity_witness :
    Reach heap1 [] ∧ malloc heap1 16 = some (48, heap2) ∧
    (fetch_alloc heap2.mem (header_ptr 48) = 1 ∧
    fetch_size heap2.mem (header_ptr 48) - 16 ≥ 16 ∧
    16 + 16 ≤ fetch_size heap2.mem (header_ptr 48)) :=
  ⟨heap1_reach, heap2_malloc,
    malloc_capacity heap1 heap2 [] 16 48 heap1_reach (by decide) (by decide) heap2_malloc
      (by decide)⟩

/-- C3 (alignment).  Assume the heap starts at a multiple of 16.  Then in every
reachable state every block of the heap walk has a payload address and a size
that are multiples of 16, and every address returned by `malloc`, `calloc` or
`realloc`, for any 64-bit request, is a multiple of 16. -/
theorem alloc_aligned (s : State) (L : List (Nat × Nat)) (hr : Reach s L)
    (hal : s.lo % 16 = 0) :
    (∀ b ∈ heap_walk s, b.addr % 16 = 0 ∧ b.size % 16 = 0) ∧
    (∀ size p s', size < 2 ^ 64 → malloc s size = some (p, s') → p % 16 = 0) ∧
    (∀ nmemb size p s', calloc s nmemb size = some (p, s') → p % 16 = 0) ∧
    (∀ q size p s', size < 2 ^ 64 → realloc s q size = some (p, s') → p % 16 = 0) := by
  obtain ⟨bs, ch, hwf, hcomp, hno, hl⟩ := reach_inv hr
  have hhp : s.heap_ptr % 16 = 0 := by rw [← hwf.1.lo_eq]; exact hal
  have hmal : ∀ size p s', size < 2 ^ 64 → malloc s size = some (p, s') → p % 16 = 0 := by
    intro size p s' hlt hm
    by_cases hp : p = 0
    · rw [hp]
    · have := ((malloc_any hwf hcomp hno hlt hm).2 hp).2.2.1
      omega
  refine ⟨?_, hmal, ?_, ?_⟩
  · rw [heap_walk_eq hwf.1]
    intro b hb
    have := (core_mod hwf.1).2 b hb
    exact ⟨by omega, (hwf.1.blk b hb).2.1⟩
  · intro nmemb size p s' hc
    obtain ⟨s1, hm⟩ := calloc_ptr hc
    exact hmal _ p s1 (Nat.mod_lt _ (by decide)) hm
  · intro q size p s' hlt hre
    rcases realloc_ptr hre with e | ⟨s1, hm⟩
    · rw [e]
    · exact hmal size p s1 hlt hm

/-- The claim C3 in the state after `mm_init` of the sample run. -/
theorem alloc_aligned_witness :
    Reach heap1 [] ∧ heap1.lo % 16 = 0 ∧
    ((∀ b ∈ heap_walk heap1, b.addr % 16 = 0 ∧ b.size % 16 = 0) ∧
    (∀ size p s', size < 2 ^ 64 → malloc heap1 size = some (p, s') → p % 16 = 0) ∧
    (∀ nmemb size p s', calloc heap1 nmemb size = some (p, s') → p % 16 = 0) ∧
    (∀ q size p s', size < 2 ^ 64 → realloc heap1 q size = some (p, s') → p % 16 = 0)) :=
  ⟨heap1_reach, by decide, alloc_aligned heap1 [] heap1_reach (by decide)⟩

/-- C4 (malloc failure).  In a reachable state and for a 64-bit request `size`:
a request with `size + 31 < 2 ^ 64` always returns; and whenever `malloc size` returns
`p`, then `p` is `NULL` exactly when `size = 0`, or no block in any of the 20 chains
has a stored size of at least the adjusted size and `mem_sbrk` refuses that many
bytes; and when `p` is `NULL` the whole state is the one before the call: heap
bytes, heap bounds and the 20 bucket heads. -/
theorem malloc_null_iff (s : State) (L : List (Nat × Nat)) (size : Nat) (hr : Reach s L)
    (hlt : size < 2 ^ 64) :
    (size + 31 < 2 ^ 64 → ∃ r, malloc s size = some r) ∧
    ∀ p s', malloc s size = some (p, s') →
      (p = 0 ↔ size = 0 ∨
        ((∀ k, k < 20 → ∀ x ∈ chain s k, fetch_size s.mem (header_ptr x) < adj_size size) ∧
          mem_sbrk s (adj_size size) = none)) ∧
      (p = 0 → s' = s ∧ s'.mem = s.mem ∧ s'.lo = s.lo ∧ s'.brk = s.brk ∧
        ∀ k, k < 20 → s'.seg_freelist k = s.seg_freelist k) := by
  obtain ⟨bs, ch, hwf, hcomp, hno, hl⟩ := reach_inv hr
  constructor
  · intro hv
    by_cases hz : size = 0
    · exact ⟨(0, s), by rw [hz]; unfold malloc; rw [if_pos rfl]⟩
    · rcases malloc_spec hwf hcomp hno (Nat.pos_of_ne_zero hz) hv with ⟨-, -, g3⟩ | ⟨r, e1, -⟩
      · exact ⟨_, g3⟩
      · exact ⟨r, e1⟩
  · intro p s' hm
    obtain ⟨g1, g2⟩ := malloc_any hwf hcomp hno hlt hm
    rw [← nofit_iff hwf, mem_sbrk_none]
    refine ⟨⟨fun hp => (g1 hp).2, fun hh => ?_⟩, fun hp => ?_⟩
    · by_contra hp
      obtain ⟨n1, n2, -⟩ := g2 hp
      rcases hh with e | e
      · exact n1 e
      · exact n2 e
    · have := (g1 hp).1
      subst this
      exact ⟨rfl, rfl, rfl, rfl, fun k hk => rfl⟩

/-- The claim C4 for `malloc(5000)` in the sample run, where it fails. -/
theorem malloc_null_iff_witness :
    Reach heap3 [(80, 16), (48, 16)] ∧ 5000 < 2 ^ 64 ∧
    ((5000 + 31 < 2 ^ 64 → ∃ r, malloc heap3 5000 = some r) ∧
    ∀ p s', malloc heap3 5000 = some (p, s') →
      (p = 0 ↔ 5000 = 0 ∨
        ((∀ k, k < 20 → ∀ x ∈ chain heap3 k,
            fetch_size heap3.mem (header_ptr x) < adj_size 5000) ∧
          mem_sbrk heap3 (adj_size 5000) = none)) ∧
      (p = 0 → s' = heap3 ∧ s'.mem = heap3.mem ∧ s'.lo = heap3.lo ∧ s'.brk = heap3.brk ∧
        ∀ k, k < 20 → s'.seg_freelist k = heap3.seg_freelist k)) :=
  ⟨heap3_reach, by decide, malloc_null_iff heap3 [(80, 16), (48, 16)] 5000 heap3_reach
    (by decide)⟩

/-- C5 (realloc failure is atomic).  In a reachable state, for a live address `p`
and a 64-bit `size > 0`: if the inner `malloc size` returns `NULL`, then
`realloc p size` returns `NULL` and the state after the call is the state before it:
the block of `p` is allocated with the same stored size, every byte of memory is
the same, the heap bounds are the same and every chain is the same. -/
theorem realloc_fail_atomic (s s1 : State) (L : List (Nat × Nat)) (p n size : Nat)
    (hr : Reach s L) (hpn : (p, n) ∈ L) (hsz : 0 < size) (hlt : size < 2 ^ 64)
    (hm : malloc s size = some (0, s1)) :
    ∃ s', realloc s p size = some (0, s') ∧ s' = s ∧
      fetch_alloc s'.mem (header_ptr p) = 1 ∧
      fetch_size s'.mem (header_ptr p) = fetch_size s.mem (header_ptr p) ∧
      n + 16 ≤ fetch_size s'.mem (header_ptr p) ∧
      (∀ a, s'.mem a = s.mem a) ∧ s'.lo = s.lo ∧ s'.brk = s.brk ∧
      ∀ k, k < 20 → chain s' k = chain s k := by
  obtain ⟨bs, ch, hwf, hcomp, hno, hl⟩ := reach_inv hr
  obtain ⟨b, hb, h1, h2, h3⟩ := hl.1 _ hpn
  have h1' : b.addr = p := h1
  have h3' : n + 16 ≤ b.size := h3
  have hbb := core_bounds hwf.1 hb
  have hs1 := ((malloc_any hwf hcomp hno hlt hm).1 rfl).1
  have hok := hwf.1.blk b hb
  refine ⟨s, ?_, rfl, ?_, rfl, ?_, fun a => rfl, rfl, rfl, fun k hk => rfl⟩
  · rw [realloc_eq s p size (by omega) (by omega), hm, hs1]
    rfl
  · rw [← h1', header_ptr_eq, blk_fetch_alloc hok, h2]
    rfl
  · rw [← h1', header_ptr_eq, blk_fetch_size hok]
    exact h3'

/-- The claim C5 for `realloc(80, 5000)` in the sample run, whose `malloc` fails. -/
theorem realloc_fail_atomic_witness :
    Reach heap3 [(80, 16), (48, 16)] ∧ malloc heap3 5000 = some (0, heap3) ∧
    ∃ s', realloc heap3 80 5000 = some (0, s') ∧ s' = heap3 ∧
      fetch_alloc s'.mem (header_ptr 80) = 1 ∧
      fetch_size s'.mem (header_ptr 80) = fetch_size heap3.mem (header_ptr 80) ∧
      16 + 16 ≤ fetch_size s'.mem (header_ptr 80) ∧
      (∀ a, s'.mem a = heap3.mem a) ∧ s'.lo = heap3.lo ∧ s'.brk = heap3.brk ∧
      ∀ k, k < 20 → chain s' k = chain heap3 k :=
  ⟨heap3_reach, heap3_malloc_fail,
    realloc_fail_atomic heap3 heap3 [(80, 16), (48, 16)] 80 16 5000 heap3_reach (by decide)
      (by decide) (by decide) heap3_malloc_fail⟩

end

section

/-! ## Claims about `realloc`, `calloc`, `free` and `mm_init` -/

theorem calloc_some {s s' : State} {nmemb size p : Nat}
    (h : calloc s nmemb size = some (p, s')) (hp : p ≠ 0) :
    ∃ s1 m, malloc s ((size * nmemb) % SIZE_MOD) = some (p, s1) ∧
      memset s1 p 0 ((size * nmemb) % SIZE_MOD) = some m := by
  rw [calloc_eq] at h
  cases hm : malloc s ((size * nmemb) % SIZE_MOD) with
  | none => rw [hm] at h; cases h
  | some r =>
    obtain ⟨q, s1⟩ := r
    rw [hm] at h
    simp only [] at h
    split_ifs at h with h0
    · cases hc : memset s1 q 0 ((size * nmemb) % SIZE_MOD) with
      | none => rw [hc] at h; cases h
      | some m =>
        rw [hc] at h
        simp only [Option.some.injEq, Prod.mk.injEq] at h
        obtain ⟨rfl, -⟩ := h
        exact ⟨s1, m, rfl, hc⟩
    · simp only [Option.some.injEq, Prod.mk.injEq] at h
      exact absurd (h.1 ▸ (not_not.1 h0)) hp

/-- C6 (realloc preserves data).  In a reachable state, for a live address `p` whose
block has stored size `B` and every request `size > 0`: whenever `realloc p size`
returns a non-null `q`, byte `i` at `q` after the call equals byte `i` at `p` before
the call for every `i < min size (B - 16)`.  The call returns whenever
`size + 31 < 2 ^ 64` and the range it reads, `size` bytes from `p`, lies inside the
heap as it is after the inner `malloc`.  It returns a non-null address only when
`size + 31 < 2 ^ 64` and the range read lies inside the backing store: a request
whose rounding wraps makes the copy leave the backing store. -/
theorem realloc_preserves_data (s : State) (L : List (Nat × Nat)) (p n size : Nat)
    (hr : Reach s L) (hpn : (p, n) ∈ L) (hsz : 0 < size) :
    (size + 31 < 2 ^ 64 →
      (∀ q s1, malloc s size = some (q, s1) → q ≠ 0 → p + size ≤ s1.brk) →
      ∃ r, realloc s p size = some r) ∧
    ∀ q s', realloc s p size = some (q, s') → q ≠ 0 →
      (size + 31 < 2 ^ 64 ∧ p + size ≤ s.cap) ∧
      ∀ i, i < min size (fetch_size s.mem (header_ptr p) - 16) →
        s'.mem (q + i) = s.mem (p + i) := by
  obtain ⟨bs, ch, hwf, hcomp, hno, hl⟩ := reach_inv hr
  obtain ⟨b, hb, h1, h2, h3⟩ := hl.1 _ hpn
  have h1' : b.addr = p := h1
  have hok := hwf.1.blk b hb
  have hbb := core_bounds hwf.1 hb
  have hB : fetch_size s.mem (header_ptr p) = b.size := by
    rw [← h1', header_ptr_eq, blk_fetch_size hok]
  rw [hB]
  have key : size + 31 < 2 ^ 64 → p + size ≤ s.cap →
      (∃ r, realloc s p size = some r) ∧
      ∀ q s', realloc s p size = some (q, s') → q ≠ 0 →
        ∀ i, i < min size (b.size - 16) → s'.mem (q + i) = s.mem (p + i) := by
    intro hlt hsrc
    rw [← h1'] at hsrc
    rcases realloc_spec hwf hcomp hno hb h2 hsz hlt hsrc with ⟨-, g⟩ |
      ⟨r, e1, e2, bs', ch', nb, -, -, -, -, -, -, -, -, -, -, hdata⟩
    · rw [h1'] at g
      refine ⟨⟨_, g⟩, ?_⟩
      intro q s' hre hq
      rw [g] at hre
      simp only [Option.some.injEq, Prod.mk.injEq] at hre
      exact absurd hre.1.symm hq
    · rw [h1'] at e1 hdata
      refine ⟨⟨r, e1⟩, ?_⟩
      intro q s' hre hq i hi
      rw [e1] at hre
      simp only [Option.some.injEq] at hre
      subst hre
      exact hdata i (by omega) (by omega)
  refine ⟨fun hlt hsrc => ?_, ?_⟩
  · rcases malloc_spec hwf hcomp hno hsz hlt with ⟨-, -, g3⟩ |
      ⟨r, g1, g2, ⟨bs1, ch1, nb, k1, k2, k3, k4, k5, k6, k7, k8, k9, k10⟩, -⟩
    · refine ⟨(0, s), ?_⟩
      rw [realloc_eq s p size (by omega) (by omega), g3]
      rfl
    · obtain ⟨q, s1⟩ := r
      have h5 := hsrc q s1 g1 g2
      have h6 : s1.brk ≤ s1.cap := k1.1.brk_le
      have h7 : s1.cap = s.cap := k10.2.1
      exact (key hlt (by omega)).1
  intro q s' hre hq
  obtain ⟨s1, m, hm, hc, -⟩ := realloc_some (by omega) (by omega) hre hq
  obtain ⟨-, -, -, c4, -⟩ := memcpy_bounds hc
  rw [malloc_cap hm] at c4
  have hcl := hwf.1.cap_lt
  have hlt : size + 31 < 2 ^ 64 := by omega
  exact ⟨⟨hlt, c4⟩, (key hlt c4).2 q s' hre hq⟩

/-- The claim C6 for `realloc(80, 40)` in the sample run: the call returns 112, and
the byte 9 that the client stored at 88 is at 120. -/
theorem realloc_preserves_data_witness :
    Reach heap5 [(80, 16)] ∧ (80, 16) ∈ [(80, 16)] ∧ 0 < 40 ∧
    realloc heap5 80 40 = some (112, heap7) ∧ heap5.mem 88 = 9 ∧ heap7.mem 120 = 9 ∧
    ((40 + 31 < 2 ^ 64 →
      (∀ q s1, malloc heap5 40 = some (q, s1) → q ≠ 0 → 80 + 40 ≤ s1.brk) →
      ∃ r, realloc heap5 80 40 = some r) ∧
    ∀ q s', realloc heap5 80 40 = some (q, s') → q ≠ 0 →
      (40 + 31 < 2 ^ 64 ∧ 80 + 40 ≤ heap5.cap) ∧
      ∀ i, i < min 40 (fetch_size heap5.mem (header_ptr 80) - 16) →
        s'.mem (q + i) = heap5.mem (80 + i)) :=
  ⟨heap5_reach, by decide, by decide, heap7_realloc, by rfl, by rfl,
    realloc_preserves_data heap5 [(80, 16)] 80 16 40 heap5_reach (by decide) (by decide)⟩

/-- C7, as stated, fails.  After `mm_init` of the sample run, `calloc(2^63 + 1, 2)`
returns the non-null address 48 of a block of stored size 32, whose capacity 16 is
below the product `2^64 + 2`: the product wraps to 2, and two bytes are requested
and zeroed. -/
theorem calloc_product_counterexample :
    Reach heap1 [] ∧ 2 ^ 63 + 1 < 2 ^ 64 ∧ 2 < 2 ^ 64 ∧
    calloc heap1 (2 ^ 63 + 1) 2 = some (48, heap8) ∧ 48 ≠ 0 ∧
    fetch_size heap8.mem (header_ptr 48) = 32 ∧
    fetch_size heap8.mem (header_ptr 48) - 16 < (2 ^ 63 + 1) * 2 := by
  have : fetch_size heap8.mem (header_ptr 48) = 32 := by rfl
  refine ⟨heap1_reach, by decide, by decide, heap8_calloc, by decide, this, ?_⟩
  rw [this]
  decide

/-- C7, amended (calloc allocates and zeroes).  In a reachable state, for `nmemb`
and `size` whose product does not wrap, `nmemb * size < 2 ^ 64`: when
`calloc nmemb size` returns a non-null `p`, the block of `p` is allocated, its stored
size minus 16 is at least `nmemb * size`, and the first `nmemb * size` bytes at `p`
are zero.  The call returns whenever `nmemb * size + 31 < 2 ^ 64`; for a larger
product the fill leaves the backing store and the call has no non-null result. -/
theorem calloc_zeroed (s : State) (L : List (Nat × Nat)) (nmemb size : Nat)
    (hr : Reach s L) (hlt : nmemb * size < 2 ^ 64) :
    (nmemb * size + 31 < 2 ^ 64 → ∃ r, calloc s nmemb size = some r) ∧
    ∀ p s', calloc s nmemb size = some (p, s') → p ≠ 0 →
      nmemb * size + 31 < 2 ^ 64 ∧
      fetch_alloc s'.mem (header_ptr p) = 1 ∧
      fetch_size s'.mem (header_ptr p) - 16 ≥ nmemb * size ∧
      nmemb * size + 16 ≤ fetch_size s'.mem (header_ptr p) ∧
      ∀ i, i < nmemb * size → s'.mem (p + i) = 0 := by
  obtain ⟨bs, ch, hwf, hcomp, hno, hl⟩ := reach_inv hr
  have key : nmemb * size + 31 < 2 ^ 64 →
      (∃ r, calloc s nmemb size = some r) ∧
      ∀ p s', calloc s nmemb size = some (p, s') → p ≠ 0 →
        fetch_alloc s'.mem (header_ptr p) = 1 ∧
        fetch_size s'.mem (header_ptr p) - 16 ≥ nmemb * size ∧
        nmemb * size + 16 ≤ fetch_size s'.mem (header_ptr p) ∧
        ∀ i, i < nmemb * size → s'.mem (p + i) = 0 := by
    intro hlt
    by_cases hz : nmemb * size = 0
    · have hprod : (size * nmemb) % SIZE_MOD = 0 := by
        rw [Nat.mul_comm, hz]; rfl
      have hm : malloc s 0 = some (0, s) := by unfold malloc; rw [if_pos rfl]
      have hc : calloc s nmemb size = some (0, s) := by
        rw [calloc_eq, hprod, hm]
        rfl
      refine ⟨⟨_, hc⟩, ?_⟩
      intro p s' hc' hp
      rw [hc] at hc'
      simp only [Option.some.injEq, Prod.mk.injEq] at hc'
      exact absurd hc'.1.symm hp
    · have hsz := Nat.pos_of_ne_zero hz
      have asz := (adj_size_facts _ hsz hlt).2.2.1
      rcases calloc_spec hwf hcomp hno hsz hlt with ⟨-, g⟩ |
        ⟨r, e1, e2, ⟨bs', ch', nb, k1, k2, k3, k4, k5, k6, k7, -⟩, -, hzero⟩
      · refine ⟨⟨_, g⟩, ?_⟩
        intro p s' hc' hp
        rw [g] at hc'
        simp only [Option.some.injEq, Prod.mk.injEq] at hc'
        exact absurd hc'.1.symm hp
      · refine ⟨⟨r, e1⟩, ?_⟩
        intro p s' hc' hp
        rw [e1] at hc'
        simp only [Option.some.injEq] at hc'
        subst hc'
        simp only at k1 k5 hzero
        have hok := k1.1.blk nb k4
        rw [← k5, header_ptr_eq, blk_fetch_alloc hok, blk_fetch_size hok, k6]
        refine ⟨rfl, by omega, by omega, ?_⟩
        rw [k5]
        exact hzero
  refine ⟨fun h31 => (key h31).1, ?_⟩
  intro p s' hc hp
  have hprod : (size * nmemb) % SIZE_MOD = nmemb * size := by
    rw [Nat.mul_comm]
    exact Nat.mod_eq_of_lt hlt
  obtain ⟨s1, m, hm, hms⟩ := calloc_some hc hp
  rw [hprod] at hm hms
  obtain ⟨-, c2, -⟩ := memset_bounds hms
  rw [malloc_cap hm] at c2
  have hcl := hwf.1.cap_lt
  have hp32 := ((malloc_any hwf hcomp hno hlt hm).2 hp).2.2.2
  have h31 : nmemb * size + 31 < 2 ^ 64 := by omega
  exact ⟨h31, (key h31).2 p s' hc hp⟩

/-- The amended claim C7 for `calloc(2, 8)` after `mm_init` of the sample run, which
returns 48. -/
theorem calloc_zeroed_witness :
    Reach heap1 [] ∧ 2 * 8 < 2 ^ 64 ∧ calloc heap1 2 8 = some (48, heap10) ∧
    ((2 * 8 + 31 < 2 ^ 64 → ∃ r, calloc heap1 2 8 = some r) ∧
    ∀ p s', calloc heap1 2 8 = some (p, s') → p ≠ 0 →
      2 * 8 + 31 < 2 ^ 64 ∧
      fetch_alloc s'.mem (header_ptr p) = 1 ∧
      fetch_size s'.mem (header_ptr p) - 16 ≥ 2 * 8 ∧
      2 * 8 + 16 ≤ fetch_size s'.mem (header_ptr p) ∧
      ∀ i, i < 2 * 8 → s'.mem (p + i) = 0) :=
  ⟨heap1_reach, by decide, heap10_calloc,
    calloc_zeroed heap1 [] 2 8 heap1_reach (by decide)⟩

/-- C8 (free conserves bytes).  In a reachable state, for a live address `p` whose
block has stored size `B`: `free p` returns; afterwards the stored sizes of the free
blocks of the linear heap walk sum to exactly `B` more than before, the heap bounds
are unchanged, and one free block of the walk covers the whole old block of `p`. -/
theorem free_conserves (s : State) (L : List (Nat × Nat)) (p n : Nat) (hr : Reach s L)
    (hpn : (p, n) ∈ L) :
    ∃ s', free s p = some s' ∧
      free_bytes (heap_walk s') = free_bytes (heap_walk s) + fetch_size s.mem (header_ptr p) ∧
      s'.lo = s.lo ∧ s'.brk = s.brk ∧
      ∃ f ∈ heap_walk s', f.alloc = false ∧ f.addr ≤ p ∧ p < f.addr + f.size ∧
        p + fetch_size s.mem (header_ptr p) ≤ f.addr + f.size := by
  obtain ⟨bs, ch, hwf, hcomp, hno, hl⟩ := reach_inv hr
  obtain ⟨b, hb, h1, h2, h3⟩ := hl.1 _ hpn
  have h1' : b.addr = p := h1
  have hok := hwf.1.blk b hb
  have hbb := core_bounds hwf.1 hb
  have hB : fetch_size s.mem (header_ptr p) = b.size := by
    rw [← h1', header_ptr_eq, blk_fetch_size hok]
  obtain ⟨s', bs', ch', f1, f2, f3, -, -, -, -, f8, f9⟩ :=
    free_spec hwf hcomp hno hb h2 (fun a ha => ha.elim)
  obtain ⟨f, hf, hff, c1, c2⟩ := f9 b hb (Or.inl rfl)
  rw [h1'] at f1
  refine ⟨s', f1, ?_, f2.2.2.2, f2.1, f, ?_, hff, ?_, ?_, ?_⟩
  · rw [heap_walk_eq f3.1, heap_walk_eq hwf.1, hB]
    exact f8
  · rw [heap_walk_eq f3.1]
    exact hf
  · omega
  · omega
  · rw [hB]
    omega

/-- The claim C8 for `free(48)` in the sample run. -/
theorem free_conserves_witness :
    Reach heap3 [(80, 16), (48, 16)] ∧ (48, 16) ∈ [(80, 16), (48, 16)] ∧
    ∃ s', free heap3 48 = some s' ∧
      free_bytes (heap_walk s') =
        free_bytes (heap_walk heap3) + fetch_size heap3.mem (header_ptr 48) ∧
      s'.lo = heap3.lo ∧ s'.brk = heap3.brk ∧
      ∃ f ∈ heap_walk s', f.alloc = false ∧ f.addr ≤ 48 ∧ 48 < f.addr + f.size ∧
        48 + fetch_size heap3.mem (header_ptr 48) ≤ f.addr + f.size :=
  ⟨heap3_reach, by decide,
    free_conserves heap3 [(80, 16), (48, 16)] 48 16 heap3_reach (by decide)⟩

/-- C9 (full coalescing).  In a reachable state no two neighbouring blocks of the
heap walk are both free.  And when the walk contains a run of adjacent allocated
blocks, freeing their addresses in any order returns and leaves a free block of
the walk that spans the whole run, the only free block that meets the run. -/
theorem full_coalescing (s : State) (L : List (Nat × Nat)) (hr : Reach s L) :
    (∀ l1 b1 b2 l2, heap_walk s = l1 ++ b1 :: b2 :: l2 → b1.alloc = true ∨ b2.alloc = true) ∧
    ∀ pre run post ps, heap_walk s = pre ++ run ++ post → run ≠ [] →
      (∀ c ∈ run, c.alloc = true) → ps.Perm (run.map Blk.addr) →
      ∃ s' f, free_all s ps = some s' ∧ f ∈ heap_walk s' ∧ f.alloc = false ∧
        (∀ c ∈ run, f.addr ≤ c.addr ∧ c.addr + c.size ≤ f.addr + f.size) ∧
        (∀ g ∈ heap_walk s', g.alloc = false →
          (∃ c ∈ run, g.addr < c.addr + c.size ∧ c.addr < g.addr + g.size) → g = f) ∧
        ∀ l1 b1 b2 l2, heap_walk s' = l1 ++ b1 :: b2 :: l2 →
          b1.alloc = true ∨ b2.alloc = true := by
  obtain ⟨bs, ch, hwf, hcomp, hno, hl⟩ := reach_inv hr
  have hadj : ∀ (bs : List Blk), NoAdjFree bs → ∀ l1 b1 b2 l2, bs = l1 ++ b1 :: b2 :: l2 →
      b1.alloc = true ∨ b2.alloc = true := by
    intro bs hno l1 b1 b2 l2 e
    rw [e] at hno
    have h2 : List.Chain' (fun b1 b2 : Blk => b1.alloc = true ∨ b2.alloc = true)
      (b1 :: b2 :: l2) := List.Chain'.right_of_append hno
    have hrel := List.Chain'.rel_head h2
    exact hrel
  rw [heap_walk_eq hwf.1]
  refine ⟨hadj bs hno, ?_⟩
  intro pre run post ps hbs hne hal hperm
  obtain ⟨s', bs', ch', g1, g2, g3, g4, g5, f, hf, hff, hcov, huniq⟩ :=
    free_run_full hwf hcomp hno hbs hne hal hperm
  refine ⟨s', f, g1, ?_, hff, hcov, ?_, ?_⟩
  · rw [heap_walk_eq g2.1]; exact hf
  · rw [heap_walk_eq g2.1]; exact huniq
  · rw [heap_walk_eq g2.1]; exact hadj bs' g4

/-- The claim C9 in the sample run, for the state with the two allocated blocks. -/
theorem full_coalescing_witness :
    Reach heap3 [(80, 16), (48, 16)] ∧
    ((∀ l1 b1 b2 l2, heap_walk heap3 = l1 ++ b1 :: b2 :: l2 →
      b1.alloc = true ∨ b2.alloc = true) ∧
    ∀ pre run post ps, heap_walk heap3 = pre ++ run ++ post → run ≠ [] →
      (∀ c ∈ run, c.alloc = true) → ps.Perm (run.map Blk.addr) →
      ∃ s' f, free_all heap3 ps = some s' ∧ f ∈ heap_walk s' ∧ f.alloc = false ∧
        (∀ c ∈ run, f.addr ≤ c.addr ∧ c.addr + c.size ≤ f.addr + f.size) ∧
        (∀ g ∈ heap_walk s', g.alloc = false →
          (∃ c ∈ run, g.addr < c.addr + c.size ∧ c.addr < g.addr + g.size) → g = f) ∧
        ∀ l1 b1 b2 l2, heap_walk s' = l1 ++ b1 :: b2 :: l2 →
          b1.alloc = true ∨ b2.alloc = true) :=
  ⟨heap3_reach, full_coalescing heap3 [(80, 16), (48, 16)] heap3_reach⟩

end

section

theorem mem_sbrk_some {s s1 : State} {n p : Nat} (h : mem_sbrk s n = some (p, s1)) :
    s.brk + n ≤ s.cap ∧ s1.brk = s.brk + n ∧ s1.cap = s.cap := by
  unfold mem_sbrk at h
  split_ifs at h with hc
  simp only [Option.some.injEq, Prod.mk.injEq] at h
  rw [← h.2]
  exact ⟨hc, rfl, rfl⟩

theorem list_eq_singleton {l : List Nat} {a : Nat} (hnd : l.Nodup) (hall : ∀ x ∈ l, x = a)
    (ha : a ∈ l) : l = [a] := by
  cases l with
  | nil => simp at ha
  | cons x t =>
    have hx := hall x (by simp)
    subst hx
    cases t with
    | nil => rfl
    | cons y t' =>
      have hy := hall y (by simp)
      rw [hy] at hnd
      simp at hnd

/-- C10 (mm_init postcondition).  Start from an empty heap (`brk = lo`) in a 64-bit
address space.  If the two growth requests, 32 bytes and then 64 bytes, succeed,
`mm_init` returns true and the heap is: a padding word 0, a prologue header and
footer `16 | 1`, one free block of size 64 at `lo + 32` whose header and footer both
carry size 64 and a clear allocated bit, and the terminal marker `0 | 1`; that block
is the only block of the heap walk and the only entry of bucket 6, and the other
19 buckets are empty.  If either growth request fails, `mm_init` returns false. -/
theorem mm_init_post (s0 : State) (hbrk : s0.brk = s0.lo) (hcap : s0.cap < 2 ^ 64) :
    ((∃ p1 s1 p2 s2, mem_sbrk s0 32 = some (p1, s1) ∧ mem_sbrk s1 64 = some (p2, s2)) →
      ∃ s, mm_init s0 = some (true, s) ∧ s.heap_ptr = s0.lo ∧ s.lo = s0.lo ∧
        s.brk = s0.lo + 96 ∧
        read_word s.mem s0.lo = 0 ∧
        read_word s.mem (s0.lo + 8) = 17 ∧ read_word s.mem (s0.lo + 16) = 17 ∧
        (fetch_size s.mem (s0.lo + 24) = 64 ∧ fetch_alloc s.mem (s0.lo + 24) = 0) ∧
        (fetch_size s.mem (s0.lo + 80) = 64 ∧ fetch_alloc s.mem (s0.lo + 80) = 0) ∧
        read_word s.mem (s0.lo + 88) = 1 ∧
        heap_walk s = [⟨s0.lo + 32, 64, false⟩] ∧
        chain s 6 = [s0.lo + 32] ∧ s.seg_freelist 6 = s0.lo + 32 ∧
        ∀ k, k < 20 → k ≠ 6 → chain s k = [] ∧ s.seg_freelist k = 0) ∧
    ((mem_sbrk s0 32 = none ∨ ∃ p1 s1, mem_sbrk s0 32 = some (p1, s1) ∧ mem_sbrk s1 64 = none) →
      ∃ s, mm_init s0 = some (false, s)) := by
  constructor
  · rintro ⟨p1, s1, p2, s2, e1, e2⟩
    obtain ⟨a1, a2, a3⟩ := mem_sbrk_some e1
    obtain ⟨b1, -, -⟩ := mem_sbrk_some e2
    have hroom : s0.lo + 96 ≤ s0.cap := by omega
    obtain ⟨s, ch, hi, hb, hwf, hcomp⟩ := mm_init_spec s0 hbrk hcap hroom
    have hmem : (⟨s0.lo + 32, 64, false⟩ : Blk) ∈ [(⟨s0.lo + 32, 64, false⟩ : Blk)] := by simp
    have hok := hwf.1.blk _ hmem
    obtain ⟨-, -, hh, t, ht, hf⟩ := hok
    have hh' : read_word s.mem (s0.lo + 32 - 8) = 64 := hh
    have hf' : read_word s.mem (s0.lo + 32 + 64 - 16) = 64 + t := hf
    have e24 : s0.lo + 32 - 8 = s0.lo + 24 := by omega
    have e80 : s0.lo + 32 + 64 - 16 = s0.lo + 80 := by omega
    rw [e24] at hh'
    rw [e80] at hf'
    have hidx : seg_index 64 = 6 := by decide
    have hin : s0.lo + 32 ∈ ch 6 := by
      have := hcomp _ hmem rfl
      rw [hidx] at this
      exact this
    have hall : ∀ k, ∀ x ∈ ch k, x = s0.lo + 32 ∧ k = 6 := by
      intro k x hx
      obtain ⟨b, hb', h1, -, h3⟩ := hwf.2.mem_ch k x hx
      rw [List.mem_singleton.1 hb'] at h1 h3
      exact ⟨h1.symm, by rw [← h3, hidx]⟩
    have h6 : ch 6 = [s0.lo + 32] :=
      list_eq_singleton (hwf.2.nodup 6) (fun x hx => (hall 6 x hx).1) hin
    have hpad : read_word s.mem s0.lo = 0 := by
      rw [read_word_congr (m := init_mem s0.mem s0.lo)
        (fun a h1 h2 => hwf.1.keep a ⟨h1, by omega⟩)]
      exact init_mem_pad _ _
    have hph := hwf.1.pro_hdr
    have hpf := hwf.1.pro_ftr
    have hep := hwf.1.epi
    rw [hb.2.1] at hph hpf
    rw [hb.1] at hep
    have e88 : s0.lo + 96 - 8 = s0.lo + 88 := by omega
    rw [e88] at hep
    refine ⟨s, hi, hb.2.1, hb.2.2.2, hb.1, hpad, hph, hpf, ?_, ?_, hep, heap_walk_eq hwf.1, ?_,
      ?_, ?_⟩
    · rw [fetch_size_eq, fetch_alloc_eq, hh']
      exact ⟨rfl, rfl⟩
    · rw [fetch_size_eq, fetch_alloc_eq, hf']
      rcases ht with rfl | rfl <;> exact ⟨rfl, rfl⟩
    · rw [chain_eq hwf (by omega), h6]
    · rw [hwf.2.heads 6 (by omega), h6]
      rfl
    · intro k hk hk6
      have hnil : ch k = [] := by
        apply List.eq_nil_iff_forall_not_mem.2
        intro x hx
        exact hk6 (hall k x hx).2
      rw [chain_eq hwf hk, hwf.2.heads k hk, hnil]
      exact ⟨rfl, rfl⟩
  · intro h
    apply mm_init_fail s0 hcap
    rcases h with e | ⟨p1, s1, e1, e2⟩
    · have := (mem_sbrk_none s0 32).1 e
      omega
    · obtain ⟨a1, a2, a3⟩ := mem_sbrk_some e1
      have := (mem_sbrk_none s1 64).1 e2
      omega

/-- The claim C10 for the empty heap of the sample run. -/
theorem mm_init_post_witness :
    heap0.brk = heap0.lo ∧ heap0.cap < 2 ^ 64 ∧
    (((∃ p1 s1 p2 s2, mem_sbrk heap0 32 = some (p1, s1) ∧ mem_sbrk s1 64 = some (p2, s2)) →
      ∃ s, mm_init heap0 = some (true, s) ∧ s.heap_ptr = heap0.lo ∧ s.lo = heap0.lo ∧
        s.brk = heap0.lo + 96 ∧
        read_word s.mem heap0.lo = 0 ∧
        read_word s.mem (heap0.lo + 8) = 17 ∧ read_word s.mem (heap0.lo + 16) = 17 ∧
        (fetch_size s.mem (heap0.lo + 24) = 64 ∧ fetch_alloc s.mem (heap0.lo + 24) = 0) ∧
        (fetch_size s.mem (heap0.lo + 80) = 64 ∧ fetch_alloc s.mem (heap0.lo + 80) = 0) ∧
        read_word s.mem (heap0.lo + 88) = 1 ∧
        heap_walk s = [⟨heap0.lo + 32, 64, false⟩] ∧
        chain s 6 = [heap0.lo + 32] ∧ s.seg_freelist 6 = heap0.lo + 32 ∧
        ∀ k, k < 20 → k ≠ 6 → chain s k = [] ∧ s.seg_freelist k = 0) ∧
    ((mem_sbrk heap0 32 = none ∨
        ∃ p1 s1, mem_sbrk heap0 32 = some (p1, s1) ∧ mem_sbrk s1 64 = none) →
      ∃ s, mm_init heap0 = some (false, s))) :=
  ⟨rfl, by decide, mm_init_post heap0 rfl (by decide)⟩

end

section

variable {K : Nat → Prop} {G : Mem} {s : State} {bs : List Blk} {ch : Nat → List Nat}

/-! ## The bucket of a size -/

theorem log2_step (size : Nat) (h : 1 < size) : Nat.log2 size = Nat.log2 (size / 2) + 1 := by
  rw [Nat.log2]
  rw [if_pos (show size ≥ 2 from h)]

theorem log2_small (size : Nat) (h : ¬ 1 < size) : Nat.log2 size = 0 := by
  rw [Nat.log2]
  rw [if_neg (show ¬ size ≥ 2 by omega)]

theorem seg_loop_log : ∀ (n lst size : Nat), lst + n = 19 →
    (seg_loop n lst size).1 = min 19 (lst + Nat.log2 size)
  | 0, lst, size, h => by
    simp only [seg_loop]
    omega
  | n + 1, lst, size, h => by
    unfold seg_loop
    split_ifs with hc
    · rw [seg_loop_log n (lst + 1) (size >>> 1) (by omega), Nat.shiftRight_eq_div_pow,
        log2_step size hc.2]
      simp only [Nat.pow_one]
      omega
    · have : Nat.log2 size = 0 := log2_small size (by
        intro h1
        exact hc ⟨by show lst < 19; omega, h1⟩)
      rw [this]
      omega

theorem seg_index_log (size : Nat) : seg_index size = min 19 (Nat.log2 size) := by
  have := seg_loop_log 19 0 size rfl
  rw [Nat.zero_add] at this
  exact this

theorem shift_le_one_iff (S k : Nat) (hS : 1 ≤ S) : S >>> k ≤ 1 ↔ Nat.log2 S ≤ k := by
  rw [Nat.shiftRight_eq_div_pow]
  have hpos : 0 < 2 ^ k := Nat.pos_pow_of_pos k (by omega)
  constructor
  · intro h
    have h1 : S / 2 ^ k < 2 := by omega
    have h2 : S < 2 ^ (k + 1) := by
      rw [Nat.pow_succ, Nat.mul_comm]
      exact (Nat.div_lt_iff_lt_mul hpos).1 h1
    have := (Nat.log2_lt (by omega)).2 h2
    omega
  · intro h
    have h2 : S < 2 ^ (k + 1) := (Nat.log2_lt (by omega)).1 (by omega)
    rw [Nat.pow_succ, Nat.mul_comm] at h2
    have := (Nat.div_lt_iff_lt_mul hpos).2 h2
    omega

/-! ## Reachable heaps are not empty -/

theorem walk_mem_of_wf (h : WF K G s bs ch) {b : Blk} (hb : b ∈ bs) : heap_walk s ≠ [] := by
  rw [heap_walk_eq h.1]
  exact List.ne_nil_of_mem hb

theorem reach_nonempty {s : State} {L : List (Nat × Nat)} (h : Reach s L) :
    heap_walk s ≠ [] := by
  have hmal : ∀ (s s' : State) (L : List (Nat × Nat)) (size p : Nat), Reach s L →
      heap_walk s ≠ [] → size + 31 < 2 ^ 64 → malloc s size = some (p, s') →
      heap_walk s' ≠ [] := by
    intro s s' L size p hr ih hlt hm
    obtain ⟨bs, ch, hwf, hcomp, hno, hl⟩ := reach_inv hr
    obtain ⟨g1, g2⟩ := malloc_any hwf hcomp hno (by omega) hm
    by_cases hp : p = 0
    · rw [(g1 hp).1]; exact ih
    · have hsz := (g2 hp).1
      rcases malloc_spec hwf hcomp hno (Nat.pos_of_ne_zero hsz) hlt with ⟨-, -, g3⟩ |
        ⟨r, e1, e2, ⟨bs', ch', nb, k1, k2, k3, k4, -⟩, -⟩
      · rw [g3] at hm
        simp only [Option.some.injEq, Prod.mk.injEq] at hm
        exact absurd hm.1.symm hp
      · rw [e1] at hm
        simp only [Option.some.injEq] at hm
        subst hm
        exact walk_mem_of_wf k1 k4
  have hfree : ∀ (s s' : State) (L : List (Nat × Nat)) (p n : Nat), Reach s L →
      (p, n) ∈ L → free s p = some s' → heap_walk s' ≠ [] := by
    intro s s' L p n hr hpn hf
    obtain ⟨bs, ch, hwf, hcomp, hno, hl⟩ := reach_inv hr
    obtain ⟨b, hb, h1, h2, -⟩ := hl.1 _ hpn
    have h1' : b.addr = p := h1
    obtain ⟨s2, bs2, ch2, f1, -, f3, -, -, -, -, -, f9⟩ :=
      free_spec hwf hcomp hno hb h2 (fun a ha => ha.elim)
    rw [h1', hf] at f1
    simp only [Option.some.injEq] at f1
    subst f1
    obtain ⟨f, hf', -⟩ := f9 b hb (Or.inl rfl)
    exact walk_mem_of_wf f3 hf'
  induction h with
  | init s0 s hbrk hcap hi =>
    by_cases h : s0.lo + 96 ≤ s0.cap
    · obtain ⟨s1, ch, e, -, hwf, -⟩ := mm_init_spec s0 hbrk hcap h
      rw [e] at hi
      simp only [Option.some.injEq, Prod.mk.injEq, true_and] at hi
      subst hi
      exact walk_mem_of_wf hwf (List.mem_singleton.2 rfl)
    · obtain ⟨s1, e⟩ := mm_init_fail s0 hcap (by omega)
      rw [e] at hi
      simp at hi
  | malloc s s' L size p hr hlt hm ih => exact hmal s s' L size p hr ih hlt hm
  | free s s' L p n hr hpn hf ih => exact hfree s s' L p n hr hpn hf
  | free_null s s' L hr hf ih =>
    have : free s 0 = some s := by unfold free; rw [if_pos rfl]
    rw [this] at hf
    simp only [Option.some.injEq] at hf
    rw [← hf]
    exact ih
  | realloc s s' L p n size q hr hpn hlt hre ih =>
    by_cases hs : size = 0
    · unfold realloc at hre
      rw [if_pos hs] at hre
      cases hf : free s p with
      | none => rw [hf] at hre; cases hre
      | some s2 =>
        rw [hf] at hre
        simp only [Option.some.injEq, Prod.mk.injEq] at hre
        rw [← hre.2]
        exact hfree s s2 L p n hr hpn hf
    · obtain ⟨bs, ch, hwf, hcomp, hno, hl⟩ := reach_inv hr
      obtain ⟨b, hb, h1, h2, -⟩ := hl.1 _ hpn
      have h1' : b.addr = p := h1
      have hcases : (malloc s size = some (0, s) ∧ realloc s b.addr size = some (0, s)) ∨
          ∃ r, realloc s b.addr size = some r ∧ r.1 ≠ 0 ∧ Moved s bs b size r := by
        by_cases hsrc : b.addr + size ≤ s.cap
        · exact realloc_spec hwf hcomp hno hb h2 (Nat.pos_of_ne_zero hs) hlt hsrc
        · rcases realloc_fault hwf hcomp hno hb h2 (Nat.pos_of_ne_zero hs) hlt hsrc with g | g
          · exact Or.inl g
          · rw [h1', hre] at g
            cases g
      rcases hcases with ⟨-, g⟩ |
        ⟨r, e1, e2, bs', ch', nb, k1, k2, k3, k4, -⟩
      · rw [h1', hre] at g
        simp only [Option.some.injEq, Prod.mk.injEq] at g
        rw [g.2]
        exact ih
      · rw [h1', hre] at e1
        simp only [Option.some.injEq] at e1
        subst e1
        exact walk_mem_of_wf k1 k4
  | realloc_null s s' L size q hr hlt hre ih =>
    by_cases hs : size = 0
    · have : realloc s 0 size = some (0, s) := by
        unfold realloc free
        rw [if_pos hs, if_pos rfl]
      rw [this] at hre
      simp only [Option.some.injEq, Prod.mk.injEq] at hre
      rw [← hre.2]
      exact ih
    · have : realloc s 0 size = malloc s size := by
        unfold realloc
        rw [if_neg hs, if_pos rfl]
      rw [this] at hre
      exact hmal s s' L size q hr ih hlt hre
  | calloc s s' L nmemb size p hr hlt hc ih =>
    obtain ⟨bs, ch, hwf, hcomp, hno, hl⟩ := reach_inv hr
    by_cases hz : nmemb * size = 0
    · have hprod : (size * nmemb) % SIZE_MOD = 0 := by
        rw [Nat.mul_comm, hz]; rfl
      have hm : malloc s 0 = some (0, s) := by unfold malloc; rw [if_pos rfl]
      rw [calloc_eq, hprod, hm] at hc
      simp only [ne_eq, not_true_eq_false, if_false, Option.some.injEq, Prod.mk.injEq] at hc
      rw [← hc.2]
      exact ih
    · rcases calloc_spec hwf hcomp hno (Nat.pos_of_ne_zero hz) hlt with ⟨-, g⟩ |
        ⟨r, e1, e2, ⟨bs', ch', nb, k1, k2, k3, k4, -⟩, -, -⟩
      · rw [hc] at g
        simp only [Option.some.injEq, Prod.mk.injEq] at g
        rw [g.2]
        exact ih
      · rw [hc] at e1
        simp only [Option.some.injEq] at e1
        subst e1
        exact walk_mem_of_wf k1 k4
  | store s L p n a v hr hpn h1 h2 ih =>
    have hr' : Reach { s with mem := write_byte s.mem a v } L := Reach.store s L p n a v hr hpn h1 h2
    obtain ⟨bs, ch, hwf, -⟩ := reach_inv hr
    obtain ⟨bs', ch', hwf', -⟩ := reach_inv hr'
    have e1 := heap_walk_eq hwf.1
    have e2 := heap_walk_eq hwf'.1
    intro hnil
    rw [hnil] at e2
    have c1 := hwf.1.contig
    have c2 := hwf'.1.contig
    rw [← e2] at c2
    have c2' : s.heap_ptr + 32 = s.brk := c2
    rw [← e1] at c1
    cases hw : heap_walk s with
    | nil => exact ih hw
    | cons b t =>
      rw [hw] at c1
      have hb : b ∈ bs := by rw [← e1, hw]; simp
      have := core_bounds hwf.1 hb
      omega

/-! ## The checker -/

/-- Whatever the loop body of the checker sees, it does not return true once it
has been entered. -/
theorem check_loop_entered (fuel : Nat) (s : State) (p : Nat)
    (h : fetch_size s.mem (header_ptr p) > 0) : check_loop (fuel + 1) s p = some false := by
  unfold check_loop
  rw [if_pos h]
  simp only []
  split_ifs with h1 h2 h3 h4 h5
  · rfl
  · rfl
  · rfl
  · rfl
  · rfl
  · exact absurd (Or.inl (by omega)) h5

theorem mm_checkheap_false (h : WF K G s bs ch) (hne : bs ≠ []) {lineno : Int}
    (hl : 0 < lineno) : mm_checkheap s lineno = some false := by
  have hbrk := core_brk h.1
  obtain ⟨n, hn⟩ : ∃ n, s.brk = n + 1 := ⟨s.brk - 1, by omega⟩
  have hnext : next_blockptr s.mem (s.heap_ptr + DOUBLESIZE) = s.heap_ptr + 32 := by
    rw [next_blockptr_eq]
    show s.heap_ptr + 16 + fetch_size s.mem (s.heap_ptr + 16 - 8) = s.heap_ptr + 32
    have : s.heap_ptr + 16 - 8 = s.heap_ptr + 8 := by omega
    rw [this, fetch_size_eq, h.1.pro_hdr]
  have hfirst : fetch_size s.mem (header_ptr (s.heap_ptr + 32)) > 0 := by
    cases bs with
    | nil => exact absurd rfl hne
    | cons b t =>
      have hb : b ∈ b :: t := by simp
      have ha : b.addr = s.heap_ptr + 32 := h.1.contig.1
      have hok := h.1.blk b hb
      rw [← ha, header_ptr_eq, blk_fetch_size hok]
      have := hok.1
      omega
  unfold mm_checkheap
  rw [if_neg (by omega)]
  simp only [hnext, hn]
  rw [check_loop_entered n s _ hfirst]
  split_ifs <;> rfl

end

section

variable {K : Nat → Prop} {G : Mem} {s : State} {bs : List Blk} {ch : Nat → List Nat}

/-! ## The walk to the terminal marker -/

theorem walk_end_eq {m : Mem} {e : Nat} : ∀ (l : List Blk) (fuel p : Nat),
    Contig p l e → (∀ b ∈ l, BlkOK m b) → fetch_size m (e - 8) = 0 → l.length < fuel →
    walk_end fuel m p = some e
  | [], fuel, p, hc, _, he, hf => by
    have hp : p = e := hc
    cases fuel with
    | zero => simp at hf
    | succ n =>
      unfold walk_end
      rw [header_ptr_eq, hp, he]
      simp
  | b :: l, fuel, p, hc, hok, he, hf => by
    have hb := hok b (by simp)
    have hp : b.addr = p := hc.1
    cases fuel with
    | zero => simp at hf
    | succ n =>
      unfold walk_end
      have e1 : fetch_size m (header_ptr p) = b.size := by
        rw [header_ptr_eq, ← hp]; exact blk_fetch_size hb
      have e3 : next_blockptr m p = p + b.size := by
        rw [← hp]; exact blk_next hb
      have hpos : 0 < b.size := by have := hb.1; omega
      rw [e1, e3, if_pos hpos]
      exact walk_end_eq l n (p + b.size) hc.2 (fun d hd => hok d (by simp [hd])) he
        (by simpa using hf)

theorem walk_end_core (hc : Core K G s bs) :
    walk_end s.brk s.mem (next_blockptr s.mem (s.heap_ptr + DOUBLESIZE)) = some s.brk := by
  have e1 : next_blockptr s.mem (s.heap_ptr + DOUBLESIZE) = s.heap_ptr + 32 := by
    rw [next_blockptr_eq]
    show s.heap_ptr + 16 + fetch_size s.mem (s.heap_ptr + 16 - 8) = s.heap_ptr + 32
    have : s.heap_ptr + 16 - 8 = s.heap_ptr + 8 := by omega
    rw [this, fetch_size_eq, hc.pro_hdr]
  rw [e1]
  apply walk_end_eq bs _ _ hc.contig hc.blk
  · rw [fetch_size_eq, hc.epi]
  · have := contig_length hc.contig (core_pos hc)
    omega

/-! ## Links of a chain -/

theorem dll_link : ∀ (l : List Nat) (s0 t : Nat) {m : Mem}, DLLseg m s0 l t →
    ∀ y ∈ l, (l.head? = some y ∧ read_word m (y + 8) = s0) ∨
      read_word m (read_word m (y + 8)) = y
  | [], _, _, _, _, y, hy => by simp at hy
  | x :: rest, s0, t, m, h, y, hy => by
    obtain ⟨h1, h2, h3, h4⟩ := h
    rcases List.mem_cons.1 hy with rfl | hy'
    · left
      exact ⟨rfl, h2⟩
    · right
      rcases dll_link rest x t h4 y hy' with ⟨g1, g2⟩ | g
      · cases rest with
        | nil => simp at hy'
        | cons z r =>
          simp only [List.head?_cons, Option.some.injEq] at g1
          subst g1
          rw [g2]
          exact h3
      · exact g

theorem dll_pred : ∀ (l : List Nat) (s0 : Nat) {m : Mem}, DLLseg m s0 l 0 →
    ∀ y ∈ l, read_word m y ≠ 0 → read_word m (read_word m y + 8) = y
  | [], _, _, _, y, hy, _ => by simp at hy
  | x :: rest, s0, m, h, y, hy, hne => by
    obtain ⟨h1, h2, h3, h4⟩ := h
    rcases List.mem_cons.1 hy with rfl | hy'
    · cases rest with
      | nil => exact absurd h3 hne
      | cons z r =>
        have : read_word m y = z := h3
        rw [this]
        exact h4.2.1
    · exact dll_pred rest x h4 y hy' hne

theorem dll_last : ∀ (l : List Nat) (s0 t : Nat) {m : Mem}, DLLseg m s0 l t →
    ∀ y, l.getLast? = some y → read_word m y = t
  | [], _, _, _, _, y, hy => by simp at hy
  | [x], s0, t, m, h, y, hy => by
    simp only [List.getLast?_singleton, Option.some.injEq] at hy
    subst hy
    exact h.2.2.1
  | x :: z :: r, s0, t, m, h, y, hy => by
    rw [List.getLast?_cons_cons] at hy
    exact dll_last (z :: r) x t h.2.2.2 y hy

/-- A block of the heap that is in a chain is free and in the chain of its size. -/
theorem index_unique (h : WF K G s bs ch) {b : Blk} (hb : b ∈ bs) {k : Nat}
    (hk : b.addr ∈ ch k) : b.alloc = false ∧ seg_index b.size = k := by
  obtain ⟨c, hc, h1, h2, h3⟩ := h.2.mem_ch k _ hk
  have : c = b := contig_addr_inj h.1.contig (core_pos h.1) hc hb h1
  subst this
  exact ⟨h2, h3⟩

/-! ## Footers -/

theorem blk_fetch_alloc_ftr {m : Mem} {b : Blk} (h : BlkOK m b) :
    fetch_alloc m (b.addr + b.size - 16) = b.alloc.toNat := by
  obtain ⟨h1, h2, -, t, ht, h4⟩ := h
  rw [fetch_alloc_eq, h4]
  have := toNat_le_one b.alloc
  rcases ht with rfl | rfl <;> omega

/-! ## The search starts at the bucket of the adjusted size -/

theorem search_loop_succ (n : Nat) (s : State) (adj idx fs ptr : Nat) :
    search_loop (n + 1) s adj idx fs ptr =
      if idx < SEGLIST_SIZE then
        if idx = SEGLIST_SIZE - 1 ∨ (fs ≤ 1 ∧ s.seg_freelist idx ≠ 0) then
          match fit_scan s.brk s.mem adj (s.seg_freelist idx) with
          | none => none
          | some ptr =>
            if ptr ≠ 0 then some ptr
            else search_loop n s adj (idx + 1) (fs >>> 1) ptr
        else search_loop n s adj (idx + 1) (fs >>> 1) ptr
      else some ptr := rfl

theorem search_loop_skip (s : State) (S : Nat) : ∀ (j : Nat), j ≤ min 19 (Nat.log2 S) →
    search_loop SEGLIST_SIZE s S 0 S 0 = search_loop (SEGLIST_SIZE - j) s S j (S >>> j) 0
  | 0, _ => rfl
  | j + 1, hj => by
    rw [search_loop_skip s S j (by omega)]
    have hj19 : j < 19 := by omega
    have e : SEGLIST_SIZE - j = (SEGLIST_SIZE - (j + 1)) + 1 := by
      show 20 - j = 20 - (j + 1) + 1
      omega
    rw [e, search_loop_succ]
    have hS : 1 ≤ S := by
      by_contra hc
      have : S = 0 := by omega
      subst this
      have : Nat.log2 0 = 0 := log2_small 0 (by omega)
      omega
    have hnot : ¬ (j = SEGLIST_SIZE - 1 ∨ (S >>> j ≤ 1 ∧ s.seg_freelist j ≠ 0)) := by
      rintro (h1 | ⟨h1, -⟩)
      · have : j = 19 := h1
        omega
      · have := (shift_le_one_iff S j hS).1 h1
        omega
    rw [if_pos (show j < SEGLIST_SIZE by show j < 20; omega), if_neg hnot]
    have : S >>> j >>> 1 = S >>> (j + 1) := by
      rw [← Nat.shiftRight_add]
    rw [this]

theorem scanned_iff (S k : Nat) (hk : k < 20) :
    (k = SEGLIST_SIZE - 1 ∨ S >>> k ≤ 1) ↔ min 19 (Nat.log2 S) ≤ k := by
  by_cases hS : 1 ≤ S
  · rw [shift_le_one_iff S k hS]
    show (k = 19 ∨ _) ↔ _
    omega
  · have : S = 0 := by omega
    subst this
    have h0 : Nat.log2 0 = 0 := log2_small 0 (by omega)
    rw [h0]
    simp

/-! ## The buckets touched by `node_insert` and `node_del` -/

theorem node_del_heads (s : State) (ptr : Nat) :
    (node_del s ptr).seg_freelist = s.seg_freelist ∨
      ∃ v, (node_del s ptr).seg_freelist =
        Function.update s.seg_freelist
          (min 19 (Nat.log2 (fetch_size s.mem (header_ptr ptr)))) v := by
  have e := seg_index_log (fetch_size s.mem (header_ptr ptr))
  unfold seg_index at e
  unfold node_del
  simp only [e]
  split_ifs
  · left; rfl
  · right; exact ⟨_, rfl⟩
  · left; rfl
  · right; exact ⟨_, rfl⟩

theorem node_insert_heads (s s' : State) (ptr size : Nat) (h : node_insert s ptr size = some s') :
    s'.seg_freelist = s.seg_freelist ∨
      s'.seg_freelist = Function.update s.seg_freelist (min 19 (Nat.log2 size)) ptr := by
  have e := seg_index_log size
  unfold seg_index at e
  unfold node_insert at h
  simp only [e] at h
  split at h
  · cases h
  · split_ifs at h <;> simp only [Option.some.injEq] at h <;> subst h
    · left; rfl
    · right; rfl
    · left; rfl
    · right; rfl

/-- The chain that `node_insert` scans is the chain of bucket
`min 19 (log2 size)`. -/
theorem node_insert_scan (s : State) (ptr size : Nat) :
    node_insert s ptr size = none ↔
      insert_scan s.brk s.mem (seg_loop (SEGLIST_SIZE - 1) 0 size).2
        (s.seg_freelist (min 19 (Nat.log2 size))) 0 = none := by
  have e := seg_index_log size
  unfold seg_index at e
  unfold node_insert
  simp only [e]
  split
  · rename_i h
    constructor
    · intro _; exact h
    · intro _; rfl
  · rename_i f i h
    constructor
    · intro h2
      split_ifs at h2
    · intro h2
      rw [h] at h2
      cases h2

end

section

/-! ## Claims about the consistency checker -/

theorem corrupt_zero_word (x : Nat) :
    ((0 &&& MASK_SIZE) ||| (x &&& 0xf)) % 2 ^ 64 &&& MASK_SIZE = 0 := by
  have h2 : x &&& 0xf = x % 16 := Nat.and_pow_two_sub_one_eq_mod x 4
  have h3 : x % 16 % 2 ^ 64 = x % 16 := Nat.mod_eq_of_lt (by omega)
  rw [Nat.zero_and, Nat.zero_or, h2, h3, and_mask_size _ (by omega)]
  omega

theorem corrupt_zero_word_alloc (x : Nat) :
    ((0 &&& MASK_SIZE) ||| (x &&& 0xf)) % 2 ^ 64 % 2 = x % 2 := by
  have h2 : x &&& 0xf = x % 16 := Nat.and_pow_two_sub_one_eq_mod x 4
  have h3 : x % 16 % 2 ^ 64 = x % 16 := Nat.mod_eq_of_lt (by omega)
  rw [Nat.zero_and, Nat.zero_or, h2, h3]
  omega

/-- C11 (checker accepts valid heaps) does not hold of the code.  In every state
reachable from a successful `mm_init` by valid calls, `mm_checkheap` (the body
compiled under `DEBUG`) called with a positive line number returns `false`: the
test of the terminal marker, unit test 9, stands inside the loop over the blocks,
where the header size is positive by the loop condition, and a reachable heap has
at least one block. -/
theorem checkheap_rejects_reachable (s : State) (L : List (Nat × Nat)) (lineno : Int)
    (hr : Reach s L) (hl : 0 < lineno) : mm_checkheap s lineno = some false := by
  obtain ⟨bs, ch, hwf, -⟩ := reach_inv hr
  have hne := reach_nonempty hr
  rw [heap_walk_eq hwf.1] at hne
  exact mm_checkheap_false hwf hne hl

/-- The checker on the heap produced by `mm_init` (one free block of 64 bytes at
48), called with line number 1. -/
theorem checkheap_rejects_reachable_witness :
    Reach heap1 [] ∧ heap_walk heap1 = [⟨48, 64, false⟩] ∧ mm_checkheap heap1 1 = some false :=
  ⟨heap1_reach, by decide, checkheap_rejects_reachable heap1 [] 1 heap1_reach (by decide)⟩

/-- C12 (checker rejects corrupted headers) does not hold of the code.  In every
state reachable by valid calls the heap has a first block; when the size field of
its header is overwritten with 0, a value different from the stored size, the
header holds size 0 while the footer still holds the old size, and `mm_checkheap`
called with a positive line number returns `true`: its loop stops at the first
header of size 0, and no test compares a header with a footer. -/
theorem checkheap_accepts_zeroed (s : State) (L : List (Nat × Nat)) (lineno : Int)
    (hr : Reach s L) (hl : 0 < lineno) :
    ∃ b rest, heap_walk s = b :: rest ∧ b.size ≠ 0 ∧
      fetch_size (corrupt_size s b.addr 0).mem (header_ptr b.addr) = 0 ∧
      fetch_alloc (corrupt_size s b.addr 0).mem (header_ptr b.addr) =
        fetch_alloc s.mem (header_ptr b.addr) ∧
      fetch_size (corrupt_size s b.addr 0).mem (b.addr + b.size - DOUBLESIZE) = b.size ∧
      mm_checkheap (corrupt_size s b.addr 0) lineno = some true := by
  obtain ⟨bs, ch, hwf, -⟩ := reach_inv hr
  have hne := reach_nonempty hr
  have hw := heap_walk_eq hwf.1
  rw [hw] at hne
  cases bs with
  | nil => exact absurd rfl hne
  | cons b rest =>
    have hb : b ∈ b :: rest := by simp
    have hok := hwf.1.blk b hb
    have ha : b.addr = s.heap_ptr + 32 := hwf.1.contig.1
    have hbrk := core_brk hwf.1
    have hbd := core_bounds hwf.1 hb
    obtain ⟨n, hn⟩ : ∃ n, s.brk = n + 1 := ⟨s.brk - 1, by omega⟩
    have hmem : (corrupt_size s b.addr 0).mem = store_word s.mem (b.addr - 8)
        ((0 &&& MASK_SIZE) ||| (read_word s.mem (b.addr - 8) &&& 0xf)) := rfl
    have h0 : fetch_size (corrupt_size s b.addr 0).mem (header_ptr b.addr) = 0 := by
      rw [hmem, header_ptr_eq]
      unfold fetch_size
      rw [read_store_same]
      exact corrupt_zero_word _
    have hpro : ∀ q, q + 8 ≤ b.addr - 8 ∨ b.addr ≤ q →
        read_word (corrupt_size s b.addr 0).mem q = read_word s.mem q := by
      intro q hq
      rw [hmem]
      exact read_store_other _ _ _ _ (by omega)
    refine ⟨b, rest, hw, by have := hok.1; omega, h0, ?_, ?_, ?_⟩
    · rw [hmem, header_ptr_eq, fetch_alloc_eq, fetch_alloc_eq, read_store_same]
      exact corrupt_zero_word_alloc _
    · rw [fetch_size_eq, hpro _ (by right; show b.addr ≤ b.addr + b.size - 16; omega),
        ← fetch_size_eq]
      exact blk_fetch_size_ftr hok
    · have e8 : read_word (corrupt_size s b.addr 0).mem (s.heap_ptr + 8) = 17 := by
        rw [hpro _ (by omega)]; exact hwf.1.pro_hdr
      have e16 : read_word (corrupt_size s b.addr 0).mem (s.heap_ptr + 16) = 17 := by
        rw [hpro _ (by omega)]; exact hwf.1.pro_ftr
      have hh : header_ptr (s.heap_ptr + DOUBLESIZE) = s.heap_ptr + 8 := by
        show s.heap_ptr + 16 - 8 = s.heap_ptr + 8
        omega
      have s1 : fetch_size (corrupt_size s b.addr 0).mem (header_ptr (s.heap_ptr + DOUBLESIZE))
          = DOUBLESIZE := by
        rw [hh, fetch_size_eq, e8]
        rfl
      have a1 : fetch_alloc (corrupt_size s b.addr 0).mem (header_ptr (s.heap_ptr + DOUBLESIZE))
          = 1 := by
        rw [hh, fetch_alloc_eq, e8]
      have hf : footer_ptr (corrupt_size s b.addr 0).mem (s.heap_ptr + DOUBLESIZE)
          = s.heap_ptr + 16 := by
        unfold footer_ptr
        rw [s1]
        show s.heap_ptr + 16 + 16 - 16 = s.heap_ptr + 16
        omega
      have s2 : fetch_size (corrupt_size s b.addr 0).mem
          (footer_ptr (corrupt_size s b.addr 0).mem (s.heap_ptr + DOUBLESIZE)) = DOUBLESIZE := by
        rw [hf, fetch_size_eq, e16]
        rfl
      have a2 : fetch_alloc (corrupt_size s b.addr 0).mem
          (footer_ptr (corrupt_size s b.addr 0).mem (s.heap_ptr + DOUBLESIZE)) = 1 := by
        rw [hf, fetch_alloc_eq, e16]
      have hnext : next_blockptr (corrupt_size s b.addr 0).mem (s.heap_ptr + DOUBLESIZE)
          = b.addr := by
        unfold next_blockptr
        have := s1
        rw [hh] at this
        rw [show s.heap_ptr + DOUBLESIZE - WORDSIZE = s.heap_ptr + 8 from hh, this, ha]
        show s.heap_ptr + 16 + 16 = s.heap_ptr + 32
        omega
      have hbrk' : (corrupt_size s b.addr 0).brk = n + 1 := hn
      unfold mm_checkheap
      rw [if_neg (by omega)]
      have hhp : (corrupt_size s b.addr 0).heap_ptr = s.heap_ptr := rfl
      simp only [hhp, s1, a1, s2, a2, hnext, hbrk']
      unfold check_loop
      rw [h0]
      simp

/-- The checker on the heap produced by `mm_init` after the size field of the
header of its one block (64 bytes at 48) was overwritten with 0. -/
theorem checkheap_accepts_zeroed_witness :
    Reach heap1 [] ∧ (0 : Int) < 1 ∧
    ∃ b rest, heap_walk heap1 = b :: rest ∧ b.size ≠ 0 ∧
      fetch_size (corrupt_size heap1 b.addr 0).mem (header_ptr b.addr) = 0 ∧
      fetch_alloc (corrupt_size heap1 b.addr 0).mem (header_ptr b.addr) =
        fetch_alloc heap1.mem (header_ptr b.addr) ∧
      fetch_size (corrupt_size heap1 b.addr 0).mem (b.addr + b.size - DOUBLESIZE) = b.size ∧
      mm_checkheap (corrupt_size heap1 b.addr 0) 1 = some true :=
  ⟨heap1_reach, by decide, checkheap_accepts_zeroed heap1 [] 1 heap1_reach (by decide)⟩

/-- The checker returns `true` on two heaps with a zeroed first header: the heap
after `mm_init`, whose first block is free, and the heap after `mm_init` and
`malloc(16)`, whose first block is allocated. -/
theorem checkheap_zeroed_runs :
    mm_checkheap heap11 1 = some true ∧ mm_checkheap heap17 1 = some true ∧
    heap_walk heap1 = [⟨48, 64, false⟩] ∧
    heap_walk heap2 = [⟨48, 32, true⟩, ⟨80, 32, false⟩] :=
  ⟨by rfl, by rfl, by decide, by decide⟩

/-! ## Invariants of reachable states -/

/-- C13 (free-list index invariant).  In every state reachable from a successful
`mm_init` by valid calls: every free block of the heap walk occurs exactly once in
the chain of bucket `min 19 (log2 size)` of its stored size and in no other chain;
no allocated block occurs in any chain; and every chain is a consistent doubly
linked list of free blocks of the heap: the bucket head is its first node, whose
successor link is null, the successor of a node's predecessor and the predecessor
of a node's successor are the node itself, and the predecessor link of the last
node is null. -/
theorem index_invariant (s : State) (L : List (Nat × Nat)) (hr : Reach s L) :
    (∀ b ∈ heap_walk s, b.alloc = false →
      (chain s (min 19 (Nat.log2 b.size))).count b.addr = 1 ∧
      ∀ k, k < 20 → k ≠ min 19 (Nat.log2 b.size) → b.addr ∉ chain s k) ∧
    (∀ b ∈ heap_walk s, b.alloc = true → ∀ k, k < 20 → b.addr ∉ chain s k) ∧
    (∀ k, k < 20 →
      (∀ x ∈ chain s k, ∃ b ∈ heap_walk s, b.addr = x ∧ b.alloc = false) ∧
      (∀ x, (chain s k).head? = some x → s.seg_freelist k = x ∧ get_succ s.mem x = 0) ∧
      (∀ x ∈ chain s k, get_pred s.mem x ≠ 0 → get_succ s.mem (get_pred s.mem x) = x) ∧
      (∀ x ∈ chain s k, get_succ s.mem x ≠ 0 → get_pred s.mem (get_succ s.mem x) = x) ∧
      (∀ x, (chain s k).getLast? = some x → get_pred s.mem x = 0)) := by
  obtain ⟨bs, ch, hwf, hcomp, -, -⟩ := reach_inv hr
  rw [heap_walk_eq hwf.1]
  refine ⟨fun b hb hbf => ⟨?_, fun k hk hne hmem => ?_⟩, fun b hb hba k hk hmem => ?_,
    fun k hk => ⟨fun x hx => ?_, fun x hx => ?_, fun x hx hne => ?_, fun x hx hne => ?_,
      fun x hx => ?_⟩⟩
  · rw [← seg_index_log, chain_eq hwf (seg_index_lt _)]
    exact List.count_eq_one_of_mem (hwf.2.nodup _) (hcomp b hb hbf)
  · rw [chain_eq hwf hk] at hmem
    have := (index_unique hwf hb hmem).2
    rw [seg_index_log] at this
    exact hne this.symm
  · rw [chain_eq hwf hk] at hmem
    have := (index_unique hwf hb hmem).1
    rw [hba] at this
    cases this
  · rw [chain_eq hwf hk] at hx
    obtain ⟨b, hb, h1, h2, -⟩ := hwf.2.mem_ch k x hx
    exact ⟨b, hb, h1, h2⟩
  · rw [chain_eq hwf hk] at hx
    have hd := hwf.2.dll k
    have hh := hwf.2.heads k hk
    cases hc : ch k with
    | nil => rw [hc] at hx; cases hx
    | cons y r =>
      rw [hc] at hx hd hh
      simp only [List.head?_cons, Option.some.injEq] at hx
      subst hx
      exact ⟨hh, hd.2.1⟩
  · rw [chain_eq hwf hk] at hx
    exact dll_pred (ch k) 0 (hwf.2.dll k) x hx hne
  · rw [chain_eq hwf hk] at hx
    rcases dll_link (ch k) 0 0 (hwf.2.dll k) x hx with ⟨-, g⟩ | g
    · exact absurd g hne
    · exact g
  · rw [chain_eq hwf hk] at hx
    exact dll_last (ch k) 0 0 (hwf.2.dll k) x hx

/-- The claim C13 in the sample run after `malloc(16)`, `malloc(16)`, `free(48)`:
a free block at 48 and an allocated block at 80. -/
theorem index_invariant_witness :
    Reach heap4 [(80, 16)] ∧
    ((∀ b ∈ heap_walk heap4, b.alloc = false →
      (chain heap4 (min 19 (Nat.log2 b.size))).count b.addr = 1 ∧
      ∀ k, k < 20 → k ≠ min 19 (Nat.log2 b.size) → b.addr ∉ chain heap4 k) ∧
    (∀ b ∈ heap_walk heap4, b.alloc = true → ∀ k, k < 20 → b.addr ∉ chain heap4 k) ∧
    (∀ k, k < 20 →
      (∀ x ∈ chain heap4 k, ∃ b ∈ heap_walk heap4, b.addr = x ∧ b.alloc = false) ∧
      (∀ x, (chain heap4 k).head? = some x →
        heap4.seg_freelist k = x ∧ get_succ heap4.mem x = 0) ∧
      (∀ x ∈ chain heap4 k, get_pred heap4.mem x ≠ 0 →
        get_succ heap4.mem (get_pred heap4.mem x) = x) ∧
      (∀ x ∈ chain heap4 k, get_succ heap4.mem x ≠ 0 →
        get_pred heap4.mem (get_succ heap4.mem x) = x) ∧
      (∀ x, (chain heap4 k).getLast? = some x → get_pred heap4.mem x = 0))) :=
  ⟨heap4_reach, index_invariant heap4 [(80, 16)] heap4_reach⟩

/-- C14 (terminal marker invariant).  In every state reachable from a successful
`mm_init` by valid calls, the last word of the heap (the eight bytes below the heap
end `brk`) is a header with size 0 and allocated bit 1; the walk that starts at the
first block after the prologue and adds each stored header size stops exactly at
the block pointer `brk`, whose header is that word; and the blocks it visits lie
end to end from the prologue to the heap end. -/
theorem terminal_marker (s : State) (L : List (Nat × Nat)) (hr : Reach s L) :
    fetch_size s.mem (s.brk - WORDSIZE) = 0 ∧ fetch_alloc s.mem (s.brk - WORDSIZE) = 1 ∧
    walk_end s.brk s.mem (next_blockptr s.mem (s.heap_ptr + DOUBLESIZE)) = some s.brk ∧
    header_ptr s.brk = s.brk - WORDSIZE ∧ mem_heap_hi s = s.brk - 1 ∧
    Contig (next_blockptr s.mem (s.heap_ptr + DOUBLESIZE)) (heap_walk s) s.brk ∧
    ∀ b ∈ heap_walk s, 0 < b.size := by
  obtain ⟨bs, ch, hwf, -⟩ := reach_inv hr
  have e1 : next_blockptr s.mem (s.heap_ptr + DOUBLESIZE) = s.heap_ptr + 32 := by
    rw [next_blockptr_eq]
    show s.heap_ptr + 16 + fetch_size s.mem (s.heap_ptr + 16 - 8) = s.heap_ptr + 32
    have : s.heap_ptr + 16 - 8 = s.heap_ptr + 8 := by omega
    rw [this, fetch_size_eq, hwf.1.pro_hdr]
  have hepi : read_word s.mem (s.brk - WORDSIZE) = 1 := hwf.1.epi
  refine ⟨?_, ?_, walk_end_core hwf.1, rfl, rfl, ?_, ?_⟩
  · rw [fetch_size_eq, hepi]
  · rw [fetch_alloc_eq, hepi]
  · rw [e1, heap_walk_eq hwf.1]
    exact hwf.1.contig
  · rw [heap_walk_eq hwf.1]
    exact core_pos hwf.1

/-- The claim C14 in the sample run after `malloc(16)`, `malloc(16)`, `free(48)`. -/
theorem terminal_marker_witness :
    Reach heap4 [(80, 16)] ∧
    (fetch_size heap4.mem (heap4.brk - WORDSIZE) = 0 ∧
    fetch_alloc heap4.mem (heap4.brk - WORDSIZE) = 1 ∧
    walk_end heap4.brk heap4.mem (next_blockptr heap4.mem (heap4.heap_ptr + DOUBLESIZE))
      = some heap4.brk ∧
    header_ptr heap4.brk = heap4.brk - WORDSIZE ∧ mem_heap_hi heap4 = heap4.brk - 1 ∧
    Contig (next_blockptr heap4.mem (heap4.heap_ptr + DOUBLESIZE)) (heap_walk heap4) heap4.brk ∧
    ∀ b ∈ heap_walk heap4, 0 < b.size) :=
  ⟨heap4_reach, terminal_marker heap4 [(80, 16)] heap4_reach⟩

/-! ## Growth of the heap -/

/-- C15 (growth only on a miss).  In a reachable state, for a request with
`0 < size` and `size + 31 < 2 ^ 64` and `S = adj_size size`: the search of `malloc`
returns a pointer `r`, which is `NULL` exactly when no block in any of the 20
chains has stored size at least `S` with a clear realloc-pending flag.  When `r`
is `NULL`, `malloc` is the call of `heap_extension` for `S`, which asks `mem_sbrk`
for exactly `S` bytes; then either the heap cannot grow by `S` and `malloc` returns
`NULL` in the unchanged state, or the heap end moves up by exactly `S`.  When `r`
is not `NULL`, `malloc` is `insert_block` at `r`, which does not grow the heap:
the heap bounds are unchanged. -/
theorem malloc_growth (s : State) (L : List (Nat × Nat)) (size : Nat) (hr : Reach s L)
    (hsz : 0 < size) (hlt : size + 31 < 2 ^ 64) :
    ∃ r, search_loop SEGLIST_SIZE s (adj_size size) 0 (adj_size size) 0 = some r ∧
      (r = 0 ↔ ∀ k, k < 20 → ∀ x ∈ chain s k,
        ¬ (adj_size size ≤ fetch_size s.mem (header_ptr x) ∧
            read_tag s.mem (header_ptr x) = 0)) ∧
      (r = 0 →
        malloc s size =
          (match heap_extension s (adj_size size) with
            | none => none
            | some (ptr, s1) =>
              if ptr = 0 then some (0, s1) else insert_block s1 ptr (adj_size size)) ∧
        heap_extension s (adj_size size) =
          (match mem_sbrk s (adj_size size) with
            | none => some (0, s)
            | some (ptr, s1) => heap_extension_tail s1 ptr (adj_size size)) ∧
        ((mem_sbrk s (adj_size size) = none ∧ malloc s size = some (0, s)) ∨
          ∃ p s', malloc s size = some (p, s') ∧ p ≠ 0 ∧
            s'.brk = s.brk + adj_size size ∧ s'.lo = s.lo ∧ s'.cap = s.cap)) ∧
      (r ≠ 0 →
        malloc s size = insert_block s r (adj_size size) ∧
        ∃ p s', malloc s size = some (p, s') ∧ p ≠ 0 ∧
          s'.brk = s.brk ∧ s'.lo = s.lo ∧ s'.cap = s.cap) := by
  obtain ⟨bs, ch, hwf, hcomp, hno, -⟩ := reach_inv hr
  obtain ⟨a16, a32, -, -⟩ := adj_size_facts size hsz hlt
  have alt : adj_size size + 15 < 2 ^ 64 := by
    rw [adj_size_eq size hlt]; omega
  obtain ⟨r, e1, e2⟩ := search_spec hwf (adj_size size)
  have hm := malloc_eq s (Nat.pos_iff_ne_zero.1 hsz) e1
  have hnf : NoFit s.mem ch (adj_size size) ↔ ∀ k, k < 20 → ∀ x ∈ chain s k,
      ¬ (adj_size size ≤ fetch_size s.mem (header_ptr x) ∧
          read_tag s.mem (header_ptr x) = 0) := by
    constructor
    · intro h k hk x hx
      rw [chain_eq hwf hk] at hx
      exact h k hk x hx
    · intro h k hk x hx
      rw [← chain_eq hwf hk] at hx
      exact h k hk x hx
  have hr0 : r = 0 ↔ NoFit s.mem ch (adj_size size) := by
    rcases e2 with ⟨g1, g2⟩ | ⟨g1, b, hb, g2, g3, g4⟩
    · exact ⟨fun _ => g2, fun _ => g1⟩
    · refine ⟨fun h => absurd h g1, fun h => ?_⟩
      exfalso
      have hok := hwf.1.blk b hb
      refine h (seg_index b.size) (seg_index_lt _) b.addr (hcomp b hb g3) ⟨?_, ?_⟩
      · rw [header_ptr_eq, blk_fetch_size hok]; exact g4
      · rw [header_ptr_eq]; exact blk_read_tag hok
  refine ⟨r, e1, hr0.trans hnf, fun h0 => ?_, fun h0 => ?_⟩
  · rw [if_pos h0] at hm
    refine ⟨hm, ?_, ?_⟩
    · rw [heap_extension_eq, esize_eq _ a16 alt] <;> rfl
    · rcases malloc_spec hwf hcomp hno hsz hlt with ⟨-, g2, g3⟩ |
        ⟨q, q1, q2, ⟨bs', ch', nb, k1, k2, k3, k4, k5, k6, k7, k8, k9, k10, k11, k12⟩, q4⟩
      · left
        exact ⟨(mem_sbrk_none s _).2 g2, g3⟩
      · right
        rcases q4 with ⟨q5, -⟩ | ⟨-, -, q5⟩
        · exact absurd (hr0.1 h0) q5
        · exact ⟨q.1, q.2, q1, q2, q5, k12, k11⟩
  · rw [if_neg h0] at hm
    refine ⟨hm, ?_⟩
    rcases malloc_spec hwf hcomp hno hsz hlt with ⟨g1, -, -⟩ |
      ⟨q, q1, q2, ⟨bs', ch', nb, k1, k2, k3, k4, k5, k6, k7, k8, k9, k10, k11, k12⟩, q4⟩
    · exact absurd (hr0.2 g1) h0
    · rcases q4 with ⟨-, q5⟩ | ⟨q5, -, -⟩
      · exact ⟨q.1, q.2, q1, q2, q5, k12, k11⟩
      · exact absurd (hr0.2 q5) h0

/-- The claim C15 for `malloc(32)` in the sample run after two calls `malloc(16)`,
where no block is free and the heap grows by 48 bytes. -/
theorem malloc_growth_witness :
    Reach heap3 [(80, 16), (48, 16)] ∧ 0 < 32 ∧ 32 + 31 < 2 ^ 64 ∧
    ∃ r, search_loop SEGLIST_SIZE heap3 (adj_size 32) 0 (adj_size 32) 0 = some r ∧
      (r = 0 ↔ ∀ k, k < 20 → ∀ x ∈ chain heap3 k,
        ¬ (adj_size 32 ≤ fetch_size heap3.mem (header_ptr x) ∧
            read_tag heap3.mem (header_ptr x) = 0)) ∧
      (r = 0 →
        malloc heap3 32 =
          (match heap_extension heap3 (adj_size 32) with
            | none => none
            | some (ptr, s1) =>
              if ptr = 0 then some (0, s1) else insert_block s1 ptr (adj_size 32)) ∧
        heap_extension heap3 (adj_size 32) =
          (match mem_sbrk heap3 (adj_size 32) with
            | none => some (0, heap3)
            | some (ptr, s1) => heap_extension_tail s1 ptr (adj_size 32)) ∧
        ((mem_sbrk heap3 (adj_size 32) = none ∧ malloc heap3 32 = some (0, heap3)) ∨
          ∃ p s', malloc heap3 32 = some (p, s') ∧ p ≠ 0 ∧
            s'.brk = heap3.brk + adj_size 32 ∧ s'.lo = heap3.lo ∧ s'.cap = heap3.cap)) ∧
      (r ≠ 0 →
        malloc heap3 32 = insert_block heap3 r (adj_size 32) ∧
        ∃ p s', malloc heap3 32 = some (p, s') ∧ p ≠ 0 ∧
          s'.brk = heap3.brk ∧ s'.lo = heap3.lo ∧ s'.cap = heap3.cap) :=
  ⟨heap3_reach, by decide, by decide,
    malloc_growth heap3 [(80, 16), (48, 16)] 32 heap3_reach (by decide) (by decide)⟩

end

section

/-! ## Claims about placement -/

/-- The function `insert_block` on a free block of a heap that satisfies the invariant:
the blocks `mid'` replace the block in the heap walk. -/
theorem placed_walk {s : State} {L : List (Nat × Nat)} {pre post : List Blk} {b : Blk}
    {S : Nat} (hinv : Inv s L) (hbs : heap_walk s = pre ++ [b] ++ post)
    (hbf : b.alloc = false) (h16 : S % 16 = 0) (h32 : 32 ≤ S) (hST : S ≤ b.size) :
    ∃ s' ch' mid' nb, insert_block s b.addr S = some (nb.addr, s') ∧
      WF (fun _ => False) s.mem s' (pre ++ mid' ++ post) ch' ∧
      Complete (pre ++ mid' ++ post) ch' ∧ heap_walk s' = pre ++ mid' ++ post ∧
      nb ∈ mid' ∧ nb.alloc = true ∧ b.size % 16 = 0 ∧
      (mid' = [⟨b.addr, b.size, true⟩] ∧ b.size - S < 32 ∨
        mid' = [⟨b.addr, b.size - S, false⟩, ⟨b.addr + (b.size - S), S, true⟩] ∧
          32 ≤ b.size - S ∧ 100 ≤ S ∨
        mid' = [⟨b.addr, S, true⟩, ⟨b.addr + S, b.size - S, false⟩] ∧
          32 ≤ b.size - S ∧ S < 100) := by
  obtain ⟨bs, ch, hwf, hcomp, hno, -⟩ := hinv
  rw [heap_walk_eq hwf.1] at hbs
  have hb : b ∈ bs := by rw [hbs]; simp
  have hbd := core_bounds hwf.1 hb
  obtain ⟨s', ch', mid', nb, e1, -, e3, e4, -, -, e7, e8, -, e10⟩ :=
    insert_block_spec hwf hcomp hno hbs hbf hST h16 h32
  exact ⟨s', ch', mid', nb, e1, e3, e4, heap_walk_eq e3.1, e7, e8, hbd.2.2.2.1, e10⟩

/-- Header and footer of every block of a well-formed heap agree in size and
allocated bit. -/
theorem tags_agree {K : Nat → Prop} {G : Mem} {s : State} {bs : List Blk}
    {ch : Nat → List Nat} (h : WF K G s bs ch) {c : Blk} (hc : c ∈ bs) :
    fetch_size s.mem (header_ptr c.addr) = c.size ∧
    fetch_size s.mem (footer_ptr s.mem c.addr) = c.size ∧
    fetch_alloc s.mem (header_ptr c.addr) = c.alloc.toNat ∧
    fetch_alloc s.mem (footer_ptr s.mem c.addr) = c.alloc.toNat ∧
    c.size % 16 = 0 ∧ 32 ≤ c.size := by
  have hok := h.1.blk c hc
  rw [blk_footer hok, header_ptr_eq]
  exact ⟨blk_fetch_size hok, blk_fetch_size_ftr hok, blk_fetch_alloc hok,
    blk_fetch_alloc_ftr hok, hok.2.1, hok.1⟩

/-- C16 (split placement).  Let the heap satisfy the invariant of reachable states,
let `b` be a free block of its walk, at payload address `b.addr` with stored size
`T = b.size`, and let `S` be a multiple of 16 with `32 ≤ S ≤ T` and remainder
`R = T - S ≥ 32`, so that `insert_block` splits.  Then `insert_block` returns: if
`S ≥ 100`, the address `b.addr + R`, and `b` is replaced in the heap walk by a free
block of size `R` at `b.addr` followed by an allocated block of size `S` at
`b.addr + R`; otherwise the address `b.addr`, and `b` is replaced by an allocated
block of size `S` at `b.addr` followed by a free block of size `R` at `b.addr + S`.
In both cases the remainder is in the chain of its bucket, and in every block of
the new heap, the two parts included, header and footer hold the same size and
allocated bit, and the size is a multiple of 16 and at least 32. -/
theorem split_placement (s : State) (L : List (Nat × Nat)) (pre post : List Blk) (b : Blk)
    (S : Nat) (hinv : Inv s L) (hbs : heap_walk s = pre ++ [b] ++ post)
    (hbf : b.alloc = false) (h16 : S % 16 = 0) (h32 : 32 ≤ S) (hST : S ≤ b.size)
    (hsplit : 32 ≤ b.size - S) :
    ∃ p s', insert_block s b.addr S = some (p, s') ∧
      (100 ≤ S → p = b.addr + (b.size - S) ∧
        heap_walk s' = pre ++ [⟨b.addr, b.size - S, false⟩,
          ⟨b.addr + (b.size - S), S, true⟩] ++ post ∧
        b.addr ∈ chain s' (min 19 (Nat.log2 (b.size - S)))) ∧
      (S < 100 → p = b.addr ∧
        heap_walk s' = pre ++ [⟨b.addr, S, true⟩, ⟨b.addr + S, b.size - S, false⟩] ++ post ∧
        b.addr + S ∈ chain s' (min 19 (Nat.log2 (b.size - S)))) ∧
      (∀ c ∈ heap_walk s',
        fetch_size s'.mem (header_ptr c.addr) = c.size ∧
        fetch_size s'.mem (footer_ptr s'.mem c.addr) = c.size ∧
        fetch_alloc s'.mem (header_ptr c.addr) = c.alloc.toNat ∧
        fetch_alloc s'.mem (footer_ptr s'.mem c.addr) = c.alloc.toNat ∧
        c.size % 16 = 0 ∧ 32 ≤ c.size) ∧
      (b.size - S) % 16 = 0 ∧ 32 ≤ b.size - S ∧ S % 16 = 0 ∧ 32 ≤ S := by
  obtain ⟨s', ch', mid', nb, e1, hwf, hcomp, hw, hnb, hna, hb16, hshape⟩ :=
    placed_walk hinv hbs hbf h16 h32 hST
  refine ⟨nb.addr, s', e1, ?_, ?_, ?_, by omega, hsplit, h16, h32⟩
  · intro h100
    rcases hshape with ⟨-, g⟩ | ⟨g, -, -⟩ | ⟨-, -, g⟩
    · omega
    · subst g
      have hnb' : nb = ⟨b.addr + (b.size - S), S, true⟩ := by
        rcases List.mem_cons.1 hnb with h | h
        · rw [h] at hna; cases hna
        · exact List.mem_singleton.1 h
      refine ⟨by rw [hnb'], hw, ?_⟩
      have hm : (⟨b.addr, b.size - S, false⟩ : Blk) ∈
          pre ++ [⟨b.addr, b.size - S, false⟩, ⟨b.addr + (b.size - S), S, true⟩] ++ post := by
        simp
      have := hcomp _ hm rfl
      rw [← chain_eq hwf (seg_index_lt _), seg_index_log] at this
      exact this
    · omega
  · intro h100
    rcases hshape with ⟨-, g⟩ | ⟨-, -, g⟩ | ⟨g, -, -⟩
    · omega
    · omega
    · subst g
      have hnb' : nb = ⟨b.addr, S, true⟩ := by
        rcases List.mem_cons.1 hnb with h | h
        · exact h
        · have := List.mem_singleton.1 h
          rw [this] at hna; cases hna
      refine ⟨by rw [hnb'], hw, ?_⟩
      have hm : (⟨b.addr + S, b.size - S, false⟩ : Blk) ∈
          pre ++ [⟨b.addr, S, true⟩, ⟨b.addr + S, b.size - S, false⟩] ++ post := by
        simp
      have := hcomp _ hm rfl
      rw [← chain_eq hwf (seg_index_lt _), seg_index_log] at this
      exact this
  · intro c hc
    rw [hw] at hc
    exact tags_agree hwf hc

/-- The claim C16 for `insert_block(48, 32)` on the heap produced by `mm_init`,
whose one free block of 64 bytes is split into two blocks of 32 bytes. -/
theorem split_placement_witness :
    Inv heap1 [] ∧ heap_walk heap1 = [] ++ [⟨48, 64, false⟩] ++ [] ∧
    ∃ p s', insert_block heap1 48 32 = some (p, s') ∧
      (100 ≤ 32 → p = 48 + (64 - 32) ∧
        heap_walk s' = [] ++ [⟨48, 64 - 32, false⟩, ⟨48 + (64 - 32), 32, true⟩] ++ [] ∧
        48 ∈ chain s' (min 19 (Nat.log2 (64 - 32)))) ∧
      (32 < 100 → p = 48 ∧
        heap_walk s' = [] ++ [⟨48, 32, true⟩, ⟨48 + 32, 64 - 32, false⟩] ++ [] ∧
        48 + 32 ∈ chain s' (min 19 (Nat.log2 (64 - 32)))) ∧
      (∀ c ∈ heap_walk s',
        fetch_size s'.mem (header_ptr c.addr) = c.size ∧
        fetch_size s'.mem (footer_ptr s'.mem c.addr) = c.size ∧
        fetch_alloc s'.mem (header_ptr c.addr) = c.alloc.toNat ∧
        fetch_alloc s'.mem (footer_ptr s'.mem c.addr) = c.alloc.toNat ∧
        c.size % 16 = 0 ∧ 32 ≤ c.size) ∧
      (64 - 32) % 16 = 0 ∧ 32 ≤ 64 - 32 ∧ 32 % 16 = 0 ∧ 32 ≤ 32 :=
  ⟨reach_inv heap1_reach, by decide,
    split_placement heap1 [] [] [] ⟨48, 64, false⟩ 32 (reach_inv heap1_reach) (by decide) rfl
      (by decide) (by decide) (by decide) (by decide)⟩

/-- The claim C17 fails: on the heap produced by `mm_init`, whose one block is
free with stored size `T = 64` and is the only node of chain 6, `insert_block` for
`S = 32` has remainder `R = 32 < 64`, and it splits the block: it returns 48 and
leaves an allocated block of 32 bytes at 48 followed by a free block of 32 bytes
at 80. -/
theorem split_threshold_counterexample :
    Reach heap1 [] ∧ heap_walk heap1 = [⟨48, 64, false⟩] ∧ chain heap1 6 = [48] ∧
    32 ≤ 64 ∧ 64 - 32 < 64 ∧
    (insert_block heap1 48 32).map (fun r => (r.1, heap_walk r.2)) =
      some (48, [⟨48, 32, true⟩, ⟨80, 32, false⟩]) :=
  ⟨heap1_reach, by decide, by rfl, by decide, by decide, by rfl⟩

/-- C17 (split threshold), amended.  Let the heap satisfy the invariant of
reachable states, let `b` be a free block of its walk with stored size `T = b.size`
and let `S` be a multiple of 16 with `32 ≤ S ≤ T`.  Then `insert_block` returns, and
with `R = T - S`: when `R < 32` (one minimum block size) the block is left unsplit
and all `T` bytes are marked allocated; when `R ≥ 32` the block is split into an
allocated block of `S` bytes and a free block of `R` bytes. -/
theorem split_threshold (s : State) (L : List (Nat × Nat)) (pre post : List Blk) (b : Blk)
    (S : Nat) (hinv : Inv s L) (hbs : heap_walk s = pre ++ [b] ++ post)
    (hbf : b.alloc = false) (h16 : S % 16 = 0) (h32 : 32 ≤ S) (hST : S ≤ b.size) :
    ∃ p s', insert_block s b.addr S = some (p, s') ∧
      (b.size - S < 32 → p = b.addr ∧
        heap_walk s' = pre ++ [⟨b.addr, b.size, true⟩] ++ post) ∧
      (32 ≤ b.size - S →
        heap_walk s' = pre ++ [⟨b.addr, b.size - S, false⟩,
          ⟨b.addr + (b.size - S), S, true⟩] ++ post ∨
        heap_walk s' = pre ++ [⟨b.addr, S, true⟩, ⟨b.addr + S, b.size - S, false⟩] ++ post) := by
  obtain ⟨s', ch', mid', nb, e1, hwf, hcomp, hw, hnb, hna, hb16, hshape⟩ :=
    placed_walk hinv hbs hbf h16 h32 hST
  refine ⟨nb.addr, s', e1, ?_, ?_⟩
  · intro hR
    rcases hshape with ⟨g, -⟩ | ⟨-, g, -⟩ | ⟨-, g, -⟩
    · subst g
      have hnb' := List.mem_singleton.1 hnb
      exact ⟨by rw [hnb'], hw⟩
    · omega
    · omega
  · intro hR
    rcases hshape with ⟨-, g⟩ | ⟨g, -, -⟩ | ⟨g, -, -⟩
    · omega
    · subst g; exact Or.inl hw
    · subst g; exact Or.inr hw

/-- The amended claim C17 for `insert_block(48, 48)` on the heap produced by
`mm_init`: the remainder is 16 and the block of 64 bytes is left unsplit. -/
theorem split_threshold_witness :
    Inv heap1 [] ∧ heap_walk heap1 = [] ++ [⟨48, 64, false⟩] ++ [] ∧
    ∃ p s', insert_block heap1 48 48 = some (p, s') ∧
      (64 - 48 < 32 → p = 48 ∧ heap_walk s' = [] ++ [⟨48, 64, true⟩] ++ []) ∧
      (32 ≤ 64 - 48 →
        heap_walk s' = [] ++ [⟨48, 64 - 48, false⟩, ⟨48 + (64 - 48), 48, true⟩] ++ [] ∨
        heap_walk s' = [] ++ [⟨48, 48, true⟩, ⟨48 + 48, 64 - 48, false⟩] ++ []) :=
  ⟨reach_inv heap1_reach, by decide,
    split_threshold heap1 [] [] [] ⟨48, 64, false⟩ 48 (reach_inv heap1_reach) (by decide) rfl
      (by decide) (by decide) (by decide)⟩

/-! ## Claims about sizes and buckets -/

theorem log2_pred_pow (k : Nat) (hk : 1 ≤ k) : Nat.log2 (2 ^ k - 1) = k - 1 := by
  have hpos : 0 < 2 ^ (k - 1) := Nat.pos_pow_of_pos _ (by omega)
  have e : 2 ^ k = 2 ^ (k - 1) * 2 := by
    rw [← Nat.pow_succ]
    congr 1
    omega
  have hne : 2 ^ k - 1 ≠ 0 := by omega
  have h1 : Nat.log2 (2 ^ k - 1) < k := (Nat.log2_lt hne).2 (by omega)
  have h2 : k - 1 ≤ Nat.log2 (2 ^ k - 1) := (Nat.le_log2 hne).2 (by omega)
  omega

/-- C18 (bucket selection).  For every size, the bucket index that the halving loop
of `node_insert` computes is `min 19 (log2 size)`: the only bucket head
`node_insert` can change is that one; `node_del`, which runs the same loop on the
stored size of the block, can change only the head of the bucket of that size; the
search of `malloc` for adjusted size `size` examines no bucket below that index
(it is the search resumed at any bucket up to that index) and the size test of its
loop holds at that index.  Sizes `2 ^ k - 1` and `2 ^ k` fall in buckets `k - 1` and
`k` for `1 ≤ k ≤ 19`. -/
theorem bucket_selection (size : Nat) :
    (seg_loop (SEGLIST_SIZE - 1) 0 size).1 = min 19 (Nat.log2 size) ∧
    (∀ (s s' : State) (ptr : Nat), node_insert s ptr size = some s' →
      s'.seg_freelist = s.seg_freelist ∨
      s'.seg_freelist = Function.update s.seg_freelist (min 19 (Nat.log2 size)) ptr) ∧
    (∀ (s : State) (ptr : Nat), fetch_size s.mem (header_ptr ptr) = size →
      (node_del s ptr).seg_freelist = s.seg_freelist ∨
      ∃ v, (node_del s ptr).seg_freelist =
        Function.update s.seg_freelist (min 19 (Nat.log2 size)) v) ∧
    (∀ (s : State) (j : Nat), j ≤ min 19 (Nat.log2 size) →
      search_loop SEGLIST_SIZE s size 0 size 0 =
        search_loop (SEGLIST_SIZE - j) s size j (size >>> j) 0) ∧
    (min 19 (Nat.log2 size) = SEGLIST_SIZE - 1 ∨ size >>> min 19 (Nat.log2 size) ≤ 1) ∧
    (∀ j, j < min 19 (Nat.log2 size) → ¬ (j = SEGLIST_SIZE - 1 ∨ size >>> j ≤ 1)) ∧
    (∀ k, 1 ≤ k → k ≤ 19 →
      (seg_loop (SEGLIST_SIZE - 1) 0 (2 ^ k - 1)).1 = k - 1 ∧
      (seg_loop (SEGLIST_SIZE - 1) 0 (2 ^ k)).1 = k) := by
  refine ⟨seg_index_log size, fun s s' ptr h => node_insert_heads s s' ptr size h,
    fun s ptr h => ?_, fun s j hj => search_loop_skip s size j hj, ?_, fun j hj => ?_,
    fun k h1 h2 => ⟨?_, ?_⟩⟩
  · have := node_del_heads s ptr
    rw [h] at this
    exact this
  · exact (scanned_iff size _ (by omega)).2 (le_refl _)
  · rw [scanned_iff size j (by omega)]
    omega
  · have := seg_index_log (2 ^ k - 1)
    rw [log2_pred_pow k h1] at this
    show seg_index (2 ^ k - 1) = k - 1
    omega
  · have := seg_index_log (2 ^ k)
    rw [Nat.log2_two_pow] at this
    show seg_index (2 ^ k) = k
    omega

/-- The claim C19 fails for requests near the top of the 64-bit range: for
`size = 2 ^ 64 - 16` the sum `size + 16` wraps to 0, and for `size = 2 ^ 64 - 17`
the rounding wraps; in both cases the adjusted size that `malloc` computes is 0,
which is less than 32 and less than `size + 16`. -/
theorem adj_size_counterexample :
    0 < 2 ^ 64 - 16 ∧ 2 ^ 64 - 16 < 2 ^ 64 ∧ adj_size (2 ^ 64 - 16) = 0 ∧
    0 < 2 ^ 64 - 17 ∧ 2 ^ 64 - 17 < 2 ^ 64 ∧ adj_size (2 ^ 64 - 17) = 0 ∧
    ¬ 32 ≤ adj_size (2 ^ 64 - 16) ∧ ¬ (2 ^ 64 - 16) + 16 ≤ adj_size (2 ^ 64 - 16) :=
  ⟨by decide, by decide, by rfl, by decide, by decide, by rfl, by decide, by decide⟩

/-- C19 (adjusted size), amended.  For every requested size with `0 < size` and
`size + 31 < 2 ^ 64`, the adjusted size that `malloc` computes is a multiple of 16,
is at least `size + 16`, is at most every multiple of 16 that is at least
`size + 16`, and is at least 32. -/
theorem adj_size_least (size : Nat) (hsz : 0 < size) (hlt : size + 31 < 2 ^ 64) :
    adj_size size % 16 = 0 ∧ size + 16 ≤ adj_size size ∧
    (∀ m, m % 16 = 0 → size + 16 ≤ m → adj_size size ≤ m) ∧
    32 ≤ adj_size size := by
  rw [adj_size_eq size hlt]
  refine ⟨by omega, by omega, fun m h1 h2 => by omega, by omega⟩

/-- The amended claim C19 for `size = 17`, whose adjusted size is 48. -/
theorem adj_size_least_witness :
    0 < 17 ∧ 17 + 31 < 2 ^ 64 ∧ adj_size 17 = 48 ∧
    (adj_size 17 % 16 = 0 ∧ 17 + 16 ≤ adj_size 17 ∧
    (∀ m, m % 16 = 0 → 17 + 16 ≤ m → adj_size 17 ≤ m) ∧
    32 ≤ adj_size 17) :=
  ⟨by decide, by decide, by rfl, adj_size_least 17 (by decide) (by decide)⟩

/-! ## Order of the chains -/

theorem heap12_malloc : malloc heap3 32 = some (112, heap12) :=
  opt_fst_snd (0, heap3) (by rfl)

theorem heap13_malloc : malloc heap12 16 = some (160, heap13) :=
  opt_fst_snd (0, heap12) (by rfl)

theorem heap14_free : free heap13 48 = some heap14 := by
  have h : (free heap13 48).isSome = true := by rfl
  cases hf : free heap13 48 with
  | none => rw [hf] at h; cases h
  | some x => simp [heap14, hf]

theorem heap15_free : free heap14 112 = some heap15 := by
  have h : (free heap14 112).isSome = true := by rfl
  cases hf : free heap14 112 with
  | none => rw [hf] at h; cases h
  | some x => simp [heap15, hf]

theorem heap14_reach : Reach heap14 [(160, 16), (112, 32), (80, 16)] :=
  Reach.free heap13 heap14 [(160, 16), (112, 32), (80, 16), (48, 16)] 48 16
    (Reach.malloc heap12 heap13 [(112, 32), (80, 16), (48, 16)] 16 160
      (Reach.malloc heap3 heap12 [(80, 16), (48, 16)] 32 112 heap3_reach (by decide)
        heap12_malloc)
      (by decide) heap13_malloc)
    (by decide) heap14_free

theorem heap15_reach : Reach heap15 [(160, 16), (80, 16)] :=
  Reach.free heap14 heap15 [(160, 16), (112, 32), (80, 16)] 112 32 heap14_reach (by decide)
    heap15_free

/-- C20 (size-ordered chains) does not hold of the code.  After `mm_init`,
`malloc(16)` (48), `malloc(16)` (80), `malloc(32)` (112), `malloc(16)` (160) and
`free(48)`, chain 5 holds the one block at 48, of stored size 32.  The block at 112
has stored size 48, which maps to bucket 5; `free(112)` marks it free and calls
`node_insert(112, 48)`, which puts it before the block at 48: in the reachable
state after the call chain 5 is `112, 48` with stored sizes `48, 32`, not in
non-decreasing order. -/
theorem chain_not_size_ordered :
    Reach heap14 [(160, 16), (112, 32), (80, 16)] ∧
    chain heap14 5 = [48] ∧
    (chain heap14 5).map (fun x => fetch_size heap14.mem (header_ptr x)) = [32] ∧
    Ascending ((chain heap14 5).map (fun x => fetch_size heap14.mem (header_ptr x))) ∧
    fetch_size heap14.mem (header_ptr 112) = 48 ∧
    (seg_loop (SEGLIST_SIZE - 1) 0 48).1 = 5 ∧
    (node_insert { heap14 with mem := free_mem heap14.mem 112 } 112 48).map
      (fun s => (chain s 5, (chain s 5).map (fun x => fetch_size s.mem (header_ptr x))))
      = some ([112, 48], [48, 32]) ∧
    free heap14 112 = some heap15 ∧
    Reach heap15 [(160, 16), (80, 16)] ∧
    chain heap15 5 = [112, 48] ∧
    (chain heap15 5).map (fun x => fetch_size heap15.mem (header_ptr x)) = [48, 32] ∧
    ¬ Ascending ((chain heap15 5).map (fun x => fetch_size heap15.mem (header_ptr x))) := by
  have e : (chain heap15 5).map (fun x => fetch_size heap15.mem (header_ptr x)) = [48, 32] := by
    rfl
  have e0 : (chain heap14 5).map (fun x => fetch_size heap14.mem (header_ptr x)) = [32] := by
    rfl
  refine ⟨heap14_reach, by rfl, e0, ?_, by rfl, by rfl, by rfl, heap15_free, heap15_reach,
    by rfl, e, ?_⟩
  · rw [e0]
    exact trivial
  · rw [e]
    intro h
    exact absurd h.1 (by decide)

end

section

variable {K : Nat → Prop} {G : Mem} {s : State} {bs : List Blk} {ch : Nat → List Nat}

/-! ## The realloc-pending flag -/

/-- Without a flag in the chain, the inner loop of the search returns the first
node of the chain that is large enough. -/
theorem fit_scan_first (m : Mem) (adj : Nat) :
    ∀ (l : List Nat) (s0 fuel : Nat), DLLseg m s0 l 0 →
      (∀ x ∈ l, read_tag m (header_ptr x) = 0) → l.length < fuel →
      fit_scan fuel m adj (l.headD 0) =
        some ((l.find? (fun x => decide (adj ≤ fetch_size m (header_ptr x)))).getD 0)
  | [], s0, fuel, _, _, hf => by
    obtain ⟨f, rfl⟩ : ∃ f, fuel = f + 1 := ⟨fuel - 1, by simp at hf; omega⟩
    simp [fit_scan]
  | x :: r, s0, fuel, hd, ht, hf => by
    obtain ⟨f, rfl⟩ : ∃ f, fuel = f + 1 := ⟨fuel - 1, by simp at hf; omega⟩
    obtain ⟨h0, -, h2, h3⟩ := hd
    have htx := ht x (by simp)
    by_cases hfit : adj ≤ fetch_size m (header_ptr x)
    · have h1 : ¬(adj > fetch_size m (header_ptr x) ∨ read_tag m (header_ptr x) ≠ 0) := by
        rintro (h | h)
        · omega
        · exact h htx
      simp [fit_scan, h1, hfit]
    · have h1 : adj > fetch_size m (header_ptr x) ∨ read_tag m (header_ptr x) ≠ 0 :=
        Or.inl (by omega)
      have ih := fit_scan_first m adj r x f h3 (fun y hy => ht y (by simp [hy]))
        (by simp at hf; omega)
      simp only [List.headD_cons, fit_scan, h0, ne_eq, not_false_eq_true, h1, and_self,
        if_true, get_pred_eq, h2]
      rw [ih, List.find?_cons_of_neg _ (by simpa using hfit)]

/-- The flag that `block_coalescing` reads for a block of a well-formed heap is
clear. -/
theorem core_prev_tag (hc : Core K G s bs) {b : Blk} (hb : b ∈ bs) :
    read_tag s.mem (header_ptr (prev_blockptr s.mem b.addr)) = 0 := by
  obtain ⟨pre, post, hbs⟩ := List.append_of_mem hb
  exact (prev_facts hc hbs).1

/-- The state in which `free` calls `block_coalescing`. -/
theorem free_insert_state (h : WF K G s bs ch) {b : Blk} (hb : b ∈ bs) (hba : b.alloc = true)
    (hK : ∀ a, K a → ¬(b.addr ≤ a ∧ a + 16 < b.addr + b.size)) :
    ∃ t, node_insert { s with mem := free_mem s.mem b.addr } b.addr
        (fetch_size s.mem (header_ptr b.addr)) = some t ∧
      free s b.addr = free_tail t b.addr ∧
      read_tag t.mem (header_ptr (prev_blockptr t.mem b.addr)) = 0 := by
  obtain ⟨pre, post, hbs0⟩ := List.append_of_mem hb
  have hbs : bs = pre ++ [b] ++ post := by rw [hbs0]; simp
  have hbb := core_bounds h.1 hb
  have hok := h.1.blk b hb
  obtain ⟨p0, e0, c1, c2, c3⟩ := core_split h.1 hbs
  have c2' : b.addr = p0 ∧ p0 + b.size = e0 := c2
  obtain ⟨hp0, he0⟩ := c2'
  obtain ⟨m1, t, ht, hr, hfar, hfm⟩ := free_mem_facts h.1 hbs
  have hnotin : ∀ k, b.addr ∉ ch k := by
    intro k hk
    obtain ⟨c, hc, h1, h2, -⟩ := h.2.mem_ch k _ hk
    have := contig_addr_inj h.1.contig (core_pos h.1) hc hb h1
    rw [this, hba] at h2
    cases h2
  have hk1 : ∀ a, K a → m1 a = s.mem a := by
    intro a ha
    apply hfar
    rcases h.1.kok a ha with ⟨c, hc, hca, h1, h2⟩ | hpad
    · rcases core_sep h.1 hc hb with h3 | h3 | h3
      · subst h3; exact absurd ⟨h1, h2⟩ (hK a ha)
      · omega
      · omega
    · omega
  have WF1 : WF K G { s with mem := m1 } bs ch := wf_congr h hr hk1
  have hsep : (b.addr - 8) + 8 ≤ b.addr + b.size - 16 ∨ (b.addr + b.size - 16) + 8 ≤ b.addr - 8 := by
    omega
  obtain ⟨f1, f2, f3⟩ := two_stores m1 (b.addr - 8) b.size (b.addr + b.size - 16) (b.size + t)
    hsep (by omega) (by omega)
  have hfm' : free_mem s.mem b.addr =
      store_word (store_word m1 (b.addr - 8) b.size) (b.addr + b.size - 16) (b.size + t) := hfm
  generalize store_word (store_word m1 (b.addr - 8) b.size) (b.addr + b.size - 16) (b.size + t)
    = m3 at f1 f2 f3 hfm'
  have WF3 : WF K G { s with mem := m3 } (pre ++ [⟨b.addr, b.size, false⟩] ++ post) ch := by
    have c2n : Contig p0 [(⟨b.addr, b.size, false⟩ : Blk)] e0 := ⟨hp0, he0⟩
    refine wf_rewrite WF1 hbs c1 c2n c3 ?_ ?_ ?_ ?_ ?_
    · intro a ha
      exact f1 a (by omega) (by omega)
    · intro a ha
      exact f1 a (by omega) (by omega)
    · intro c hc
      rw [List.mem_singleton.1 hc]
      exact ⟨hbb.2.2.1, hbb.2.2.2.1, f2, t, ht, f3⟩
    · intro c hc hca a ha
      rw [List.mem_singleton.1 hc]
      exact hK a ha
    · intro c hc k
      rw [List.mem_singleton.1 hc]
      exact hnotin k
  have hb' : (⟨b.addr, b.size, false⟩ : Blk) ∈ pre ++ [⟨b.addr, b.size, false⟩] ++ post := by simp
  obtain ⟨s4, ch4, e4, hbd4, WF4, hiff⟩ := node_insert_spec WF3 hb' rfl hnotin
  have e4' : node_insert { s with mem := m3 } b.addr b.size = some s4 := e4
  refine ⟨s4, ?_, ?_, ?_⟩
  · rw [hfm', header_ptr_eq, blk_fetch_size hok, e4']
  · rw [free_eq s b.addr (by omega), hfm', header_ptr_eq, blk_fetch_size hok, e4']
  · exact core_prev_tag (b := ⟨b.addr, b.size, false⟩) WF4.1 hb'

/-- The state in which `heap_extension` calls `block_coalescing`. -/
theorem extend_insert_state (h : WF K G s bs ch) {size : Nat} (h32 : 32 ≤ size)
    (h16 : size % 16 = 0) (hcap : s.brk + size ≤ s.cap) :
    ∃ t, node_insert { s with brk := s.brk + size, mem := extend_mem s.mem s.brk size }
        s.brk size = some t ∧
      heap_extension s size = block_coalescing t s.brk ∧
      read_tag t.mem (header_ptr (prev_blockptr t.mem s.brk)) = 0 := by
  have hbrk := core_brk h.1
  have hcl := h.1.cap_lt
  have hM := extend_writes s.mem s.brk size (by omega) h32 h16 (by omega)
  have e1 : heap_extension s size =
      match node_insert { s with brk := s.brk + size, mem := extend_mem s.mem s.brk size }
        s.brk size with
      | none => none
      | some s' => block_coalescing s' s.brk := by
    rw [heap_extension_eq, esize_eq size h16 (by omega)]
    unfold mem_sbrk heap_extension_tail
    rw [if_pos hcap]
    simp only [hM] <;> rfl
  clear hM
  have w1 := wf_extend h h32 h16 hcap
  have hnot : ∀ k, (⟨s.brk, size, false⟩ : Blk).addr ∉ ch k := by
    intro k hk
    have := index_bounds h.1 h.2 hk
    have e : (⟨s.brk, size, false⟩ : Blk).addr = s.brk := rfl
    omega
  have hmem : (⟨s.brk, size, false⟩ : Blk) ∈ bs ++ [⟨s.brk, size, false⟩] := by simp
  obtain ⟨s2, ch2, f1, f2, f3, f4⟩ := node_insert_spec w1 hmem rfl hnot
  have f1' : node_insert { s with brk := s.brk + size, mem := extend_mem s.mem s.brk size }
      s.brk size = some s2 := f1
  refine ⟨s2, f1', ?_, ?_⟩
  · rw [e1]
    simp only [f1']
  · exact core_prev_tag (b := ⟨s.brk, size, false⟩) f3.1 hmem

/-- The state in which the `free` of `realloc` calls `block_coalescing`. -/
theorem realloc_insert_state (h : WF K G s bs ch) (hcomp : Complete bs ch) (hno : NoAdjFree bs)
    {b : Blk} (hb : b ∈ bs) (hba : b.alloc = true) {size q : Nat} {s1 : State} {m : Mem}
    (hsz : 0 < size) (hlt : size + 31 < 2 ^ 64) (hm : malloc s size = some (q, s1))
    (hq : q ≠ 0) (hcp : memcpy s1 q b.addr size = some m) :
    ∃ t, node_insert { s1 with mem := free_mem m b.addr } b.addr
        (fetch_size m (header_ptr b.addr)) = some t ∧
      realloc s b.addr size = (free_tail t b.addr).map (fun s' => (q, s')) ∧
      read_tag t.mem (header_ptr (prev_blockptr t.mem b.addr)) = 0 := by
  have hbb := core_bounds h.1 hb
  have hre := realloc_eq s b.addr size (by omega) (by omega)
  have hmc := (memcpy_bounds hcp).2.2.2.2
  subst hmc
  have h1 : WF (fun a => b.addr ≤ a ∧ a + 16 < b.addr + b.size) s.mem s bs ch :=
    wf_ghost h (fun a ha => ⟨Or.inl ⟨b, hb, hba, ha.1, ha.2⟩, rfl⟩)
  obtain ⟨a16, a32, asz, -⟩ := adj_size_facts size hsz hlt
  rcases malloc_spec h1 hcomp hno hsz hlt with ⟨-, -, g3⟩ |
    ⟨r, g1, g2, ⟨bs1, ch1, nb, k1, k2, k3, k4, k5, k6, k7, k8, k9, k10⟩, -⟩
  · rw [g3] at hm
    simp only [Option.some.injEq, Prod.mk.injEq] at hm
    exact absurd hm.1.symm hq
  · rw [g1] at hm
    simp only [Option.some.injEq] at hm
    subst hm
    simp only at g2 k1 k5 k10
    obtain ⟨hb1, hbn⟩ := k8 b hb hba
    have hnbb := core_bounds k1.1 k4
    have hsep : b.addr + b.size ≤ nb.addr ∨ nb.addr + nb.size ≤ b.addr := by
      rcases core_sep k1.1 hb1 k4 with e | e | e
      · rw [e] at hbn; exact absurd rfl hbn
      · exact Or.inl e
      · exact Or.inr e
    have hcopy : ∀ a, (a < nb.addr ∨ nb.addr + nb.size ≤ a + 16) →
        copy_bytes s1.mem q b.addr size a = s1.mem a := by
      intro a ha
      unfold copy_bytes
      rw [if_neg (by omega)]
    have h2 : WF (fun a => q ≤ a ∧ a < q + size ∧ a - q + 16 < b.size)
        (copy_bytes s1.mem q b.addr size) { s1 with mem := copy_bytes s1.mem q b.addr size }
        bs1 ch1 := by
      have w0 : WF (fun _ => False) s1.mem s1 bs1 ch1 := wf_ghost k1 (fun a ha => ha.elim)
      have w1 := wf_payload_write w0 k4 k6 hcopy (fun a ha => ha.elim)
      exact wf_ghost w1 (fun a ha => ⟨Or.inl ⟨nb, k4, k6, by omega, by omega⟩, rfl⟩)
    obtain ⟨t, t1, t2, t3⟩ := free_insert_state h2 hb1 hba (fun a ha => by omega)
    refine ⟨t, t1, ?_, t3⟩
    rw [hre, g1]
    show (if q = 0 then some (0, s1) else
      match memcpy s1 q b.addr size with
      | none => none
      | some m =>
        match free { s1 with mem := m } b.addr with
        | none => none
        | some s2 => some (q, s2)) = _
    rw [if_neg g2, hcp]
    show (match free { s1 with mem := copy_bytes s1.mem q b.addr size } b.addr with
      | none => none
      | some s2 => some (q, s2)) = _
    rw [t2]
    cases free_tail t b.addr <;> rfl

end

section

/-! ## The realloc-pending flag -/

theorem heap18_malloc : malloc heap1 48 = some (48, heap18) :=
  opt_fst_snd (0, heap1) (by rfl)

theorem heap20_free : free heap19 48 = some heap20 := by
  have h : (free heap19 48).isSome = true := by rfl
  cases hf : free heap19 48 with
  | none => rw [hf] at h; cases h
  | some x => simp [heap20, hf]

theorem heap21_malloc : malloc heap20 16 = some (48, heap21) :=
  opt_fst_snd (0, heap20) (by rfl)

theorem heap21_reach : Reach heap21 [(48, 16)] :=
  Reach.malloc heap20 heap21 [] 16 48
    (Reach.free heap19 heap20 [(48, 48)] 48 48
      (Reach.store heap18 [(48, 48)] 48 48 64 2
        (Reach.malloc heap1 heap18 [] 48 48 heap1_reach (by decide) heap18_malloc)
        (by decide) (by decide) (by decide))
      (by decide) heap20_free)
    (by decide) heap21_malloc

/-- A footer can carry bit `0x2`: after `malloc(48)`, a client store of the byte 2
at address 64, `free(48)` and `malloc(16)`, the block at 48 has header `32 | 1` and
footer `32 | 1 | 2`; `write_word` kept the bit of the payload byte it overwrote.
The header of the block has the bit clear. -/
theorem footer_tag_run :
    Reach heap21 [(48, 16)] ∧
    heap_walk heap21 = [⟨48, 32, true⟩, ⟨80, 32, false⟩] ∧
    read_word heap21.mem (header_ptr 48) = 33 ∧
    read_word heap21.mem (footer_ptr heap21.mem 48) = 35 ∧
    read_tag heap21.mem (header_ptr 48) = 0 ∧
    read_tag heap21.mem (footer_ptr heap21.mem 48) = 2 :=
  ⟨heap21_reach, by decide, by rfl, by rfl, by rfl, by rfl⟩

/-- C21 (the realloc-pending flag is never set).  In every state reachable from a
successful `mm_init` by valid calls and client stores inside live payloads, bit
`0x2` of the header of every block of the heap walk, of the prologue and of the
terminal marker is 0.  Hence the search of `malloc` never skips a block because of
the flag: the flag of every node of every chain is clear, and the inner loop of the
search, started at a bucket head, returns the first node of the chain whose stored
size is at least the adjusted size (`NULL` when there is none).  And
`block_coalescing` never takes a free predecessor for an allocated one: the flag it
reads in the header of the predecessor is 0 for every block of the heap, and it is
0 in the states in which `block_coalescing` is called: by `free` of a live address,
by `heap_extension` when `malloc` grows the heap, and by the `free` inside
`realloc` after the copy, on the memory that the copy produced. -/
theorem tag_never_set (s : State) (L : List (Nat × Nat)) (hr : Reach s L) :
    (∀ b ∈ heap_walk s, read_tag s.mem (header_ptr b.addr) = 0) ∧
    read_tag s.mem (header_ptr (s.heap_ptr + DOUBLESIZE)) = 0 ∧
    read_tag s.mem (header_ptr s.brk) = 0 ∧
    (∀ k, k < 20 → ∀ x ∈ chain s k, read_tag s.mem (header_ptr x) = 0) ∧
    (∀ adj k, k < 20 →
      fit_scan s.brk s.mem adj (s.seg_freelist k) =
        some (((chain s k).find?
          (fun x => decide (adj ≤ fetch_size s.mem (header_ptr x)))).getD 0)) ∧
    (∀ b ∈ heap_walk s, read_tag s.mem (header_ptr (prev_blockptr s.mem b.addr)) = 0) ∧
    (∀ p n, (p, n) ∈ L →
      ∃ t, node_insert { s with mem := free_mem s.mem p } p
          (fetch_size s.mem (header_ptr p)) = some t ∧
        free s p = free_tail t p ∧
        read_tag t.mem (header_ptr (prev_blockptr t.mem p)) = 0) ∧
    (∀ size, 0 < size → size + 31 < 2 ^ 64 → s.brk + adj_size size ≤ s.cap →
      ∃ t, node_insert
          { s with brk := s.brk + adj_size size,
                   mem := extend_mem s.mem s.brk (adj_size size) }
          s.brk (adj_size size) = some t ∧
        heap_extension s (adj_size size) = block_coalescing t s.brk ∧
        read_tag t.mem (header_ptr (prev_blockptr t.mem s.brk)) = 0) ∧
    (∀ p n size q s1 m, (p, n) ∈ L → 0 < size → size + 31 < 2 ^ 64 →
      malloc s size = some (q, s1) → q ≠ 0 → memcpy s1 q p size = some m →
      ∃ t, node_insert { s1 with mem := free_mem m p } p
          (fetch_size m (header_ptr p)) = some t ∧
        realloc s p size = (free_tail t p).map (fun s' => (q, s')) ∧
        read_tag t.mem (header_ptr (prev_blockptr t.mem p)) = 0) := by
  obtain ⟨bs, ch, hwf, hcomp, hno, hl⟩ := reach_inv hr
  have hw := heap_walk_eq hwf.1
  have hchain : ∀ k, k < 20 → ∀ x ∈ ch k, read_tag s.mem (header_ptr x) = 0 := by
    intro k hk x hx
    obtain ⟨b, hb, h1, -, -⟩ := hwf.2.mem_ch k x hx
    rw [← h1, header_ptr_eq]
    exact blk_read_tag (hwf.1.blk b hb)
  refine ⟨fun b hb => ?_, ?_, ?_, fun k hk x hx => ?_, fun adj k hk => ?_, fun b hb => ?_,
    fun p n hpn => ?_, fun size hsz hlt hcap => ?_,
    fun p n size q s1 m hpn hsz hlt hm hq hcp => ?_⟩
  · rw [hw] at hb
    rw [header_ptr_eq]
    exact blk_read_tag (hwf.1.blk b hb)
  · have e : header_ptr (s.heap_ptr + DOUBLESIZE) = s.heap_ptr + 8 := by
      show s.heap_ptr + 16 - 8 = s.heap_ptr + 8
      omega
    rw [e, read_tag_eq, hwf.1.pro_hdr]
  · rw [header_ptr_eq, read_tag_eq, hwf.1.epi]
  · rw [chain_eq hwf hk] at hx
    exact hchain k hk x hx
  · rw [chain_eq hwf hk, hwf.2.heads k hk]
    exact fit_scan_first s.mem adj (ch k) 0 s.brk (hwf.2.dll k) (hchain k hk)
      (index_length hwf.1 hwf.2 k)
  · rw [hw] at hb
    exact core_prev_tag hwf.1 hb
  · obtain ⟨b, hb, h1, h2, -⟩ := hl.1 _ hpn
    have h1' : b.addr = p := h1
    have := free_insert_state hwf hb h2 (fun a ha => ha.elim)
    rw [h1'] at this
    exact this
  · obtain ⟨a16, a32, -, -⟩ := adj_size_facts size hsz hlt
    exact extend_insert_state hwf a32 a16 hcap
  · obtain ⟨b, hb, h1, h2, -⟩ := hl.1 _ hpn
    have h1' : b.addr = p := h1
    rw [← h1'] at hcp
    have := realloc_insert_state hwf hcomp hno hb h2 hsz hlt hm hq hcp
    rw [h1'] at this
    exact this

/-- The claim C21 in the sample run after `malloc(16)`, `malloc(16)`, `free(48)`:
a free block at 48, in chain 5, before the live block at 80. -/
theorem tag_never_set_witness :
    Reach heap4 [(80, 16)] ∧ heap_walk heap4 = [⟨48, 32, false⟩, ⟨80, 32, true⟩] ∧
    chain heap4 5 = [48] ∧
    ((∀ b ∈ heap_walk heap4, read_tag heap4.mem (header_ptr b.addr) = 0) ∧
    read_tag heap4.mem (header_ptr (heap4.heap_ptr + DOUBLESIZE)) = 0 ∧
    read_tag heap4.mem (header_ptr heap4.brk) = 0 ∧
    (∀ k, k < 20 → ∀ x ∈ chain heap4 k, read_tag heap4.mem (header_ptr x) = 0) ∧
    (∀ adj k, k < 20 →
      fit_scan heap4.brk heap4.mem adj (heap4.seg_freelist k) =
        some (((chain heap4 k).find?
          (fun x => decide (adj ≤ fetch_size heap4.mem (header_ptr x)))).getD 0)) ∧
    (∀ b ∈ heap_walk heap4,
      read_tag heap4.mem (header_ptr (prev_blockptr heap4.mem b.addr)) = 0) ∧
    (∀ p n, (p, n) ∈ [(80, 16)] →
      ∃ t, node_insert { heap4 with mem := free_mem heap4.mem p } p
          (fetch_size heap4.mem (header_ptr p)) = some t ∧
        free heap4 p = free_tail t p ∧
        read_tag t.mem (header_ptr (prev_blockptr t.mem p)) = 0) ∧
    (∀ size, 0 < size → size + 31 < 2 ^ 64 → heap4.brk + adj_size size ≤ heap4.cap →
      ∃ t, node_insert
          { heap4 with brk := heap4.brk + adj_size size,
                       mem := extend_mem heap4.mem heap4.brk (adj_size size) }
          heap4.brk (adj_size size) = some t ∧
        heap_extension heap4 (adj_size size) = block_coalescing t heap4.brk ∧
        read_tag t.mem (header_ptr (prev_blockptr t.mem heap4.brk)) = 0) ∧
    (∀ p n size q s1 m, (p, n) ∈ [(80, 16)] → 0 < size → size + 31 < 2 ^ 64 →
      malloc heap4 size = some (q, s1) → q ≠ 0 → memcpy s1 q p size = some m →
      ∃ t, node_insert { s1 with mem := free_mem m p } p
          (fetch_size m (header_ptr p)) = some t ∧
        realloc heap4 p size = (free_tail t p).map (fun s' => (q, s')) ∧
        read_tag t.mem (header_ptr (prev_blockptr t.mem p)) = 0)) :=
  ⟨heap4_reach, by decide, by rfl, tag_never_set heap4 [(80, 16)] heap4_reach⟩

end

end MM
